import Mathlib

/-!
Cryptomatte decoding (ProEXR, `src/aftereffects/Cryptomatte_AE.cpp`).

A shallow embedding of the Cryptomatte core of the After Effects plug-in:
name hashing, the selection tokenizer and resolver, channel discovery,
the level buffer builder and the coverage matte.

Conventions of the embedding.

* A `std::string` is a `List Char` (one `Char` per byte).
* `Hash` is a 32-bit unsigned integer, kept as a `Nat` below `2^32`.
* A `float` that carries a hash is kept by its bit pattern (`FloatHash`), and
  compared the way IEEE-754 compares the two floats.
* A `float` that carries a coverage is a rational number (exact arithmetic).
* Raw memory (`char *`) is a function from an index to its content.
-/

namespace Cryptomatte

/-! ## Hashes and their float view -/

/-- Modelled from the spec: the typedef `Hash` is declared in the plug-in's
current header, which is missing; the spec has it a 32-bit unsigned value. It is
kept as a natural number below `2^32`. -/
abbrev Hash := Nat

/-- Modelled from the spec: the typedef `FloatHash` is declared in the missing
header; the spec has it the same 32 bits read as an IEEE-754 `float`. The
float is kept by its 32 bits. -/
abbrev FloatHash := Nat

/-- Source function `CryptomatteContext::HashToFloatHash`: `memcpy` of the four bytes. -/
def HashToFloatHash (hash : Hash) : FloatHash := hash

/-- Source function `CryptomatteContext::FloatHashToHash`: `memcpy` of the four bytes. -/
def FloatHashToHash (floatHash : FloatHash) : Hash := floatHash

/-- Exponent field (bits 23..30) of a 32-bit float pattern. -/
def f32Exponent (b : Nat) : Nat := b / 2 ^ 23 % 256

/-- Fraction field (bits 0..22) of a 32-bit float pattern. -/
def f32Fraction (b : Nat) : Nat := b % 2 ^ 23

/-- Sign bit (bit 31) of a 32-bit float pattern. -/
def f32Sign (b : Nat) : Nat := b / 2 ^ 31 % 2

/-- The pattern is a NaN: exponent all ones, fraction not zero. -/
def f32IsNaN (b : Nat) : Bool := f32Exponent b == 255 && f32Fraction b != 0

/-- The pattern is an infinity: exponent all ones, fraction zero. -/
def f32IsInf (b : Nat) : Bool := f32Exponent b == 255 && f32Fraction b == 0

/-- The pattern is a subnormal: exponent zero, fraction not zero. -/
def f32IsSubnormal (b : Nat) : Bool := f32Exponent b == 0 && f32Fraction b != 0

/-- The pattern is `+0` or `-0`: exponent zero, fraction zero. -/
def f32IsZero (b : Nat) : Bool := f32Exponent b == 0 && f32Fraction b == 0

/-- Position of a float that is not a NaN on the number line, as an integer
that grows with the float: sign and magnitude, both zeros at `0`. -/
def f32Key (b : Nat) : Int :=
  if f32Sign b = 1 then -((b % 2 ^ 31 : Nat) : Int) else ((b % 2 ^ 31 : Nat) : Int)

/-- IEEE-754 `a < b` on two float patterns (false when one is a NaN). -/
def f32Lt (a b : FloatHash) : Bool :=
  !f32IsNaN a && !f32IsNaN b && decide (f32Key a < f32Key b)

/-- Source function `CryptomatteContext::HashName`, the 32-bit MurmurHash3 being a parameter
(`name`, `len`, `seed` to the 32 bits written to `out`). -/
def HashName (MurmurHash3_x86_32 : List Char → Nat → Nat → Nat) (name : List Char) : Hash :=
  let hash := MurmurHash3_x86_32 name name.length 0 % 2 ^ 32
  let exponent := hash >>> 23 &&& 255
  if exponent = 0 ∨ exponent = 255 then hash ^^^ (1 <<< 23) else hash

/-! ## The selection set: `std::set<FloatHash>` -/

/-- Two floats are equivalent keys of a `std::set<float>`: neither is less
than the other. -/
def f32Equiv (a b : FloatHash) : Bool := !f32Lt a b && !f32Lt b a

/-- Library call `std::set<FloatHash>::count` on `_float_selection` (a set of
floats, by the spec; the member is declared in the missing header): 1 when the
set holds an equivalent key. -/
def setCount (s : List FloatHash) (x : FloatHash) : Nat :=
  if s.any (fun e => f32Equiv e x) then 1 else 0

/-- Library call `std::set<FloatHash>::insert`: the key is added unless the set
already holds an equivalent key. -/
def setInsert (s : List FloatHash) (x : FloatHash) : List FloatHash :=
  if s.any (fun e => f32Equiv e x) then s else s ++ [x]

/-! ## The level buffer as the pixel algorithms read it -/

/-- Modelled from the spec: the struct `CryptomatteBuffer::Level` is declared in
the missing header; the spec and the buffer builder have it a hash float
followed by a coverage float. -/
structure Level where
  hash : FloatHash
  coverage : ℚ
deriving DecidableEq

/-- Record `PF_PixelFloat`: the four floats of an output pixel. -/
structure PF_PixelFloat where
  alpha : ℚ
  red : ℚ
  green : ℚ
  blue : ℚ
deriving DecidableEq

/-- Modelled from the spec: the class `CryptomatteContext::CryptomatteBuffer` is
declared in the missing header; its constructor, in the source, fills `_buf`,
`_width`, `_height` and `_numLevels`. Here it is read as levels: the memory
behind `_buf`, one `Level` per index, and the three sizes. -/
structure CryptomatteBuffer where
  buf : Nat → Level
  width : Nat
  height : Nat
  numLevels : Nat

/-- Modelled from the spec: `CryptomatteBuffer::GetLevelGroup` is declared in
the plug-in's current header, which is missing; the spec has the buffer
row-major and level-minor, the accessor pointing at the first level of pixel
`(x, y)`. The result is the index of that level in `buf`. -/
def GetLevelGroup (b : CryptomatteBuffer) (x y : Nat) : Nat :=
  (y * b.width + x) * b.numLevels

/-- The `for(int i=0; i < numLevels; i++)` loop of `GetCoverage`, with
`n = numLevels - i` rounds left, `level` the level pointer and `coverage` the
running sum; returns the sum and the level pointer after the loop. -/
def coverageLoop (sel : List FloatHash) (buf : Nat → Level) :
    Nat → Nat → ℚ → ℚ × Nat
  | 0, level, coverage => (coverage, level)
  | n + 1, level, coverage =>
    if (buf level).coverage = 0 then
      (coverage, level + (n + 1))
    else
      coverageLoop sel buf n (level + 1)
        (if setCount sel (buf level).hash ≠ 0 then coverage + (buf level).coverage
         else coverage)

/-- The `while(len--)` loop of `GetCoverage`: `pix` is the pixel pointer into
`row`, `level` the level pointer. -/
def coverageRow (sel : List FloatHash) (buf : Nat → Level) (numLevels : Nat) :
    Nat → Nat → Nat → (Nat → PF_PixelFloat) → (Nat → PF_PixelFloat)
  | 0, _, _, row => row
  | len + 1, pix, level, row =>
    let r := coverageLoop sel buf numLevels level 0
    coverageRow sel buf numLevels len (pix + 1) r.2
      (Function.update row pix { row pix with alpha := r.1 })

/-- Source function `CryptomatteContext::GetCoverage(row, len, x, y)`: `sel` is
`_float_selection`, `b` the buffer behind `_buffer`, `row` the memory the
pixel pointer walks, starting at index 0. -/
def GetCoverage (sel : List FloatHash) (b : CryptomatteBuffer)
    (row : Nat → PF_PixelFloat) (len x y : Nat) : Nat → PF_PixelFloat :=
  coverageRow sel b.buf b.numLevels len 0 (GetLevelGroup b x y) row

/-- The `numLevels` levels of pixel `(x, y)`, in order. -/
def pixelLevels (b : CryptomatteBuffer) (x y : Nat) : List Level :=
  (List.range b.numLevels).map (fun k => b.buf (GetLevelGroup b x y + k))

/-- The coverage the spec asks for: the sum of the coverages of the levels
before the first level of coverage 0 whose hash is in the selection set. -/
def selectedCoverage (sel : List FloatHash) (levels : List Level) : ℚ :=
  (((levels.takeWhile (fun l => decide (l.coverage ≠ 0))).filter
    (fun l => decide (setCount sel l.hash ≠ 0))).map (fun l => l.coverage)).sum

/-- A buffer of one pixel with the three levels `(h1, 0.6), (h2, 0.4), (0, 0)`,
`h1` and `h2` being the floats 123.0 and 124.0. -/
def witnessBuffer : CryptomatteBuffer where
  buf := fun i => [(⟨0x42f60000, 6 / 10⟩ : Level), ⟨0x42f80000, 4 / 10⟩, ⟨0, 0⟩].getD i ⟨0, 0⟩
  width := 1
  height := 1
  numLevels := 3

/-- An output row whose pixels are all zero. -/
def blankRow : Nat → PF_PixelFloat := fun _ => ⟨0, 0, 0, 0⟩

/-! ## The selection tokenizer -/

deriving instance DecidableEq for Except

/-- The double quote character. -/
def dquote : Char := Char.ofNat 34

/-- The backslash character. -/
def backslash : Char := Char.ofNat 92

/-- Expression `str[i]` of a `std::string` (the terminating zero at `i = size()`). -/
def charAt (str : List Char) (i : Nat) : Char := str.getD i (Char.ofNat 0)

/-- Expression `str.substr(pos, n)`. -/
def substr (str : List Char) (pos n : Nat) : List Char := (str.drop pos).take n

/-- Expression `std::string::npos != delimiters.find(c)`. -/
def isDelim (delimiters : List Char) (c : Char) : Bool := delimiters.contains c

/-- First loop of `quotedTokenize`: skip the un-quoted delimiters at the
beginning. `none` when the fuel runs out. -/
def skipLeading (str delimiters : List Char) : Nat → Nat → Option Nat
  | 0, _ => none
  | fuel + 1, i =>
    if i < str.length ∧ charAt str i ≠ dquote ∧ isDelim delimiters (charAt str i) = true then
      skipLeading str delimiters fuel (i + 1)
    else
      some i

/-- Inner loop of `quotedTokenize`: push `lastPos` forward over the delimiters
that follow a token. `none` when the fuel runs out. -/
def skipMore (str delimiters : List Char) : Nat → Nat → Option Nat
  | 0, _ => none
  | fuel + 1, lastPos =>
    if lastPos < str.length ∧
        (charAt str lastPos ≠ dquote ∨ charAt str (lastPos - 1) ≠ backslash) ∧
        isDelim delimiters (charAt str lastPos) = true then
      skipMore str delimiters fuel (lastPos + 1)
    else
      some lastPos

/-- Main loop of `quotedTokenize`, from the state `(i, lastPos, in_quotes,
tokens)`; returns `(lastPos, in_quotes, tokens)` at the exit of the loop, `none`
when the fuel runs out. -/
def tokenLoop (str delimiters : List Char) :
    Nat → Nat → Nat → Bool → List (List Char) → Option (Nat × Bool × List (List Char))
  | 0, _, _, _, _ => none
  | fuel + 1, i, lastPos, in_quotes, tokens =>
    if i < str.length then
      if charAt str i = dquote ∧ (i = 0 ∨ charAt str (i - 1) ≠ backslash) then
        tokenLoop str delimiters fuel (i + 1) lastPos (!in_quotes) tokens
      else if in_quotes = false ∧ isDelim delimiters (charAt str i) = true then
        match skipMore str delimiters (str.length + 1) (i + 1) with
        | none => none
        | some lp =>
          tokenLoop str delimiters fuel lp lp in_quotes
            (tokens ++ [substr str lastPos (i - lastPos)])
      else
        tokenLoop str delimiters fuel (i + 1) lastPos in_quotes tokens
    else
      some (lastPos, in_quotes, tokens)

/-- Source function `CryptomatteContext::quotedTokenize(str, tokens, delimiters)` on an empty
`tokens` vector: `some (.ok tokens)` on return, `some (.error what)` when a
`CryptomatteException` is thrown, `none` when a loop runs out of fuel (which
`quotedTokenize_returns` excludes). -/
def quotedTokenize (str delimiters : List Char) :
    Option (Except String (List (List Char))) :=
  match skipLeading str delimiters (str.length + 1) 0 with
  | none => none
  | some i =>
    match tokenLoop str delimiters (str.length + 1) i i false [] with
    | none => none
    | some (lastPos, in_quotes, tokens) =>
      if in_quotes = true then
        some (.error "Quoted tokenize error.")
      else if str.length - lastPos > 0 then
        some (.ok (tokens ++ [str.drop lastPos]))
      else
        some (.ok tokens)

/-- The delimiters `", "` that `Update` and `ItemForHash` tokenize with. -/
def commaSpace : List Char := [',', ' ']

/-- Position `i` holds a double quote that opens or closes a quoted span: it
is the first character or is not preceded by a backslash. -/
def isQuoteMark (str : List Char) (i : Nat) : Bool :=
  decide (i < str.length) && (charAt str i == dquote) &&
    (decide (i = 0) || (charAt str (i - 1) != backslash))

/-- Number of span-opening or span-closing double quotes before position `i`. -/
def quoteMarksBefore (str : List Char) (i : Nat) : Nat :=
  ((List.range i).filter (isQuoteMark str)).length

/-- Position `i` lies inside an open quoted span. -/
def insideQuotes (str : List Char) (i : Nat) : Bool :=
  decide (quoteMarksBefore str i % 2 = 1)

/-- Position `i` holds a delimiter outside every quoted span: the string is
cut there. -/
def isCut (str delimiters : List Char) (i : Nat) : Bool :=
  isDelim delimiters (charAt str i) && !insideQuotes str i

/-- The pieces of `rest` (the characters from position `i` on) when the
string is cut at every position where `cut` holds; `cur` is the piece under
way. The cut characters belong to no piece. -/
def piecesFrom (cut : Nat → Bool) : Nat → List Char → List Char → List (List Char)
  | _, cur, [] => [cur]
  | i, cur, c :: rest =>
    if cut i = true then cur :: piecesFrom cut (i + 1) [] rest
    else piecesFrom cut (i + 1) (cur ++ [c]) rest

/-- The tokens the spec asks for: the non-empty pieces of the string cut at
every delimiter outside a quoted span, in order, quotes kept. -/
def specTokens (str delimiters : List Char) : List (List Char) :=
  (piecesFrom (isCut str delimiters) 0 [] str).filter (fun t => !t.isEmpty)

/-- The non-empty pieces of the string from position `i` on, `cur` being the
piece under way. -/
def tokensFrom (str delimiters : List Char) (i : Nat) (cur : List Char) : List (List Char) :=
  (piecesFrom (isCut str delimiters) i cur (str.drop i)).filter (fun t => !t.isEmpty)

/-- The string `foo, "bar, baz", qux`. -/
def witnessSelection : List Char :=
  "foo, ".toList ++ [dquote] ++ "bar, baz".toList ++ [dquote] ++ ", qux".toList

/-! ## Quoting -/

/-- The candidates of `std::string::find`: `n` positions from `i` on. -/
def findAux (s search : List Char) : Nat → Nat → Option Nat
  | 0, _ => none
  | n + 1, i => if search.isPrefixOf (s.drop i) = true then some i else findAux s search n (i + 1)

/-- Expression `s.find(search, pos)`: the first position at or after `pos` where `search`
occurs, `none` for `npos`. -/
def find (s search : List Char) (pos : Nat) : Option Nat :=
  if pos + search.length ≤ s.length then
    findAux s search (s.length - search.length - pos + 1) pos
  else none

/-- First loop of `searchReplace`: the positions of the search string.
`last_pos` is never `npos` on entry; `none` when the fuel runs out (an empty
search string never leaves the loop). -/
def findPositions (s search : List Char) : Nat → Nat → List Nat → Option (List Nat)
  | 0, _, _ => none
  | fuel + 1, last_pos, positions =>
    if last_pos < s.length then
      match find s search last_pos with
      | none => some positions
      | some p => findPositions s search fuel (p + search.length) (positions ++ [p])
    else some positions

/-- Expression `s.erase(pos, n); s.insert(pos, replace)`. -/
def eraseInsert (s : List Char) (pos n : Nat) (replace : List Char) : List Char :=
  s.take pos ++ replace ++ s.drop (pos + n)

/-- Source function `CryptomatteContext::searchReplace`: the second loop replaces from the
last position to the first. `none` when the first loop runs out of fuel. -/
def searchReplace (str search replace : List Char) : Option (List Char) :=
  match findPositions str search (str.length + 1) 0 [] with
  | none => none
  | some positions =>
    some (positions.reverse.foldl (fun s pos => eraseInsert s pos search.length replace) str)

/-- Source function `CryptomatteContext::enQuote`. -/
def enQuote (s : List Char) : Option (List Char) :=
  match searchReplace s [dquote] [backslash, dquote] with
  | none => none
  | some r => some ([dquote] ++ r ++ [dquote])

/-- Source function `CryptomatteContext::deQuote`; `size_type` arithmetic is modulo `2^64`. -/
def deQuote (s : List Char) : Option (List Char) :=
  let start_pos := if charAt s 0 = dquote then 1 else 0
  let end_pos :=
    if s.length ≥ 2 ∧ charAt s (s.length - 1) = dquote ∧ charAt s (s.length - 2) ≠ backslash then
      s.length - 2
    else (s.length + 2 ^ 64 - 1) % 2 ^ 64
  searchReplace (substr s start_pos ((end_pos + 1 + 2 ^ 64 - start_pos) % 2 ^ 64))
    [backslash, dquote] [dquote]

/-! ## Literal hashes -/

/-- Expression `isspace` of the C locale. -/
def isspace (c : Char) : Bool := c.toNat == 32 || (9 ≤ c.toNat && c.toNat ≤ 13)

/-- Value of a hexadecimal digit. -/
def hexDigit (c : Char) : Option Nat :=
  if 48 ≤ c.toNat ∧ c.toNat ≤ 57 then some (c.toNat - 48)
  else if 97 ≤ c.toNat ∧ c.toNat ≤ 102 then some (c.toNat - 87)
  else if 65 ≤ c.toNat ∧ c.toNat ≤ 70 then some (c.toNat - 55)
  else none

/-- The subject sequence of a `%x` conversion after the sign: an optional
`0x` or `0X`, then hexadecimal digits; `none` when there is no digit. -/
def scanHexBody (r : List Char) : Option Nat :=
  let body :=
    match r with
    | z :: x :: rest => if z = '0' ∧ (x = 'x' ∨ x = 'X') then rest else r
    | _ => r
  let digits := body.takeWhile (fun c => (hexDigit c).isSome)
  if digits.isEmpty then none
  else some (digits.foldl (fun acc c => acc * 16 + (hexDigit c).getD 0) 0)

/-- Expression `sscanf(str, "<%x>", &intValue)` of the C library: the value returned
(the number of conversions, `-1` for `EOF`) and the value left in `intValue`
(0 when nothing is stored). The input ends at the first zero character; the
converted number is stored modulo `2^32`. -/
def sscanfHex (str : List Char) : Int × Nat :=
  match str.takeWhile (fun c => c.toNat != 0) with
  | [] => (-1, 0)
  | c :: rest =>
    if c ≠ '<' then (0, 0)
    else
      match rest.dropWhile isspace with
      | [] => (-1, 0)
      | sgn :: more =>
        let neg := decide (sgn = '-')
        let body := if sgn = '-' ∨ sgn = '+' then more else sgn :: more
        match scanHexBody body with
        | none => (0, 0)
        | some v => (1, if neg = true then (2 ^ 32 - v % 2 ^ 32) % 2 ^ 32 else v % 2 ^ 32)

/-- Source function `CryptomatteContext::GetHashIfLiteral(name, result)`: `some result` when
it returns true. -/
def GetHashIfLiteral (name : List Char) : Option Hash :=
  if name.length = 10 then
    if (sscanfHex name).1 ≠ 0 then some (sscanfHex name).2 else none
  else none

/-! ## The manifest: `std::map<std::string, Hash>` -/

/-- Expression `operator<` of `std::string`: lexicographic on the bytes. -/
def strLt : List Char → List Char → Bool
  | [], [] => false
  | [], _ :: _ => true
  | _ :: _, [] => false
  | a :: l, b :: r =>
    if a.toNat < b.toNat then true else if b.toNat < a.toNat then false else strLt l r

/-- Expression `_manifest[name] = value` on a map kept in key order. -/
def mapInsert (m : List (List Char × Hash)) (name : List Char) (value : Hash) :
    List (List Char × Hash) :=
  match m with
  | [] => [(name, value)]
  | (k, v) :: rest =>
    if strLt name k = true then (name, value) :: (k, v) :: rest
    else if strLt k name = true then (k, v) :: mapInsert rest name value
    else (name, value) :: rest

/-- Expression `_manifest.find(name)`: the value stored under the key, if any
(`_manifest.count(name)` is 1 exactly when there is one). -/
def mapFind (m : List (List Char × Hash)) (name : List Char) : Option Hash :=
  match m with
  | [] => none
  | (k, v) :: rest => if k = name then some v else mapFind rest name

/-- A `picojson::value`, as far as `Update` looks into it. -/
inductive JsonValue where
  | other : JsonValue
  | str : List Char → JsonValue
  | object : List (List Char × JsonValue) → JsonValue

/-! ## The decoding session -/

/-- Record `CryptomatteArbitraryData`, through its accessors `GetLayer`,
`GetManifest`, `GetSelection` and its two fingerprints. -/
structure CryptomatteArbitraryData where
  layer : List Char
  manifest_hash : Nat
  selection_hash : Nat
  manifest : List Char
  selection : List Char

/-- The members of `CryptomatteContext` that `Update` reads or writes. The
level buffer `_buffer` is not among them. -/
structure CryptomatteContext where
  layer : List Char
  manifestHash : Nat
  manifest : List (List Char × Hash)
  selectionHash : Nat
  selection : List Char
  float_selection : List FloatHash
deriving DecidableEq

/-- The loop of `Update` over the members of the manifest object. -/
def loadManifest : List (List Char × JsonValue) → List (List Char × Hash) →
    List (List Char × Hash)
  | [], m => m
  | (name, JsonValue.str value) :: rest, m =>
    match GetHashIfLiteral ("<".toList ++ value ++ ">".toList) with
    | some literal_val => loadManifest rest (mapInsert m name literal_val)
    | none => loadManifest rest m
  | (_, _) :: rest, m => loadManifest rest m

/-- The loop of `Update` over the tokens of the selection; `none` when
`deQuote` runs out of fuel. -/
def resolveTokens (murmur : List Char → Nat → Nat → Nat) (manifest : List (List Char × Hash)) :
    List (List Char) → List FloatHash → Option (List FloatHash)
  | [], sel => some sel
  | tok :: rest, sel =>
    match deQuote tok with
    | none => none
    | some val =>
      match mapFind manifest val with
      | some hash => resolveTokens murmur manifest rest (setInsert sel (HashToFloatHash hash))
      | none =>
        match GetHashIfLiteral val with
        | some literal_val =>
          resolveTokens murmur manifest rest (setInsert sel (HashToFloatHash literal_val))
        | none =>
          if val.length ≠ 0 then
            resolveTokens murmur manifest rest
              (setInsert sel (HashToFloatHash (HashName murmur val)))
          else resolveTokens murmur manifest rest sel

/-- The layer part of `CryptomatteContext::Update`. -/
def updateLayer (ctx : CryptomatteContext) (arb : CryptomatteArbitraryData) :
    CryptomatteContext :=
  if ctx.layer ≠ arb.layer then { ctx with layer := arb.layer } else ctx

/-- The manifest part of `CryptomatteContext::Update`; `parse` is
`picojson::parse`. -/
def updateManifest (parse : List Char → JsonValue) (ctx : CryptomatteContext)
    (arb : CryptomatteArbitraryData) : CryptomatteContext :=
  if ctx.manifestHash ≠ arb.manifest_hash then
    match parse arb.manifest with
    | JsonValue.object members =>
      { ctx with manifestHash := arb.manifest_hash, manifest := loadManifest members [] }
    | _ => { ctx with manifestHash := arb.manifest_hash, manifest := [] }
  else ctx

/-- The selection part of `CryptomatteContext::Update`. An exception thrown
inside the `try` block leaves the set as it is at that point; `none` when a
loop of the tokenizer or of `deQuote` runs out of fuel. -/
def updateSelection (murmur : List Char → Nat → Nat → Nat) (ctx : CryptomatteContext)
    (arb : CryptomatteArbitraryData) : Option CryptomatteContext :=
  if ctx.selectionHash ≠ arb.selection_hash then
    let ctx1 := { ctx with selectionHash := arb.selection_hash, selection := arb.selection,
                           float_selection := [] }
    if arb.selection.isEmpty = false then
      match quotedTokenize arb.selection commaSpace with
      | none => none
      | some (Except.error _) => some ctx1
      | some (Except.ok tokens) =>
        match resolveTokens murmur ctx1.manifest tokens [] with
        | none => none
        | some sel => some { ctx1 with float_selection := sel }
    else some ctx1
  else some ctx

/-- Source function `CryptomatteContext::Update(arb)`: `some` of the new state on return
(nothing is thrown out of it), `none` when a loop runs out of fuel. -/
def Update (murmur : List Char → Nat → Nat → Nat) (parse : List Char → JsonValue)
    (ctx : CryptomatteContext) (arb : CryptomatteArbitraryData) : Option CryptomatteContext :=
  updateSelection murmur (updateManifest parse (updateLayer ctx arb) arb) arb

/-! ## What the spec says of the selection set -/

/-- IEEE-754 `a == b` on two float patterns (false when one is a NaN, true on
the two zeros). -/
def f32Eq (a b : FloatHash) : Bool :=
  !f32IsNaN a && !f32IsNaN b && decide (f32Key a = f32Key b)

/-- The hash `r(t)` a de-quoted token resolves to: the manifest's hash when
the token is a manifest key, else its literal value, else the hash of its
text when it is not empty. -/
def resolveToken (murmur : List Char → Nat → Nat → Nat) (manifest : List (List Char × Hash))
    (val : List Char) : Option Hash :=
  match mapFind manifest val with
  | some hash => some hash
  | none =>
    match GetHashIfLiteral val with
    | some literal_val => some literal_val
    | none => if val.length ≠ 0 then some (HashName murmur val) else none

/-- The hashes the tokens of a selection resolve to, in order. -/
def resolvedHashes (murmur : List Char → Nat → Nat → Nat) (manifest : List (List Char × Hash))
    (tokens : List (List Char)) : List Hash :=
  tokens.filterMap (fun t => (deQuote t).bind (resolveToken murmur manifest))

/-- A stand-in for MurmurHash3 in the concrete examples. -/
def murmurZero : List Char → Nat → Nat → Nat := fun _ _ _ => 0

/-- A `picojson::parse` that finds no object. -/
def parseNothing : List Char → JsonValue := fun _ => JsonValue.other

/-- The state the constructor of `CryptomatteContext` calls `Update` in. -/
def freshContext : CryptomatteContext :=
  { layer := [], manifestHash := 0, manifest := [], selectionHash := 0, selection := [],
    float_selection := [] }

/-- A selection of two literals, the first one a NaN pattern. -/
def arbNaN : CryptomatteArbitraryData :=
  { layer := [], manifest_hash := 0, selection_hash := 1, manifest := [],
    selection := "<7fc00000> <3f800000>".toList }

/-- A `picojson::parse` that returns a manifest of two entries, the second
key having the form of a literal. -/
def parseTwo : List Char → JsonValue := fun _ =>
  JsonValue.object [("foo".toList, JsonValue.str "3fc00000".toList),
    ("<3f800000>".toList, JsonValue.str "40000000".toList)]

/-- A selection of a manifest key, a manifest key of literal form, a literal
and a plain name. -/
def arbThree : CryptomatteArbitraryData :=
  { layer := [], manifest_hash := 1, selection_hash := 1, manifest := [],
    selection := "foo <3f800000> <40400000> bar".toList }

/-- A selection with an unterminated quote. -/
def arbOpenQuote : CryptomatteArbitraryData :=
  { layer := [], manifest_hash := 0, selection_hash := 1, manifest := [],
    selection := "foo ".toList ++ [dquote] ++ "bar".toList }

/-! ## Channel names and channel discovery -/

/-- Modelled from the spec: the enumeration `NamingStyle` is declared in the
plug-in's current header, which is missing; the spec names its three styles
`rgba`, `redgreenbluealpha` and `RGBA`, and the source tests for
`NAMING_rgba` and `NAMING_redgreenbluealpha` and treats the remaining style
as the upper-case one. -/
inductive NamingStyle where
  | rgba : NamingStyle
  | redgreenbluealpha : NamingStyle
  | RGBA : NamingStyle
deriving DecidableEq

/-- Modelled from the spec: the styles from `NAMING_BEGIN` to `NAMING_END`,
in the order of the enumeration (declared in the missing header). -/
def namingStyles : List NamingStyle :=
  [NamingStyle.rgba, NamingStyle.redgreenbluealpha, NamingStyle.RGBA]

/-- Expression `std::setw(2) << std::setfill('0') << layerNum`: the decimal digits,
padded on the left with `0` to two characters. -/
def setw2 (layerNum : Nat) : List Char :=
  List.replicate (2 - (Nat.toDigits 10 layerNum).length) '0' ++ Nat.toDigits 10 layerNum

/-- Source function `CryptomatteContext::CalculateNext4Name(fourName, style, levels)`. -/
def CalculateNext4Name (layer : List Char) (style : NamingStyle) (levels : Nat) : List Char :=
  let layerNum := levels / 2
  layer ++ setw2 layerNum ++
    (match style with
     | NamingStyle.rgba => ".argb".toList
     | NamingStyle.redgreenbluealpha => ".alpharedgreenblue".toList
     | NamingStyle.RGBA => ".ARGB".toList)

/-- Source function `CryptomatteContext::CalculateNextNames(nextHashName, nextCoverageName,
style, levels)`: the hash name and the coverage name. -/
def CalculateNextNames (layer : List Char) (style : NamingStyle) (levels : Nat) :
    List Char × List Char :=
  let layerNum := levels / 2
  let useBA := decide (levels % 2 ≠ 0)
  let ss := layer ++ setw2 layerNum ++ ".".toList
  match style with
  | NamingStyle.rgba =>
    if useBA = true then (ss ++ "b".toList, ss ++ "a".toList)
    else (ss ++ "r".toList, ss ++ "g".toList)
  | NamingStyle.redgreenbluealpha =>
    if useBA = true then (ss ++ "blue".toList, ss ++ "alpha".toList)
    else (ss ++ "red".toList, ss ++ "green".toList)
  | NamingStyle.RGBA =>
    if useBA = true then (ss ++ "B".toList, ss ++ "A".toList)
    else (ss ++ "R".toList, ss ++ "G".toList)

/-- Record `PF_ChannelDesc` of the host: `data_type_float` stands for
`data_type == PF_DataType_FLOAT`. -/
structure PF_ChannelDesc where
  channel_type : Nat
  name : List Char
  data_type_float : Bool
  dimension : Nat
deriving DecidableEq

/-- What `PF_GetLayerChannelIndexedRefAndDesc` returns for one index: the
`found` flag, the channel reference (an opaque handle, here a number) and the
description. -/
structure ChannelEntry where
  found : Bool
  channelRef : Nat
  channelDesc : PF_ChannelDesc
deriving DecidableEq

/-- The test `found && channelDesc.channel_type && channelDesc.data_type ==
PF_DataType_FLOAT && channelDesc.dimension == dimension`. -/
def eligible (e : ChannelEntry) (dimension : Nat) : Bool :=
  e.found && decide (e.channelDesc.channel_type ≠ 0) && e.channelDesc.data_type_float &&
    decide (e.channelDesc.dimension = dimension)

/-- The inner loop of the 4-channel scan of `LoadLevels` for one style, from
the state `(i, numLevels, channelRefs, nextFourName)`. After a match the source
sets `i = 0` and the `for` statement then increments it, so the scan goes on
at index 1. `none` when the fuel runs out. -/
def scanFour (layer : List Char) (channels : List ChannelEntry) (s : NamingStyle) :
    Nat → Nat → Nat → List Nat → List Char → Option (Nat × List Nat)
  | 0, _, _, _, _ => none
  | fuel + 1, i, numLevels, channelRefs, nextFourName =>
    match channels[i]? with
    | none => some (numLevels, channelRefs)
    | some e =>
      if eligible e 4 = true ∧ e.channelDesc.name = nextFourName then
        scanFour layer channels s fuel (0 + 1) (numLevels + 2) (channelRefs ++ [e.channelRef])
          (CalculateNext4Name layer s (numLevels + 2))
      else
        scanFour layer channels s fuel (i + 1) numLevels channelRefs nextFourName

/-- The state of the pair scan of `LoadLevels`. -/
structure PairState where
  numLevels : Nat
  channelRefs : List Nat
  nextHashName : List Char
  nextCoverageName : List Char
  hash : Nat
  coverage : Nat
  foundHash : Bool
  foundCoverage : Bool

/-- One round of the inner loop of the pair scan on channel `e`: the new
state, and whether the scan starts over. -/
def pairStep (layer : List Char) (s : NamingStyle) (e : ChannelEntry) (st : PairState) :
    PairState × Bool :=
  if eligible e 1 = true ∧
      (e.channelDesc.name = st.nextHashName ∨ e.channelDesc.name = st.nextCoverageName) then
    let st1 :=
      if e.channelDesc.name = st.nextHashName then
        { st with hash := e.channelRef, foundHash := true }
      else { st with coverage := e.channelRef, foundCoverage := true }
    if st1.foundHash = true ∧ st1.foundCoverage = true then
      ({ st1 with
          numLevels := st1.numLevels + 1
          channelRefs := st1.channelRefs ++ [st1.hash, st1.coverage]
          nextHashName := (CalculateNextNames layer s (st1.numLevels + 1)).1
          nextCoverageName := (CalculateNextNames layer s (st1.numLevels + 1)).2
          foundHash := false
          foundCoverage := false }, true)
    else (st1, false)
  else (st, false)

/-- The inner loop of the pair scan of `LoadLevels` for one style; after a
match the scan goes on at index 1, as in `scanFour`. `none` when the fuel runs
out. -/
def scanPairs (layer : List Char) (channels : List ChannelEntry) (s : NamingStyle) :
    Nat → Nat → PairState → Option PairState
  | 0, _, _ => none
  | fuel + 1, i, st =>
    match channels[i]? with
    | none => some st
    | some e =>
      if (pairStep layer s e st).2 = true then
        scanPairs layer channels s fuel (0 + 1) (pairStep layer s e st).1
      else scanPairs layer channels s fuel (i + 1) (pairStep layer s e st).1

/-- The fuel given to each inner scan of `LoadLevels`. -/
def scanFuel (channels : List ChannelEntry) : Nat :=
  (channels.length + 1) * (channels.length + 1) + 1

/-- The first outer loop of `LoadLevels`: the 4-channel scan, style after
style. -/
def scanFourStyles (layer : List Char) (channels : List ChannelEntry) :
    List NamingStyle → Nat → List Nat → Option (Nat × List Nat)
  | [], numLevels, channelRefs => some (numLevels, channelRefs)
  | s :: rest, numLevels, channelRefs =>
    match scanFour layer channels s (scanFuel channels) 0 numLevels channelRefs
        (CalculateNext4Name layer s numLevels) with
    | none => none
    | some r => scanFourStyles layer channels rest r.1 r.2

/-- The second outer loop of `LoadLevels`: the pair scan, style after style.
The two channel references `hash` and `coverage` are not initialized in the
source; they are 0 here and are never read before they are written. -/
def scanPairsStyles (layer : List Char) (channels : List ChannelEntry) :
    List NamingStyle → Nat → List Nat → Option (Nat × List Nat)
  | [], numLevels, channelRefs => some (numLevels, channelRefs)
  | s :: rest, numLevels, channelRefs =>
    match scanPairs layer channels s (scanFuel channels) 0
        { numLevels := numLevels, channelRefs := channelRefs,
          nextHashName := (CalculateNextNames layer s numLevels).1,
          nextCoverageName := (CalculateNextNames layer s numLevels).2,
          hash := 0, coverage := 0, foundHash := false, foundCoverage := false } with
    | none => none
    | some st => scanPairsStyles layer channels rest st.numLevels st.channelRefs

/-- Expression `chan_name.rfind(".")`: the position of the last dot. -/
def rfindDot (name : List Char) : Option Nat :=
  if name.contains '.' then
    some (name.length - 1 - (name.reverse.takeWhile (fun c => c != '.')).length)
  else none

/-- The first loop of `LoadLevels`: look for the layer name in the channels
while `_layer` is empty. -/
def discoverLayer : List ChannelEntry → List Char → List Char
  | [], layer => layer
  | e :: rest, layer =>
    if layer.isEmpty = true then
      if eligible e 1 = true then
        match rfindDot e.channelDesc.name with
        | some dot_pos =>
          if dot_pos > 3 then
            let color_name := e.channelDesc.name.drop (dot_pos + 1)
            let layer_num := substr e.channelDesc.name (dot_pos - 2) 2
            if (color_name = "R".toList ∨ color_name = "r".toList ∨ color_name = "red".toList) ∧
                layer_num = "00".toList then
              discoverLayer rest (substr e.channelDesc.name 0 (dot_pos - 2))
            else discoverLayer rest layer
          else discoverLayer rest layer
        | none => discoverLayer rest layer
      else discoverLayer rest layer
    else layer

/-- Source function `CryptomatteContext::LoadLevels`, up to the construction of the buffer:
the layer name it leaves in `_layer`, and `numLevels` and `channelRefs` at the
end of the discovery (the buffer is built from them when `numLevels > 0`).
`channels` is what the host enumerates. `none` when a scan runs out of fuel. -/
def LoadLevels (layer0 : List Char) (channels : List ChannelEntry) :
    Option (List Char × Nat × List Nat) :=
  let layer := if layer0.isEmpty = true ∧ channels.length > 0 then discoverLayer channels layer0
    else layer0
  if layer.isEmpty = false ∧ channels.length > 0 then
    match scanFourStyles layer channels namingStyles 0 [] with
    | none => none
    | some r =>
      match scanPairsStyles layer channels namingStyles r.1 r.2 with
      | none => none
      | some r2 => some (layer, r2.1, r2.2)
  else some (layer, 0, [])

/-- A float channel of the given name and dimension, its reference being
`ref`. -/
def floatChannel (ref : Nat) (name : List Char) (dimension : Nat) : ChannelEntry :=
  { found := true, channelRef := ref,
    channelDesc := { channel_type := 1, name := name, data_type_float := true,
                     dimension := dimension } }

/-- The `k` quads `L00.S ... L(k-1).S` in ascending order, references `0..k-1`. -/
def quadChannels (layer : List Char) (s : NamingStyle) (k : Nat) : List ChannelEntry :=
  (List.range k).map (fun j => floatChannel j (CalculateNext4Name layer s (2 * j)) 4)

/-- The hash and coverage channels of the levels `0..m-1` in ascending order,
hash before coverage, references `0..2m-1`. -/
def pairChannels (layer : List Char) (s : NamingStyle) (m : Nat) : List ChannelEntry :=
  (List.range m).flatMap (fun j =>
    [floatChannel (2 * j) (CalculateNextNames layer s j).1 1,
     floatChannel (2 * j + 1) (CalculateNextNames layer s j).2 1])

/-- The number a string of decimal digits stands for, continuing from `acc`. -/
def decimalValue (acc : Nat) (l : List Char) : Nat :=
  l.foldl (fun a c => a * 10 + (c.toNat - 48)) acc

/-- The suffix of a 4-component channel name after the dot. -/
def fourSuffix : NamingStyle → List Char
  | NamingStyle.rgba => "argb".toList
  | NamingStyle.redgreenbluealpha => "alpharedgreenblue".toList
  | NamingStyle.RGBA => "ARGB".toList

/-- The suffix of a 1-component channel name after the dot: `useBA` selects
the second level of a layer number, `cov` the coverage channel. -/
def pairSuffix (s : NamingStyle) (useBA cov : Bool) : List Char :=
  match s, useBA, cov with
  | NamingStyle.rgba, false, false => "r".toList
  | NamingStyle.rgba, false, true => "g".toList
  | NamingStyle.rgba, true, false => "b".toList
  | NamingStyle.rgba, true, true => "a".toList
  | NamingStyle.redgreenbluealpha, false, false => "red".toList
  | NamingStyle.redgreenbluealpha, false, true => "green".toList
  | NamingStyle.redgreenbluealpha, true, false => "blue".toList
  | NamingStyle.redgreenbluealpha, true, true => "alpha".toList
  | NamingStyle.RGBA, false, false => "R".toList
  | NamingStyle.RGBA, false, true => "G".toList
  | NamingStyle.RGBA, true, false => "B".toList
  | NamingStyle.RGBA, true, true => "A".toList

/-- The channel at index `i` of `pairChannels`: the hash channel of level
`i / 2` when `i` is even, its coverage channel when `i` is odd. -/
def pairEntry (layer : List Char) (s : NamingStyle) (i : Nat) : ChannelEntry :=
  floatChannel i
    (if i % 2 = 0 then (CalculateNextNames layer s (i / 2)).1
     else (CalculateNextNames layer s (i / 2)).2) 1

/-! ## The level buffer builder -/

/-- Record `PF_ChannelChunk` of the host, for float data: `dataPV` gives the float
stored at each byte offset from the data pointer. -/
structure PF_ChannelChunk (α : Type) where
  dataPV : Nat → α
  widthL : Nat
  heightL : Nat
  dimensionL : Nat
  row_bytesL : Nat

/-- Record `CryptomatteBufferIterateData`: `buf` is a byte offset from `_buf`,
`origin` the memory behind the `origin` pointer. -/
structure CryptomatteBufferIterateData (α : Type) where
  buf : Nat
  dimension : Nat
  numLevels : Nat
  origin : Nat → α
  width : Nat
  xStride : Nat
  yStride : Nat

/-- The loop over `x` of `CryptomatteBuffer_Iterate` for `dimension == 4`.
The pointers `a, r, g, b` are `inp + 0, 4, 8, 12` bytes and `h1, c1, h2, c2`
are `out + 0, 4, 8, 12` bytes; they move in lockstep, by `inStep` and
`outStep` floats. `mem` is the memory behind `_buf`, the float at each byte
offset. -/
def quadLoop {α : Type} (origin : Nat → α) (inStep outStep : Nat) :
    Nat → Nat → Nat → (Nat → α) → (Nat → α)
  | 0, _, _, mem => mem
  | n + 1, inp, out, mem =>
    let m1 := Function.update mem (out + 0) (origin (inp + 4))
    let m2 := Function.update m1 (out + 4) (origin (inp + 8))
    let m3 := Function.update m2 (out + 8) (origin (inp + 12))
    let m4 := Function.update m3 (out + 12) (origin (inp + 0))
    quadLoop origin inStep outStep n (inp + 4 * inStep) (out + 4 * outStep) m4

/-- The loop over `x` of `CryptomatteBuffer_Iterate` for `dimension == 1`. -/
def singleLoop {α : Type} (origin : Nat → α) (inStep outStep : Nat) :
    Nat → Nat → Nat → (Nat → α) → (Nat → α)
  | 0, _, _, mem => mem
  | n + 1, inp, out, mem =>
    singleLoop origin inStep outStep n (inp + 4 * inStep) (out + 4 * outStep)
      (Function.update mem out (origin inp))

/-- Source function `CryptomatteBuffer_Iterate(refconPV, thread_indexL, i, iterationsL)`: row
`i` of one channel is written into the memory behind `_buf`. -/
def CryptomatteBuffer_Iterate {α : Type} (i_data : CryptomatteBufferIterateData α) (i : Nat)
    (mem : Nat → α) : Nat → α :=
  let rowbytes := 4 * 2 * i_data.numLevels * i_data.width
  let inp := i * i_data.yStride
  let out := i_data.buf + i * rowbytes
  if i_data.dimension = 4 then
    quadLoop i_data.origin (i_data.xStride / 4) (i_data.numLevels * 2) i_data.width inp out mem
  else
    singleLoop i_data.origin (i_data.xStride / 4) (i_data.numLevels * 2) i_data.width inp out mem

/-- Modelled from the spec: `iterate_generic` of the host's iterate suite is
the row-parallel iteration collaborator, which "invokes the callback for each
row"; the rows are taken in ascending order here. -/
def iterate_generic {α : Type} (iterationsL : Nat) (fn : Nat → (Nat → α) → (Nat → α))
    (mem : Nat → α) : Nat → α :=
  (List.range iterationsL).foldl (fun m i => fn i m) mem

/-- The members of `CryptomatteBuffer` while its constructor runs, and the
loop variable `levelNum`. `allocated` is `_buf != NULL`; `buf` is the memory
behind `_buf`. -/
structure BuildState (α : Type) where
  allocated : Bool
  buf : Nat → α
  width : Nat
  height : Nat
  levelNum : Nat

/-- The size passed to `malloc`: the product is taken in `unsigned int`, then
in `size_t`; `sizeof(Level)` is 8. -/
def bufferSize (width height numLevels : Nat) : Nat :=
  (width * height % 2 ^ 32 * numLevels % 2 ^ 32) * 8 % 2 ^ 64

/-- The allocation at the first channel that checks out: `malloc` succeeds
when `mallocOk` says so, else `CryptomatteException("Memory error")`. -/
def allocate {α : Type} (mallocOk : Nat → Bool) (numLevels : Nat) (chunk : PF_ChannelChunk α)
    (st : BuildState α) : Except String (BuildState α) :=
  if st.allocated = false then
    if mallocOk (bufferSize chunk.widthL chunk.heightL numLevels) = true then
      Except.ok { st with allocated := true, width := chunk.widthL, height := chunk.heightL }
    else Except.error "Memory error"
  else Except.ok st

/-- The branch `channelChunk.dimensionL == 4` of the constructor. -/
def buildQuad {α : Type} (numLevels : Nat) (chunk : PF_ChannelChunk α) (st : BuildState α) :
    BuildState α :=
  { st with
    buf := iterate_generic st.height
      (CryptomatteBuffer_Iterate
        { buf := st.levelNum * 8, dimension := 4, numLevels := numLevels,
          origin := chunk.dataPV, width := st.width, xStride := 4 * 4,
          yStride := chunk.row_bytesL }) st.buf
    levelNum := st.levelNum + 2 }

/-- The other branch of the constructor: the hash channel `chunk`, then the
coverage channel when it checks out (`coverageChunk`). The iterate data of the
coverage pass is built, as in the source, from `channelChunk.dataPV` and
`channelChunk.row_bytesL`, the data of the hash channel. -/
def buildSingle {α : Type} (numLevels : Nat) (chunk : PF_ChannelChunk α)
    (coverageChunk : Option (PF_ChannelChunk α)) (st : BuildState α) : BuildState α :=
  let buf1 := iterate_generic st.height
    (CryptomatteBuffer_Iterate
      { buf := st.levelNum * 8, dimension := 1, numLevels := numLevels,
        origin := chunk.dataPV, width := st.width, xStride := 4,
        yStride := chunk.row_bytesL }) st.buf
  let buf2 :=
    match coverageChunk with
    | some _ =>
      iterate_generic st.height
        (CryptomatteBuffer_Iterate
          { buf := st.levelNum * 8 + 4, dimension := 1, numLevels := numLevels,
            origin := chunk.dataPV, width := st.width, xStride := 4,
            yStride := chunk.row_bytesL }) buf1
    | none => buf1
  { st with buf := buf2, levelNum := st.levelNum + 1 }

/-- The loop of the constructor over `channelRefs`. `checkout` is
`PF_CheckoutLayerChannel` (`none` when it fails or returns no data). The
asserts are not compiled in: a channel that does not check out is skipped, and
a hash channel that is the last reference has no coverage pass. -/
def buildChannels {α : Type} (checkout : Nat → Option (PF_ChannelChunk α))
    (mallocOk : Nat → Bool) (numLevels : Nat) :
    List Nat → BuildState α → Except String (BuildState α)
  | [], st => Except.ok st
  | channelRef :: rest, st =>
    match checkout channelRef with
    | none => buildChannels checkout mallocOk numLevels rest st
    | some chunk =>
      match allocate mallocOk numLevels chunk st with
      | Except.error what => Except.error what
      | Except.ok st1 =>
        if chunk.dimensionL = 4 then
          buildChannels checkout mallocOk numLevels rest (buildQuad numLevels chunk st1)
        else
          match rest with
          | [] => Except.ok (buildSingle numLevels chunk none st1)
          | coverageChannelRef :: rest2 =>
            buildChannels checkout mallocOk numLevels rest2
              (buildSingle numLevels chunk (checkout coverageChannelRef) st1)

/-- Source function `CryptomatteBuffer::CryptomatteBuffer(in_data, channelRefs, numLevels)`:
`garbage` is what the allocated memory holds before it is written. -/
def CryptomatteBuffer_new {α : Type} (checkout : Nat → Option (PF_ChannelChunk α))
    (mallocOk : Nat → Bool) (garbage : Nat → α) (channelRefs : List Nat) (numLevels : Nat) :
    Except String (BuildState α) :=
  buildChannels checkout mallocOk numLevels channelRefs
    { allocated := false, buf := garbage, width := 0, height := 0, levelNum := 0 }

/-- The byte offset in the buffer of component `c` (0 the hash, 1 the
coverage) of the level slot `(y * width + x) * numLevels + k`. -/
def slotOffset (width numLevels x y k c : Nat) : Nat :=
  8 * ((y * width + x) * numLevels + k) + 4 * c

/-- The float of component `comp` of pixel `(x, y)` in a channel chunk of
dimension `dim`. -/
def channelValue {α : Type} (chunk : PF_ChannelChunk α) (dim x y comp : Nat) : α :=
  chunk.dataPV (y * chunk.row_bytesL + 4 * dim * x + 4 * comp)

/-- The component of the quad (0 = A, 1 = R, 2 = G, 3 = B) that is written at
float `c` of the two level slots (hash, coverage, hash, coverage). -/
def quadSource (c : Nat) : Nat := (c + 1) % 4

/-- A 4-component channel of two pixels by two rows: the float at byte offset
`o` is `100 + o`, the rows are 32 bytes apart. -/
def quadChunk : PF_ChannelChunk Nat :=
  { dataPV := fun o => 100 + o, widthL := 2, heightL := 2, dimensionL := 4, row_bytesL := 32 }

/-- A host whose only channel is `quadChunk`, reference 0. -/
def checkoutQuad : Nat → Option (PF_ChannelChunk Nat) := fun ref =>
  if ref = 0 then some quadChunk else none

/-- A host with two 1-component channels of two pixels by two rows: in the
hash channel, reference 0, the float at byte offset `o` is `100 + o`; in the
coverage channel, reference 1, it is `200 + o`. -/
def checkoutHashCoverage : Nat → Option (PF_ChannelChunk Nat) := fun ref =>
  if ref = 0 then
    some { dataPV := fun o => 100 + o, widthL := 2, heightL := 2, dimensionL := 1,
           row_bytesL := 8 }
  else if ref = 1 then
    some { dataPV := fun o => 200 + o, widthL := 2, heightL := 2, dimensionL := 1,
           row_bytesL := 8 }
  else none

/-- The state the constructor of `CryptomatteBuffer` starts its loop in, the
memory `malloc` will return being all zero. -/
def freshBuild : BuildState Nat :=
  { allocated := false, buf := fun _ => 0, width := 0, height := 0, levelNum := 0 }

/-- The buffer of two levels the constructor builds from `quadChunk` alone. -/
def quadBuilt : BuildState Nat :=
  buildQuad 2 quadChunk { freshBuild with allocated := true, width := 2, height := 2 }

/-! ## Names of hashes -/

/-- Expression `sprintf(hexStr, "<%08x>", hash)`: the hexadecimal digits of
the 32-bit value, lower-case, padded on the left with `0` to eight
characters, between `<` and `>`. -/
def sprintfHex (hash : Nat) : List Char :=
  '<' :: (List.replicate (8 - (Nat.toDigits 16 (hash % 2 ^ 32)).length) '0' ++
    Nat.toDigits 16 (hash % 2 ^ 32)) ++ ['>']

/-- Source function `CryptomatteContext::HashToLiteralStr(hash)`. -/
def HashToLiteralStr (hash : Hash) : List Char := sprintfHex hash

/-- Library call `std::set<std::string>::insert` on a set kept in the order of
`operator<`: the string is added unless it is there already. -/
def strSetInsert : List (List Char) → List Char → List (List Char)
  | [], x => [x]
  | a :: l, x =>
    if strLt x a = true then x :: a :: l
    else if strLt a x = true then a :: strSetInsert l x
    else a :: l

/-- The loop of `ItemForHash` over the tokens of the selection: `some (some
val)` when it returns `val`, `some none` when no token matches, `none` when
`deQuote` runs out of fuel. -/
def selectionItem (murmur : List Char → Nat → Nat → Nat) (hash : Hash) :
    List (List Char) → Option (Option (List Char))
  | [] => some none
  | tok :: rest =>
    match deQuote tok with
    | none => none
    | some val =>
      if GetHashIfLiteral val = some hash then some (some val)
      else if HashName murmur val = hash then some (some val)
      else selectionItem murmur hash rest

/-- The loop of `ItemForHash` over the manifest, in key order, and its last
line: the first name whose value is the hash, else the hex code. -/
def manifestItem (manifest : List (List Char × Hash)) (hash : Hash) : List Char :=
  match manifest with
  | [] => HashToLiteralStr hash
  | (name, value) :: rest => if hash = value then name else manifestItem rest hash

/-- Source function `CryptomatteContext::ItemForHash(hash)`: `some (.ok item)` on return,
`some (.error what)` when the `CryptomatteException` of `quotedTokenize`
leaves it (nothing in it catches), `none` when a loop runs out of fuel. -/
def ItemForHash (murmur : List Char → Nat → Nat → Nat) (ctx : CryptomatteContext)
    (hash : Hash) : Option (Except String (List Char)) :=
  if ctx.selection.length ≠ 0 then
    match quotedTokenize ctx.selection commaSpace with
    | none => none
    | some (Except.error what) => some (Except.error what)
    | some (Except.ok tokens) =>
      match selectionItem murmur hash tokens with
      | none => none
      | some (some val) => some (Except.ok val)
      | some none => some (Except.ok (manifestItem ctx.manifest hash))
  else some (Except.ok (manifestItem ctx.manifest hash))

/-- Record `PF_PixelFloat` again, each float kept by its 32 bits: the form in
which `GetSelectionColor` writes hashes into a pixel and
`GetItemsFromSelectionColor` reads them back. -/
structure PF_PixelFloat32 where
  alpha : FloatHash
  red : FloatHash
  green : FloatHash
  blue : FloatHash
deriving DecidableEq

/-- The bits of the float `1.f`. -/
def f32One : FloatHash := 0x3f800000

/-- The `while(len--)` loop of `GetSelectionColor`: `pix` is the pixel pointer
into `row`, `level` the level pointer. -/
def selectionColorRow (buf : Nat → Level) (numLevels : Nat) :
    Nat → Nat → Nat → (Nat → PF_PixelFloat32) → (Nat → PF_PixelFloat32)
  | 0, _, _, row => row
  | len + 1, pix, level, row =>
    let p1 := { row pix with alpha := f32One }
    let p2 := if numLevels ≥ 1 then { p1 with red := (buf level).hash } else { p1 with red := 0 }
    let p3 := { p2 with green := 0 }
    if numLevels ≥ 2 then
      selectionColorRow buf numLevels len (pix + 1) (level + 1 + (numLevels - 1))
        (Function.update row pix { p3 with blue := (buf (level + 1)).hash })
    else
      selectionColorRow buf numLevels len (pix + 1) (level + numLevels)
        (Function.update row pix { p3 with blue := 0 })

/-- Source function `CryptomatteContext::GetSelectionColor(row, len, x, y)`. -/
def GetSelectionColor (b : CryptomatteBuffer) (row : Nat → PF_PixelFloat32) (len x y : Nat) :
    Nat → PF_PixelFloat32 :=
  selectionColorRow b.buf b.numLevels len 0 (GetLevelGroup b x y) row

/-- One `items.insert( ItemForHash(hash) )`, with what leaves `ItemForHash`. -/
def insertItem (murmur : List Char → Nat → Nat → Nat) (ctx : CryptomatteContext)
    (items : List (List Char)) (hash : Hash) : Option (Except String (List (List Char))) :=
  match ItemForHash murmur ctx hash with
  | none => none
  | some (Except.error what) => some (Except.error what)
  | some (Except.ok item) => some (Except.ok (strSetInsert items item))

/-- Source function `CryptomatteContext::GetItemsFromSelectionColor(pixel)`. -/
def GetItemsFromSelectionColor (murmur : List Char → Nat → Nat → Nat)
    (ctx : CryptomatteContext) (pixel : PF_PixelFloat32) :
    Option (Except String (List (List Char))) :=
  let red := FloatHashToHash pixel.red
  let blue := FloatHashToHash pixel.blue
  match (if red ≠ 0 then insertItem murmur ctx [] red else some (Except.ok [])) with
  | none => none
  | some (Except.error what) => some (Except.error what)
  | some (Except.ok items) =>
    if blue ≠ 0 then insertItem murmur ctx items blue else some (Except.ok items)

/-- The loop of `GetItems` over the levels of a pixel, with `n = NumLevels() -
i` rounds left. -/
def itemsLoop (murmur : List Char → Nat → Nat → Nat) (ctx : CryptomatteContext)
    (buf : Nat → Level) :
    Nat → Nat → List (List Char) → Option (Except String (List (List Char)))
  | 0, _, items => some (Except.ok items)
  | n + 1, level, items =>
    if (buf level).coverage > 0 then
      if FloatHashToHash (buf level).hash > 0 then
        match insertItem murmur ctx items (FloatHashToHash (buf level).hash) with
        | none => none
        | some (Except.error what) => some (Except.error what)
        | some (Except.ok items1) => itemsLoop murmur ctx buf n (level + 1) items1
      else itemsLoop murmur ctx buf n (level + 1) items
    else some (Except.ok items)

/-- Source function `CryptomatteContext::GetItems(x, y)`. -/
def GetItems (murmur : List Char → Nat → Nat → Nat) (ctx : CryptomatteContext)
    (b : CryptomatteBuffer) (x y : Nat) : Option (Except String (List (List Char))) :=
  itemsLoop murmur ctx b.buf b.numLevels (GetLevelGroup b x y) []

/-- The number a string of hexadecimal digits stands for, continuing from
`acc` (the sum `scanHexBody` computes). -/
def hexValue (acc : Nat) (l : List Char) : Nat :=
  l.foldl (fun a c => a * 16 + (hexDigit c).getD 0) acc

/-- The character is one of the lower-case hexadecimal digits. -/
def isLowerHex (c : Char) : Bool := "0123456789abcdef".toList.contains c

/-- The hash a manifest value stands for, when `Update` keeps its entry: the
value is a string `v` and `<` + `v` + `>` is a literal. -/
def literalOf : JsonValue → Option Hash
  | JsonValue.str v => GetHashIfLiteral ('<' :: v ++ ['>'])
  | _ => none

/-- The manifest is in key order, each key once. -/
@[reducible]
def manifestSorted (m : List (List Char × Hash)) : Prop :=
  m.Pairwise (fun a b => strLt a.1 b.1 = true)

/-- The manifest text of the example: an object whose key Ball has the
string value `<0004a3f1>` and whose key Floor has the string value
`not-a-literal`. -/
def ballManifestText : List Char :=
  [Char.ofNat 123, dquote] ++ "Ball".toList ++ [dquote] ++ ": ".toList ++ [dquote] ++
    "<0004a3f1>".toList ++ [dquote] ++ ", ".toList ++ [dquote] ++ "Floor".toList ++ [dquote] ++
    ": ".toList ++ [dquote] ++ "not-a-literal".toList ++ [dquote, Char.ofNat 125]

/-- The same manifest text with the value of Ball written without brackets,
`0004a3f1`. -/
def ballHexManifestText : List Char :=
  [Char.ofNat 123, dquote] ++ "Ball".toList ++ [dquote] ++ ": ".toList ++ [dquote] ++
    "0004a3f1".toList ++ [dquote] ++ ", ".toList ++ [dquote] ++ "Floor".toList ++ [dquote] ++
    ": ".toList ++ [dquote] ++ "not-a-literal".toList ++ [dquote, Char.ofNat 125]

/-- What `picojson::parse` makes of the two manifest texts above. -/
def parseBall : List Char → JsonValue := fun text =>
  if text = ballManifestText then
    JsonValue.object [("Ball".toList, JsonValue.str "<0004a3f1>".toList),
      ("Floor".toList, JsonValue.str "not-a-literal".toList)]
  else if text = ballHexManifestText then
    JsonValue.object [("Ball".toList, JsonValue.str "0004a3f1".toList),
      ("Floor".toList, JsonValue.str "not-a-literal".toList)]
  else JsonValue.other

/-- A new manifest, the spec's example, with the selection unchanged. -/
def arbBall : CryptomatteArbitraryData :=
  { layer := [], manifest_hash := 1, selection_hash := 0, manifest := ballManifestText,
    selection := [] }

/-- A new manifest whose values are bare hex digits, with the selection
unchanged. -/
def arbBallHex : CryptomatteArbitraryData :=
  { layer := [], manifest_hash := 1, selection_hash := 0, manifest := ballHexManifestText,
    selection := [] }

/-- The test `ItemForHash` applies to a de-quoted selection token: its
literal value is the hash, or its name hashes to it. -/
def tokenMatches (murmur : List Char → Nat → Nat → Nat) (hash : Hash) (val : List Char) :
    Bool :=
  decide (GetHashIfLiteral val = some hash) || decide (HashName murmur val = hash)

/-- A context whose manifest gives Ball the hash 0, with no selection. -/
def ballZeroContext : CryptomatteContext :=
  { freshContext with manifest := [("Ball".toList, 0)] }

/-- A context whose selection names the literal `<00000005>` while the
manifest gives Ball and Cube the hash 5 and Ape the hash 7. -/
def precedenceContext : CryptomatteContext :=
  { freshContext with
    manifest := [("Ape".toList, 7), ("Ball".toList, 5), ("Cube".toList, 5)],
    selection := "foo <00000005>".toList }

/-- A context whose selection is the one name `foo` and whose manifest gives
Ball the hash 5. -/
def fooContext : CryptomatteContext :=
  { freshContext with manifest := [("Ball".toList, 5)], selection := "foo".toList }

/-- A pixel as `GetSelectionColor` writes it for the levels of
`witnessBuffer`. -/
def witnessColor : PF_PixelFloat32 :=
  { alpha := f32One, red := 0x42f60000, green := 0, blue := 0x42f80000 }

/-- The state `Update` leaves a fresh context in on the selection of
`arbOpenQuote`. -/
def openQuoteContext : CryptomatteContext :=
  { freshContext with selectionHash := 1, selection := arbOpenQuote.selection }

/-- An output row of `GetSelectionColor` whose pixels are all zero. -/
def blankColorRow : Nat → PF_PixelFloat32 := fun _ => ⟨0, 0, 0, 0⟩

/-- The four bytes of a 32-bit object as they lie in memory, the least
significant first. -/
def bytesOf32 (v : Nat) : List Nat :=
  [v % 256, v / 2 ^ 8 % 256, v / 2 ^ 16 % 256, v / 2 ^ 24 % 256]

/-- The 32-bit object whose four bytes in memory are `b`. -/
def ofBytes32 (b : List Nat) : Nat :=
  b.getD 0 0 + 2 ^ 8 * b.getD 1 0 + 2 ^ 16 * b.getD 2 0 + 2 ^ 24 * b.getD 3 0

/-- Library call `memcpy(&result, &value, 4)` between two 32-bit objects: `result`
gets the four bytes of `value`. -/
def memcpy4 (value : Nat) : Nat := ofBytes32 (bytesOf32 value)

/-- The decimal number `k` below 100 written with two digits. -/
def twoDigits (k : Nat) : List Char := [Nat.digitChar (k / 10), Nat.digitChar (k % 10)]

/-- The whole `CryptomatteContext` object: the members `Update` reads or
writes and the level buffer behind `_buffer` (`none` for `NULL`). -/
structure CryptomatteSession where
  ctx : CryptomatteContext
  buffer : Option CryptomatteBuffer

/-- Source function `CryptomatteContext::Update(arb)` on the whole object: no statement of
it names `_buffer`. -/
def UpdateSession (murmur : List Char → Nat → Nat → Nat) (parse : List Char → JsonValue)
    (s : CryptomatteSession) (arb : CryptomatteArbitraryData) : Option CryptomatteSession :=
  match Update murmur parse s.ctx arb with
  | none => none
  | some ctx => some { s with ctx := ctx }

/-- A context that holds a manifest, a selection and its set, with the
fingerprints 1 and 1. -/
def cachedContext : CryptomatteContext :=
  { layer := "L".toList, manifestHash := 1, manifest := [("Ball".toList, 5)],
    selectionHash := 1, selection := "Ball".toList, float_selection := [5] }

/-- New manifest and selection texts under the fingerprints 1 and 1. -/
def arbSameHashes : CryptomatteArbitraryData :=
  { layer := "L".toList, manifest_hash := 1, selection_hash := 1,
    manifest := ballHexManifestText, selection := "Cube".toList }

/-! ## The colour view -/

/-- Library call `fabsf` on a float pattern: the sign bit is cleared. -/
def fabsf (v : FloatHash) : FloatHash := v % 2 ^ 31

/-- Library call `frexpf(v, &exp)` on the pattern of a non-negative finite float, the
exponent being discarded: the mantissa in `[1/2, 1)`, or 0 for the float 0.
For an infinity or a NaN the library returns its argument, which a rational
number does not hold: the colours of this model are those of finite hash
floats. -/
def frexpf (v : FloatHash) : ℚ :=
  if f32Exponent v = 0 then
    if f32Fraction v = 0 then 0
    else (f32Fraction v : ℚ) / 2 ^ ((List.range 24).filter (fun k => 2 ^ k ≤ f32Fraction v)).length
  else (2 ^ 23 + (f32Fraction v : ℚ)) / 2 ^ 24

/-- Library call `fmodf(x, y)` in exact arithmetic, for `y` other than 0: `x` less the
multiple of `y` by the quotient cut towards zero. -/
def fmodf (x y : ℚ) : ℚ :=
  x - y * (if 0 ≤ x / y then ((⌊x / y⌋ : ℤ) : ℚ) else ((⌈x / y⌉ : ℤ) : ℚ))

/-- The `for(int i=0; i < numLevels; i++)` loop of `GetColor`, with
`n = numLevels - i` rounds left: the running coverage, the pixel at `pix` and
the level pointer after the loop. -/
def colorLoop (sel : List FloatHash) (buf : Nat → Level) :
    Nat → Nat → ℚ → PF_PixelFloat → ℚ × PF_PixelFloat × Nat
  | 0, level, coverage, p => (coverage, p, level)
  | n + 1, level, coverage, p =>
    if (buf level).coverage = 0 then
      (coverage, p, level + (n + 1))
    else
      colorLoop sel buf n (level + 1)
        (if setCount sel (buf level).hash ≠ 0 then coverage + (buf level).coverage
         else coverage)
        { p with
          red := p.red + (buf level).coverage *
            fmodf (frexpf (fabsf (buf level).hash) * 1) (1 / 4)
          green := p.green + (buf level).coverage *
            fmodf (frexpf (fabsf (buf level).hash) * 4) (1 / 4)
          blue := p.blue + (buf level).coverage *
            fmodf (frexpf (fabsf (buf level).hash) * 16) (1 / 4) }

/-- The statements of `GetColor` after the level loop: the blend towards
white by the selected coverage, then alpha. -/
def colorFinish (matted : Bool) (coverage : ℚ) (p : PF_PixelFloat) : PF_PixelFloat :=
  let p1 :=
    if coverage > 0 then
      { p with
        red := p.red + coverage * (1 - p.red)
        green := p.green + coverage * (1 - p.green)
        blue := p.blue + coverage * (1 - p.blue) }
    else p
  { p1 with alpha := if matted = true then coverage else 1 }

/-- The `while(len--)` loop of `GetColor`: `pix` is the pixel pointer into
`row`, `level` the level pointer. -/
def colorRow (sel : List FloatHash) (buf : Nat → Level) (numLevels : Nat) (matted : Bool) :
    Nat → Nat → Nat → (Nat → PF_PixelFloat) → (Nat → PF_PixelFloat)
  | 0, _, _, row => row
  | len + 1, pix, level, row =>
    let r := colorLoop sel buf numLevels level 0 ⟨0, 0, 0, 0⟩
    colorRow sel buf numLevels matted len (pix + 1) r.2.2
      (Function.update row pix (colorFinish matted r.1 r.2.1))

/-- Source function `CryptomatteContext::GetColor(row, len, x, y, matted)`. -/
def GetColor (sel : List FloatHash) (b : CryptomatteBuffer) (row : Nat → PF_PixelFloat)
    (len x y : Nat) (matted : Bool) : Nat → PF_PixelFloat :=
  colorRow sel b.buf b.numLevels matted len 0 (GetLevelGroup b x y) row

/-- The levels of a pixel up to and including its first level of coverage
exactly 0. -/
def uptoFirstZero : List Level → List Level
  | [] => []
  | l :: rest => if l.coverage = 0 then [l] else l :: uptoFirstZero rest

/-- The level loop of `GetColor` on the list of the levels of a pixel: the
coverage and the pixel after the loop. -/
def colorOfLevels (sel : List FloatHash) : List Level → ℚ → PF_PixelFloat → ℚ × PF_PixelFloat
  | [], coverage, p => (coverage, p)
  | l :: rest, coverage, p =>
    if l.coverage = 0 then (coverage, p)
    else
      colorOfLevels sel rest
        (if setCount sel l.hash ≠ 0 then coverage + l.coverage else coverage)
        { p with
          red := p.red + l.coverage * fmodf (frexpf (fabsf l.hash) * 1) (1 / 4)
          green := p.green + l.coverage * fmodf (frexpf (fabsf l.hash) * 4) (1 / 4)
          blue := p.blue + l.coverage * fmodf (frexpf (fabsf l.hash) * 16) (1 / 4) }

/-- The pixel `GetColor` writes for a pixel of the given levels. -/
def pixelColor (sel : List FloatHash) (matted : Bool) (levels : List Level) : PF_PixelFloat :=
  colorFinish matted (colorOfLevels sel levels 0 ⟨0, 0, 0, 0⟩).1
    (colorOfLevels sel levels 0 ⟨0, 0, 0, 0⟩).2

/-- The loop of `GetItems` on the list of the levels of a pixel. -/
def itemsOfLevels (murmur : List Char → Nat → Nat → Nat) (ctx : CryptomatteContext) :
    List Level → List (List Char) → Option (Except String (List (List Char)))
  | [], items => some (Except.ok items)
  | l :: rest, items =>
    if l.coverage > 0 then
      if FloatHashToHash l.hash > 0 then
        match insertItem murmur ctx items (FloatHashToHash l.hash) with
        | none => none
        | some (Except.error what) => some (Except.error what)
        | some (Except.ok items1) => itemsOfLevels murmur ctx rest items1
      else itemsOfLevels murmur ctx rest items
    else some (Except.ok items)

/-- A buffer of one pixel and two levels, the first of coverage 0, the second
holding the float 124.0. -/
def zeroFirstBuffer : CryptomatteBuffer where
  buf := fun i => [(⟨0x42f60000, 0⟩ : Level), ⟨0x42f80000, 0⟩].getD i ⟨0, 0⟩
  width := 1
  height := 1
  numLevels := 2

/-- The same buffer with the float 128.0 in the second level. -/
def zeroFirstBuffer2 : CryptomatteBuffer where
  buf := fun i => [(⟨0x42f60000, 0⟩ : Level), ⟨0x43000000, 0⟩].getD i ⟨0, 0⟩
  width := 1
  height := 1
  numLevels := 2

/-- The buffer `witnessBuffer` with other levels after its level of
coverage 0: a fourth level, and a hash in the third. -/
def witnessBuffer2 : CryptomatteBuffer where
  buf := fun i =>
    [(⟨0x42f60000, 6 / 10⟩ : Level), ⟨0x42f80000, 4 / 10⟩, ⟨0, 0⟩, ⟨0x43000000, 1 / 2⟩].getD i
      ⟨0x43000000, 1 / 2⟩
  width := 1
  height := 1
  numLevels := 4

/-- A host with the 4-component channel `quadChunk`, reference 0, and four
1-component channels, references 1 to 4, that hold the components R, G, B, A
of `quadChunk` pixel by pixel (rows 8 bytes apart): the pairs (H0, C0) =
(R, G) and (H1, C1) = (B, A). -/
def checkoutQuadAndPairs : Nat → Option (PF_ChannelChunk Nat) := fun ref =>
  if ref = 0 then some quadChunk
  else if ref ≤ 4 then
    some { dataPV := fun o => 100 + 4 * o + 4 * (ref % 4), widthL := 2, heightL := 2,
           dimensionL := 1, row_bytesL := 8 }
  else none

/-- The suffix is one of the three names of the red channel that the layer
search of `LoadLevels` knows. -/
def isRedSuffix (suf : List Char) : Prop :=
  suf = "R".toList ∨ suf = "r".toList ∨ suf = "red".toList

/-- The channel is an eligible 1-component float channel named `Q00.` + a red
suffix, with a prefix `Q` of at least two characters. -/
def namesLayerZero (e : ChannelEntry) : Prop :=
  eligible e 1 = true ∧
    ∃ Q suf, 2 ≤ Q.length ∧ isRedSuffix suf ∧ e.channelDesc.name = Q ++ "00.".toList ++ suf

/-- The channels `crypto00.argb` (4 components), `crypto00.red` and
`other00.R`, as a host may enumerate them. -/
def layerSearchChannels : List ChannelEntry :=
  [floatChannel 0 "crypto00.argb".toList 4, floatChannel 1 "crypto00.red".toList 1,
    floatChannel 2 "other00.R".toList 1]

/-- What `searchReplace` returns, read from left to right: every occurrence
of `search` found by the scan (each search starts after the occurrence
before it) is replaced; `skip` counts the characters of an occurrence still
to be passed over. -/
def replaceSkip (search replace : List Char) : Nat → List Char → List Char
  | _, [] => []
  | skip + 1, _ :: r => replaceSkip search replace skip r
  | 0, c :: r =>
    if search.isPrefixOf (c :: r) = true then
      replace ++ replaceSkip search replace (search.length - 1) r
    else c :: replaceSkip search replace 0 r

/-- The text between the quotes of `enQuote(s)`: every double quote of `s`
has a backslash put in front of it. -/
def escapeQuotes (s : List Char) : List Char :=
  s.flatMap (fun c => if c = dquote then [backslash, dquote] else [c])

/-- A context whose selection is the one quoted name `My Name`, written with
its double quotes. -/
def quotedNameContext : CryptomatteContext :=
  { freshContext with selection := [dquote] ++ "My Name".toList ++ [dquote] }

/-- A buffer of one line of two pixels and two levels: the first pixel stops
at once (its first level has coverage 0), the second holds the float 124.0
with coverage 1. -/
def twoPixelBuffer : CryptomatteBuffer where
  buf := fun i =>
    [(⟨0x42f60000, 0⟩ : Level), ⟨0x42f80000, 1 / 2⟩, ⟨0x42f80000, 1⟩, ⟨0x42f60000, 0⟩].getD i
      ⟨0, 0⟩
  width := 2
  height := 1
  numLevels := 2

/-- A buffer of one pixel whose two levels hold the floats 123.0 and 124.0
with the coverages 0.6 and 0.4. -/
def normalBuffer : CryptomatteBuffer where
  buf := fun i => [(⟨0x42f60000, 6 / 10⟩ : Level), ⟨0x42f80000, 4 / 10⟩].getD i ⟨0x42f60000, 0⟩
  width := 1
  height := 1
  numLevels := 2

/-- The selection set `Update` computes from a selection text and a manifest:
empty for an empty text or a text that does not tokenize, else the set of the
hashes its tokens resolve to. `none` when a loop runs out of fuel. -/
def selectionSetOf (murmur : List Char → Nat → Nat → Nat) (manifest : List (List Char × Hash))
    (selection : List Char) : Option (List FloatHash) :=
  if selection.isEmpty = false then
    match quotedTokenize selection commaSpace with
    | none => none
    | some (Except.error _) => some []
    | some (Except.ok tokens) => resolveTokens murmur manifest tokens []
  else some []

/-- The selection `foo` under a new selection fingerprint, the manifest
fingerprint being the one of a fresh context. -/
def arbSelectFoo : CryptomatteArbitraryData :=
  { layer := [], manifest_hash := 0, selection_hash := 1, manifest := [],
    selection := "foo".toList }

/-- The same selection and selection fingerprint with a new manifest
fingerprint. -/
def arbNewManifest : CryptomatteArbitraryData :=
  { layer := [], manifest_hash := 1, selection_hash := 1, manifest := [],
    selection := "foo".toList }

/-- The channel can still be taken by the 4-channel scan when the level
count is `n`: it is an eligible 4-component channel with the name of a level
count `m ≥ n` in some style. -/
def quadPending (layer : List Char) (n : Nat) (e : ChannelEntry) : Prop :=
  eligible e 4 = true ∧
    ∃ s m, n ≤ m ∧ e.channelDesc.name = CalculateNext4Name layer s m

/-- The channels are eligible 4-component channels of the host, named, one
after the other, for the level counts `n`, `n + 2`, ... (each in some
style). -/
def quadRun (layer : List Char) (channels : List ChannelEntry) :
    Nat → List ChannelEntry → Prop
  | _, [] => True
  | n, e :: rest =>
    e ∈ channels ∧ eligible e 4 = true ∧
      (∃ s, e.channelDesc.name = CalculateNext4Name layer s n) ∧
      quadRun layer channels (n + 2) rest

/-- The channel can still be taken by the pair scan when the level count is
`n`: it is an eligible 1-component channel with the hash or the coverage name
of a level count `m ≥ n` in some style. -/
def pairPending (layer : List Char) (n : Nat) (e : ChannelEntry) : Prop :=
  eligible e 1 = true ∧
    ∃ s m, n ≤ m ∧ (e.channelDesc.name = (CalculateNextNames layer s m).1 ∨
      e.channelDesc.name = (CalculateNextNames layer s m).2)

/-- The pairs are a hash and a coverage channel of the host, eligible
1-component channels with the hash and the coverage name of the level counts
`n`, `n + 1`, ... (each pair in some style). -/
def pairRun (layer : List Char) (channels : List ChannelEntry) :
    Nat → List (ChannelEntry × ChannelEntry) → Prop
  | _, [] => True
  | n, p :: rest =>
    p.1 ∈ channels ∧ p.2 ∈ channels ∧ eligible p.1 1 = true ∧ eligible p.2 1 = true ∧
      (∃ s, p.1.channelDesc.name = (CalculateNextNames layer s n).1 ∧
        p.2.channelDesc.name = (CalculateNextNames layer s n).2) ∧
      pairRun layer channels (n + 1) rest

/-- The state of the pair scan is sound: the two names are those of the
level count, a found flag is set only for a channel of the host with the
expected name, whose reference is held, and the two flags are never both set
between two rounds. -/
def pairInv (layer : List Char) (channels : List ChannelEntry) (s : NamingStyle)
    (st : PairState) : Prop :=
  st.nextHashName = (CalculateNextNames layer s st.numLevels).1 ∧
  st.nextCoverageName = (CalculateNextNames layer s st.numLevels).2 ∧
  (st.foundHash = true → ∃ e ∈ channels, eligible e 1 = true ∧
    e.channelDesc.name = st.nextHashName ∧ e.channelRef = st.hash) ∧
  (st.foundCoverage = true → ∃ e ∈ channels, eligible e 1 = true ∧
    e.channelDesc.name = st.nextCoverageName ∧ e.channelRef = st.coverage) ∧
  ¬ (st.foundHash = true ∧ st.foundCoverage = true)

/-- The references of a list of pairs, hash before coverage. -/
def pairRefs (pairs : List (ChannelEntry × ChannelEntry)) : List Nat :=
  pairs.flatMap (fun p => [p.1.channelRef, p.2.channelRef])
/-- The stores of `quadLoop`, in program order: the byte offset in the
buffer and the float stored there. -/
def quadLoopWrites {α : Type} (origin : Nat → α) (inStep outStep : Nat) :
    Nat → Nat → Nat → List (Nat × α)
  | 0, _, _ => []
  | n + 1, inp, out =>
    [(out + 0, origin (inp + 4)), (out + 4, origin (inp + 8)), (out + 8, origin (inp + 12)),
      (out + 12, origin (inp + 0))] ++
      quadLoopWrites origin inStep outStep n (inp + 4 * inStep) (out + 4 * outStep)

/-- The stores of `singleLoop`, in program order. -/
def singleLoopWrites {α : Type} (origin : Nat → α) (inStep outStep : Nat) :
    Nat → Nat → Nat → List (Nat × α)
  | 0, _, _ => []
  | n + 1, inp, out =>
    (out, origin inp) ::
      singleLoopWrites origin inStep outStep n (inp + 4 * inStep) (out + 4 * outStep)

/-- The stores of `CryptomatteBuffer_Iterate` on row `i`. -/
def CryptomatteBuffer_IterateWrites {α : Type} (i_data : CryptomatteBufferIterateData α)
    (i : Nat) : List (Nat × α) :=
  let rowbytes := 4 * 2 * i_data.numLevels * i_data.width
  let inp := i * i_data.yStride
  let out := i_data.buf + i * rowbytes
  if i_data.dimension = 4 then
    quadLoopWrites i_data.origin (i_data.xStride / 4) (i_data.numLevels * 2) i_data.width inp out
  else
    singleLoopWrites i_data.origin (i_data.xStride / 4) (i_data.numLevels * 2) i_data.width inp
      out

/-- The stores of `iterate_generic`: those of the callback, row after row. -/
def iterate_genericWrites {α : Type} (iterationsL : Nat) (fn : Nat → List (Nat × α)) :
    List (Nat × α) :=
  (List.range iterationsL).flatMap fn

/-- The stores of `buildQuad`. -/
def buildQuadWrites {α : Type} (numLevels : Nat) (chunk : PF_ChannelChunk α)
    (st : BuildState α) : List (Nat × α) :=
  iterate_genericWrites st.height
    (CryptomatteBuffer_IterateWrites
      { buf := st.levelNum * 8, dimension := 4, numLevels := numLevels,
        origin := chunk.dataPV, width := st.width, xStride := 4 * 4,
        yStride := chunk.row_bytesL })

/-- The stores of `buildSingle`: the hash pass, then the coverage pass when
the coverage channel checks out. -/
def buildSingleWrites {α : Type} (numLevels : Nat) (chunk : PF_ChannelChunk α)
    (coverageChunk : Option (PF_ChannelChunk α)) (st : BuildState α) : List (Nat × α) :=
  iterate_genericWrites st.height
    (CryptomatteBuffer_IterateWrites
      { buf := st.levelNum * 8, dimension := 1, numLevels := numLevels,
        origin := chunk.dataPV, width := st.width, xStride := 4,
        yStride := chunk.row_bytesL }) ++
  match coverageChunk with
  | some _ =>
    iterate_genericWrites st.height
      (CryptomatteBuffer_IterateWrites
        { buf := st.levelNum * 8 + 4, dimension := 1, numLevels := numLevels,
          origin := chunk.dataPV, width := st.width, xStride := 4,
          yStride := chunk.row_bytesL })
  | none => []

/-- The stores of `buildChannels`, in program order; none when the allocation
fails, which is before the first store. -/
def buildChannelsWrites {α : Type} (checkout : Nat → Option (PF_ChannelChunk α))
    (mallocOk : Nat → Bool) (numLevels : Nat) :
    List Nat → BuildState α → List (Nat × α)
  | [], _ => []
  | channelRef :: rest, st =>
    match checkout channelRef with
    | none => buildChannelsWrites checkout mallocOk numLevels rest st
    | some chunk =>
      match allocate mallocOk numLevels chunk st with
      | Except.error _ => []
      | Except.ok st1 =>
        if chunk.dimensionL = 4 then
          buildQuadWrites numLevels chunk st1 ++
            buildChannelsWrites checkout mallocOk numLevels rest (buildQuad numLevels chunk st1)
        else
          match rest with
          | [] => buildSingleWrites numLevels chunk none st1
          | coverageChannelRef :: rest2 =>
            buildSingleWrites numLevels chunk (checkout coverageChannelRef) st1 ++
              buildChannelsWrites checkout mallocOk numLevels rest2
                (buildSingle numLevels chunk (checkout coverageChannelRef) st1)

/-- The stores of the constructor `CryptomatteBuffer::CryptomatteBuffer`. -/
def CryptomatteBuffer_newWrites {α : Type} (checkout : Nat → Option (PF_ChannelChunk α))
    (mallocOk : Nat → Bool) (garbage : Nat → α) (channelRefs : List Nat) (numLevels : Nat) :
    List (Nat × α) :=
  buildChannelsWrites checkout mallocOk numLevels channelRefs
    { allocated := false, buf := garbage, width := 0, height := 0, levelNum := 0 }

/-- The memory after a list of stores. -/
def applyWrites {α : Type} (writes : List (Nat × α)) (mem : Nat → α) : Nat → α :=
  writes.foldl (fun m w => Function.update m w.1 w.2) mem
/-- The byte offsets of the components `levels` (level and component) of the
level slots of every pixel of a `width` x `height` buffer, row after row and
pixel after pixel. -/
def slotGrid (width height numLevels : Nat) (levels : List (Nat × Nat)) : List Nat :=
  (List.range height).flatMap (fun y =>
    (List.range width).flatMap (fun x =>
      levels.map (fun kc => slotOffset width numLevels x y kc.1 kc.2)))
/-- The byte offset `a` is that of a component (hash or coverage) of a level
`k` with `lo ≤ k < hi` of a pixel of the `width` x `height` buffer. -/
def levelSlots (width height numLevels lo hi : Nat) (a : Nat) : Prop :=
  ∃ x y k c, x < width ∧ y < height ∧ lo ≤ k ∧ k < hi ∧ c < 2 ∧
    a = slotOffset width numLevels x y k c
/-- The channels of a list of pairs, hash before coverage. -/
def pairEntries (pairs : List (ChannelEntry × ChannelEntry)) : List ChannelEntry :=
  pairs.flatMap (fun p => [p.1, p.2])

/-- A host with the 4-component channel `crypto00.argb`, which holds the
levels 0 and 1, and the two 1-component channels of level 2, `crypto01.R` and
`crypto01.G`; the references are those of `checkoutQuadAndPairs`. The
coverage channel comes before the hash channel. -/
def mixedChannels : List ChannelEntry :=
  [floatChannel 2 "crypto01.G".toList 1, floatChannel 0 "crypto00.argb".toList 4,
    floatChannel 1 "crypto01.R".toList 1]
/-- The indices of the channels at which `scanFour` finds a match, in the
order of the matches. -/
def scanFourMatches (layer : List Char) (channels : List ChannelEntry) (s : NamingStyle) :
    Nat → Nat → Nat → List Char → List Nat
  | 0, _, _, _ => []
  | fuel + 1, i, numLevels, nextFourName =>
    match channels[i]? with
    | none => []
    | some e =>
      if eligible e 4 = true ∧ e.channelDesc.name = nextFourName then
        i :: scanFourMatches layer channels s fuel (0 + 1) (numLevels + 2)
          (CalculateNext4Name layer s (numLevels + 2))
      else
        scanFourMatches layer channels s fuel (i + 1) numLevels nextFourName

/-- The indices of the channels at which `scanPairs` finds a match (a hash or
a coverage channel of the expected name), in the order of the matches. -/
def scanPairsMatches (layer : List Char) (channels : List ChannelEntry) (s : NamingStyle) :
    Nat → Nat → PairState → List Nat
  | 0, _, _ => []
  | fuel + 1, i, st =>
    match channels[i]? with
    | none => []
    | some e =>
      (if eligible e 1 = true ∧
          (e.channelDesc.name = st.nextHashName ∨ e.channelDesc.name = st.nextCoverageName)
        then [i] else []) ++
      (if (pairStep layer s e st).2 = true then
        scanPairsMatches layer channels s fuel (0 + 1) (pairStep layer s e st).1
      else scanPairsMatches layer channels s fuel (i + 1) (pairStep layer s e st).1)

/-- The matches of the first outer loop of `LoadLevels`, style after style. -/
def scanFourStylesMatches (layer : List Char) (channels : List ChannelEntry) :
    List NamingStyle → Nat → List Nat → List Nat
  | [], _, _ => []
  | s :: rest, numLevels, channelRefs =>
    scanFourMatches layer channels s (scanFuel channels) 0 numLevels
        (CalculateNext4Name layer s numLevels) ++
    match scanFour layer channels s (scanFuel channels) 0 numLevels channelRefs
        (CalculateNext4Name layer s numLevels) with
    | none => []
    | some r => scanFourStylesMatches layer channels rest r.1 r.2

/-- The matches of the second outer loop of `LoadLevels`, style after style. -/
def scanPairsStylesMatches (layer : List Char) (channels : List ChannelEntry) :
    List NamingStyle → Nat → List Nat → List Nat
  | [], _, _ => []
  | s :: rest, numLevels, channelRefs =>
    scanPairsMatches layer channels s (scanFuel channels) 0
        { numLevels := numLevels, channelRefs := channelRefs,
          nextHashName := (CalculateNextNames layer s numLevels).1,
          nextCoverageName := (CalculateNextNames layer s numLevels).2,
          hash := 0, coverage := 0, foundHash := false, foundCoverage := false } ++
    match scanPairs layer channels s (scanFuel channels) 0
        { numLevels := numLevels, channelRefs := channelRefs,
          nextHashName := (CalculateNextNames layer s numLevels).1,
          nextCoverageName := (CalculateNextNames layer s numLevels).2,
          hash := 0, coverage := 0, foundHash := false, foundCoverage := false } with
    | none => []
    | some st => scanPairsStylesMatches layer channels rest st.numLevels st.channelRefs

/-- The indices of the channels at which the two discovery loops of
`LoadLevels` find a match, in the order of the matches. -/
def LoadLevelsMatches (layer0 : List Char) (channels : List ChannelEntry) : List Nat :=
  let layer := if layer0.isEmpty = true ∧ channels.length > 0 then discoverLayer channels layer0
    else layer0
  if layer.isEmpty = false ∧ channels.length > 0 then
    scanFourStylesMatches layer channels namingStyles 0 [] ++
    match scanFourStyles layer channels namingStyles 0 [] with
    | none => []
    | some r => scanPairsStylesMatches layer channels namingStyles r.1 r.2
  else []

/-! ## Theorems -/

theorem exponent_toggle (h : Nat) :
    (h ^^^ (1 <<< 23)) >>> 23 &&& 255 = (h >>> 23 &&& 255) ^^^ 1 := by
  have hs : (h ^^^ (1 <<< 23)) >>> 23 = h >>> 23 ^^^ 1 := by
    apply Nat.eq_of_testBit_eq
    intro i
    simp only [Nat.testBit_shiftRight, Nat.testBit_xor]
    congr 1
    rw [show (1 <<< 23 : Nat) = 2 ^ 23 from rfl, Nat.testBit_two_pow]
    cases i with
    | zero => rfl
    | succ j =>
      have h1 : Nat.testBit 1 (j + 1) = false := by
        rw [show (1 : Nat) = 2 ^ 0 from rfl, Nat.testBit_two_pow]; simp
      rw [h1]; simp
  rw [hs, Nat.and_xor_distrib_right]
  rfl

theorem toggle_lt (h : Nat) (hh : h < 2 ^ 32) : h ^^^ (1 <<< 23) < 2 ^ 32 :=
  Nat.xor_lt_two_pow hh (by decide)

theorem HashName_lt (m : List Char → Nat → Nat → Nat) (n : List Char) :
    HashName m n < 2 ^ 32 := by
  unfold HashName
  have hlt : m n n.length 0 % 2 ^ 32 < 2 ^ 32 := Nat.mod_lt _ (by decide)
  simp only
  split
  · exact toggle_lt _ hlt
  · exact hlt

theorem HashName_field (m : List Char → Nat → Nat → Nat) (n : List Char) :
    HashName m n >>> 23 &&& 255 ≠ 0 ∧ HashName m n >>> 23 &&& 255 ≠ 255 := by
  unfold HashName
  simp only
  split
  · rename_i hc
    rw [exponent_toggle]
    rcases hc with hc | hc <;> rw [hc] <;> decide
  · rename_i hc
    push_neg at hc
    exact hc

theorem shift_and_eq_exponent (b : Nat) : b >>> 23 &&& 255 = f32Exponent b := by
  unfold f32Exponent
  rw [Nat.shiftRight_eq_div_pow]
  exact Nat.and_pow_two_sub_one_eq_mod _ 8

/-- C2: whatever MurmurHash3 returns, the exponent field (bits 23..30) of
`HashName n` is neither 0 nor 255, so the hash read as an IEEE-754 float is not
a NaN, not an infinity, not a subnormal and not a zero, and the hash is not 0. -/
theorem HashName_float_safe (MurmurHash3_x86_32 : List Char → Nat → Nat → Nat)
    (n : List Char) :
    HashName MurmurHash3_x86_32 n < 2 ^ 32 ∧
    HashName MurmurHash3_x86_32 n >>> 23 &&& 255 ≠ 0 ∧
    HashName MurmurHash3_x86_32 n >>> 23 &&& 255 ≠ 255 ∧
    f32IsNaN (HashToFloatHash (HashName MurmurHash3_x86_32 n)) = false ∧
    f32IsInf (HashToFloatHash (HashName MurmurHash3_x86_32 n)) = false ∧
    f32IsSubnormal (HashToFloatHash (HashName MurmurHash3_x86_32 n)) = false ∧
    f32IsZero (HashToFloatHash (HashName MurmurHash3_x86_32 n)) = false ∧
    HashName MurmurHash3_x86_32 n ≠ 0 := by
  obtain ⟨h0, h255⟩ := HashName_field MurmurHash3_x86_32 n
  have e0 : f32Exponent (HashName MurmurHash3_x86_32 n) ≠ 0 := by
    rw [← shift_and_eq_exponent]; exact h0
  have e255 : f32Exponent (HashName MurmurHash3_x86_32 n) ≠ 255 := by
    rw [← shift_and_eq_exponent]; exact h255
  refine ⟨HashName_lt _ _, h0, h255, ?_, ?_, ?_, ?_, ?_⟩
  · simp [f32IsNaN, HashToFloatHash, e255]
  · simp [f32IsInf, HashToFloatHash, e255]
  · simp [f32IsSubnormal, HashToFloatHash, e0]
  · simp [f32IsZero, HashToFloatHash, e0]
  · intro hz
    rw [hz] at h0
    exact h0 (by decide)

/-! ### The coverage matte -/

theorem coverageLoop_eq (sel : List FloatHash) (buf : Nat → Level) (n level : Nat) (c : ℚ) :
    coverageLoop sel buf n level c =
      (c + selectedCoverage sel ((List.range n).map (fun k => buf (level + k))), level + n) := by
  induction n generalizing level c with
  | zero => simp [coverageLoop, selectedCoverage]
  | succ n ih =>
    have hr : (List.range (n + 1)).map (fun k => buf (level + k)) =
        buf level :: (List.range n).map (fun k => buf (level + 1 + k)) := by
      rw [List.range_succ_eq_map, List.map_cons, List.map_map]
      congr 1
      apply List.map_congr_left
      intro k _
      simp only [Function.comp, Nat.add_zero]
      congr 1
      omega
    rw [hr]
    unfold coverageLoop
    by_cases hz : (buf level).coverage = 0
    · simp [hz, selectedCoverage]
    · rw [if_neg hz, ih]
      have hsum : ∀ l : List Level, selectedCoverage sel (buf level :: l) =
          (if setCount sel (buf level).hash ≠ 0 then (buf level).coverage else 0) +
            selectedCoverage sel l := by
        intro l
        by_cases hm : setCount sel (buf level).hash = 0
        · simp [selectedCoverage, hz, hm]
        · simp [selectedCoverage, hz, hm]
      rw [hsum]
      refine Prod.ext ?_ ?_
      · by_cases hm : setCount sel (buf level).hash = 0
        · simp [hm]
        · simp [hm]; ring
      · simp only; omega

theorem coverageRow_below (sel : List FloatHash) (buf : Nat → Level) (numLevels len : Nat) :
    ∀ (pix level : Nat) (row : Nat → PF_PixelFloat) (i : Nat), i < pix →
      coverageRow sel buf numLevels len pix level row i = row i := by
  induction len with
  | zero => intro pix level row i _; rfl
  | succ len ih =>
    intro pix level row i hi
    unfold coverageRow
    simp only
    rw [ih (pix + 1) _ _ i (by omega), Function.update_noteq (by omega)]

theorem coverageRow_alpha (sel : List FloatHash) (buf : Nat → Level) (numLevels len : Nat) :
    ∀ (pix level : Nat) (row : Nat → PF_PixelFloat) (j : Nat), j < len →
      (coverageRow sel buf numLevels len pix level row (pix + j)).alpha =
        selectedCoverage sel
          ((List.range numLevels).map (fun k => buf (level + j * numLevels + k))) := by
  induction len with
  | zero => intro pix level row j hj; omega
  | succ len ih =>
    intro pix level row j hj
    unfold coverageRow
    simp only
    rw [coverageLoop_eq]
    cases j with
    | zero =>
      simp only [Nat.add_zero, Nat.zero_mul]
      rw [coverageRow_below _ _ _ _ _ _ _ _ (by omega), Function.update_same]
      simp
    | succ j =>
      rw [show pix + (j + 1) = pix + 1 + j by omega, ih (pix + 1) _ _ j (by omega)]
      congr 2
      funext k
      congr 1
      rw [Nat.add_mul]
      omega

theorem GetCoverage_pixel (sel : List FloatHash) (b : CryptomatteBuffer)
    (row : Nat → PF_PixelFloat) (len x y j : Nat) (hj : j < len) :
    (GetCoverage sel b row len x y j).alpha = selectedCoverage sel (pixelLevels b (x + j) y) := by
  have h := coverageRow_alpha sel b.buf b.numLevels len 0 (GetLevelGroup b x y) row j hj
  rw [Nat.zero_add] at h
  unfold GetCoverage pixelLevels
  rw [h]
  congr 2
  funext k
  congr 1
  unfold GetLevelGroup
  ring

/-- C1: for every output pixel `j` of the row, `GetCoverage` writes in alpha
the sum of the coverages of those levels of buffer pixel `(x + j, y)` that come
before the first level of coverage exactly 0 (all `numLevels` levels when there
is none) and whose hash is in the selection set; on the levels
`(h1, 0.6), (h2, 0.4), (0, 0)` that is 0.6 for `{h1}`, 1 for `{h1, h2}` and 0
for the empty selection. -/
theorem GetCoverage_alpha :
    (∀ (sel : List FloatHash) (b : CryptomatteBuffer) (row : Nat → PF_PixelFloat)
      (len x y j : Nat), j < len →
      (GetCoverage sel b row len x y j).alpha = selectedCoverage sel (pixelLevels b (x + j) y)) ∧
    (GetCoverage [0x42f60000] witnessBuffer blankRow 1 0 0 0).alpha = 6 / 10 ∧
    (GetCoverage [0x42f60000, 0x42f80000] witnessBuffer blankRow 1 0 0 0).alpha = 1 ∧
    (GetCoverage [] witnessBuffer blankRow 1 0 0 0).alpha = 0 := by
  have hgen := GetCoverage_pixel
  have hl : ∀ x, pixelLevels witnessBuffer (0 + x) 0 =
      (List.range 3).map (fun k => witnessBuffer.buf (x * 3 + k)) := by
    intro x
    simp [pixelLevels, GetLevelGroup, witnessBuffer]
  have c11 : setCount [0x42f60000] 0x42f60000 = 1 := by decide
  have c12 : setCount [0x42f60000] 0x42f80000 = 0 := by decide
  have c21 : setCount [0x42f60000, 0x42f80000] 0x42f60000 = 1 := by decide
  have c22 : setCount [0x42f60000, 0x42f80000] 0x42f80000 = 1 := by decide
  have c01 : setCount [] 0x42f60000 = 0 := by decide
  have c02 : setCount [] 0x42f80000 = 0 := by decide
  refine ⟨hgen, ?_, ?_, ?_⟩
  · rw [hgen _ _ _ _ _ _ _ (by decide), hl]
    simp [selectedCoverage, witnessBuffer, List.range_succ, c11, c12]
  · rw [hgen _ _ _ _ _ _ _ (by decide), hl]
    simp [selectedCoverage, witnessBuffer, List.range_succ, c21, c22]
    norm_num
  · rw [hgen _ _ _ _ _ _ _ (by decide), hl]
    simp [selectedCoverage, witnessBuffer, List.range_succ, c01, c02]

/-- Witness of C1 on the one-pixel buffer, selection `{h1}`. -/
theorem GetCoverage_alpha_witness :
    0 < 1 ∧ (GetCoverage [0x42f60000] witnessBuffer blankRow 1 0 0 0).alpha =
      selectedCoverage [0x42f60000] (pixelLevels witnessBuffer (0 + 0) 0) :=
  ⟨by decide, GetCoverage_alpha.1 [0x42f60000] witnessBuffer blankRow 1 0 0 0 (by decide)⟩

/-! ### The tokenizer -/

theorem charAt_eq_getElem (str : List Char) (i : Nat) (h : i < str.length) :
    charAt str i = str[i] := by
  unfold charAt
  exact List.getD_eq_getElem _ _ h

theorem drop_eq_charAt_cons (str : List Char) (i : Nat) (h : i < str.length) :
    str.drop i = charAt str i :: str.drop (i + 1) := by
  rw [charAt_eq_getElem str i h]
  exact List.drop_eq_getElem_cons h

theorem substr_snoc (str : List Char) (lastPos i : Nat) (h1 : lastPos ≤ i)
    (h2 : i < str.length) :
    substr str lastPos (i + 1 - lastPos) = substr str lastPos (i - lastPos) ++ [charAt str i] := by
  unfold substr
  rw [show i + 1 - lastPos = (i - lastPos) + 1 by omega, List.take_succ]
  congr 1
  rw [List.getElem?_drop, show lastPos + (i - lastPos) = i by omega,
    List.getElem?_eq_getElem h2, charAt_eq_getElem str i h2]
  rfl

theorem substr_isEmpty (str : List Char) (lastPos i : Nat) (h1 : lastPos < i)
    (h2 : i ≤ str.length) : (substr str lastPos (i - lastPos)).isEmpty = false := by
  have hlen : (substr str lastPos (i - lastPos)).length = i - lastPos := by
    unfold substr
    rw [List.length_take, List.length_drop]
    omega
  cases hs : substr str lastPos (i - lastPos) with
  | nil => rw [hs] at hlen; simp at hlen; omega
  | cons a l => rfl

theorem substr_self (str : List Char) (i : Nat) : substr str i (i - i) = [] := by
  simp [substr]

theorem substr_to_end (str : List Char) (lastPos : Nat) :
    substr str lastPos (str.length - lastPos) = str.drop lastPos := by
  unfold substr
  apply List.take_of_length_le
  rw [List.length_drop]

theorem quoteMarksBefore_succ (str : List Char) (i : Nat) :
    quoteMarksBefore str (i + 1) =
      quoteMarksBefore str i + (if isQuoteMark str i = true then 1 else 0) := by
  unfold quoteMarksBefore
  rw [List.range_succ, List.filter_append, List.length_append]
  congr 1
  by_cases h : isQuoteMark str i = true
  · simp [h]
  · simp [h]

theorem insideQuotes_succ_mark (str : List Char) (i : Nat) (h : isQuoteMark str i = true) :
    insideQuotes str (i + 1) = !insideQuotes str i := by
  unfold insideQuotes
  rw [quoteMarksBefore_succ, if_pos h]
  rcases Nat.mod_two_eq_zero_or_one (quoteMarksBefore str i) with h0 | h1
  · have : (quoteMarksBefore str i + 1) % 2 = 1 := by omega
    simp [h0, this]
  · have : (quoteMarksBefore str i + 1) % 2 = 0 := by omega
    simp [h1, this]

theorem insideQuotes_succ_plain (str : List Char) (i : Nat) (h : isQuoteMark str i = false) :
    insideQuotes str (i + 1) = insideQuotes str i := by
  unfold insideQuotes
  rw [quoteMarksBefore_succ]
  simp [h]

theorem isQuoteMark_of_delim (str delimiters : List Char)
    (hq : isDelim delimiters dquote = false) (i : Nat)
    (h : isDelim delimiters (charAt str i) = true) : isQuoteMark str i = false := by
  have hne : charAt str i ≠ dquote := by
    intro he
    rw [he, hq] at h
    exact Bool.noConfusion h
  simp [isQuoteMark, hne]

theorem insideQuotes_over_delims (str delimiters : List Char)
    (hq : isDelim delimiters dquote = false) (a : Nat) :
    ∀ n : Nat, (∀ j, a ≤ j → j < a + n → isDelim delimiters (charAt str j) = true) →
      insideQuotes str (a + n) = insideQuotes str a := by
  intro n
  induction n with
  | zero => intro _; rfl
  | succ n ih =>
    intro h
    rw [← Nat.add_assoc, insideQuotes_succ_plain str (a + n)
      (isQuoteMark_of_delim str delimiters hq _ (h _ (by omega) (by omega)))]
    exact ih (fun j h1 h2 => h j h1 (by omega))

theorem skipMore_spec (str delimiters : List Char) :
    ∀ (fuel lp : Nat), lp ≤ str.length → str.length - lp < fuel →
      ∃ r, skipMore str delimiters fuel lp = some r ∧ lp ≤ r ∧ r ≤ str.length ∧
        (∀ j, lp ≤ j → j < r → isDelim delimiters (charAt str j) = true) ∧
        (r < str.length →
          ¬ ((charAt str r ≠ dquote ∨ charAt str (r - 1) ≠ backslash) ∧
            isDelim delimiters (charAt str r) = true)) := by
  intro fuel
  induction fuel with
  | zero => intro lp _ h; omega
  | succ fuel ih =>
    intro lp h1 h2
    unfold skipMore
    split
    · rename_i hc
      obtain ⟨r, hr, ha, hb, hd, he⟩ := ih (lp + 1) (by omega) (by omega)
      refine ⟨r, hr, by omega, hb, ?_, he⟩
      intro j hj1 hj2
      by_cases hj : j = lp
      · rw [hj]; exact hc.2.2
      · exact hd j (by omega) hj2
    · rename_i hc
      refine ⟨lp, rfl, le_refl _, h1, ?_, ?_⟩
      · intro j hj1 hj2; omega
      · intro hlt hcond
        exact hc ⟨hlt, hcond⟩

theorem skipLeading_spec (str delimiters : List Char) :
    ∀ (fuel i : Nat), i ≤ str.length → str.length - i < fuel →
      ∃ r, skipLeading str delimiters fuel i = some r ∧ i ≤ r ∧ r ≤ str.length ∧
        (∀ j, i ≤ j → j < r → isDelim delimiters (charAt str j) = true) ∧
        (r < str.length →
          ¬ (charAt str r ≠ dquote ∧ isDelim delimiters (charAt str r) = true)) := by
  intro fuel
  induction fuel with
  | zero => intro i _ h; omega
  | succ fuel ih =>
    intro i h1 h2
    unfold skipLeading
    split
    · rename_i hc
      obtain ⟨r, hr, ha, hb, hd, he⟩ := ih (i + 1) (by omega) (by omega)
      refine ⟨r, hr, by omega, hb, ?_, he⟩
      intro j hj1 hj2
      by_cases hj : j = i
      · rw [hj]; exact hc.2.2
      · exact hd j (by omega) hj2
    · rename_i hc
      refine ⟨i, rfl, le_refl _, h1, ?_, ?_⟩
      · intro j hj1 hj2; omega
      · intro hlt hcond
        exact hc ⟨hlt, hcond⟩

theorem not_delim_of_exit (delimiters : List Char) (hq : isDelim delimiters dquote = false)
    (c : Char) (h : ¬ (c ≠ dquote ∧ isDelim delimiters c = true)) :
    isDelim delimiters c = false := by
  by_cases hc : c = dquote
  · rw [hc]; exact hq
  · cases hd : isDelim delimiters c with
    | false => rfl
    | true => exact absurd ⟨hc, hd⟩ h

theorem tokensFrom_end (str delimiters : List Char) (cur : List Char) :
    tokensFrom str delimiters str.length cur = if cur.isEmpty then [] else [cur] := by
  unfold tokensFrom
  rw [List.drop_length]
  cases cur <;> simp [piecesFrom]

theorem tokensFrom_cut (str delimiters : List Char) (i : Nat) (cur : List Char)
    (h : i < str.length) (hc : isCut str delimiters i = true) :
    tokensFrom str delimiters i cur =
      (if cur.isEmpty then [] else [cur]) ++ tokensFrom str delimiters (i + 1) [] := by
  unfold tokensFrom
  rw [drop_eq_charAt_cons str i h]
  cases cur <;> simp [piecesFrom, hc]

theorem tokensFrom_keep (str delimiters : List Char) (i : Nat) (cur : List Char)
    (h : i < str.length) (hc : isCut str delimiters i = false) :
    tokensFrom str delimiters i cur =
      tokensFrom str delimiters (i + 1) (cur ++ [charAt str i]) := by
  unfold tokensFrom
  rw [drop_eq_charAt_cons str i h]
  simp [piecesFrom, hc]

theorem tokensFrom_skip (str delimiters : List Char) (a : Nat) :
    ∀ n : Nat, a + n ≤ str.length →
      (∀ j, a ≤ j → j < a + n → isCut str delimiters j = true) →
      tokensFrom str delimiters a [] = tokensFrom str delimiters (a + n) [] := by
  intro n
  induction n with
  | zero => intro _ _; rfl
  | succ n ih =>
    intro h1 h2
    rw [ih (by omega) (fun j ha hb => h2 j ha (by omega)),
      tokensFrom_cut str delimiters (a + n) [] (by omega) (h2 _ (by omega) (by omega))]
    rfl

theorem tokenLoop_spec (str delimiters : List Char) (hq : isDelim delimiters dquote = false) :
    ∀ (fuel i lastPos : Nat) (tokens : List (List Char)),
      lastPos ≤ i → i ≤ str.length → str.length - i < fuel →
      (lastPos = i → i < str.length → isDelim delimiters (charAt str i) = false) →
      ∃ LP TOK, tokenLoop str delimiters fuel i lastPos (insideQuotes str i) tokens =
          some (LP, insideQuotes str str.length, TOK) ∧ LP ≤ str.length ∧
        TOK ++ (if str.length - LP > 0 then [str.drop LP] else []) =
          tokens ++ tokensFrom str delimiters i (substr str lastPos (i - lastPos)) := by
  intro fuel
  induction fuel with
  | zero => intro i lastPos tokens _ _ h; omega
  | succ fuel ih =>
    intro i lastPos tokens h1 h2 h3 h4
    unfold tokenLoop
    by_cases hi : i < str.length
    · rw [if_pos hi]
      by_cases hmark : charAt str i = dquote ∧ (i = 0 ∨ charAt str (i - 1) ≠ backslash)
      · -- a quote that opens or closes a span
        rw [if_pos hmark]
        have hm : isQuoteMark str i = true := by
          unfold isQuoteMark
          rcases hmark with ⟨hm1, hm2 | hm2⟩
          · subst hm2
            simp [hi, hm1]
          · simp [hi, hm1, hm2]
        have hnd : isDelim delimiters (charAt str i) = false := by rw [hmark.1]; exact hq
        have hcut : isCut str delimiters i = false := by simp [isCut, hnd]
        obtain ⟨LP, TOK, e1, e2, e3⟩ := ih (i + 1) lastPos tokens (by omega) (by omega)
          (by omega) (by intro h; omega)
        rw [insideQuotes_succ_mark str i hm] at e1
        refine ⟨LP, TOK, e1, e2, ?_⟩
        rw [e3, tokensFrom_keep str delimiters i _ hi hcut, substr_snoc str lastPos i h1 hi]
      · rw [if_neg hmark]
        have hm : isQuoteMark str i = false := by
          unfold isQuoteMark
          by_cases hd : charAt str i = dquote
          · have hh : ¬ (i = 0 ∨ charAt str (i - 1) ≠ backslash) := fun h => hmark ⟨hd, h⟩
            push_neg at hh
            simp [hd, hh.1, hh.2]
          · simp [hd]
        by_cases hsplit : insideQuotes str i = false ∧ isDelim delimiters (charAt str i) = true
        · -- a delimiter outside the quoted spans
          rw [if_pos hsplit]
          have hcut : isCut str delimiters i = true := by simp [isCut, hsplit.1, hsplit.2]
          have hlt : lastPos < i := by
            rcases Nat.lt_or_ge lastPos i with h | h
            · exact h
            · have := h4 (by omega) hi
              rw [hsplit.2] at this
              exact Bool.noConfusion this
          obtain ⟨lp, hs1, hs2, hs3, hs4, hs5⟩ :=
            skipMore_spec str delimiters (str.length + 1) (i + 1) (by omega) (by omega)
          rw [hs1]
          simp only
          have hinq : insideQuotes str lp = insideQuotes str i := by
            have hx := insideQuotes_over_delims str delimiters hq i (lp - i) (by
              intro j hj1 hj2
              by_cases hj : j = i
              · rw [hj]; exact hsplit.2
              · exact hs4 j (by omega) (by omega))
            rw [show i + (lp - i) = lp by omega] at hx
            exact hx
          obtain ⟨LP, TOK, e1, e2, e3⟩ := ih lp lp
            (tokens ++ [substr str lastPos (i - lastPos)]) (le_refl _) hs3 (by omega)
            (by
              intro _ hl
              apply not_delim_of_exit delimiters hq
              intro hc
              exact hs5 hl ⟨Or.inl hc.1, hc.2⟩)
          rw [hinq] at e1
          refine ⟨LP, TOK, e1, e2, ?_⟩
          rw [e3, substr_self, tokensFrom_cut str delimiters i _ hi hcut,
            substr_isEmpty str lastPos i hlt (by omega)]
          have hskip := tokensFrom_skip str delimiters (i + 1) (lp - (i + 1)) (by omega) (by
            intro j hj1 hj2
            have hdj := hs4 j hj1 (by omega)
            have hqj : insideQuotes str j = insideQuotes str i := by
              have hx := insideQuotes_over_delims str delimiters hq i (j - i) (by
                intro k hk1 hk2
                by_cases hk : k = i
                · rw [hk]; exact hsplit.2
                · exact hs4 k (by omega) (by omega))
              rw [show i + (j - i) = j by omega] at hx
              exact hx
            simp [isCut, hdj, hqj, hsplit.1])
          rw [show i + 1 + (lp - (i + 1)) = lp by omega] at hskip
          rw [hskip]
          simp
        · rw [if_neg hsplit]
          have hcut : isCut str delimiters i = false := by
            unfold isCut
            cases hd : isDelim delimiters (charAt str i) with
            | false => rfl
            | true =>
              cases hin : insideQuotes str i with
              | true => rfl
              | false => exact absurd ⟨hin, hd⟩ hsplit
          obtain ⟨LP, TOK, e1, e2, e3⟩ := ih (i + 1) lastPos tokens (by omega) (by omega)
            (by omega) (by intro h; omega)
          rw [insideQuotes_succ_plain str i hm] at e1
          refine ⟨LP, TOK, e1, e2, ?_⟩
          rw [e3, tokensFrom_keep str delimiters i _ hi hcut, substr_snoc str lastPos i h1 hi]
    · rw [if_neg hi]
      have hie : i = str.length := by omega
      subst hie
      refine ⟨lastPos, tokens, rfl, h1, ?_⟩
      rw [tokensFrom_end, substr_to_end]
      congr 1
      by_cases hl : str.length - lastPos > 0
      · have hne : (str.drop lastPos).isEmpty = false := by
          have := substr_isEmpty str lastPos str.length (by omega) (le_refl _)
          rw [substr_to_end] at this
          exact this
        rw [if_pos hl, hne]
        rfl
      · have he : str.drop lastPos = [] := List.drop_eq_nil_of_le (by omega)
        rw [if_neg hl, he]
        rfl

theorem quotedTokenize_eq (str delimiters : List Char)
    (hq : isDelim delimiters dquote = false) :
    quotedTokenize str delimiters =
      some (if insideQuotes str str.length = true then
          Except.error "Quoted tokenize error."
        else Except.ok (specTokens str delimiters)) := by
  obtain ⟨i0, hs1, _, hs3, hs4, hs5⟩ :=
    skipLeading_spec str delimiters (str.length + 1) 0 (Nat.zero_le _) (by omega)
  have hin : ∀ j, j ≤ i0 → insideQuotes str j = false := by
    intro j hj
    have hx := insideQuotes_over_delims str delimiters hq 0 j (by
      intro k _ hk
      exact hs4 k (Nat.zero_le _) (by omega))
    rw [Nat.zero_add] at hx
    rw [hx]
    rfl
  obtain ⟨LP, TOK, e1, e2, e3⟩ := tokenLoop_spec str delimiters hq (str.length + 1) i0 i0 []
    (le_refl _) hs3 (by omega)
    (fun _ hl => not_delim_of_exit delimiters hq _ (hs5 hl))
  rw [hin i0 (le_refl _)] at e1
  have hspec : specTokens str delimiters = tokensFrom str delimiters i0 [] := by
    have hskip := tokensFrom_skip str delimiters 0 i0 (by omega) (by
      intro j _ hj
      have hdj := hs4 j (Nat.zero_le _) (by omega)
      simp [isCut, hdj, hin j (by omega)])
    rw [Nat.zero_add] at hskip
    rw [← hskip]
    rfl
  rw [substr_self, List.nil_append, ← hspec] at e3
  unfold quotedTokenize
  rw [hs1]
  simp only
  rw [e1]
  simp only
  by_cases hq2 : insideQuotes str str.length = true
  · rw [if_pos hq2, if_pos hq2]
  · rw [if_neg hq2, if_neg hq2]
    by_cases hl : str.length - LP > 0
    · rw [if_pos hl] at e3
      rw [if_pos hl, e3]
    · rw [if_neg hl, List.append_nil] at e3
      rw [if_neg hl, e3]

theorem commaSpace_no_quote : isDelim commaSpace dquote = false := by decide

/-- C7: with the delimiters `", "`, on every string that does not end inside
an open quoted span, `quotedTokenize` returns, in order, exactly the non-empty
pieces of the string cut at every delimiter outside a quoted span (quotes
kept); no token is empty. -/
theorem quotedTokenize_tokens (str : List Char)
    (hclosed : insideQuotes str str.length = false) :
    quotedTokenize str commaSpace = some (Except.ok (specTokens str commaSpace)) ∧
    ∀ t ∈ specTokens str commaSpace, t ≠ [] := by
  constructor
  · rw [quotedTokenize_eq str commaSpace commaSpace_no_quote, hclosed]
    rfl
  · intro t ht
    unfold specTokens at ht
    rw [List.mem_filter] at ht
    intro he
    rw [he] at ht
    exact Bool.noConfusion ht.2

/-- Witness of C7: `foo, "bar, baz", qux` yields `foo`, `"bar, baz"`, `qux`. -/
theorem quotedTokenize_tokens_witness :
    insideQuotes witnessSelection witnessSelection.length = false ∧
    quotedTokenize witnessSelection commaSpace =
      some (Except.ok ["foo".toList, [dquote] ++ "bar, baz".toList ++ [dquote], "qux".toList]) :=
  ⟨by decide, (quotedTokenize_tokens witnessSelection (by decide)).1.trans (by decide)⟩

/-- C8: with the delimiters `", "`, `quotedTokenize` throws its
`CryptomatteException` exactly when the number of double quotes that are at
index 0 or not preceded by a backslash is odd, that is when the string ends
inside an open quoted span; otherwise it returns the tokens. -/
theorem quotedTokenize_throws_iff (str : List Char) :
    ((∃ what, quotedTokenize str commaSpace = some (Except.error what)) ↔
      quoteMarksBefore str str.length % 2 = 1) ∧
    ((∃ tokens, quotedTokenize str commaSpace = some (Except.ok tokens)) ↔
      quoteMarksBefore str str.length % 2 = 0) ∧
    (quoteMarksBefore str str.length % 2 = 1 ↔ insideQuotes str str.length = true) := by
  have hiff : quoteMarksBefore str str.length % 2 = 1 ↔ insideQuotes str str.length = true := by
    unfold insideQuotes
    simp
  have heq := quotedTokenize_eq str commaSpace commaSpace_no_quote
  refine ⟨?_, ?_, hiff⟩
  · rw [hiff]
    constructor
    · rintro ⟨what, hw⟩
      by_contra hn
      rw [heq, if_neg hn] at hw
      cases hw
    · intro hin
      rw [heq, if_pos hin]
      exact ⟨_, rfl⟩
  · have hz : quoteMarksBefore str str.length % 2 = 0 ↔ ¬ insideQuotes str str.length = true := by
      rw [← hiff]; omega
    rw [hz]
    constructor
    · rintro ⟨tokens, hw⟩ hin
      rw [heq, if_pos hin] at hw
      cases hw
    · intro hin
      rw [heq, if_neg hin]
      exact ⟨_, rfl⟩

/-! ### Quoting never runs out of fuel -/

theorem findAux_ge (s search : List Char) :
    ∀ (n i p : Nat), findAux s search n i = some p → i ≤ p := by
  intro n
  induction n with
  | zero => intro i p h; simp [findAux] at h
  | succ n ih =>
    intro i p h
    unfold findAux at h
    split at h
    · cases h; exact le_refl _
    · exact Nat.le_of_succ_le (ih (i + 1) p h)

theorem find_ge (s search : List Char) (pos p : Nat) (h : find s search pos = some p) :
    pos ≤ p := by
  unfold find at h
  split at h
  · exact findAux_ge s search _ pos p h
  · cases h

theorem findPositions_total (s search : List Char) (hs : 1 ≤ search.length) :
    ∀ (fuel last_pos : Nat) (positions : List Nat), s.length - last_pos < fuel →
      ∃ r, findPositions s search fuel last_pos positions = some r := by
  intro fuel
  induction fuel with
  | zero => intro _ _ h; omega
  | succ fuel ih =>
    intro last_pos positions h
    unfold findPositions
    split
    · rename_i hlt
      cases hf : find s search last_pos with
      | none => exact ⟨positions, rfl⟩
      | some p =>
        have := find_ge s search last_pos p hf
        exact ih (p + search.length) _ (by omega)
    · exact ⟨positions, rfl⟩

theorem searchReplace_total (str search replace : List Char) (hs : 1 ≤ search.length) :
    ∃ r, searchReplace str search replace = some r := by
  obtain ⟨r, hr⟩ := findPositions_total str search hs (str.length + 1) 0 [] (by omega)
  unfold searchReplace
  rw [hr]
  exact ⟨_, rfl⟩

theorem deQuote_total (s : List Char) : ∃ r, deQuote s = some r := by
  unfold deQuote
  exact searchReplace_total _ _ _ (by decide)

/-! ### The float-keyed selection set -/

theorem f32Equiv_eq_f32Eq (a b : FloatHash) (ha : f32IsNaN a = false)
    (hb : f32IsNaN b = false) : f32Equiv a b = f32Eq a b := by
  unfold f32Equiv f32Eq f32Lt
  rw [ha, hb]
  rcases lt_trichotomy (f32Key a) (f32Key b) with h | h | h
  · have h2 : ¬ f32Key b < f32Key a := by omega
    have h3 : ¬ f32Key a = f32Key b := by omega
    simp [h, h2, h3]
  · simp [h]
  · have h2 : ¬ f32Key a < f32Key b := by omega
    have h3 : ¬ f32Key a = f32Key b := by omega
    simp [h, h2, h3]

theorem f32Eq_key (a b : FloatHash) (ha : f32IsNaN a = false) (hb : f32IsNaN b = false) :
    f32Eq a b = true ↔ f32Key a = f32Key b := by
  unfold f32Eq
  rw [ha, hb]
  simp

theorem setCount_ne_zero (s : List FloatHash) (x : FloatHash) :
    setCount s x ≠ 0 ↔ ∃ e ∈ s, f32Equiv e x = true := by
  unfold setCount
  by_cases h : s.any (fun e => f32Equiv e x) = true
  · rw [if_pos h]
    rw [List.any_eq_true] at h
    simp only [ne_eq, one_ne_zero, not_false_eq_true, true_iff]
    exact h
  · rw [if_neg h]
    rw [List.any_eq_true] at h
    simp only [ne_eq, not_true_eq_false, false_iff]
    exact h

theorem setInsert_mem (s : List FloatHash) (x e : FloatHash) (h : e ∈ setInsert s x) :
    e ∈ s ∨ e = x := by
  unfold setInsert at h
  split at h
  · exact Or.inl h
  · rw [List.mem_append, List.mem_singleton] at h
    exact h

theorem setInsert_count (s : List FloatHash) (x f : FloatHash)
    (hs : ∀ e ∈ s, f32IsNaN e = false) (hx : f32IsNaN x = false) (hf : f32IsNaN f = false) :
    setCount (setInsert s x) f ≠ 0 ↔ (setCount s f ≠ 0 ∨ f32Eq x f = true) := by
  rw [setCount_ne_zero, setCount_ne_zero]
  unfold setInsert
  by_cases h : s.any (fun e => f32Equiv e x) = true
  · rw [if_pos h]
    constructor
    · intro hh; exact Or.inl hh
    · rintro (hh | hh)
      · exact hh
      · rw [List.any_eq_true] at h
        obtain ⟨e, he, hex⟩ := h
        refine ⟨e, he, ?_⟩
        rw [f32Equiv_eq_f32Eq e x (hs e he) hx, f32Eq_key e x (hs e he) hx] at hex
        rw [f32Eq_key x f hx hf] at hh
        rw [f32Equiv_eq_f32Eq e f (hs e he) hf, f32Eq_key e f (hs e he) hf, hex, hh]
  · rw [if_neg h]
    constructor
    · rintro ⟨e, he, hef⟩
      rw [List.mem_append, List.mem_singleton] at he
      rcases he with he | he
      · exact Or.inl ⟨e, he, hef⟩
      · rw [he, f32Equiv_eq_f32Eq x f hx hf] at hef
        exact Or.inr hef
    · rintro (⟨e, he, hef⟩ | hh)
      · exact ⟨e, List.mem_append_left _ he, hef⟩
      · refine ⟨x, List.mem_append_right _ (List.mem_singleton.mpr rfl), ?_⟩
        rw [f32Equiv_eq_f32Eq x f hx hf]
        exact hh

theorem foldl_setInsert_count (l : List FloatHash) :
    ∀ (s : List FloatHash) (f : FloatHash), (∀ e ∈ s, f32IsNaN e = false) →
      (∀ e ∈ l, f32IsNaN e = false) → f32IsNaN f = false →
      (setCount (l.foldl setInsert s) f ≠ 0 ↔
        (setCount s f ≠ 0 ∨ ∃ e ∈ l, f32Eq e f = true)) := by
  induction l with
  | nil => intro s f _ _ _; simp
  | cons x l ih =>
    intro s f hs hl hf
    rw [List.foldl_cons]
    have hx : f32IsNaN x = false := hl x (List.mem_cons_self _ _)
    have hs2 : ∀ e ∈ setInsert s x, f32IsNaN e = false := by
      intro e he
      rcases setInsert_mem s x e he with h | h
      · exact hs e h
      · rw [h]; exact hx
    rw [ih (setInsert s x) f hs2 (fun e he => hl e (List.mem_cons_of_mem _ he)) hf,
      setInsert_count s x f hs hx hf]
    constructor
    · rintro ((h | h) | ⟨e, he, hef⟩)
      · exact Or.inl h
      · exact Or.inr ⟨x, List.mem_cons_self _ _, h⟩
      · exact Or.inr ⟨e, List.mem_cons_of_mem _ he, hef⟩
    · rintro (h | ⟨e, he, hef⟩)
      · exact Or.inl (Or.inl h)
      · rcases List.mem_cons.mp he with h | h
        · rw [h] at hef; exact Or.inl (Or.inr hef)
        · exact Or.inr ⟨e, h, hef⟩

theorem resolveTokens_cons (murmur : List Char → Nat → Nat → Nat)
    (manifest : List (List Char × Hash)) (tok : List Char) (rest : List (List Char))
    (sel : List FloatHash) (val : List Char) (hval : deQuote tok = some val) :
    resolveTokens murmur manifest (tok :: rest) sel =
      match resolveToken murmur manifest val with
      | some h => resolveTokens murmur manifest rest (setInsert sel (HashToFloatHash h))
      | none => resolveTokens murmur manifest rest sel := by
  rw [resolveTokens, hval]
  unfold resolveToken
  simp only
  cases mapFind manifest val with
  | some hash => rfl
  | none =>
    simp only
    cases GetHashIfLiteral val with
    | some literal_val => rfl
    | none =>
      simp only
      by_cases hlen : val.length ≠ 0
      · simp only [if_pos hlen]
      · simp only [if_neg hlen]

theorem resolvedHashes_cons (murmur : List Char → Nat → Nat → Nat)
    (manifest : List (List Char × Hash)) (tok : List Char) (rest : List (List Char))
    (val : List Char) (hval : deQuote tok = some val) :
    resolvedHashes murmur manifest (tok :: rest) =
      match resolveToken murmur manifest val with
      | some h => h :: resolvedHashes murmur manifest rest
      | none => resolvedHashes murmur manifest rest := by
  unfold resolvedHashes
  rw [List.filterMap_cons, hval, Option.some_bind]
  cases resolveToken murmur manifest val <;> rfl

theorem resolveTokens_eq (murmur : List Char → Nat → Nat → Nat)
    (manifest : List (List Char × Hash)) (tokens : List (List Char)) :
    ∀ sel : List FloatHash, resolveTokens murmur manifest tokens sel =
      some (((resolvedHashes murmur manifest tokens).map HashToFloatHash).foldl setInsert sel) := by
  induction tokens with
  | nil => intro sel; rfl
  | cons tok rest ih =>
    intro sel
    obtain ⟨val, hval⟩ := deQuote_total tok
    rw [resolveTokens_cons murmur manifest tok rest sel val hval,
      resolvedHashes_cons murmur manifest tok rest val hval]
    cases resolveToken murmur manifest val with
    | some h =>
      simp only [List.map_cons, List.foldl_cons]
      exact ih _
    | none => exact ih _

/-! ### Update -/

theorem updateLayer_selectionHash (ctx : CryptomatteContext) (arb : CryptomatteArbitraryData) :
    (updateLayer ctx arb).selectionHash = ctx.selectionHash := by
  unfold updateLayer
  split <;> rfl

theorem updateManifest_selectionHash (parse : List Char → JsonValue)
    (ctx : CryptomatteContext) (arb : CryptomatteArbitraryData) :
    (updateManifest parse ctx arb).selectionHash = ctx.selectionHash := by
  unfold updateManifest
  split
  · split <;> rfl
  · rfl

theorem selectedCoverage_empty (levels : List Level) : selectedCoverage [] levels = 0 := by
  unfold selectedCoverage
  have h : ∀ l : List Level, l.filter (fun l => decide (setCount [] l.hash ≠ 0)) = [] := by
    intro l
    rw [List.filter_eq_nil_iff]
    intro a _
    simp [setCount]
  rw [h]
  rfl

theorem updateSelection_ok (murmur : List Char → Nat → Nat → Nat) (ctx : CryptomatteContext)
    (arb : CryptomatteArbitraryData) (tokens : List (List Char))
    (hchg : ctx.selectionHash ≠ arb.selection_hash)
    (htok : quotedTokenize arb.selection commaSpace = some (Except.ok tokens)) :
    updateSelection murmur ctx arb =
      some { ctx with selectionHash := arb.selection_hash, selection := arb.selection,
                      float_selection :=
                        ((resolvedHashes murmur ctx.manifest tokens).map HashToFloatHash).foldl
                          setInsert [] } := by
  unfold updateSelection
  rw [if_pos hchg]
  simp only
  by_cases he : arb.selection.isEmpty = false
  · rw [if_pos he, htok]
    simp only
    rw [resolveTokens_eq]
  · rw [if_neg he]
    have hnil : arb.selection = [] := by
      cases hs : arb.selection with
      | nil => rfl
      | cons a l => rw [hs] at he; exact absurd rfl he
    rw [hnil] at htok
    have ht : tokens = [] := by
      have h2 : quotedTokenize [] commaSpace = some (Except.ok []) := by decide
      rw [h2] at htok
      cases htok
      rfl
    rw [ht]
    rfl

theorem updateSelection_error (murmur : List Char → Nat → Nat → Nat) (ctx : CryptomatteContext)
    (arb : CryptomatteArbitraryData) (hchg : ctx.selectionHash ≠ arb.selection_hash)
    (hopen : insideQuotes arb.selection arb.selection.length = true) :
    updateSelection murmur ctx arb =
      some { ctx with selectionHash := arb.selection_hash, selection := arb.selection,
                      float_selection := [] } := by
  unfold updateSelection
  rw [if_pos hchg]
  simp only
  by_cases he : arb.selection.isEmpty = false
  · rw [if_pos he, quotedTokenize_eq _ _ commaSpace_no_quote, if_pos hopen]
  · rw [if_neg he]

/-- C9 as stated fails on a NaN literal: the selection `<7fc00000> <3f800000>`
tokenizes, its tokens resolve to the two literals, but the set keeps the NaN
only, and then counts every float as a member (here 2.0, the hash of no
token). -/
theorem Update_selection_nan_literal :
    quotedTokenize arbNaN.selection commaSpace =
      some (Except.ok ["<7fc00000>".toList, "<3f800000>".toList]) ∧
    resolvedHashes murmurZero [] ["<7fc00000>".toList, "<3f800000>".toList] =
      [0x7fc00000, 0x3f800000] ∧
    (Update murmurZero parseNothing freshContext arbNaN).map (fun c => c.float_selection) =
      some [0x7fc00000] ∧
    ¬ (∀ f : FloatHash, setCount [0x7fc00000] f ≠ 0 ↔
        ∃ h ∈ [0x7fc00000, 0x3f800000], f32Eq (HashToFloatHash h) f = true) := by
  refine ⟨by decide, by decide, by decide, ?_⟩
  intro h
  have h2 := (h 0x40000000).mp (by decide)
  revert h2
  decide

/-- C9, amended: when `Update` re-resolves the selection and tokenizing
succeeds, and none of the hashes the tokens resolve to is a NaN pattern, a
float that is not a NaN is counted by the selection set exactly when it equals
(as a float) the hash `r(t)` of some de-quoted token `t`, where `r(t)` is the
manifest's hash if `t` is a key of the manifest as `Update` leaves it, else
the literal value, else `HashName t` for a non-empty `t`. -/
theorem Update_selection_set (murmur : List Char → Nat → Nat → Nat)
    (parse : List Char → JsonValue) (ctx : CryptomatteContext)
    (arb : CryptomatteArbitraryData) (tokens : List (List Char))
    (hchg : ctx.selectionHash ≠ arb.selection_hash)
    (htok : quotedTokenize arb.selection commaSpace = some (Except.ok tokens))
    (hnan : ∀ h ∈ resolvedHashes murmur
      (updateManifest parse (updateLayer ctx arb) arb).manifest tokens,
      f32IsNaN (HashToFloatHash h) = false) :
    ∃ ctx', Update murmur parse ctx arb = some ctx' ∧
      ctx'.manifest = (updateManifest parse (updateLayer ctx arb) arb).manifest ∧
      ∀ f : FloatHash, f32IsNaN f = false →
        (setCount ctx'.float_selection f ≠ 0 ↔
          ∃ h ∈ resolvedHashes murmur ctx'.manifest tokens,
            f32Eq (HashToFloatHash h) f = true) := by
  have hchg2 : (updateManifest parse (updateLayer ctx arb) arb).selectionHash ≠
      arb.selection_hash := by
    rw [updateManifest_selectionHash, updateLayer_selectionHash]
    exact hchg
  refine ⟨_, updateSelection_ok murmur _ arb tokens hchg2 htok, rfl, ?_⟩
  intro f hf
  simp only
  rw [foldl_setInsert_count _ [] f (by intro e he; cases he) (by
    intro e he
    rw [List.mem_map] at he
    obtain ⟨h, hh, rfl⟩ := he
    exact hnan h hh) hf]
  constructor
  · rintro (h | ⟨e, he, hef⟩)
    · exact absurd rfl h
    · rw [List.mem_map] at he
      obtain ⟨h, hh, rfl⟩ := he
      exact ⟨h, hh, hef⟩
  · rintro ⟨h, hh, hef⟩
    exact Or.inr ⟨HashToFloatHash h, List.mem_map.mpr ⟨h, hh, rfl⟩, hef⟩

/-- Witness of C9: a manifest key, a manifest key of literal form, a literal
and a plain name; the key of literal form resolves to the manifest's hash. -/
theorem Update_selection_set_witness :
    freshContext.selectionHash ≠ arbThree.selection_hash ∧
    resolvedHashes murmurZero
      (updateManifest parseTwo (updateLayer freshContext arbThree) arbThree).manifest
      ["foo".toList, "<3f800000>".toList, "<40400000>".toList, "bar".toList] =
        [0x3fc00000, 0x40000000, 0x40400000, 0x00800000] ∧
    ∃ ctx', Update murmurZero parseTwo freshContext arbThree = some ctx' ∧
      ctx'.manifest =
        (updateManifest parseTwo (updateLayer freshContext arbThree) arbThree).manifest ∧
      ∀ f : FloatHash, f32IsNaN f = false →
        (setCount ctx'.float_selection f ≠ 0 ↔
          ∃ h ∈ resolvedHashes murmurZero ctx'.manifest
            ["foo".toList, "<3f800000>".toList, "<40400000>".toList, "bar".toList],
            f32Eq (HashToFloatHash h) f = true) :=
  ⟨by decide, by decide,
    Update_selection_set murmurZero parseTwo freshContext arbThree
      ["foo".toList, "<3f800000>".toList, "<40400000>".toList, "bar".toList]
      (by decide) (by decide) (by decide)⟩

/-- C10: when the selection text ends inside an open quoted span, `Update`
(with a changed selection fingerprint) returns, the selection set is empty,
and `GetCoverage` then writes coverage 0 in every pixel of every buffer. -/
theorem Update_open_quote (murmur : List Char → Nat → Nat → Nat)
    (parse : List Char → JsonValue) (ctx : CryptomatteContext)
    (arb : CryptomatteArbitraryData)
    (hchg : ctx.selectionHash ≠ arb.selection_hash)
    (hopen : insideQuotes arb.selection arb.selection.length = true) :
    ∃ ctx', Update murmur parse ctx arb = some ctx' ∧
      ctx'.selection = arb.selection ∧ ctx'.float_selection = [] ∧
      ∀ (b : CryptomatteBuffer) (row : Nat → PF_PixelFloat) (len x y j : Nat), j < len →
        (GetCoverage ctx'.float_selection b row len x y j).alpha = 0 := by
  have hchg2 : (updateManifest parse (updateLayer ctx arb) arb).selectionHash ≠
      arb.selection_hash := by
    rw [updateManifest_selectionHash, updateLayer_selectionHash]
    exact hchg
  refine ⟨_, updateSelection_error murmur _ arb hchg2 hopen, rfl, rfl, ?_⟩
  intro b row len x y j hj
  simp only
  rw [GetCoverage_pixel [] b row len x y j hj, selectedCoverage_empty]

/-- Witness of C10: the selection `foo "bar`. -/
theorem Update_open_quote_witness :
    freshContext.selectionHash ≠ arbOpenQuote.selection_hash ∧
    insideQuotes arbOpenQuote.selection arbOpenQuote.selection.length = true ∧
    ∃ ctx', Update murmurZero parseNothing freshContext arbOpenQuote = some ctx' ∧
      ctx'.selection = arbOpenQuote.selection ∧ ctx'.float_selection = [] ∧
      ∀ (b : CryptomatteBuffer) (row : Nat → PF_PixelFloat) (len x y j : Nat), j < len →
        (GetCoverage ctx'.float_selection b row len x y j).alpha = 0 :=
  ⟨by decide, by decide,
    Update_open_quote murmurZero parseNothing freshContext arbOpenQuote (by decide) (by decide)⟩

/-! ### Channel names -/

theorem digitChar_val (d : Nat) (h : d < 10) : (Nat.digitChar d).toNat - 48 = d := by
  interval_cases d <;> rfl

theorem digitChar_ne_dot (d : Nat) (h : d < 10) : Nat.digitChar d ≠ '.' := by
  interval_cases d <;> decide

theorem toDigitsCore_val : ∀ (fuel n : Nat) (ds : List Char), n < fuel →
    decimalValue 0 (Nat.toDigitsCore 10 fuel n ds) = decimalValue n ds := by
  intro fuel
  induction fuel with
  | zero => intro n ds h; omega
  | succ fuel ih =>
    intro n ds h
    unfold Nat.toDigitsCore
    simp only
    split
    · rename_i h0
      have hn : n % 10 = n := by omega
      have hd := digitChar_val (n % 10) (Nat.mod_lt _ (by decide))
      rw [hn] at hd
      simp only [decimalValue, List.foldl_cons, Nat.zero_mul, Nat.zero_add, hn, hd]
    · rename_i h0
      rw [ih (n / 10) _ (by omega)]
      simp only [decimalValue, List.foldl_cons,
        digitChar_val (n % 10) (Nat.mod_lt _ (by decide))]
      congr 1
      omega

theorem toDigitsCore_no_dot : ∀ (fuel n : Nat) (ds : List Char), (∀ c ∈ ds, c ≠ '.') →
    ∀ c ∈ Nat.toDigitsCore 10 fuel n ds, c ≠ '.' := by
  intro fuel
  induction fuel with
  | zero => intro n ds h; exact h
  | succ fuel ih =>
    intro n ds h
    have hcons : ∀ c ∈ Nat.digitChar (n % 10) :: ds, c ≠ '.' := by
      intro c hc
      rcases List.mem_cons.mp hc with hc | hc
      · rw [hc]; exact digitChar_ne_dot _ (Nat.mod_lt _ (by decide))
      · exact h c hc
    unfold Nat.toDigitsCore
    simp only
    split
    · exact hcons
    · exact ih _ _ hcons

theorem decimalValue_zeros (j : Nat) (l : List Char) :
    decimalValue 0 (List.replicate j '0' ++ l) = decimalValue 0 l := by
  induction j with
  | zero => rfl
  | succ j ih =>
    rw [List.replicate_succ, List.cons_append]
    exact ih

theorem setw2_val (n : Nat) : decimalValue 0 (setw2 n) = n := by
  unfold setw2
  rw [decimalValue_zeros]
  unfold Nat.toDigits
  rw [toDigitsCore_val _ _ _ (by omega)]
  rfl

theorem setw2_injective (a b : Nat) (h : setw2 a = setw2 b) : a = b := by
  rw [← setw2_val a, ← setw2_val b, h]

theorem setw2_no_dot (n : Nat) : ∀ c ∈ setw2 n, c ≠ '.' := by
  intro c hc
  unfold setw2 at hc
  rcases List.mem_append.mp hc with h | h
  · rw [(List.mem_replicate.mp h).2]; decide
  · exact toDigitsCore_no_dot _ _ [] (by intro c hc; cases hc) c h

theorem split_at_dot : ∀ (xs ys s1 s2 : List Char), (∀ c ∈ xs, c ≠ '.') →
    (∀ c ∈ ys, c ≠ '.') → xs ++ '.' :: s1 = ys ++ '.' :: s2 → xs = ys ∧ s1 = s2 := by
  intro xs
  induction xs with
  | nil =>
    intro ys s1 s2 _ hy h
    cases ys with
    | nil => simp at h; exact ⟨rfl, h⟩
    | cons y ys =>
      simp at h
      exact absurd h.1.symm (hy y (List.mem_cons_self _ _))
  | cons x xs ih =>
    intro ys s1 s2 hx hy h
    cases ys with
    | nil =>
      simp at h
      exact absurd h.1 (hx x (List.mem_cons_self _ _))
    | cons y ys =>
      simp only [List.cons_append, List.cons.injEq] at h
      obtain ⟨h1, h2⟩ := ih ys s1 s2 (fun c hc => hx c (List.mem_cons_of_mem _ hc))
        (fun c hc => hy c (List.mem_cons_of_mem _ hc)) h.2
      exact ⟨by rw [h.1, h1], h2⟩

theorem name_eq (layer : List Char) (a b : Nat) (s1 s2 : List Char)
    (h : layer ++ setw2 a ++ '.' :: s1 = layer ++ setw2 b ++ '.' :: s2) : a = b ∧ s1 = s2 := by
  rw [List.append_assoc, List.append_assoc] at h
  obtain ⟨h1, h2⟩ := split_at_dot _ _ _ _ (setw2_no_dot a) (setw2_no_dot b)
    (List.append_cancel_left h)
  exact ⟨setw2_injective a b h1, h2⟩

theorem CalculateNext4Name_eq (layer : List Char) (s : NamingStyle) (levels : Nat) :
    CalculateNext4Name layer s levels = layer ++ setw2 (levels / 2) ++ '.' :: fourSuffix s := by
  cases s <;> rfl

theorem CalculateNextNames_eq (layer : List Char) (s : NamingStyle) (levels : Nat) :
    CalculateNextNames layer s levels =
      (layer ++ setw2 (levels / 2) ++ '.' :: pairSuffix s (decide (levels % 2 ≠ 0)) false,
       layer ++ setw2 (levels / 2) ++ '.' :: pairSuffix s (decide (levels % 2 ≠ 0)) true) := by
  unfold CalculateNextNames
  cases s <;> cases h : decide (levels % 2 ≠ 0) <;> simp [pairSuffix, h]

theorem fourSuffix_injective (s s' : NamingStyle) (h : fourSuffix s = fourSuffix s') : s = s' := by
  revert h; cases s <;> cases s' <;> decide

theorem pairSuffix_injective (s s' : NamingStyle) (u u' c c' : Bool)
    (h : pairSuffix s u c = pairSuffix s' u' c') : s = s' ∧ u = u' ∧ c = c' := by
  revert h
  cases s <;> cases s' <;> cases u <;> cases u' <;> cases c <;> cases c' <;> decide

theorem four_name_eq (layer : List Char) (s s' : NamingStyle) (a b : Nat)
    (h : CalculateNext4Name layer s (2 * a) = CalculateNext4Name layer s' b) :
    s = s' ∧ a = b / 2 := by
  rw [CalculateNext4Name_eq, CalculateNext4Name_eq] at h
  obtain ⟨h1, h2⟩ := name_eq _ _ _ _ _ h
  exact ⟨fourSuffix_injective _ _ h2, by omega⟩

/-! ### Channel discovery on channels in ascending order -/

theorem scanFour_nomatch (layer : List Char) (channels : List ChannelEntry) (s : NamingStyle)
    (next : List Char)
    (hno : ∀ (i : Nat) (e : ChannelEntry), channels[i]? = some e →
      ¬ (eligible e 4 = true ∧ e.channelDesc.name = next)) :
    ∀ (fuel i numLevels : Nat) (refs : List Nat), channels.length - i < fuel →
      scanFour layer channels s fuel i numLevels refs next = some (numLevels, refs) := by
  intro fuel
  induction fuel with
  | zero => intro i _ _ h; omega
  | succ fuel ih =>
    intro i numLevels refs h
    unfold scanFour
    cases he : channels[i]? with
    | none => rfl
    | some e =>
      simp only
      rw [if_neg (hno i e he)]
      have hi : i < channels.length := by
        by_contra hc
        rw [List.getElem?_eq_none (by omega)] at he
        cases he
      exact ih (i + 1) numLevels refs (by omega)

theorem quadChannels_length (layer : List Char) (s : NamingStyle) (k : Nat) :
    (quadChannels layer s k).length = k := by
  simp [quadChannels]

theorem quadChannels_get (layer : List Char) (s : NamingStyle) (k i : Nat) (h : i < k) :
    (quadChannels layer s k)[i]? =
      some (floatChannel i (CalculateNext4Name layer s (2 * i)) 4) := by
  unfold quadChannels
  rw [List.getElem?_map, List.getElem?_range h]
  rfl

theorem quadChannels_get_none (layer : List Char) (s : NamingStyle) (k i : Nat) (h : k ≤ i) :
    (quadChannels layer s k)[i]? = none := by
  apply List.getElem?_eq_none
  rw [quadChannels_length]
  exact h

theorem quadChannels_entry (layer : List Char) (s : NamingStyle) (k i : Nat) (e : ChannelEntry)
    (h : (quadChannels layer s k)[i]? = some e) :
    i < k ∧ e = floatChannel i (CalculateNext4Name layer s (2 * i)) 4 := by
  have hi : i < k := by
    by_contra hc
    rw [quadChannels_get_none layer s k i (by omega)] at h
    cases h
  rw [quadChannels_get layer s k i hi] at h
  cases h
  exact ⟨hi, rfl⟩

theorem scanFour_ascending (layer : List Char) (s : NamingStyle) (k : Nat) :
    ∀ (fuel m i : Nat), i ≤ m → m ≤ k → (k - m) * (k + 1) + (k + 1 - i) ≤ fuel →
      scanFour layer (quadChannels layer s k) s fuel i (2 * m) (List.range m)
        (CalculateNext4Name layer s (2 * m)) = some (2 * k, List.range k) := by
  intro fuel
  induction fuel with
  | zero => intro m i h1 h2 h3; omega
  | succ fuel ih =>
    intro m i h1 h2 h3
    unfold scanFour
    by_cases hi : i < k
    · rw [quadChannels_get layer s k i hi]
      simp only
      by_cases him : i = m
      · -- the expected channel: consumed, the scan goes on at index 1
        subst him
        have hmatch : eligible (floatChannel i (CalculateNext4Name layer s (2 * i)) 4) 4 = true ∧
            (floatChannel i (CalculateNext4Name layer s (2 * i)) 4).channelDesc.name =
              CalculateNext4Name layer s (2 * i) := ⟨by simp [eligible, floatChannel], rfl⟩
        rw [if_pos hmatch]
        have hprod : (k - i) * (k + 1) = (k - (i + 1)) * (k + 1) + (k + 1) := by
          rw [show k - i = (k - (i + 1)) + 1 by omega, Nat.add_mul, Nat.one_mul]
        have hnext := ih (i + 1) (0 + 1) (by omega) (by omega) (by omega)
        rw [show 2 * (i + 1) = 2 * i + 2 by ring, List.range_succ] at hnext
        exact hnext
      · have hne : ¬ (eligible (floatChannel i (CalculateNext4Name layer s (2 * i)) 4) 4 = true ∧
            (floatChannel i (CalculateNext4Name layer s (2 * i)) 4).channelDesc.name =
              CalculateNext4Name layer s (2 * m)) := by
          rintro ⟨_, hn⟩
          have := (four_name_eq layer s s i (2 * m) hn).2
          omega
        rw [if_neg hne]
        exact ih m (i + 1) (by omega) h2 (by omega)
    · have hmk : m = k := by omega
      rw [quadChannels_get_none layer s k i (by omega), hmk]

theorem scanFourStyles_after (layer : List Char) (s : NamingStyle) (k : Nat) :
    ∀ styles : List NamingStyle, s ∉ styles →
      scanFourStyles layer (quadChannels layer s k) styles (2 * k) (List.range k) =
        some (2 * k, List.range k) := by
  intro styles
  induction styles with
  | nil => intro _; rfl
  | cons s' rest ih =>
    intro hs
    unfold scanFourStyles
    rw [scanFour_nomatch layer _ s' _ (by
      intro i e he
      obtain ⟨_, rfl⟩ := quadChannels_entry layer s k i e he
      rintro ⟨_, hn⟩
      have := (four_name_eq layer s s' i (2 * k) hn).1
      exact hs (by rw [this]; exact List.mem_cons_self _ _)) _ 0 _ _ (by
      simp only [scanFuel, quadChannels_length]
      have : k + 1 ≤ (k + 1) * (k + 1) := Nat.le_mul_of_pos_left _ (by omega)
      omega)]
    exact ih (fun h => hs (List.mem_cons_of_mem _ h))

theorem scanFourStyles_before (layer : List Char) (s : NamingStyle) (k : Nat) :
    ∀ styles : List NamingStyle, styles.Nodup → s ∈ styles →
      scanFourStyles layer (quadChannels layer s k) styles 0 [] = some (2 * k, List.range k) := by
  intro styles
  induction styles with
  | nil => intro _ h; cases h
  | cons s' rest ih =>
    intro hnd hs
    unfold scanFourStyles
    by_cases hss : s' = s
    · subst hss
      have h := scanFour_ascending layer s' k (scanFuel (quadChannels layer s' k)) 0 0
        (le_refl _) (Nat.zero_le _) (by
          simp only [scanFuel, quadChannels_length, Nat.sub_zero]
          have : (k + 1) * (k + 1) = k * (k + 1) + (k + 1) := by ring
          omega)
      rw [Nat.mul_zero, List.range_zero] at h
      rw [h]
      exact scanFourStyles_after layer s' k rest (List.nodup_cons.mp hnd).1
    · rw [scanFour_nomatch layer _ s' _ (by
        intro i e he
        obtain ⟨_, rfl⟩ := quadChannels_entry layer s k i e he
        rintro ⟨_, hn⟩
        exact hss (four_name_eq layer s s' i 0 hn).1.symm) _ 0 _ _ (by
        simp only [scanFuel, quadChannels_length]
        have : k + 1 ≤ (k + 1) * (k + 1) := Nat.le_mul_of_pos_left _ (by omega)
        omega)]
      rcases List.mem_cons.mp hs with h | h
      · exact absurd h.symm hss
      · exact ih (List.nodup_cons.mp hnd).2 h

theorem scanPairs_nomatch (layer : List Char) (channels : List ChannelEntry) (s : NamingStyle)
    (st : PairState)
    (hno : ∀ (i : Nat) (e : ChannelEntry), channels[i]? = some e →
      pairStep layer s e st = (st, false)) :
    ∀ (fuel i : Nat), channels.length - i < fuel →
      scanPairs layer channels s fuel i st = some st := by
  intro fuel
  induction fuel with
  | zero => intro i h; omega
  | succ fuel ih =>
    intro i h
    unfold scanPairs
    cases he : channels[i]? with
    | none => rfl
    | some e =>
      simp only
      rw [hno i e he]
      have hi : i < channels.length := by
        by_contra hc
        rw [List.getElem?_eq_none (by omega)] at he
        cases he
      simp only [Bool.false_eq_true, if_false]
      exact ih (i + 1) (by omega)

theorem pairStep_skip (layer : List Char) (s : NamingStyle) (e : ChannelEntry) (st : PairState)
    (h : ¬ (eligible e 1 = true ∧
      (e.channelDesc.name = st.nextHashName ∨ e.channelDesc.name = st.nextCoverageName))) :
    pairStep layer s e st = (st, false) := by
  unfold pairStep
  rw [if_neg h]

theorem pairStep_hash (layer : List Char) (s : NamingStyle) (e : ChannelEntry) (st : PairState)
    (h1 : eligible e 1 = true) (h2 : e.channelDesc.name = st.nextHashName)
    (h3 : st.foundCoverage = false) :
    pairStep layer s e st = ({ st with hash := e.channelRef, foundHash := true }, false) := by
  unfold pairStep
  rw [if_pos ⟨h1, Or.inl h2⟩]
  simp only [if_pos h2, h3]
  simp

theorem pairStep_coverage (layer : List Char) (s : NamingStyle) (e : ChannelEntry)
    (st : PairState) (h1 : eligible e 1 = true) (h2 : e.channelDesc.name ≠ st.nextHashName)
    (h3 : e.channelDesc.name = st.nextCoverageName) (h4 : st.foundHash = true) :
    pairStep layer s e st =
      ({ st with
          numLevels := st.numLevels + 1
          channelRefs := st.channelRefs ++ [st.hash, e.channelRef]
          nextHashName := (CalculateNextNames layer s (st.numLevels + 1)).1
          nextCoverageName := (CalculateNextNames layer s (st.numLevels + 1)).2
          coverage := e.channelRef
          foundHash := false
          foundCoverage := false }, true) := by
  unfold pairStep
  rw [if_pos ⟨h1, Or.inr h3⟩]
  simp only [if_neg h2, h4]
  simp

theorem pairChannels_succ (layer : List Char) (s : NamingStyle) (m : Nat) :
    pairChannels layer s (m + 1) =
      pairChannels layer s m ++ [pairEntry layer s (2 * m), pairEntry layer s (2 * m + 1)] := by
  unfold pairChannels
  rw [List.range_succ, List.flatMap_append, List.flatMap_singleton]
  congr 1
  have h1 : 2 * m % 2 = 0 := by omega
  have h2 : 2 * m / 2 = m := by omega
  have h3 : (2 * m + 1) % 2 ≠ 0 := by omega
  have h4 : (2 * m + 1) / 2 = m := by omega
  simp [pairEntry, h1, h2, h3, h4]

theorem pairChannels_length (layer : List Char) (s : NamingStyle) (m : Nat) :
    (pairChannels layer s m).length = 2 * m := by
  induction m with
  | zero => rfl
  | succ m ih =>
    rw [pairChannels_succ, List.length_append, ih]
    simp only [List.length_cons, List.length_nil]
    omega

theorem pairChannels_get (layer : List Char) (s : NamingStyle) (m : Nat) :
    ∀ i : Nat, i < 2 * m → (pairChannels layer s m)[i]? = some (pairEntry layer s i) := by
  induction m with
  | zero => intro i h; omega
  | succ m ih =>
    intro i h
    rw [pairChannels_succ]
    by_cases hi : i < 2 * m
    · rw [List.getElem?_append_left (by rw [pairChannels_length]; exact hi)]
      exact ih i hi
    · rw [List.getElem?_append_right (by rw [pairChannels_length]; omega), pairChannels_length]
      rcases (by omega : i = 2 * m ∨ i = 2 * m + 1) with h2 | h2
      · rw [h2, Nat.sub_self]; rfl
      · rw [h2, show 2 * m + 1 - 2 * m = 1 by omega]; rfl

theorem pairChannels_get_none (layer : List Char) (s : NamingStyle) (m i : Nat)
    (h : 2 * m ≤ i) : (pairChannels layer s m)[i]? = none := by
  apply List.getElem?_eq_none
  rw [pairChannels_length]
  exact h

theorem pairChannels_entry (layer : List Char) (s : NamingStyle) (m i : Nat) (e : ChannelEntry)
    (h : (pairChannels layer s m)[i]? = some e) : i < 2 * m ∧ e = pairEntry layer s i := by
  have hi : i < 2 * m := by
    by_contra hc
    rw [pairChannels_get_none layer s m i (by omega)] at h
    cases h
  rw [pairChannels_get layer s m i hi] at h
  cases h
  exact ⟨hi, rfl⟩

theorem pairEntry_name (layer : List Char) (s : NamingStyle) (i : Nat) :
    (pairEntry layer s i).channelDesc.name =
      layer ++ setw2 (i / 2 / 2) ++
        '.' :: pairSuffix s (decide (i / 2 % 2 ≠ 0)) (decide (i % 2 ≠ 0)) := by
  unfold pairEntry floatChannel
  simp only
  rw [CalculateNextNames_eq]
  by_cases h : i % 2 = 0
  · simp [h]
  · simp [h]

theorem pairEntry_eq_hash (layer : List Char) (s s' : NamingStyle) (i j : Nat)
    (h : (pairEntry layer s i).channelDesc.name = (CalculateNextNames layer s' j).1) :
    s = s' ∧ i = 2 * j := by
  rw [pairEntry_name, CalculateNextNames_eq] at h
  obtain ⟨h1, h2⟩ := name_eq _ _ _ _ _ h
  obtain ⟨h3, h4, h5⟩ := pairSuffix_injective _ _ _ _ _ _ h2
  refine ⟨h3, ?_⟩
  simp only [ne_eq, decide_eq_decide, decide_eq_false_iff_not, not_not] at h4 h5
  omega

theorem pairEntry_eq_coverage (layer : List Char) (s s' : NamingStyle) (i j : Nat)
    (h : (pairEntry layer s i).channelDesc.name = (CalculateNextNames layer s' j).2) :
    s = s' ∧ i = 2 * j + 1 := by
  rw [pairEntry_name, CalculateNextNames_eq] at h
  obtain ⟨h1, h2⟩ := name_eq _ _ _ _ _ h
  obtain ⟨h3, h4, h5⟩ := pairSuffix_injective _ _ _ _ _ _ h2
  refine ⟨h3, ?_⟩
  simp only [ne_eq, decide_eq_decide, decide_eq_true_eq] at h4 h5
  omega

theorem pairEntry_hash_name (layer : List Char) (s : NamingStyle) (j : Nat) :
    (pairEntry layer s (2 * j)).channelDesc.name = (CalculateNextNames layer s j).1 := by
  have h1 : 2 * j % 2 = 0 := by omega
  have h2 : 2 * j / 2 = j := by omega
  simp [pairEntry, floatChannel, h1, h2]

theorem pairEntry_coverage_name (layer : List Char) (s : NamingStyle) (j : Nat) :
    (pairEntry layer s (2 * j + 1)).channelDesc.name = (CalculateNextNames layer s j).2 := by
  have h1 : (2 * j + 1) % 2 ≠ 0 := by omega
  have h2 : (2 * j + 1) / 2 = j := by omega
  simp [pairEntry, floatChannel, h1, h2]

theorem pairEntry_eligible (layer : List Char) (s : NamingStyle) (i : Nat) :
    eligible (pairEntry layer s i) 1 = true ∧ eligible (pairEntry layer s i) 4 = false ∧
      (pairEntry layer s i).channelRef = i := by
  simp [eligible, pairEntry, floatChannel]

theorem scanPairs_ascending (layer : List Char) (s : NamingStyle) (m : Nat) :
    ∀ (fuel j i : Nat) (st : PairState), st.numLevels = j →
      st.channelRefs = List.range (2 * j) →
      st.nextHashName = (CalculateNextNames layer s j).1 →
      st.nextCoverageName = (CalculateNextNames layer s j).2 →
      st.foundCoverage = false →
      ((st.foundHash = false ∧ i ≤ 2 * j) ∨
        (st.foundHash = true ∧ st.hash = 2 * j ∧ i = 2 * j + 1 ∧ j < m)) →
      j ≤ m → (m - j) * (2 * m + 2) + (2 * m + 1 - i) ≤ fuel →
      ∃ st', scanPairs layer (pairChannels layer s m) s fuel i st = some st' ∧
        st'.numLevels = m ∧ st'.channelRefs = List.range (2 * m) := by
  intro fuel
  induction fuel with
  | zero => intro j i st _ _ _ _ _ hk _ hf; omega
  | succ fuel ih =>
    intro j i st hn hr hh hc hfc hk hjm hf
    unfold scanPairs
    by_cases hi : i < 2 * m
    · rw [pairChannels_get layer s m i hi]
      simp only
      obtain ⟨hel, _, href⟩ := pairEntry_eligible layer s i
      rcases hk with ⟨hfh, hij⟩ | ⟨hfh, hhash, hij, hlt⟩
      · by_cases hi2 : i = 2 * j
        · -- the hash channel of level j
          have hname : (pairEntry layer s i).channelDesc.name = st.nextHashName := by
            rw [hh, hi2]; exact pairEntry_hash_name layer s j
          rw [pairStep_hash layer s _ st hel hname hfc]
          simp only [Bool.false_eq_true, if_false]
          exact ih j (i + 1) _ hn hr hh hc hfc
            (Or.inr ⟨rfl, by rw [href]; exact hi2, by omega, by omega⟩) hjm (by omega)
        · -- a channel of an earlier level
          have hskip : ¬ (eligible (pairEntry layer s i) 1 = true ∧
              ((pairEntry layer s i).channelDesc.name = st.nextHashName ∨
                (pairEntry layer s i).channelDesc.name = st.nextCoverageName)) := by
            rintro ⟨_, h | h⟩
            · rw [hh] at h
              have := (pairEntry_eq_hash layer s s i j h).2
              omega
            · rw [hc] at h
              have := (pairEntry_eq_coverage layer s s i j h).2
              omega
          rw [pairStep_skip layer s _ st hskip]
          simp only [Bool.false_eq_true, if_false]
          exact ih j (i + 1) st hn hr hh hc hfc (Or.inl ⟨hfh, by omega⟩) hjm (by omega)
      · -- the coverage channel of level j: the level is complete
        have hname : (pairEntry layer s i).channelDesc.name = st.nextCoverageName := by
          rw [hc, hij]; exact pairEntry_coverage_name layer s j
        have hne : (pairEntry layer s i).channelDesc.name ≠ st.nextHashName := by
          intro h
          rw [hh] at h
          have := (pairEntry_eq_hash layer s s i j h).2
          omega
        rw [pairStep_coverage layer s _ st hel hne hname hfh]
        simp only [if_true]
        have hprod : (m - j) * (2 * m + 2) = (m - (j + 1)) * (2 * m + 2) + (2 * m + 2) := by
          rw [show m - j = (m - (j + 1)) + 1 by omega, Nat.add_mul, Nat.one_mul]
        refine ih (j + 1) (0 + 1) _ (by simp only; rw [hn]) ?_ (by simp only; rw [hn])
          (by simp only; rw [hn]) rfl (Or.inl ⟨rfl, by omega⟩) (by omega) (by omega)
        simp only
        rw [hr, hhash, href, hij, show 2 * (j + 1) = 2 * j + 1 + 1 by ring, List.range_succ,
          List.range_succ, List.append_assoc]
        rfl
    · rw [pairChannels_get_none layer s m i (by omega)]
      refine ⟨st, rfl, ?_, ?_⟩
      · rcases hk with ⟨_, hij⟩ | ⟨_, _, hij, hlt⟩
        · omega
        · omega
      · rcases hk with ⟨_, hij⟩ | ⟨_, _, hij, hlt⟩
        · rw [hr, show j = m by omega]
        · omega

theorem scanFourStyles_none (layer : List Char) (channels : List ChannelEntry)
    (hno : ∀ (i : Nat) (e : ChannelEntry), channels[i]? = some e → eligible e 4 = false) :
    ∀ (styles : List NamingStyle) (numLevels : Nat) (refs : List Nat),
      scanFourStyles layer channels styles numLevels refs = some (numLevels, refs) := by
  intro styles
  induction styles with
  | nil => intro _ _; rfl
  | cons s rest ih =>
    intro numLevels refs
    unfold scanFourStyles
    rw [scanFour_nomatch layer channels s _ (by
      intro i e he
      rintro ⟨h, _⟩
      rw [hno i e he] at h
      exact Bool.noConfusion h) _ 0 _ _ (by
      simp only [scanFuel]
      have : channels.length + 1 ≤ (channels.length + 1) * (channels.length + 1) :=
        Nat.le_mul_of_pos_left _ (by omega)
      omega)]
    exact ih _ _

theorem scanPairsStyles_none (layer : List Char) (channels : List ChannelEntry)
    (hno : ∀ (i : Nat) (e : ChannelEntry), channels[i]? = some e → eligible e 1 = false) :
    ∀ (styles : List NamingStyle) (numLevels : Nat) (refs : List Nat),
      scanPairsStyles layer channels styles numLevels refs = some (numLevels, refs) := by
  intro styles
  induction styles with
  | nil => intro _ _; rfl
  | cons s rest ih =>
    intro numLevels refs
    unfold scanPairsStyles
    rw [scanPairs_nomatch layer channels s _ (by
      intro i e he
      apply pairStep_skip
      rintro ⟨h, _⟩
      rw [hno i e he] at h
      exact Bool.noConfusion h) _ 0 (by
      simp only [scanFuel]
      have : channels.length + 1 ≤ (channels.length + 1) * (channels.length + 1) :=
        Nat.le_mul_of_pos_left _ (by omega)
      omega)]
    exact ih _ _

theorem scanPairsStyles_after (layer : List Char) (s : NamingStyle) (m : Nat) :
    ∀ styles : List NamingStyle, s ∉ styles →
      scanPairsStyles layer (pairChannels layer s m) styles m (List.range (2 * m)) =
        some (m, List.range (2 * m)) := by
  intro styles
  induction styles with
  | nil => intro _; rfl
  | cons s' rest ih =>
    intro hs
    have hss : s ≠ s' := fun h => hs (by rw [h]; exact List.mem_cons_self _ _)
    unfold scanPairsStyles
    rw [scanPairs_nomatch layer _ s' _ (by
      intro i e he
      obtain ⟨_, rfl⟩ := pairChannels_entry layer s m i e he
      apply pairStep_skip
      rintro ⟨_, h | h⟩
      · exact hss (pairEntry_eq_hash layer s s' i m h).1
      · exact hss (pairEntry_eq_coverage layer s s' i m h).1) _ 0 (by
      simp only [scanFuel, pairChannels_length]
      have : 2 * m + 1 ≤ (2 * m + 1) * (2 * m + 1) := Nat.le_mul_of_pos_left _ (by omega)
      omega)]
    exact ih (fun h => hs (List.mem_cons_of_mem _ h))

theorem scanPairsStyles_before (layer : List Char) (s : NamingStyle) (m : Nat) :
    ∀ styles : List NamingStyle, styles.Nodup → s ∈ styles →
      scanPairsStyles layer (pairChannels layer s m) styles 0 [] =
        some (m, List.range (2 * m)) := by
  intro styles
  induction styles with
  | nil => intro _ h; cases h
  | cons s' rest ih =>
    intro hnd hs
    unfold scanPairsStyles
    by_cases hss : s' = s
    · subst hss
      obtain ⟨st', h1, h2, h3⟩ := scanPairs_ascending layer s' m
        (scanFuel (pairChannels layer s' m)) 0 0
        { numLevels := 0, channelRefs := [],
          nextHashName := (CalculateNextNames layer s' 0).1,
          nextCoverageName := (CalculateNextNames layer s' 0).2,
          hash := 0, coverage := 0, foundHash := false, foundCoverage := false }
        rfl rfl rfl rfl rfl (Or.inl ⟨rfl, Nat.zero_le _⟩) (Nat.zero_le _) (by
          simp only [scanFuel, pairChannels_length, Nat.sub_zero]
          have : (2 * m + 1) * (2 * m + 1) = m * (2 * m + 2) + (2 * m * m + 2 * m + 1) := by ring
          omega)
      rw [h1]
      simp only
      rw [h2, h3]
      exact scanPairsStyles_after layer s' m rest (List.nodup_cons.mp hnd).1
    · rw [scanPairs_nomatch layer _ s' _ (by
        intro i e he
        obtain ⟨_, rfl⟩ := pairChannels_entry layer s m i e he
        apply pairStep_skip
        rintro ⟨_, h | h⟩
        · exact hss (pairEntry_eq_hash layer s s' i 0 h).1.symm
        · exact hss (pairEntry_eq_coverage layer s s' i 0 h).1.symm) _ 0 (by
        simp only [scanFuel, pairChannels_length]
        have : 2 * m + 1 ≤ (2 * m + 1) * (2 * m + 1) := Nat.le_mul_of_pos_left _ (by omega)
        omega)]
      rcases List.mem_cons.mp hs with h | h
      · exact absurd h.symm hss
      · exact ih (List.nodup_cons.mp hnd).2 h

theorem namingStyles_complete (s : NamingStyle) : namingStyles.Nodup ∧ s ∈ namingStyles := by
  cases s <;> decide

theorem quadChannels_not_single (layer : List Char) (s : NamingStyle) (k : Nat) :
    ∀ (i : Nat) (e : ChannelEntry), (quadChannels layer s k)[i]? = some e →
      eligible e 1 = false := by
  intro i e he
  obtain ⟨_, rfl⟩ := quadChannels_entry layer s k i e he
  simp [eligible, floatChannel]

theorem pairChannels_not_quad (layer : List Char) (s : NamingStyle) (m : Nat) :
    ∀ (i : Nat) (e : ChannelEntry), (pairChannels layer s m)[i]? = some e →
      eligible e 4 = false := by
  intro i e he
  obtain ⟨_, rfl⟩ := pairChannels_entry layer s m i e he
  exact (pairEntry_eligible layer s i).2.1

/-- C5: the scan does not restart from the first channel. After a match the
source sets `i = 0` and the `for` statement increments it, so channel 0 is
never looked at again: the two quads `L00.argb, L01.argb` enumerated in
reverse order give `numLevels = 2` (only `L00.argb` is consumed), and the
pairs of levels 0 and 1 enumerated as `L00.b, L00.a, L00.r, L00.g` give
`numLevels = 1`. -/
theorem LoadLevels_restart_skips_first :
    (quadChannels "L".toList NamingStyle.rgba 2).reverse =
      [floatChannel 1 "L01.argb".toList 4, floatChannel 0 "L00.argb".toList 4] ∧
    LoadLevels "L".toList (quadChannels "L".toList NamingStyle.rgba 2).reverse =
      some ("L".toList, 2, [0]) ∧
    (pairChannels "L".toList NamingStyle.rgba 2).rotate 2 =
      [floatChannel 2 "L00.b".toList 1, floatChannel 3 "L00.a".toList 1,
       floatChannel 0 "L00.r".toList 1, floatChannel 1 "L00.g".toList 1] ∧
    LoadLevels "L".toList ((pairChannels "L".toList NamingStyle.rgba 2).rotate 2) =
      some ("L".toList, 1, [0, 1]) := by
  refine ⟨by decide, by decide, by decide, by decide⟩

/-- C6: for a non-empty layer name and any one style, the `k` quads
`L00.S ... L(k-1).S` enumerated in ascending order give `numLevels = 2k` (all
`k` channels consumed, in order), and the hash and coverage channels of the
levels `0 .. m-1` enumerated in ascending order, hash before coverage, give
`numLevels = m` (all `2m` channels consumed, in order). -/
theorem LoadLevels_ascending (layer : List Char) (s : NamingStyle) (hl : layer ≠ []) :
    (∀ k : Nat, LoadLevels layer (quadChannels layer s k) =
      some (layer, 2 * k, List.range k)) ∧
    (∀ m : Nat, LoadLevels layer (pairChannels layer s m) =
      some (layer, m, List.range (2 * m))) := by
  have hne : layer.isEmpty = false := by
    cases layer with
    | nil => exact absurd rfl hl
    | cons a l => rfl
  have hne2 : ¬ layer.isEmpty = true := by rw [hne]; exact Bool.noConfusion
  obtain ⟨hnd, hmem⟩ := namingStyles_complete s
  constructor
  · intro k
    unfold LoadLevels
    simp only [hne, Bool.false_eq_true, false_and, if_false, true_and, quadChannels_length]
    by_cases hk : k > 0
    · rw [if_pos hk, scanFourStyles_before layer s k namingStyles hnd hmem]
      simp only
      rw [scanPairsStyles_none layer _ (quadChannels_not_single layer s k)]
    · rw [if_neg hk]
      have : k = 0 := by omega
      subst this
      rfl
  · intro m
    unfold LoadLevels
    simp only [hne, Bool.false_eq_true, false_and, if_false, true_and, pairChannels_length]
    by_cases hm : 2 * m > 0
    · rw [if_pos hm, scanFourStyles_none layer _ (pairChannels_not_quad layer s m)]
      simp only
      rw [scanPairsStyles_before layer s m namingStyles hnd hmem]
    · rw [if_neg hm]
      have : m = 0 := by omega
      subst this
      rfl

/-- Witness of C6: one quad `L00.argb` gives 2 levels; the two pairs
`L00.r/L00.g` and `L00.b/L00.a` give 2 levels. -/
theorem LoadLevels_ascending_witness :
    "L".toList ≠ [] ∧
    quadChannels "L".toList NamingStyle.rgba 1 = [floatChannel 0 "L00.argb".toList 4] ∧
    pairChannels "L".toList NamingStyle.rgba 2 =
      [floatChannel 0 "L00.r".toList 1, floatChannel 1 "L00.g".toList 1,
       floatChannel 2 "L00.b".toList 1, floatChannel 3 "L00.a".toList 1] ∧
    LoadLevels "L".toList (quadChannels "L".toList NamingStyle.rgba 1) =
      some ("L".toList, 2 * 1, List.range 1) ∧
    LoadLevels "L".toList (pairChannels "L".toList NamingStyle.rgba 2) =
      some ("L".toList, 2, List.range (2 * 2)) :=
  ⟨by decide, by decide, by decide,
    (LoadLevels_ascending "L".toList NamingStyle.rgba (by decide)).1 1,
    (LoadLevels_ascending "L".toList NamingStyle.rgba (by decide)).2 2⟩

/-! ### The level buffer builder -/

theorem quadLoop_frame {α : Type} (origin : Nat → α) (inStep outStep : Nat) (addr : Nat) :
    ∀ (n inp out : Nat) (mem : Nat → α),
      (∀ j, j < n → ∀ c, c < 4 → addr ≠ out + 4 * outStep * j + 4 * c) →
      quadLoop origin inStep outStep n inp out mem addr = mem addr := by
  intro n
  induction n with
  | zero => intro _ _ _ _; rfl
  | succ n ih =>
    intro inp out mem h
    unfold quadLoop
    simp only
    rw [ih _ _ _ (by
      intro j hj c hc
      have := h (j + 1) (by omega) c hc
      rw [Nat.mul_succ] at this
      omega)]
    have h0 := h 0 (by omega) 0 (by omega)
    have h1 := h 0 (by omega) 1 (by omega)
    have h2 := h 0 (by omega) 2 (by omega)
    have h3 := h 0 (by omega) 3 (by omega)
    rw [Function.update_noteq (by omega), Function.update_noteq (by omega),
      Function.update_noteq (by omega), Function.update_noteq (by omega)]

theorem quadLoop_value {α : Type} (origin : Nat → α) (inStep outStep : Nat)
    (hstep : 4 ≤ outStep) :
    ∀ (n inp out : Nat) (mem : Nat → α) (j c : Nat), j < n → c < 4 →
      quadLoop origin inStep outStep n inp out mem (out + 4 * outStep * j + 4 * c) =
        origin (inp + 4 * inStep * j + 4 * quadSource c) := by
  intro n
  induction n with
  | zero => intro _ _ _ j _ hj _; omega
  | succ n ih =>
    intro inp out mem j c hj hc
    unfold quadLoop
    simp only
    cases j with
    | zero =>
      rw [quadLoop_frame origin inStep outStep _ n _ _ _ (by
        intro j' _ c' hc'
        have : 4 * outStep * j' ≥ 0 := Nat.zero_le _
        omega)]
      have hcases : c = 0 ∨ c = 1 ∨ c = 2 ∨ c = 3 := by omega
      rcases hcases with rfl | rfl | rfl | rfl
      · rw [show out + 4 * outStep * 0 + 4 * 0 = out + 0 by omega,
          Function.update_noteq (by omega), Function.update_noteq (by omega),
          Function.update_noteq (by omega), Function.update_same]
        rfl
      · rw [show out + 4 * outStep * 0 + 4 * 1 = out + 4 by omega,
          Function.update_noteq (by omega), Function.update_noteq (by omega),
          Function.update_same]
        rfl
      · rw [show out + 4 * outStep * 0 + 4 * 2 = out + 8 by omega,
          Function.update_noteq (by omega), Function.update_same]
        rfl
      · rw [show out + 4 * outStep * 0 + 4 * 3 = out + 12 by omega, Function.update_same]
        rfl
    | succ j =>
      have h := ih (inp + 4 * inStep) (out + 4 * outStep)
        (Function.update (Function.update (Function.update (Function.update mem (out + 0)
          (origin (inp + 4))) (out + 4) (origin (inp + 8))) (out + 8) (origin (inp + 12)))
          (out + 12) (origin (inp + 0))) j c (by omega) hc
      rw [show out + 4 * outStep * (j + 1) + 4 * c = out + 4 * outStep + 4 * outStep * j + 4 * c by
          rw [Nat.mul_succ]; omega,
        show inp + 4 * inStep * (j + 1) + 4 * quadSource c =
          inp + 4 * inStep + 4 * inStep * j + 4 * quadSource c by rw [Nat.mul_succ]; omega]
      exact h

theorem singleLoop_frame {α : Type} (origin : Nat → α) (inStep outStep : Nat) (addr : Nat) :
    ∀ (n inp out : Nat) (mem : Nat → α),
      (∀ j, j < n → addr ≠ out + 4 * outStep * j) →
      singleLoop origin inStep outStep n inp out mem addr = mem addr := by
  intro n
  induction n with
  | zero => intro _ _ _ _; rfl
  | succ n ih =>
    intro inp out mem h
    unfold singleLoop
    rw [ih _ _ _ (by
      intro j hj
      have := h (j + 1) (by omega)
      rw [Nat.mul_succ] at this
      omega)]
    have h0 := h 0 (by omega)
    rw [Function.update_noteq (by omega)]

theorem iterate_generic_succ {α : Type} (h : Nat) (fn : Nat → (Nat → α) → (Nat → α))
    (mem : Nat → α) :
    iterate_generic (h + 1) fn mem = fn h (iterate_generic h fn mem) := by
  unfold iterate_generic
  rw [List.range_succ, List.foldl_append]
  rfl

theorem iterate_generic_frame {α : Type} (fn : Nat → (Nat → α) → (Nat → α)) (addr : Nat)
    (hfn : ∀ i m, fn i m addr = m addr) :
    ∀ (h : Nat) (mem : Nat → α), iterate_generic h fn mem addr = mem addr := by
  intro h
  induction h with
  | zero => intro mem; rfl
  | succ h ih =>
    intro mem
    rw [iterate_generic_succ, hfn, ih]

theorem residue (S q r : Nat) (hr : r < S) : (r + S * q) % S = r := by
  rw [Nat.add_mul_mod_self_left]
  exact Nat.mod_eq_of_lt hr

theorem Iterate_quad_frame {α : Type} (i_data : CryptomatteBufferIterateData α)
    (hdim : i_data.dimension = 4) (hfit : i_data.buf + 16 ≤ 8 * i_data.numLevels) (addr : Nat)
    (haddr : ∀ c, c < 4 → addr % (8 * i_data.numLevels) ≠ i_data.buf + 4 * c) (i : Nat)
    (mem : Nat → α) : CryptomatteBuffer_Iterate i_data i mem addr = mem addr := by
  unfold CryptomatteBuffer_Iterate
  rw [if_pos hdim]
  apply quadLoop_frame
  intro j _ c hc he
  apply haddr c hc
  rw [he, show i_data.buf + i * (4 * 2 * i_data.numLevels * i_data.width) +
      4 * (i_data.numLevels * 2) * j + 4 * c =
      (i_data.buf + 4 * c) + 8 * i_data.numLevels * (i * i_data.width + j) by ring]
  exact residue _ _ _ (by omega)

theorem Iterate_single_frame {α : Type} (i_data : CryptomatteBufferIterateData α)
    (hdim : i_data.dimension ≠ 4) (hfit : i_data.buf < 8 * i_data.numLevels) (addr : Nat)
    (haddr : addr % (8 * i_data.numLevels) ≠ i_data.buf) (i : Nat)
    (mem : Nat → α) : CryptomatteBuffer_Iterate i_data i mem addr = mem addr := by
  unfold CryptomatteBuffer_Iterate
  rw [if_neg hdim]
  apply singleLoop_frame
  intro j _ he
  apply haddr
  rw [he, show i_data.buf + i * (4 * 2 * i_data.numLevels * i_data.width) +
      4 * (i_data.numLevels * 2) * j =
      i_data.buf + 8 * i_data.numLevels * (i * i_data.width + j) by ring]
  exact residue _ _ _ hfit

theorem Iterate_quad_value {α : Type} (i_data : CryptomatteBufferIterateData α)
    (hdim : i_data.dimension = 4) (hN : 2 ≤ i_data.numLevels) (i x c : Nat)
    (hx : x < i_data.width) (hc : c < 4) (mem : Nat → α) :
    CryptomatteBuffer_Iterate i_data i mem
        (i_data.buf + i * (4 * 2 * i_data.numLevels * i_data.width) +
          4 * (i_data.numLevels * 2) * x + 4 * c) =
      i_data.origin (i * i_data.yStride + 4 * (i_data.xStride / 4) * x + 4 * quadSource c) := by
  unfold CryptomatteBuffer_Iterate
  rw [if_pos hdim]
  exact quadLoop_value _ _ _ (by omega) _ _ _ _ x c hx hc

theorem Iterate_quad_other_row {α : Type} (i_data : CryptomatteBufferIterateData α)
    (hdim : i_data.dimension = 4) (hN : 2 ≤ i_data.numLevels) (i y x c : Nat) (hiy : i ≠ y)
    (hx : x < i_data.width) (hc : c < 4) (mem : Nat → α) :
    CryptomatteBuffer_Iterate i_data i mem
        (i_data.buf + y * (4 * 2 * i_data.numLevels * i_data.width) +
          4 * (i_data.numLevels * 2) * x + 4 * c) =
      mem (i_data.buf + y * (4 * 2 * i_data.numLevels * i_data.width) +
          4 * (i_data.numLevels * 2) * x + 4 * c) := by
  unfold CryptomatteBuffer_Iterate
  rw [if_pos hdim]
  apply quadLoop_frame
  intro j hj c' hc'
  have hRB : 4 * 2 * i_data.numLevels * i_data.width =
      4 * (i_data.numLevels * 2) * i_data.width := by ring
  have h1 : 4 * (i_data.numLevels * 2) * x + 4 * (i_data.numLevels * 2) ≤
      4 * (i_data.numLevels * 2) * i_data.width := by
    have := Nat.mul_le_mul_left (4 * (i_data.numLevels * 2)) (show x + 1 ≤ i_data.width from hx)
    rw [Nat.mul_succ] at this
    exact this
  have h2 : 4 * (i_data.numLevels * 2) * j + 4 * (i_data.numLevels * 2) ≤
      4 * (i_data.numLevels * 2) * i_data.width := by
    have := Nat.mul_le_mul_left (4 * (i_data.numLevels * 2)) (show j + 1 ≤ i_data.width from hj)
    rw [Nat.mul_succ] at this
    exact this
  rw [hRB]
  rcases Nat.lt_or_gt_of_ne hiy with hlt | hgt
  · have h3 := Nat.mul_le_mul_right (4 * (i_data.numLevels * 2) * i_data.width)
      (show i + 1 ≤ y from hlt)
    rw [Nat.succ_mul] at h3
    omega
  · have h3 := Nat.mul_le_mul_right (4 * (i_data.numLevels * 2) * i_data.width)
      (show y + 1 ≤ i from hgt)
    rw [Nat.succ_mul] at h3
    omega

theorem iterate_quad_value {α : Type} (i_data : CryptomatteBufferIterateData α)
    (hdim : i_data.dimension = 4) (hN : 2 ≤ i_data.numLevels) (x c : Nat)
    (hx : x < i_data.width) (hc : c < 4) (y : Nat) :
    ∀ (h : Nat) (mem : Nat → α), y < h →
      iterate_generic h (CryptomatteBuffer_Iterate i_data) mem
          (i_data.buf + y * (4 * 2 * i_data.numLevels * i_data.width) +
            4 * (i_data.numLevels * 2) * x + 4 * c) =
        i_data.origin (y * i_data.yStride + 4 * (i_data.xStride / 4) * x + 4 * quadSource c) := by
  intro h
  induction h with
  | zero => intro _ hy; omega
  | succ h ih =>
    intro mem hy
    rw [iterate_generic_succ]
    by_cases hyh : y = h
    · subst hyh
      exact Iterate_quad_value i_data hdim hN y x c hx hc _
    · rw [Iterate_quad_other_row i_data hdim hN h y x c (fun e => hyh e.symm) hx hc]
      exact ih mem (by omega)

theorem buildQuad_value {α : Type} (numLevels : Nat) (chunk : PF_ChannelChunk α)
    (st : BuildState α) (hfit : st.levelNum + 2 ≤ numLevels) (x y c : Nat)
    (hx : x < st.width) (hy : y < st.height) (hc : c < 4) :
    (buildQuad numLevels chunk st).buf (slotOffset st.width numLevels x y st.levelNum 0 + 4 * c) =
      channelValue chunk 4 x y (quadSource c) := by
  have h := iterate_quad_value
    { buf := st.levelNum * 8, dimension := 4, numLevels := numLevels,
      origin := chunk.dataPV, width := st.width, xStride := 4 * 4,
      yStride := chunk.row_bytesL } rfl (by simp only; omega) x c hx hc y st.height st.buf hy
  simp only at h
  unfold buildQuad slotOffset channelValue
  simp only
  rw [show 8 * ((y * st.width + x) * numLevels + st.levelNum) + 4 * 0 + 4 * c =
      st.levelNum * 8 + y * (4 * 2 * numLevels * st.width) + 4 * (numLevels * 2) * x + 4 * c by
    ring, h]

theorem buildQuad_frame {α : Type} (numLevels : Nat) (chunk : PF_ChannelChunk α)
    (st : BuildState α) (hfit : st.levelNum + 2 ≤ numLevels) (addr : Nat)
    (haddr : ∀ c, c < 4 → addr % (8 * numLevels) ≠ 8 * st.levelNum + 4 * c) :
    (buildQuad numLevels chunk st).buf addr = st.buf addr := by
  unfold buildQuad
  simp only
  apply iterate_generic_frame
  intro i m
  apply Iterate_quad_frame _ rfl (by simp only; omega)
  intro c hc
  simp only
  have := haddr c hc
  omega

theorem buildSingle_frame {α : Type} (numLevels : Nat) (chunk : PF_ChannelChunk α)
    (cov : Option (PF_ChannelChunk α)) (st : BuildState α) (hfit : st.levelNum + 1 ≤ numLevels)
    (addr : Nat)
    (haddr : ∀ c, c < 2 → addr % (8 * numLevels) ≠ 8 * st.levelNum + 4 * c) :
    (buildSingle numLevels chunk cov st).buf addr = st.buf addr := by
  have h0 := haddr 0 (by omega)
  have h1 := haddr 1 (by omega)
  have hhash : iterate_generic st.height
      (CryptomatteBuffer_Iterate
        { buf := st.levelNum * 8, dimension := 1, numLevels := numLevels,
          origin := chunk.dataPV, width := st.width, xStride := 4,
          yStride := chunk.row_bytesL }) st.buf addr = st.buf addr := by
    apply iterate_generic_frame
    intro i m
    apply Iterate_single_frame _ (by simp only; decide) (by simp only; omega)
    simp only
    omega
  unfold buildSingle
  simp only
  cases cov with
  | none => exact hhash
  | some covChunk =>
    simp only
    rw [iterate_generic_frame _ addr (by
      intro i m
      apply Iterate_single_frame _ (by simp only; decide) (by simp only; omega)
      simp only
      omega)]
    exact hhash

theorem iterate_quad_frame_exact {α : Type} (i_data : CryptomatteBufferIterateData α)
    (hdim : i_data.dimension = 4) (addr : Nat) :
    ∀ (h : Nat) (mem : Nat → α),
      (∀ y x c, y < h → x < i_data.width → c < 4 →
        addr ≠ i_data.buf + y * (4 * 2 * i_data.numLevels * i_data.width) +
          4 * (i_data.numLevels * 2) * x + 4 * c) →
      iterate_generic h (CryptomatteBuffer_Iterate i_data) mem addr = mem addr := by
  intro h
  induction h with
  | zero => intro mem _; rfl
  | succ h ih =>
    intro mem hne
    rw [iterate_generic_succ]
    have hrow : CryptomatteBuffer_Iterate i_data h
        (iterate_generic h (CryptomatteBuffer_Iterate i_data) mem) addr =
        iterate_generic h (CryptomatteBuffer_Iterate i_data) mem addr := by
      unfold CryptomatteBuffer_Iterate
      rw [if_pos hdim]
      apply quadLoop_frame
      intro j hj c hc
      exact hne h j c (by omega) hj hc
    rw [hrow]
    exact ih mem (fun y x c hy hx hc => hne y x c (by omega) hx hc)

theorem allocate_ok {α : Type} (mallocOk : Nat → Bool) (numLevels : Nat)
    (chunk : PF_ChannelChunk α) (st st1 : BuildState α)
    (h : allocate mallocOk numLevels chunk st = Except.ok st1) :
    st1.buf = st.buf ∧ st1.levelNum = st.levelNum ∧ st1.allocated = true ∧
      (st.allocated = true → st1.width = st.width ∧ st1.height = st.height) ∧
      (st.allocated = false → st1.width = chunk.widthL ∧ st1.height = chunk.heightL) := by
  unfold allocate at h
  by_cases ha : st.allocated = false
  · rw [if_pos ha] at h
    split at h
    · cases h
      refine ⟨rfl, rfl, rfl, ?_, fun _ => ⟨rfl, rfl⟩⟩
      intro ht
      rw [ha] at ht
      exact Bool.noConfusion ht
    · cases h
  · rw [if_neg ha] at h
    cases h
    have ht : st.allocated = true := by
      cases hb : st.allocated with
      | true => rfl
      | false => exact absurd hb ha
    exact ⟨rfl, rfl, ht, fun _ => ⟨rfl, rfl⟩, fun hf => absurd hf ha⟩

theorem buildChannels_frame {α : Type} (checkout : Nat → Option (PF_ChannelChunk α))
    (mallocOk : Nat → Bool) (numLevels : Nat) :
    ∀ (n : Nat) (refs : List Nat) (st final : BuildState α), refs.length ≤ n →
      buildChannels checkout mallocOk numLevels refs st = Except.ok final →
      st.levelNum ≤ final.levelNum ∧
      (st.allocated = true → final.width = st.width ∧ final.height = st.height) ∧
      (final.levelNum ≤ numLevels → ∀ addr, addr % (8 * numLevels) < 8 * st.levelNum →
        final.buf addr = st.buf addr) := by
  intro n
  induction n with
  | zero =>
    intro refs st final hlen h
    cases refs with
    | nil =>
      unfold buildChannels at h
      cases h
      exact ⟨le_refl _, fun _ => ⟨rfl, rfl⟩, fun _ _ _ => rfl⟩
    | cons a l => simp at hlen
  | succ n ih =>
    intro refs st final hlen h
    cases refs with
    | nil =>
      unfold buildChannels at h
      cases h
      exact ⟨le_refl _, fun _ => ⟨rfl, rfl⟩, fun _ _ _ => rfl⟩
    | cons channelRef rest =>
      have hrest : rest.length ≤ n := by simp at hlen; omega
      unfold buildChannels at h
      cases hc : checkout channelRef with
      | none =>
        rw [hc] at h
        exact ih rest st final hrest h
      | some chunk =>
        rw [hc] at h
        simp only at h
        cases ha : allocate mallocOk numLevels chunk st with
        | error what => rw [ha] at h; cases h
        | ok st1 =>
          rw [ha] at h
          simp only at h
          obtain ⟨hb1, hl1, hal1, hw1, _⟩ := allocate_ok mallocOk numLevels chunk st st1 ha
          by_cases hdim : chunk.dimensionL = 4
          · rw [if_pos hdim] at h
            obtain ⟨i1, i2, i3⟩ := ih rest (buildQuad numLevels chunk st1) final hrest h
            have hlev : (buildQuad numLevels chunk st1).levelNum = st.levelNum + 2 := by
              simp [buildQuad, hl1]
            rw [hlev] at i1 i3
            refine ⟨by omega, ?_, ?_⟩
            · intro hst
              obtain ⟨e1, e2⟩ := i2 hal1
              obtain ⟨e3, e4⟩ := hw1 hst
              exact ⟨e1.trans e3, e2.trans e4⟩
            · intro hfit addr haddr
              rw [i3 hfit addr (by omega),
                buildQuad_frame numLevels chunk st1 (by omega) addr (by
                  intro c _; rw [hl1]; omega), hb1]
          · rw [if_neg hdim] at h
            cases rest with
            | nil =>
              simp only at h
              cases h
              refine ⟨by simp [buildSingle, hl1], ?_, ?_⟩
              · intro hst
                exact hw1 hst
              · intro hfit addr haddr
                have hfit2 : st1.levelNum + 1 ≤ numLevels := by
                  simp [buildSingle] at hfit; exact hfit
                rw [buildSingle_frame numLevels chunk none st1 hfit2 addr (by
                  intro c _; rw [hl1]; omega), hb1]
            | cons coverageChannelRef rest2 =>
              simp only at h
              have hrest2 : rest2.length ≤ n := by simp at hrest; omega
              obtain ⟨i1, i2, i3⟩ := ih rest2 _ final hrest2 h
              have hlev : (buildSingle numLevels chunk (checkout coverageChannelRef) st1).levelNum =
                  st.levelNum + 1 := by
                simp [buildSingle, hl1]
              rw [hlev] at i1 i3
              refine ⟨by omega, ?_, ?_⟩
              · intro hst
                obtain ⟨e1, e2⟩ := i2 hal1
                obtain ⟨e3, e4⟩ := hw1 hst
                exact ⟨e1.trans e3, e2.trans e4⟩
              · intro hfit addr haddr
                rw [i3 hfit addr (by omega),
                  buildSingle_frame numLevels chunk _ st1 (by omega) addr (by
                    intro c _; rw [hl1]; omega), hb1]

theorem slotOffset_residue (width numLevels x y k c : Nat) (h : 8 * k + 4 * c < 8 * numLevels) :
    slotOffset width numLevels x y k c % (8 * numLevels) = 8 * k + 4 * c := by
  unfold slotOffset
  rw [show 8 * ((y * width + x) * numLevels + k) + 4 * c =
    (8 * k + 4 * c) + 8 * numLevels * (y * width + x) by ring]
  exact residue _ _ _ h

/-- C3: the coverage of a 1-component pair is read from the hash channel. On
a 2 x 2 buffer of one level built from a hash channel (float `100 + o` at byte
offset `o`) and a coverage channel (float `200 + o`), level 0 of pixel (1, 1)
gets the hash 112, the hash channel's value there, and the coverage 112 as
well, not the coverage channel's value 212. -/
theorem CryptomatteBuffer_coverage_from_hash_channel :
    (checkoutHashCoverage 0).map (fun ch => channelValue ch 1 1 1 0) = some 112 ∧
    (checkoutHashCoverage 1).map (fun ch => channelValue ch 1 1 1 0) = some 212 ∧
    (CryptomatteBuffer_new checkoutHashCoverage (fun _ => true) (fun _ => 0) [0, 1] 1).map
      (fun b => (b.width, b.height, b.levelNum,
        b.buf (slotOffset 2 1 1 1 0 0), b.buf (slotOffset 2 1 1 1 0 1))) =
      Except.ok (2, 2, 1, 112, 112) := by
  refine ⟨by decide, by decide, by decide⟩

/-- C4: when the constructor's loop, at level index `k = st.levelNum`, takes
a 4-component channel that checks out (of the size of the buffer, as the
source asserts), and the levels of all channels fit in `numLevels`, then in
the finished buffer, for every pixel `(x, y)`, the slot
`(y * width + x) * numLevels + k` holds (hash = R, coverage = G) and the next
slot holds (hash = B, coverage = A), the chunk storing A, R, G, B; and that
channel's pass writes nothing but these slots. -/
theorem CryptomatteBuffer_quad_slots {α : Type} (checkout : Nat → Option (PF_ChannelChunk α))
    (mallocOk : Nat → Bool) (numLevels channelRef : Nat) (rest : List Nat)
    (st final : BuildState α) (chunk : PF_ChannelChunk α)
    (hq : checkout channelRef = some chunk) (hdim : chunk.dimensionL = 4)
    (hsize : st.allocated = true → chunk.widthL = st.width ∧ chunk.heightL = st.height)
    (hbuild : buildChannels checkout mallocOk numLevels (channelRef :: rest) st =
      Except.ok final)
    (hfit : final.levelNum ≤ numLevels) :
    final.width = chunk.widthL ∧ final.height = chunk.heightL ∧
    (∀ x y, x < final.width → y < final.height →
      final.buf (slotOffset final.width numLevels x y st.levelNum 0) =
        channelValue chunk 4 x y 1 ∧
      final.buf (slotOffset final.width numLevels x y st.levelNum 1) =
        channelValue chunk 4 x y 2 ∧
      final.buf (slotOffset final.width numLevels x y (st.levelNum + 1) 0) =
        channelValue chunk 4 x y 3 ∧
      final.buf (slotOffset final.width numLevels x y (st.levelNum + 1) 1) =
        channelValue chunk 4 x y 0) ∧
    ∃ st2, buildChannels checkout mallocOk numLevels [channelRef] st = Except.ok st2 ∧
      buildChannels checkout mallocOk numLevels rest st2 = Except.ok final ∧
      ∀ addr, (∀ x y c, x < final.width → y < final.height → c < 2 →
          addr ≠ slotOffset final.width numLevels x y st.levelNum c ∧
          addr ≠ slotOffset final.width numLevels x y (st.levelNum + 1) c) →
        st2.buf addr = st.buf addr := by
  have hb := hbuild
  unfold buildChannels at hb
  rw [hq] at hb
  simp only at hb
  cases ha : allocate mallocOk numLevels chunk st with
  | error what => rw [ha] at hb; cases hb
  | ok st1 =>
    rw [ha] at hb
    simp only at hb
    rw [if_pos hdim] at hb
    obtain ⟨hb1, hl1, hal1, hw1, hw2⟩ := allocate_ok mallocOk numLevels chunk st st1 ha
    obtain ⟨i1, i2, i3⟩ := buildChannels_frame checkout mallocOk numLevels rest.length rest
      (buildQuad numLevels chunk st1) final (le_refl _) hb
    have hlev : (buildQuad numLevels chunk st1).levelNum = st.levelNum + 2 := by
      simp [buildQuad, hl1]
    rw [hlev] at i1 i3
    have hdims : st1.width = chunk.widthL ∧ st1.height = chunk.heightL := by
      cases hst : st.allocated with
      | true =>
        obtain ⟨e1, e2⟩ := hw1 hst
        obtain ⟨e3, e4⟩ := hsize hst
        exact ⟨e1.trans e3.symm, e2.trans e4.symm⟩
      | false => exact hw2 hst
    have hfin : final.width = st1.width ∧ final.height = st1.height := i2 hal1
    have hval : ∀ x y c, x < final.width → y < final.height → c < 4 →
        final.buf (slotOffset final.width numLevels x y st.levelNum 0 + 4 * c) =
          channelValue chunk 4 x y (quadSource c) := by
      intro x y c hx hy hc
      rw [i3 hfit _ (by
        rw [show slotOffset final.width numLevels x y st.levelNum 0 + 4 * c =
          (8 * st.levelNum + 4 * c) + 8 * numLevels * (y * final.width + x) by
            unfold slotOffset; ring, residue _ _ _ (by omega)]
        omega)]
      rw [hfin.1, ← hl1]
      exact buildQuad_value numLevels chunk st1 (by omega) x y c (by rw [← hfin.1]; exact hx)
        (by rw [← hfin.2]; exact hy) hc
    refine ⟨hfin.1.trans hdims.1, hfin.2.trans hdims.2, ?_, ?_⟩
    · intro x y hx hy
      have h0 := hval x y 0 hx hy (by omega)
      have h1 := hval x y 1 hx hy (by omega)
      have h2 := hval x y 2 hx hy (by omega)
      have h3 := hval x y 3 hx hy (by omega)
      have e1 : slotOffset final.width numLevels x y st.levelNum 1 =
          slotOffset final.width numLevels x y st.levelNum 0 + 4 * 1 := by
        unfold slotOffset; ring
      have e2 : slotOffset final.width numLevels x y (st.levelNum + 1) 0 =
          slotOffset final.width numLevels x y st.levelNum 0 + 4 * 2 := by
        unfold slotOffset; ring
      have e3 : slotOffset final.width numLevels x y (st.levelNum + 1) 1 =
          slotOffset final.width numLevels x y st.levelNum 0 + 4 * 3 := by
        unfold slotOffset; ring
      rw [e1, e2, e3]
      exact ⟨h0, h1, h2, h3⟩
    · refine ⟨buildQuad numLevels chunk st1, ?_, hb, ?_⟩
      · unfold buildChannels
        rw [hq]
        simp only
        rw [ha]
        simp only
        rw [if_pos hdim]
        rfl
      · intro addr hne
        have hq2 : (buildQuad numLevels chunk st1).buf addr = st1.buf addr := by
          unfold buildQuad
          simp only
          apply iterate_quad_frame_exact _ rfl
          intro y x c hy hx hc
          simp only at hx ⊢
          have hx' : x < final.width := by rw [hfin.1]; exact hx
          have hy' : y < final.height := by rw [hfin.2]; exact hy
          have e : st1.levelNum * 8 + y * (4 * 2 * numLevels * st1.width) +
              4 * (numLevels * 2) * x + 4 * c =
              slotOffset final.width numLevels x y st.levelNum 0 + 4 * c := by
            rw [hfin.1, hl1]; unfold slotOffset; ring
          rw [e]
          have hc4 : c = 0 ∨ c = 1 ∨ c = 2 ∨ c = 3 := by omega
          have n0 := hne x y 0 hx' hy' (by omega)
          have n1 := hne x y 1 hx' hy' (by omega)
          unfold slotOffset at n0 n1 ⊢
          rcases hc4 with rfl | rfl | rfl | rfl
          · exact n0.1
          · intro he; exact n1.1 (by rw [he])
          · intro he; exact n0.2 (by rw [he]; ring)
          · intro he; exact n1.2 (by rw [he]; ring)
        rw [hq2, hb1]

/-- Witness of C4: one quad of 2 x 2 pixels, built from the constructor's
initial state into a buffer of two levels; at pixel (1, 1) the first slot's
hash is R (152) and the second slot's coverage is A (148). -/
theorem CryptomatteBuffer_quad_slots_witness :
    checkoutQuad 0 = some quadChunk ∧ quadChunk.dimensionL = 4 ∧
    buildChannels checkoutQuad (fun _ => true) 2 [0] freshBuild = Except.ok quadBuilt ∧
    quadBuilt.levelNum ≤ 2 ∧
    channelValue quadChunk 4 1 1 1 = 152 ∧ channelValue quadChunk 4 1 1 0 = 148 ∧
    quadBuilt.buf (slotOffset quadBuilt.width 2 1 1 freshBuild.levelNum 0) =
      channelValue quadChunk 4 1 1 1 ∧
    quadBuilt.buf (slotOffset quadBuilt.width 2 1 1 (freshBuild.levelNum + 1) 1) =
      channelValue quadChunk 4 1 1 0 :=
  ⟨rfl, rfl, rfl, by decide, by decide, by decide,
    ((CryptomatteBuffer_quad_slots checkoutQuad (fun _ => true) 2 0 [] freshBuild quadBuilt
      quadChunk rfl rfl (by decide) rfl (by decide)).2.2.1 1 1 (by decide) (by decide)).1,
    ((CryptomatteBuffer_quad_slots checkoutQuad (fun _ => true) 2 0 [] freshBuild quadBuilt
      quadChunk rfl rfl (by decide) rfl (by decide)).2.2.1 1 1 (by decide) (by decide)).2.2.2⟩

/-! ### Literal hashes -/

theorem hexDigit_digitChar (d : Nat) (h : d < 16) :
    hexDigit (Nat.digitChar d) = some d ∧ isLowerHex (Nat.digitChar d) = true := by
  interval_cases d <;> exact ⟨by decide, by decide⟩

theorem hexDigit_range (c : Char) (h : (hexDigit c).isSome = true) :
    (48 ≤ c.toNat ∧ c.toNat ≤ 57) ∨ (97 ≤ c.toNat ∧ c.toNat ≤ 102) ∨
      (65 ≤ c.toNat ∧ c.toNat ≤ 70) := by
  unfold hexDigit at h
  by_cases h1 : 48 ≤ c.toNat ∧ c.toNat ≤ 57
  · exact Or.inl h1
  · by_cases h2 : 97 ≤ c.toNat ∧ c.toNat ≤ 102
    · exact Or.inr (Or.inl h2)
    · by_cases h3 : 65 ≤ c.toNat ∧ c.toNat ≤ 70
      · exact Or.inr (Or.inr h3)
      · rw [if_neg h1, if_neg h2, if_neg h3] at h
        exact Bool.noConfusion h

theorem hexDigit_ne (c d : Char) (h : (hexDigit c).isSome = true)
    (hd : (hexDigit d).isSome = false) : c ≠ d := by
  intro e
  rw [e, hd] at h
  exact Bool.noConfusion h

theorem toDigitsCore16_val : ∀ (fuel n : Nat) (ds : List Char), n < fuel →
    hexValue 0 (Nat.toDigitsCore 16 fuel n ds) = hexValue n ds := by
  intro fuel
  induction fuel with
  | zero => intro n ds h; omega
  | succ fuel ih =>
    intro n ds h
    have hd := (hexDigit_digitChar (n % 16) (Nat.mod_lt _ (by decide))).1
    unfold Nat.toDigitsCore
    simp only
    split
    · rename_i h0
      have hn : n % 16 = n := by omega
      rw [hn] at hd
      simp only [hexValue, List.foldl_cons, Nat.zero_mul, Nat.zero_add, hn, hd, Option.getD_some]
    · rename_i h0
      rw [ih (n / 16) _ (by omega)]
      simp only [hexValue, List.foldl_cons, hd, Option.getD_some]
      congr 1
      omega

theorem toDigitsCore16_lower : ∀ (fuel n : Nat) (ds : List Char),
    (∀ c ∈ ds, isLowerHex c = true) →
    ∀ c ∈ Nat.toDigitsCore 16 fuel n ds, isLowerHex c = true := by
  intro fuel
  induction fuel with
  | zero => intro n ds h; exact h
  | succ fuel ih =>
    intro n ds h
    have hcons : ∀ c ∈ Nat.digitChar (n % 16) :: ds, isLowerHex c = true := by
      intro c hc
      rcases List.mem_cons.mp hc with hc | hc
      · rw [hc]; exact (hexDigit_digitChar _ (Nat.mod_lt _ (by decide))).2
      · exact h c hc
    unfold Nat.toDigitsCore
    simp only
    split
    · exact hcons
    · exact ih _ _ hcons

theorem isLowerHex_hexDigit (c : Char) (h : isLowerHex c = true) :
    (hexDigit c).isSome = true := by
  unfold isLowerHex at h
  rw [List.contains_iff_exists_mem_beq] at h
  obtain ⟨d, hd, hcd⟩ := h
  have hc : c = d := by simpa using hcd
  subst hc
  revert hd
  simp only [String.toList]
  intro hd
  simp only [List.mem_cons, List.mem_singleton, List.not_mem_nil, or_false] at hd
  rcases hd with h | h | h | h | h | h | h | h | h | h | h | h | h | h | h | h <;>
    (rw [h]; decide)

theorem hexValue_zeros (j : Nat) (l : List Char) :
    hexValue 0 (List.replicate j '0' ++ l) = hexValue 0 l := by
  induction j with
  | zero => rfl
  | succ j ih =>
    rw [List.replicate_succ, List.cons_append]
    exact ih

theorem takeWhile_all_then {α : Type} (p : α → Bool) (v : List α) (y : α) (t : List α)
    (hv : ∀ x ∈ v, p x = true) (hy : p y = false) : (v ++ y :: t).takeWhile p = v := by
  induction v with
  | nil => simp [List.takeWhile_cons, hy]
  | cons a v ih =>
    rw [List.cons_append, List.takeWhile_cons_of_pos (hv a (List.mem_cons_self _ _)),
      ih (fun x hx => hv x (List.mem_cons_of_mem _ hx))]

theorem hexDigit_facts (c : Char) (h : (hexDigit c).isSome = true) :
    (c.toNat != 0) = true ∧ isspace c = false ∧ c ≠ '-' ∧ c ≠ '+' ∧ c ≠ 'x' ∧ c ≠ 'X' ∧
      c ≠ '<' ∧ c ≠ '>' := by
  refine ⟨?_, ?_, hexDigit_ne c _ h (by decide), hexDigit_ne c _ h (by decide),
    hexDigit_ne c _ h (by decide), hexDigit_ne c _ h (by decide),
    hexDigit_ne c _ h (by decide), hexDigit_ne c _ h (by decide)⟩
  · have := hexDigit_range c h
    simp only [bne_iff_ne, ne_eq]
    omega
  · have := hexDigit_range c h
    unfold isspace
    simp only [Bool.or_eq_false_iff, beq_eq_false_iff_ne, ne_eq, Bool.and_eq_false_iff,
      decide_eq_false_iff_not]
    omega

theorem scanHexBody_digits (v : List Char) (t : List Char) (hne : v ≠ [])
    (hhex : ∀ c ∈ v, (hexDigit c).isSome = true) :
    scanHexBody (v ++ '>' :: t) = some (hexValue 0 v) := by
  have htake : (v ++ '>' :: t).takeWhile (fun c => (hexDigit c).isSome) = v :=
    takeWhile_all_then _ v '>' t hhex (by decide)
  cases v with
  | nil => exact absurd rfl hne
  | cons a w =>
    cases w with
    | nil =>
      simp only [List.cons_append, List.nil_append] at htake ⊢
      have hcond : ¬ (a = '0' ∧ ('>' = 'x' ∨ '>' = 'X')) := by
        rintro ⟨_, h | h⟩ <;> revert h <;> decide
      simp only [scanHexBody, hcond, if_false, htake]
      rfl
    | cons b w =>
      simp only [List.cons_append] at htake ⊢
      have hcond : ¬ (a = '0' ∧ (b = 'x' ∨ b = 'X')) := by
        rintro ⟨_, h | h⟩
        · exact (hexDigit_facts b (hhex b (by simp))).2.2.2.2.1 h
        · exact (hexDigit_facts b (hhex b (by simp))).2.2.2.2.2.1 h
      simp only [scanHexBody, hcond, if_false, htake]
      rfl

theorem sscanfHex_literal (v : List Char) (hne : v ≠ [])
    (hhex : ∀ c ∈ v, (hexDigit c).isSome = true) :
    sscanfHex ('<' :: v ++ ['>']) = (1, hexValue 0 v % 2 ^ 32) := by
  have hall : ('<' :: v ++ ['>']).takeWhile (fun c => c.toNat != 0) = '<' :: v ++ ['>'] := by
    rw [List.takeWhile_eq_self_iff]
    intro c hc
    simp only [List.cons_append, List.mem_cons, List.mem_append, List.mem_singleton,
      List.not_mem_nil, or_false] at hc
    rcases hc with h | h | h
    · rw [h]; decide
    · exact (hexDigit_facts c (hhex c h)).1
    · rw [h]; decide
  unfold sscanfHex
  rw [hall]
  cases v with
  | nil => exact absurd rfl hne
  | cons a w =>
    have ha := hexDigit_facts a (hhex a (List.mem_cons_self _ _))
    simp only [List.cons_append, ne_eq, not_true_eq_false, if_false]
    rw [List.dropWhile_cons_of_neg (by rw [ha.2.1]; exact Bool.noConfusion)]
    simp only
    rw [if_neg (by rintro (h | h); exact ha.2.2.1 h; exact ha.2.2.2.1 h)]
    have hs := scanHexBody_digits (a :: w) [] (by simp) hhex
    simp only [List.cons_append] at hs
    rw [hs]
    simp only [decide_eq_true_eq, ha.2.2.1, if_false]

theorem GetHashIfLiteral_literal (v : List Char) (hlen : v.length = 8)
    (hhex : ∀ c ∈ v, (hexDigit c).isSome = true) :
    GetHashIfLiteral ('<' :: v ++ ['>']) = some (hexValue 0 v % 2 ^ 32) := by
  have hne : v ≠ [] := by
    intro h
    rw [h] at hlen
    exact absurd hlen (by decide)
  unfold GetHashIfLiteral
  rw [if_pos (by simp [hlen]), sscanfHex_literal v hne hhex]
  simp

theorem sprintfHex_digits (h : Nat) (hh : h < 2 ^ 32) :
    sprintfHex h = '<' :: (List.replicate (8 - (Nat.toDigits 16 h).length) '0' ++
      Nat.toDigits 16 h) ++ ['>'] ∧
    (List.replicate (8 - (Nat.toDigits 16 h).length) '0' ++ Nat.toDigits 16 h).length = 8 ∧
    (∀ c ∈ List.replicate (8 - (Nat.toDigits 16 h).length) '0' ++ Nat.toDigits 16 h,
      isLowerHex c = true) ∧
    hexValue 0 (List.replicate (8 - (Nat.toDigits 16 h).length) '0' ++ Nat.toDigits 16 h) = h := by
  have hlen : (Nat.toDigits 16 h).length ≤ 8 :=
    Nat.toDigitsCore_length 16 (by decide) (h + 1) h 8 (by
      rw [show (16 : Nat) ^ 8 = 2 ^ 32 by norm_num]; exact hh) (by decide)
  refine ⟨?_, ?_, ?_, ?_⟩
  · unfold sprintfHex
    rw [Nat.mod_eq_of_lt hh]
  · rw [List.length_append, List.length_replicate]
    omega
  · intro c hc
    rcases List.mem_append.mp hc with h1 | h1
    · rw [(List.mem_replicate.mp h1).2]; decide
    · exact toDigitsCore16_lower _ _ [] (by intro c hc; cases hc) c h1
  · rw [hexValue_zeros]
    unfold Nat.toDigits
    rw [toDigitsCore16_val _ _ _ (by omega)]
    rfl

/-- C15: for every 32-bit hash `h`, `HashToLiteralStr h` is `<`, then eight
lower-case hexadecimal digits whose value is `h` (so zero-padded), then `>`,
ten characters in all, and `GetHashIfLiteral` accepts it with the result
`h`. -/
theorem HashToLiteralStr_roundtrip (h : Hash) (hh : h < 2 ^ 32) :
    (∃ digits : List Char, HashToLiteralStr h = '<' :: digits ++ ['>'] ∧ digits.length = 8 ∧
      (∀ c ∈ digits, isLowerHex c = true) ∧ hexValue 0 digits = h) ∧
    (HashToLiteralStr h).length = 10 ∧
    GetHashIfLiteral (HashToLiteralStr h) = some h := by
  obtain ⟨h1, h2, h3, h4⟩ := sprintfHex_digits h hh
  refine ⟨⟨_, h1, h2, h3, h4⟩, ?_, ?_⟩
  · unfold HashToLiteralStr
    rw [h1]
    simp only [List.cons_append, List.length_cons, List.length_append, List.length_nil] at h2 ⊢
    omega
  · unfold HashToLiteralStr
    rw [h1, GetHashIfLiteral_literal _ h2 (fun c hc => isLowerHex_hexDigit c (h3 c hc)), h4,
      Nat.mod_eq_of_lt hh]

/-- Witness of C15: the hash `0x0004a3f1` is written `<0004a3f1>`. -/
theorem HashToLiteralStr_roundtrip_witness :
    (0x4a3f1 : Nat) < 2 ^ 32 ∧ HashToLiteralStr 0x4a3f1 = "<0004a3f1>".toList ∧
    GetHashIfLiteral (HashToLiteralStr 0x4a3f1) = some 0x4a3f1 :=
  ⟨by decide, by decide, (HashToLiteralStr_roundtrip 0x4a3f1 (by decide)).2.2⟩

/-- C14: `GetHashIfLiteral` accepts strings that are not of the form `<` +
8 hex digits + `>`: ten characters that begin with `<` and one hex digit are
enough (`<12>aaaaaa` gives `0x12`), and so is `<` followed by nine blanks,
where `sscanf` returns `EOF`, which the test `if(matched)` takes for a
match. The exact form is accepted, and nine or eleven characters are
rejected. -/
theorem GetHashIfLiteral_accepts_malformed :
    GetHashIfLiteral "<12>aaaaaa".toList = some 0x12 ∧
    GetHashIfLiteral "<1zzzzzzzz".toList = some 0x1 ∧
    sscanfHex "<         ".toList = (-1, 0) ∧
    GetHashIfLiteral "<         ".toList = some 0 ∧
    GetHashIfLiteral "<0004a3f1>".toList = some 0x4a3f1 ∧
    GetHashIfLiteral "<004a3f1>".toList = none ∧
    GetHashIfLiteral "<00004a3f1>".toList = none := by
  refine ⟨by decide, by decide, by decide, by decide, by decide, by decide, by decide⟩

/-! ### The manifest in key order -/

theorem char_toNat_inj (a b : Char) (h : a.toNat = b.toNat) : a = b := by
  rw [← Char.ofNat_toNat a, ← Char.ofNat_toNat b, h]

theorem strLt_irrefl : ∀ a : List Char, strLt a a = false := by
  intro a
  induction a with
  | nil => rfl
  | cons c l ih => simp [strLt, ih]

theorem strLt_eq_of_not : ∀ a b : List Char, strLt a b = false → strLt b a = false → a = b := by
  intro a
  induction a with
  | nil =>
    intro b h1 h2
    cases b with
    | nil => rfl
    | cons d r => simp [strLt] at h1
  | cons c l ih =>
    intro b h1 h2
    cases b with
    | nil => simp [strLt] at h2
    | cons d r =>
      unfold strLt at h1 h2
      by_cases hcd : c.toNat < d.toNat
      · rw [if_pos hcd] at h1; exact Bool.noConfusion h1
      · by_cases hdc : d.toNat < c.toNat
        · rw [if_pos hdc] at h2; exact Bool.noConfusion h2
        · rw [if_neg hcd, if_neg hdc] at h1
          rw [if_neg hdc, if_neg hcd] at h2
          rw [char_toNat_inj c d (by omega), ih r h1 h2]

theorem strLt_trans : ∀ a b c : List Char, strLt a b = true → strLt b c = true →
    strLt a c = true := by
  intro a
  induction a with
  | nil =>
    intro b c h1 h2
    cases b with
    | nil => simp [strLt] at h1
    | cons d r =>
      cases c with
      | nil => simp [strLt] at h2
      | cons e t => rfl
  | cons x l ih =>
    intro b c h1 h2
    cases b with
    | nil => simp [strLt] at h1
    | cons d r =>
      cases c with
      | nil => simp [strLt] at h2
      | cons e t =>
        unfold strLt at h1 h2 ⊢
        by_cases hxd : x.toNat < d.toNat
        · by_cases hde : d.toNat < e.toNat
          · rw [if_pos (by omega)]
          · by_cases hed : e.toNat < d.toNat
            · rw [if_neg hde, if_pos hed] at h2; exact Bool.noConfusion h2
            · rw [if_pos (by omega)]
        · by_cases hdx : d.toNat < x.toNat
          · rw [if_neg hxd, if_pos hdx] at h1; exact Bool.noConfusion h1
          · rw [if_neg hxd, if_neg hdx] at h1
            by_cases hde : d.toNat < e.toNat
            · rw [if_pos (by omega)]
            · by_cases hed : e.toNat < d.toNat
              · rw [if_neg hde, if_pos hed] at h2; exact Bool.noConfusion h2
              · rw [if_neg hde, if_neg hed] at h2
                rw [if_neg (by omega), if_neg (by omega)]
                exact ih r t h1 h2

theorem mapFind_mapInsert (m : List (List Char × Hash)) (k : List Char) (v : Hash)
    (k' : List Char) :
    mapFind (mapInsert m k v) k' = if k = k' then some v else mapFind m k' := by
  induction m with
  | nil => simp [mapInsert, mapFind]
  | cons e rest ih =>
    obtain ⟨a, b⟩ := e
    unfold mapInsert
    by_cases h1 : strLt k a = true
    · rw [if_pos h1]
      simp only [mapFind]
    · rw [if_neg h1]
      by_cases h2 : strLt a k = true
      · rw [if_pos h2]
        have hak : a ≠ k := by
          intro e
          rw [e, strLt_irrefl] at h2
          exact Bool.noConfusion h2
        simp only [mapFind]
        rw [ih]
        by_cases hkk : k = k'
        · subst hkk
          rw [if_neg hak, if_pos rfl, if_pos rfl]
        · rw [if_neg hkk, if_neg hkk]
      · rw [if_neg h2]
        have hak : k = a := strLt_eq_of_not k a (by simpa using h1) (by simpa using h2)
        subst hak
        simp only [mapFind]
        by_cases hkk : k = k'
        · simp only [if_pos hkk]
        · simp only [if_neg hkk]

theorem mem_strSetInsert (s : List (List Char)) (x y : List Char) :
    y ∈ strSetInsert s x ↔ y ∈ s ∨ y = x := by
  induction s with
  | nil => simp [strSetInsert]
  | cons a l ih =>
    unfold strSetInsert
    by_cases h1 : strLt x a = true
    · rw [if_pos h1]
      simp only [List.mem_cons]
      tauto
    · rw [if_neg h1]
      by_cases h2 : strLt a x = true
      · rw [if_pos h2]
        simp only [List.mem_cons, ih]
        tauto
      · rw [if_neg h2]
        have hax : x = a := strLt_eq_of_not x a (by simpa using h1) (by simpa using h2)
        subst hax
        simp only [List.mem_cons]
        tauto

theorem loadManifest_cons (name : List Char) (value : JsonValue)
    (rest : List (List Char × JsonValue)) (m : List (List Char × Hash)) :
    loadManifest ((name, value) :: rest) m =
      loadManifest rest (match literalOf value with
        | some h => mapInsert m name h
        | none => m) := by
  cases value with
  | other => rfl
  | object l => rfl
  | str v =>
    have hl : literalOf (JsonValue.str v) = GetHashIfLiteral ('<' :: v ++ ['>']) := rfl
    rw [hl]
    conv_lhs => rw [loadManifest]
    show (match GetHashIfLiteral ('<' :: v ++ ['>']) with
      | some literal_val => loadManifest rest (mapInsert m name literal_val)
      | none => loadManifest rest m) = _
    cases GetHashIfLiteral ('<' :: v ++ ['>']) <;> rfl

theorem loadManifest_find (members : List (List Char × JsonValue)) :
    ∀ (m : List (List Char × Hash)) (name : List Char) (h : Hash),
      (members.map Prod.fst).Nodup →
      (mapFind (loadManifest members m) name = some h ↔
        (∃ value, (name, value) ∈ members ∧ literalOf value = some h) ∨
        ((∀ value, (name, value) ∈ members → literalOf value = none) ∧
          mapFind m name = some h)) := by
  induction members with
  | nil =>
    intro m name h _
    simp [loadManifest]
  | cons e rest ih =>
    intro m name h hnd
    obtain ⟨k, value⟩ := e
    rw [List.map_cons, List.nodup_cons] at hnd
    obtain ⟨hk, hrest⟩ := hnd
    have hkrest : ∀ value', (k, value') ∉ rest := by
      intro value' hmem
      exact hk (List.mem_map.mpr ⟨(k, value'), hmem, rfl⟩)
    rw [loadManifest_cons, ih _ name h hrest]
    by_cases hkn : k = name
    · subst hkn
      cases hl : literalOf value with
      | none =>
        simp only
        constructor
        · rintro (⟨value', hmem, _⟩ | ⟨_, hm⟩)
          · exact absurd hmem (hkrest value')
          · refine Or.inr ⟨?_, hm⟩
            intro value' hmem
            rcases List.mem_cons.mp hmem with h1 | h1
            · cases h1; exact hl
            · exact absurd h1 (hkrest value')
        · rintro (⟨value', hmem, hv⟩ | ⟨_, hm⟩)
          · rcases List.mem_cons.mp hmem with h1 | h1
            · cases h1; rw [hl] at hv; cases hv
            · exact absurd h1 (hkrest value')
          · exact Or.inr ⟨fun value' hmem => absurd hmem (hkrest value'), hm⟩
      | some lv =>
        simp only
        rw [mapFind_mapInsert, if_pos rfl]
        constructor
        · rintro (⟨value', hmem, _⟩ | ⟨_, hm⟩)
          · exact absurd hmem (hkrest value')
          · cases hm
            exact Or.inl ⟨value, List.mem_cons_self _ _, hl⟩
        · rintro (⟨value', hmem, hv⟩ | ⟨hnone, _⟩)
          · rcases List.mem_cons.mp hmem with h1 | h1
            · cases h1
              rw [hl] at hv
              exact Or.inr ⟨fun value' hmem => absurd hmem (hkrest value'), hv⟩
            · exact absurd h1 (hkrest value')
          · have := hnone value (List.mem_cons_self _ _)
            rw [hl] at this
            cases this
    · have hmem : ∀ value', (name, value') ∈ (k, value) :: rest ↔ (name, value') ∈ rest := by
        intro value'
        rw [List.mem_cons]
        constructor
        · rintro (h1 | h1)
          · cases h1; exact absurd rfl hkn
          · exact h1
        · exact Or.inr
      have hfind : mapFind (match literalOf value with
          | some h => mapInsert m k h
          | none => m) name = mapFind m name := by
        cases literalOf value with
        | none => rfl
        | some lv =>
          simp only
          rw [mapFind_mapInsert, if_neg hkn]
      rw [hfind]
      simp only [hmem]

theorem mapInsert_mem (m : List (List Char × Hash)) (k : List Char) (v : Hash)
    (e : List Char × Hash) (h : e ∈ mapInsert m k v) : e ∈ m ∨ e = (k, v) := by
  induction m with
  | nil =>
    simp only [mapInsert, List.mem_singleton] at h
    exact Or.inr h
  | cons a rest ih =>
    obtain ⟨x, y⟩ := a
    unfold mapInsert at h
    split at h
    · rcases List.mem_cons.mp h with h1 | h1
      · exact Or.inr h1
      · exact Or.inl h1
    · split at h
      · rcases List.mem_cons.mp h with h1 | h1
        · exact Or.inl (by rw [h1]; exact List.mem_cons_self _ _)
        · rcases ih h1 with h2 | h2
          · exact Or.inl (List.mem_cons_of_mem _ h2)
          · exact Or.inr h2
      · rcases List.mem_cons.mp h with h1 | h1
        · exact Or.inr h1
        · exact Or.inl (List.mem_cons_of_mem _ h1)

theorem mapInsert_sorted (m : List (List Char × Hash)) (k : List Char) (v : Hash)
    (hs : manifestSorted m) : manifestSorted (mapInsert m k v) := by
  unfold manifestSorted at hs ⊢
  induction m with
  | nil => simp [mapInsert]
  | cons a rest ih =>
    obtain ⟨x, y⟩ := a
    rw [List.pairwise_cons] at hs
    obtain ⟨hx, hrest⟩ := hs
    unfold mapInsert
    by_cases h1 : strLt k x = true
    · rw [if_pos h1, List.pairwise_cons]
      refine ⟨?_, List.pairwise_cons.mpr ⟨hx, hrest⟩⟩
      intro e he
      rcases List.mem_cons.mp he with h2 | h2
      · rw [h2]; exact h1
      · exact strLt_trans _ _ _ h1 (hx e h2)
    · rw [if_neg h1]
      by_cases h2 : strLt x k = true
      · rw [if_pos h2, List.pairwise_cons]
        refine ⟨?_, ih hrest⟩
        intro e he
        rcases mapInsert_mem rest k v e he with h3 | h3
        · exact hx e h3
        · rw [h3]; exact h2
      · rw [if_neg h2]
        have hkx : k = x := strLt_eq_of_not k x (by simpa using h1) (by simpa using h2)
        subst hkx
        rw [List.pairwise_cons]
        exact ⟨hx, hrest⟩

theorem loadManifest_sorted (members : List (List Char × JsonValue)) :
    ∀ m : List (List Char × Hash), manifestSorted m → manifestSorted (loadManifest members m) := by
  induction members with
  | nil => intro m hm; exact hm
  | cons e rest ih =>
    intro m hm
    obtain ⟨k, value⟩ := e
    rw [loadManifest_cons]
    apply ih
    cases literalOf value with
    | none => exact hm
    | some lv => exact mapInsert_sorted m k lv hm

/-! ### Reading the manifest -/

theorem updateSelection_total (murmur : List Char → Nat → Nat → Nat) (ctx : CryptomatteContext)
    (arb : CryptomatteArbitraryData) :
    ∃ ctx', updateSelection murmur ctx arb = some ctx' ∧ ctx'.manifest = ctx.manifest ∧
      ctx'.manifestHash = ctx.manifestHash := by
  unfold updateSelection
  by_cases hchg : ctx.selectionHash ≠ arb.selection_hash
  · rw [if_pos hchg]
    simp only
    by_cases he : arb.selection.isEmpty = false
    · rw [if_pos he, quotedTokenize_eq _ _ commaSpace_no_quote]
      by_cases hq : insideQuotes arb.selection arb.selection.length = true
      · rw [if_pos hq]
        exact ⟨_, rfl, rfl, rfl⟩
      · rw [if_neg hq]
        simp only
        rw [resolveTokens_eq]
        exact ⟨_, rfl, rfl, rfl⟩
    · rw [if_neg he]
      exact ⟨_, rfl, rfl, rfl⟩
  · rw [if_neg hchg]
    exact ⟨_, rfl, rfl, rfl⟩

theorem updateLayer_manifest (ctx : CryptomatteContext) (arb : CryptomatteArbitraryData) :
    (updateLayer ctx arb).manifest = ctx.manifest ∧
      (updateLayer ctx arb).manifestHash = ctx.manifestHash := by
  unfold updateLayer
  split <;> exact ⟨rfl, rfl⟩

theorem Update_manifest (murmur : List Char → Nat → Nat → Nat) (parse : List Char → JsonValue)
    (ctx : CryptomatteContext) (arb : CryptomatteArbitraryData)
    (hchg : ctx.manifestHash ≠ arb.manifest_hash) :
    ∃ ctx', Update murmur parse ctx arb = some ctx' ∧
      ctx'.manifest = (match parse arb.manifest with
        | JsonValue.object members => loadManifest members []
        | _ => []) := by
  obtain ⟨ctx', h1, h2, _⟩ :=
    updateSelection_total murmur (updateManifest parse (updateLayer ctx arb) arb) arb
  refine ⟨ctx', h1, ?_⟩
  rw [h2]
  unfold updateManifest
  rw [if_pos (by rw [(updateLayer_manifest ctx arb).2]; exact hchg)]
  cases parse arb.manifest <;> rfl

theorem literalOf_some (value : JsonValue) (h : Hash) :
    literalOf value = some h ↔
      ∃ v, value = JsonValue.str v ∧ GetHashIfLiteral ('<' :: v ++ ['>']) = some h := by
  cases value with
  | other => simp [literalOf]
  | object l => simp [literalOf]
  | str v => simp [literalOf]

/-- C17: when `Update` re-parses the manifest (changed fingerprint), it
returns, and the new manifest maps `name` to `h` exactly when the top-level
object has an entry `name` whose value is a string `v` with
`GetHashIfLiteral("<" + v + ">") = h` (the keys of a `picojson::object` being
distinct); when the top-level value is not an object the manifest is empty.
Nothing of the manifest held before enters the result. -/
theorem Update_manifest_entries (murmur : List Char → Nat → Nat → Nat)
    (parse : List Char → JsonValue) (ctx : CryptomatteContext)
    (arb : CryptomatteArbitraryData) (hchg : ctx.manifestHash ≠ arb.manifest_hash) :
    ∃ ctx', Update murmur parse ctx arb = some ctx' ∧
      (∀ members, parse arb.manifest = JsonValue.object members →
        (members.map Prod.fst).Nodup →
        ∀ name h, mapFind ctx'.manifest name = some h ↔
          ∃ v, (name, JsonValue.str v) ∈ members ∧
            GetHashIfLiteral ('<' :: v ++ ['>']) = some h) ∧
      ((∀ members, parse arb.manifest ≠ JsonValue.object members) → ctx'.manifest = []) := by
  obtain ⟨ctx', h1, h2⟩ := Update_manifest murmur parse ctx arb hchg
  refine ⟨ctx', h1, ?_, ?_⟩
  · intro members hp hnd name h
    rw [h2, hp]
    simp only
    rw [loadManifest_find members [] name h hnd]
    constructor
    · rintro (⟨value, hmem, hl⟩ | ⟨_, hm⟩)
      · obtain ⟨v, rfl, hv⟩ := (literalOf_some value h).mp hl
        exact ⟨v, hmem, hv⟩
      · simp [mapFind] at hm
    · rintro ⟨v, hmem, hv⟩
      exact Or.inl ⟨JsonValue.str v, hmem, (literalOf_some _ h).mpr ⟨v, rfl, hv⟩⟩
  · intro hno
    rw [h2]
    cases hp : parse arb.manifest with
    | other => rfl
    | str v => rfl
    | object members => exact absurd hp (hno members)

/-- Witness of C17: a manifest of two entries is read into a context that
held none. -/
theorem Update_manifest_entries_witness :
    freshContext.manifestHash ≠ arbThree.manifest_hash ∧
    (Update murmurZero parseTwo freshContext arbThree).map (fun c => c.manifest) =
      some [("<3f800000>".toList, 0x40000000), ("foo".toList, 0x3fc00000)] ∧
    ∃ ctx', Update murmurZero parseTwo freshContext arbThree = some ctx' ∧
      (∀ members, parseTwo arbThree.manifest = JsonValue.object members →
        (members.map Prod.fst).Nodup →
        ∀ name h, mapFind ctx'.manifest name = some h ↔
          ∃ v, (name, JsonValue.str v) ∈ members ∧
            GetHashIfLiteral ('<' :: v ++ ['>']) = some h) ∧
      ((∀ members, parseTwo arbThree.manifest ≠ JsonValue.object members) →
        ctx'.manifest = []) :=
  ⟨by decide, by decide,
    Update_manifest_entries murmurZero parseTwo freshContext arbThree (by decide)⟩

theorem hexDigit_lt (c : Char) (d : Nat) (h : hexDigit c = some d) : d < 16 := by
  unfold hexDigit at h
  split at h
  · injection h with h; omega
  · split at h
    · injection h with h; omega
    · split at h
      · injection h with h; omega
      · exact Option.noConfusion h

theorem hexValue_lt (l : List Char) :
    ∀ acc : Nat, (∀ c ∈ l, (hexDigit c).isSome = true) →
      hexValue acc l < (acc + 1) * 16 ^ l.length := by
  induction l with
  | nil => intro acc _; simp [hexValue]
  | cons c l ih =>
    intro acc hall
    have hc := hall c (List.mem_cons_self _ _)
    obtain ⟨d, hd⟩ := Option.isSome_iff_exists.mp hc
    have hlt := hexDigit_lt c d hd
    have hrec := ih (acc * 16 + d) (fun x hx => hall x (List.mem_cons_of_mem _ hx))
    have hstep : hexValue acc (c :: l) = hexValue (acc * 16 + d) l := by
      simp [hexValue, hd]
    rw [hstep, List.length_cons, pow_succ]
    have hle : (acc * 16 + d + 1) * 16 ^ l.length ≤ (acc + 1) * 16 * 16 ^ l.length :=
      Nat.mul_le_mul_right _ (by omega)
    calc hexValue (acc * 16 + d) l < (acc * 16 + d + 1) * 16 ^ l.length := hrec
      _ ≤ (acc + 1) * 16 * 16 ^ l.length := hle
      _ = (acc + 1) * (16 ^ l.length * 16) := by ring

theorem members_value_unique (members : List (List Char × JsonValue)) (name : List Char)
    (v w : JsonValue) (hnd : (members.map Prod.fst).Nodup) (hv : (name, v) ∈ members)
    (hw : (name, w) ∈ members) : v = w := by
  induction members with
  | nil => simp at hv
  | cons e rest ih =>
    rw [List.map_cons, List.nodup_cons] at hnd
    rcases List.mem_cons.mp hv with h1 | h1
    · rcases List.mem_cons.mp hw with h2 | h2
      · rw [← h1] at h2
        exact (Prod.mk.inj h2).2.symm
      · exfalso
        apply hnd.1
        rw [← h1]
        exact List.mem_map.mpr ⟨(name, w), h2, rfl⟩
    · rcases List.mem_cons.mp hw with h2 | h2
      · exfalso
        apply hnd.1
        rw [← h2]
        exact List.mem_map.mpr ⟨(name, v), h1, rfl⟩
      · exact ih hnd.2 h1 h2

/-- C16, the claim as written fails: the code wraps the manifest value in
brackets itself, so the value `<0004a3f1>` is tested as a 12-character text
and dropped; the spec's example manifest is read as the empty manifest. -/
theorem Update_manifest_bracketed_dropped :
    (Update murmurZero parseBall freshContext arbBall).map (fun c => c.manifest) = some [] := by
  decide

/-- C16, amended: when `Update` re-parses a manifest object (distinct keys),
every entry whose value is a string of exactly 8 hexadecimal digits is
retained with the value of those digits, and every entry whose value is not a
string, or is a string of another length, is dropped. -/
theorem Update_manifest_hex_values (murmur : List Char → Nat → Nat → Nat)
    (parse : List Char → JsonValue) (ctx : CryptomatteContext)
    (arb : CryptomatteArbitraryData) (members : List (List Char × JsonValue))
    (hchg : ctx.manifestHash ≠ arb.manifest_hash)
    (hparse : parse arb.manifest = JsonValue.object members)
    (hnd : (members.map Prod.fst).Nodup) :
    ∃ ctx', Update murmur parse ctx arb = some ctx' ∧
      (∀ name v, (name, JsonValue.str v) ∈ members → v.length = 8 →
        (∀ c ∈ v, (hexDigit c).isSome = true) →
        mapFind ctx'.manifest name = some (hexValue 0 v)) ∧
      (∀ name value, (name, value) ∈ members →
        (∀ v, value = JsonValue.str v → v.length ≠ 8) →
        mapFind ctx'.manifest name = none) := by
  obtain ⟨ctx', h1, h2⟩ := Update_manifest murmur parse ctx arb hchg
  rw [hparse] at h2
  simp only at h2
  refine ⟨ctx', h1, ?_, ?_⟩
  · intro name v hmem hlen hhex
    rw [h2, loadManifest_find members [] name _ hnd]
    refine Or.inl ⟨JsonValue.str v, hmem, ?_⟩
    have hlit := GetHashIfLiteral_literal v hlen hhex
    have hbound := hexValue_lt v 0 hhex
    rw [hlen] at hbound
    have hmod : hexValue 0 v % 2 ^ 32 = hexValue 0 v := Nat.mod_eq_of_lt (by omega)
    rw [hmod] at hlit
    exact hlit
  · intro name value hmem hnot
    cases hfind : mapFind ctx'.manifest name with
    | none => rfl
    | some h =>
      exfalso
      rw [h2, loadManifest_find members [] name h hnd] at hfind
      rcases hfind with ⟨value', hmem', hl⟩ | ⟨_, hm⟩
      · have heq := members_value_unique members name value value' hnd hmem hmem'
        subst heq
        obtain ⟨v, hv, hlit⟩ := (literalOf_some value h).mp hl
        have hlen := hnot v hv
        unfold GetHashIfLiteral at hlit
        have hlen10 : ¬ ('<' :: v ++ ['>']).length = 10 := by
          simp only [List.length_cons, List.length_append, List.length_nil]
          omega
        rw [if_neg hlen10] at hlit
        exact Option.noConfusion hlit
      · simp [mapFind] at hm

/-- Witness of C16 as amended: with the value of Ball written `0004a3f1` the
manifest read is exactly Ball with the hash 0x0004a3f1. -/
theorem Update_manifest_hex_values_witness :
    freshContext.manifestHash ≠ arbBallHex.manifest_hash ∧
    parseBall arbBallHex.manifest = JsonValue.object
      [("Ball".toList, JsonValue.str "0004a3f1".toList),
        ("Floor".toList, JsonValue.str "not-a-literal".toList)] ∧
    (Update murmurZero parseBall freshContext arbBallHex).map (fun c => c.manifest) =
      some [("Ball".toList, 0x0004a3f1)] ∧
    ∃ ctx', Update murmurZero parseBall freshContext arbBallHex = some ctx' ∧
      (∀ name v, (name, JsonValue.str v) ∈
          [("Ball".toList, JsonValue.str "0004a3f1".toList),
            ("Floor".toList, JsonValue.str "not-a-literal".toList)] → v.length = 8 →
        (∀ c ∈ v, (hexDigit c).isSome = true) →
        mapFind ctx'.manifest name = some (hexValue 0 v)) ∧
      (∀ name value, (name, value) ∈
          [("Ball".toList, JsonValue.str "0004a3f1".toList),
            ("Floor".toList, JsonValue.str "not-a-literal".toList)] →
        (∀ v, value = JsonValue.str v → v.length ≠ 8) →
        mapFind ctx'.manifest name = none) :=
  ⟨by decide, rfl, by decide,
    Update_manifest_hex_values murmurZero parseBall freshContext arbBallHex _ (by decide)
      rfl (by decide)⟩

/-! ### Names of hashes -/

theorem selectionItem_eq (murmur : List Char → Nat → Nat → Nat) (hash : Hash)
    (tokens : List (List Char)) :
    selectionItem murmur hash tokens =
      some ((tokens.filterMap deQuote).find? (tokenMatches murmur hash)) := by
  induction tokens with
  | nil => rfl
  | cons tok rest ih =>
    obtain ⟨val, hval⟩ := deQuote_total tok
    rw [selectionItem, hval, List.filterMap_cons_some hval]
    simp only
    by_cases h1 : GetHashIfLiteral val = some hash
    · rw [if_pos h1, List.find?_cons_of_pos]
      simp [tokenMatches, h1]
    · rw [if_neg h1]
      by_cases h2 : HashName murmur val = hash
      · rw [if_pos h2, List.find?_cons_of_pos]
        simp [tokenMatches, h2]
      · rw [if_neg h2, ih, List.find?_cons_of_neg]
        simp [tokenMatches, h1, h2]

theorem filterMap_deQuote_length (tokens : List (List Char)) :
    (tokens.filterMap deQuote).length = tokens.length := by
  induction tokens with
  | nil => rfl
  | cons tok rest ih =>
    obtain ⟨val, hval⟩ := deQuote_total tok
    rw [List.filterMap_cons_some hval, List.length_cons, List.length_cons, ih]

theorem manifestItem_eq (manifest : List (List Char × Hash)) (hash : Hash) :
    manifestItem manifest hash =
      match manifest.find? (fun e => decide (e.2 = hash)) with
      | some e => e.1
      | none => HashToLiteralStr hash := by
  induction manifest with
  | nil => rfl
  | cons e rest ih =>
    obtain ⟨name, value⟩ := e
    rw [manifestItem]
    by_cases h : hash = value
    · rw [if_pos h, List.find?_cons_of_pos]
      simp [h]
    · rw [if_neg h, ih, List.find?_cons_of_neg]
      simp only [decide_eq_true_eq]
      exact fun h' => h h'.symm

theorem quotedTokenize_nil : quotedTokenize [] commaSpace = some (Except.ok []) := by
  decide

theorem ItemForHash_eq (murmur : List Char → Nat → Nat → Nat) (ctx : CryptomatteContext)
    (hash : Hash) (tokens : List (List Char))
    (htok : quotedTokenize ctx.selection commaSpace = some (Except.ok tokens)) :
    ItemForHash murmur ctx hash =
      some (Except.ok
        (match (tokens.filterMap deQuote).find? (tokenMatches murmur hash) with
        | some val => val
        | none => manifestItem ctx.manifest hash)) := by
  unfold ItemForHash
  by_cases hlen : ctx.selection.length ≠ 0
  · rw [if_pos hlen, htok]
    simp only
    rw [selectionItem_eq]
    cases (tokens.filterMap deQuote).find? (tokenMatches murmur hash) <;> rfl
  · rw [if_neg hlen]
    have hnil : ctx.selection = [] := List.length_eq_zero.mp (by omega)
    rw [hnil, quotedTokenize_nil] at htok
    injection htok with htok
    injection htok with htok
    rw [← htok]
    rfl

theorem find_first_sorted {α : Type} (R : α → α → Prop) (p : α → Bool) (l : List α)
    (hs : l.Pairwise R) (e : α) (hf : l.find? p = some e) :
    e ∈ l ∧ p e = true ∧ ∀ x ∈ l, p x = true → x = e ∨ R e x := by
  induction l with
  | nil => simp at hf
  | cons a rest ih =>
    rw [List.pairwise_cons] at hs
    by_cases hp : p a = true
    · rw [List.find?_cons_of_pos _ hp] at hf
      injection hf with hf
      subst hf
      refine ⟨List.mem_cons_self _ _, hp, ?_⟩
      intro x hx _
      rcases List.mem_cons.mp hx with h | h
      · exact Or.inl h
      · exact Or.inr (hs.1 x h)
    · rw [List.find?_cons_of_neg _ hp] at hf
      obtain ⟨h1, h2, h3⟩ := ih hs.2 hf
      refine ⟨List.mem_cons_of_mem _ h1, h2, ?_⟩
      intro x hx hpx
      rcases List.mem_cons.mp hx with h | h
      · rw [h] at hpx
        exact absurd hpx hp
      · exact h3 x h hpx

theorem mapFind_mem (m : List (List Char × Hash)) (k : List Char) (v : Hash)
    (h : mapFind m k = some v) : (k, v) ∈ m := by
  induction m with
  | nil => simp [mapFind] at h
  | cons e rest ih =>
    obtain ⟨k', v'⟩ := e
    rw [mapFind] at h
    by_cases hk : k' = k
    · rw [if_pos hk] at h
      injection h with h
      rw [hk, h]
      exact List.mem_cons_self _ _
    · rw [if_neg hk] at h
      exact List.mem_cons_of_mem _ (ih h)

theorem HashName_ne_zero (murmur : List Char → Nat → Nat → Nat) (n : List Char) :
    HashName murmur n ≠ 0 := by
  intro h
  have hf := (HashName_field murmur n).1
  rw [h] at hf
  exact hf (by decide)

theorem filterMap_deQuote_forall2 (tokens : List (List Char)) :
    List.Forall₂ (fun t val => deQuote t = some val) tokens (tokens.filterMap deQuote) := by
  induction tokens with
  | nil => exact List.Forall₂.nil
  | cons tok rest ih =>
    obtain ⟨val, hval⟩ := deQuote_total tok
    rw [List.filterMap_cons_some hval]
    exact List.Forall₂.cons hval ih

theorem find_append_first {α : Type} (p : α → Bool) (pre : List α) (a : α) (post : List α)
    (hpre : ∀ t ∈ pre, p t = false) (ha : p a = true) :
    (pre ++ a :: post).find? p = some a := by
  induction pre with
  | nil => exact List.find?_cons_of_pos _ ha
  | cons b pre ih =>
    rw [List.cons_append, List.find?_cons_of_neg _ (by
      rw [hpre b (List.mem_cons_self _ _)]; exact Bool.false_ne_true)]
    exact ih (fun t ht => hpre t (List.mem_cons_of_mem _ ht))

theorem find_none_of_all {α : Type} (p : α → Bool) (l : List α)
    (h : ∀ t ∈ l, p t = false) : l.find? p = none := by
  rw [List.find?_eq_none]
  intro x hx hp
  rw [h x hx] at hp
  exact Bool.false_ne_true hp

/-- C11, the claim as written fails: a manifest may store for a key a hash
that is not the hash of the key. With Ball stored under the hash 0 and no
selection, `ItemForHash(HashName("Ball"))` is the hex code of that hash,
whatever the hash function: never the name. -/
theorem ItemForHash_manifest_key_lost :
    mapFind ballZeroContext.manifest "Ball".toList = some 0 ∧
    ∀ murmur : List Char → Nat → Nat → Nat,
      ItemForHash murmur ballZeroContext (HashName murmur "Ball".toList) =
        some (Except.ok (HashToLiteralStr (HashName murmur "Ball".toList))) ∧
      ItemForHash murmur ballZeroContext (HashName murmur "Ball".toList) ≠
        some (Except.ok "Ball".toList) := by
  refine ⟨by decide, ?_⟩
  intro murmur
  have hne := HashName_ne_zero murmur "Ball".toList
  have hval : ItemForHash murmur ballZeroContext (HashName murmur "Ball".toList) =
      some (Except.ok (HashToLiteralStr (HashName murmur "Ball".toList))) := by
    show some (Except.ok (manifestItem [("Ball".toList, 0)] (HashName murmur "Ball".toList))) = _
    rw [manifestItem, if_neg hne]
    rfl
  refine ⟨hval, ?_⟩
  rw [hval]
  intro h
  injection h with h
  injection h with h
  unfold HashToLiteralStr sprintfHex at h
  injection h with h1 _
  exact absurd h1 (by decide)

/-- C11, amended: for a well-formed selection text, let `n` be a de-quoted
token of the selection, or a key of the manifest whose stored hash is
`HashName(n)`. If every selection token that matches the hash `HashName(n)`
(by its literal value or by its own hash) is `n`, and every manifest entry
with that hash has the key `n`, then `ItemForHash(HashName(n))` returns `n`. -/
theorem ItemForHash_of_name (murmur : List Char → Nat → Nat → Nat) (ctx : CryptomatteContext)
    (n : List Char) (tokens : List (List Char))
    (htok : quotedTokenize ctx.selection commaSpace = some (Except.ok tokens))
    (hpresent : n ∈ tokens.filterMap deQuote ∨
      mapFind ctx.manifest n = some (HashName murmur n))
    (hsel : ∀ val ∈ tokens.filterMap deQuote,
      tokenMatches murmur (HashName murmur n) val = true → val = n)
    (hman : ∀ e ∈ ctx.manifest, e.2 = HashName murmur n → e.1 = n) :
    ItemForHash murmur ctx (HashName murmur n) = some (Except.ok n) := by
  rw [ItemForHash_eq murmur ctx _ tokens htok]
  cases hfind : (tokens.filterMap deQuote).find? (tokenMatches murmur (HashName murmur n)) with
  | some val =>
    simp only
    rw [hsel val (List.mem_of_find?_eq_some hfind) (List.find?_some hfind)]
  | none =>
    simp only
    rw [List.find?_eq_none] at hfind
    have hkey : mapFind ctx.manifest n = some (HashName murmur n) := by
      rcases hpresent with h | h
      · exfalso
        apply hfind n h
        simp [tokenMatches]
      · exact h
    have hmem := mapFind_mem _ _ _ hkey
    rw [manifestItem_eq]
    cases hf : ctx.manifest.find? (fun e => decide (e.2 = HashName murmur n)) with
    | some e =>
      simp only
      have he := List.find?_some hf
      simp only [decide_eq_true_eq] at he
      rw [hman e (List.mem_of_find?_eq_some hf) he]
    | none =>
      exfalso
      rw [List.find?_eq_none] at hf
      exact hf _ hmem (by simp)

/-- Witness of C11 as amended: the selection `foo`, the only token that
hashes to its own hash, beside a manifest that holds another hash. -/
theorem ItemForHash_of_name_witness :
    quotedTokenize fooContext.selection commaSpace = some (Except.ok ["foo".toList]) ∧
    ("foo".toList ∈ ["foo".toList].filterMap deQuote ∨
      mapFind fooContext.manifest "foo".toList = some (HashName murmurZero "foo".toList)) ∧
    (∀ val ∈ ["foo".toList].filterMap deQuote,
      tokenMatches murmurZero (HashName murmurZero "foo".toList) val = true →
        val = "foo".toList) ∧
    (∀ e ∈ fooContext.manifest, e.2 = HashName murmurZero "foo".toList → e.1 = "foo".toList) ∧
    ItemForHash murmurZero fooContext (HashName murmurZero "foo".toList) =
      some (Except.ok "foo".toList) :=
  ⟨by decide, by decide, by decide, by decide,
    ItemForHash_of_name murmurZero fooContext "foo".toList ["foo".toList] (by decide)
      (by decide) (by decide) (by decide)⟩

/-- C12: for a well-formed selection text (tokens `tokens`, each de-quoted in
order) and a manifest in key order, `ItemForHash(h)` returns: the first
de-quoted token whose literal value is `h` or whose hash is `h`, whatever the
manifest holds; when no token matches and some manifest entry has the value
`h`, the key of such an entry, the least of them in key order; and when
neither, `HashToLiteralStr(h)`. -/
theorem ItemForHash_precedence (murmur : List Char → Nat → Nat → Nat)
    (ctx : CryptomatteContext) (h : Hash) (tokens : List (List Char))
    (htok : quotedTokenize ctx.selection commaSpace = some (Except.ok tokens))
    (hsorted : manifestSorted ctx.manifest) :
    List.Forall₂ (fun t val => deQuote t = some val) tokens (tokens.filterMap deQuote) ∧
    (∀ pre val post, tokens.filterMap deQuote = pre ++ val :: post →
      (∀ t ∈ pre, tokenMatches murmur h t = false) → tokenMatches murmur h val = true →
      ItemForHash murmur ctx h = some (Except.ok val)) ∧
    ((∀ t ∈ tokens.filterMap deQuote, tokenMatches murmur h t = false) →
      (∃ e ∈ ctx.manifest, e.2 = h) →
      ∃ e ∈ ctx.manifest, e.2 = h ∧ ItemForHash murmur ctx h = some (Except.ok e.1) ∧
        ∀ x ∈ ctx.manifest, x.2 = h → x = e ∨ strLt e.1 x.1 = true) ∧
    ((∀ t ∈ tokens.filterMap deQuote, tokenMatches murmur h t = false) →
      (∀ e ∈ ctx.manifest, e.2 ≠ h) →
      ItemForHash murmur ctx h = some (Except.ok (HashToLiteralStr h))) := by
  refine ⟨filterMap_deQuote_forall2 tokens, ?_, ?_, ?_⟩
  · intro pre val post hsplit hpre hval
    rw [ItemForHash_eq murmur ctx h tokens htok, hsplit,
      find_append_first _ pre val post hpre hval]
  · intro hnone ⟨e0, he0, hv0⟩
    rw [ItemForHash_eq murmur ctx h tokens htok, find_none_of_all _ _ hnone]
    simp only
    rw [manifestItem_eq]
    cases hf : ctx.manifest.find? (fun e => decide (e.2 = h)) with
    | none =>
      exfalso
      rw [List.find?_eq_none] at hf
      exact hf e0 he0 (by simp [hv0])
    | some e =>
      obtain ⟨h1, h2, h3⟩ := find_first_sorted _ _ _ hsorted e hf
      simp only [decide_eq_true_eq] at h2
      refine ⟨e, h1, h2, rfl, ?_⟩
      intro x hx hxv
      exact h3 x hx (by simp [hxv])
  · intro hnone hno
    rw [ItemForHash_eq murmur ctx h tokens htok, find_none_of_all _ _ hnone]
    simp only
    rw [manifestItem_eq]
    have hf : ctx.manifest.find? (fun e => decide (e.2 = h)) = none := by
      rw [List.find?_eq_none]
      intro x hx hp
      simp only [decide_eq_true_eq] at hp
      exact hno x hx hp
    rw [hf]

/-- Witness of C12: the selection `foo <00000005>` beside a manifest that
gives Ball and Cube the hash 5 and Ape the hash 7. The hash 5 resolves to the
selection token, 7 to Ape, 9 to its hex code; without the selection 5
resolves to Ball. -/
theorem ItemForHash_precedence_witness :
    quotedTokenize precedenceContext.selection commaSpace =
      some (Except.ok ["foo".toList, "<00000005>".toList]) ∧
    manifestSorted precedenceContext.manifest ∧
    ItemForHash murmurZero precedenceContext 5 = some (Except.ok "<00000005>".toList) ∧
    ItemForHash murmurZero precedenceContext 7 = some (Except.ok "Ape".toList) ∧
    ItemForHash murmurZero precedenceContext 9 = some (Except.ok "<00000009>".toList) ∧
    ItemForHash murmurZero { precedenceContext with selection := [] } 5 =
      some (Except.ok "Ball".toList) ∧
    (∀ pre val post,
      ["foo".toList, "<00000005>".toList].filterMap deQuote = pre ++ val :: post →
      (∀ t ∈ pre, tokenMatches murmurZero 5 t = false) → tokenMatches murmurZero 5 val = true →
      ItemForHash murmurZero precedenceContext 5 = some (Except.ok val)) :=
  ⟨by decide, by decide, by decide, by decide, by decide, by decide,
    (ItemForHash_precedence murmurZero precedenceContext 5
      ["foo".toList, "<00000005>".toList] (by decide) (by decide)).2.1⟩

/-- C13: the claim fails on a selection with an unterminated quote.
`Update` accepts and stores the text `foo "bar`; `ItemForHash` then tokenizes
it again outside any `try`, so the exception of `quotedTokenize` leaves
`ItemForHash`, and with it `GetItemsFromSelectionColor` and `GetItems`. -/
theorem ItemForHash_raises :
    (Update murmurZero parseNothing freshContext arbOpenQuote).map (fun c => c.selection) =
      some arbOpenQuote.selection ∧
    (Update murmurZero parseNothing freshContext arbOpenQuote).bind
        (fun c => ItemForHash murmurZero c 0x42f60000) =
      some (Except.error "Quoted tokenize error.") ∧
    (Update murmurZero parseNothing freshContext arbOpenQuote).bind
        (fun c => GetItemsFromSelectionColor murmurZero c witnessColor) =
      some (Except.error "Quoted tokenize error.") ∧
    (Update murmurZero parseNothing freshContext arbOpenQuote).bind
        (fun c => GetItems murmurZero c witnessBuffer 0 0) =
      some (Except.error "Quoted tokenize error.") := by
  refine ⟨by decide, by decide, by decide, ?_⟩
  have hu : Update murmurZero parseNothing freshContext arbOpenQuote = some openQuoteContext := by
    decide
  rw [hu, Option.some_bind]
  have hi : ItemForHash murmurZero openQuoteContext 0x42f60000 =
      some (Except.error "Quoted tokenize error.") := by decide
  have hcov : (witnessBuffer.buf 0).coverage > 0 := by
    show (6 / 10 : ℚ) > 0
    norm_num
  have hhash : FloatHashToHash (witnessBuffer.buf 0).hash > 0 := by decide
  have hh : FloatHashToHash (witnessBuffer.buf 0).hash = 0x42f60000 := rfl
  show itemsLoop murmurZero openQuoteContext witnessBuffer.buf 3 0 [] = _
  rw [itemsLoop, if_pos hcov, if_pos hhash, hh, insertItem, hi]

/-! ### The selection colour -/

theorem selectionColorRow_below (buf : Nat → Level) (numLevels len : Nat) :
    ∀ (pix level : Nat) (row : Nat → PF_PixelFloat32) (i : Nat), i < pix →
      selectionColorRow buf numLevels len pix level row i = row i := by
  induction len with
  | zero => intro pix level row i _; rfl
  | succ len ih =>
    intro pix level row i hi
    unfold selectionColorRow
    simp only
    split
    · rw [ih (pix + 1) _ _ i (by omega), Function.update_noteq (by omega)]
    · rw [ih (pix + 1) _ _ i (by omega), Function.update_noteq (by omega)]

theorem selectionColorRow_pixel (buf : Nat → Level) (numLevels len : Nat) :
    ∀ (pix level : Nat) (row : Nat → PF_PixelFloat32) (j : Nat), j < len →
      selectionColorRow buf numLevels len pix level row (pix + j) =
        { alpha := f32One,
          red := if numLevels ≥ 1 then (buf (level + j * numLevels)).hash else 0,
          green := 0,
          blue := if numLevels ≥ 2 then (buf (level + j * numLevels + 1)).hash else 0 } := by
  induction len with
  | zero => intro pix level row j hj; omega
  | succ len ih =>
    intro pix level row j hj
    unfold selectionColorRow
    simp only
    by_cases h2 : numLevels ≥ 2
    · have h1 : numLevels ≥ 1 := by omega
      rw [if_pos h2]
      cases j with
      | zero =>
        simp only [Nat.add_zero, Nat.zero_mul]
        rw [selectionColorRow_below _ _ _ _ _ _ _ (by omega), Function.update_same,
          if_pos h1, if_pos h1, if_pos h2]
      | succ j =>
        rw [show pix + (j + 1) = pix + 1 + j by omega, ih (pix + 1) _ _ j (by omega)]
        have hidx : level + 1 + (numLevels - 1) + j * numLevels =
            level + (j + 1) * numLevels := by
          rw [Nat.add_mul, Nat.one_mul]
          omega
        rw [hidx]
    · rw [if_neg h2]
      cases j with
      | zero =>
        simp only [Nat.add_zero, Nat.zero_mul]
        rw [selectionColorRow_below _ _ _ _ _ _ _ (by omega), Function.update_same, if_neg h2]
        by_cases h1 : numLevels ≥ 1
        · rw [if_pos h1, if_pos h1]
        · rw [if_neg h1, if_neg h1]
      | succ j =>
        rw [show pix + (j + 1) = pix + 1 + j by omega, ih (pix + 1) _ _ j (by omega)]
        have hidx : level + numLevels + j * numLevels = level + (j + 1) * numLevels := by
          rw [Nat.add_mul, Nat.one_mul]
          omega
        rw [hidx]

theorem GetLevelGroup_add (b : CryptomatteBuffer) (x y j : Nat) :
    GetLevelGroup b x y + j * b.numLevels = GetLevelGroup b (x + j) y := by
  unfold GetLevelGroup
  rw [← Nat.add_mul]
  congr 1
  omega

theorem GetSelectionColor_eq (b : CryptomatteBuffer) (row : Nat → PF_PixelFloat32)
    (len x y j : Nat) (hj : j < len) :
    GetSelectionColor b row len x y j =
      { alpha := f32One,
        red := if b.numLevels ≥ 1 then (b.buf (GetLevelGroup b (x + j) y)).hash else 0,
        green := 0,
        blue := if b.numLevels ≥ 2 then (b.buf (GetLevelGroup b (x + j) y + 1)).hash else 0 } := by
  unfold GetSelectionColor
  have h := selectionColorRow_pixel b.buf b.numLevels len 0 (GetLevelGroup b x y) row j hj
  rw [Nat.zero_add, GetLevelGroup_add] at h
  exact h

/-- C18: `GetSelectionColor` writes in every pixel `j` of the row (the pixel
`(x + j, y)` of the buffer) alpha = 1, green = 0, red = the float hash of the
pixel's level 0 (0 when there is no level) and blue = the float hash of its
level 1 (0 when there are fewer than two levels). The function does not take
the selection, and two buffers of the same shape and the same hashes give the
same pixel whatever their coverages. -/
theorem GetSelectionColor_pixel (b : CryptomatteBuffer) (row : Nat → PF_PixelFloat32)
    (len x y j : Nat) (hj : j < len) :
    (GetSelectionColor b row len x y j).alpha = f32One ∧
    (GetSelectionColor b row len x y j).green = 0 ∧
    (GetSelectionColor b row len x y j).red =
      (if b.numLevels ≥ 1 then (b.buf (GetLevelGroup b (x + j) y)).hash else 0) ∧
    (GetSelectionColor b row len x y j).blue =
      (if b.numLevels ≥ 2 then (b.buf (GetLevelGroup b (x + j) y + 1)).hash else 0) ∧
    ∀ (b2 : CryptomatteBuffer) (row2 : Nat → PF_PixelFloat32), b2.numLevels = b.numLevels →
      b2.width = b.width → (∀ i, (b2.buf i).hash = (b.buf i).hash) →
      GetSelectionColor b2 row2 len x y j = GetSelectionColor b row len x y j := by
  rw [GetSelectionColor_eq b row len x y j hj]
  refine ⟨rfl, rfl, rfl, rfl, ?_⟩
  intro b2 row2 hn hw hh
  rw [GetSelectionColor_eq b2 row2 len x y j hj]
  have hg : ∀ x', GetLevelGroup b2 x' y = GetLevelGroup b x' y := by
    intro x'
    unfold GetLevelGroup
    rw [hn, hw]
  rw [hn, hg, hh, hh]

/-- Witness of C18: the one pixel of `witnessBuffer`, whose first two levels
hold the floats 123.0 and 124.0. -/
theorem GetSelectionColor_pixel_witness :
    0 < 1 ∧
    GetSelectionColor witnessBuffer blankColorRow 1 0 0 0 = witnessColor ∧
    (GetSelectionColor witnessBuffer blankColorRow 1 0 0 0).alpha = f32One ∧
    (GetSelectionColor witnessBuffer blankColorRow 1 0 0 0).green = 0 ∧
    (GetSelectionColor witnessBuffer blankColorRow 1 0 0 0).red =
      (if witnessBuffer.numLevels ≥ 1 then
        (witnessBuffer.buf (GetLevelGroup witnessBuffer (0 + 0) 0)).hash else 0) ∧
    (GetSelectionColor witnessBuffer blankColorRow 1 0 0 0).blue =
      (if witnessBuffer.numLevels ≥ 2 then
        (witnessBuffer.buf (GetLevelGroup witnessBuffer (0 + 0) 0 + 1)).hash else 0) :=
  ⟨by decide, by decide,
    (GetSelectionColor_pixel witnessBuffer blankColorRow 1 0 0 0 (by decide)).1,
    (GetSelectionColor_pixel witnessBuffer blankColorRow 1 0 0 0 (by decide)).2.1,
    (GetSelectionColor_pixel witnessBuffer blankColorRow 1 0 0 0 (by decide)).2.2.1,
    (GetSelectionColor_pixel witnessBuffer blankColorRow 1 0 0 0 (by decide)).2.2.2.1⟩

theorem ItemForHash_total (murmur : List Char → Nat → Nat → Nat) (ctx : CryptomatteContext)
    (tokens : List (List Char))
    (htok : quotedTokenize ctx.selection commaSpace = some (Except.ok tokens)) (h : Hash) :
    ∃ s, ItemForHash murmur ctx h = some (Except.ok s) :=
  ⟨_, ItemForHash_eq murmur ctx h tokens htok⟩

theorem insertItem_ok (murmur : List Char → Nat → Nat → Nat) (ctx : CryptomatteContext)
    (items : List (List Char)) (hash : Hash) (s : List Char)
    (h : ItemForHash murmur ctx hash = some (Except.ok s)) :
    insertItem murmur ctx items hash = some (Except.ok (strSetInsert items s)) := by
  unfold insertItem
  rw [h]

/-- Where the selection text tokenizes, so that `ItemForHash` returns, and
for a buffer of at least two levels, `GetItemsFromSelectionColor` applied to
the pixel `GetSelectionColor` wrote for a buffer pixel returns the set of the
`ItemForHash(h)` for `h` among the bit patterns `h0`, `h1` of the pixel's
first two hashes, those equal to 0 left out. -/
theorem GetItemsFromSelectionColor_inverts (murmur : List Char → Nat → Nat → Nat)
    (ctx : CryptomatteContext) (b : CryptomatteBuffer) (row : Nat → PF_PixelFloat32)
    (len x y j : Nat) (tokens : List (List Char)) (hj : j < len) (h2 : 2 ≤ b.numLevels)
    (htok : quotedTokenize ctx.selection commaSpace = some (Except.ok tokens)) :
    ∃ items, GetItemsFromSelectionColor murmur ctx (GetSelectionColor b row len x y j) =
        some (Except.ok items) ∧
      ∀ s, s ∈ items ↔
        ∃ h, (h = FloatHashToHash (b.buf (GetLevelGroup b (x + j) y)).hash ∨
            h = FloatHashToHash (b.buf (GetLevelGroup b (x + j) y + 1)).hash) ∧
          h ≠ 0 ∧ ItemForHash murmur ctx h = some (Except.ok s) := by
  rw [GetSelectionColor_eq b row len x y j hj, if_pos (by omega), if_pos (by omega)]
  generalize (b.buf (GetLevelGroup b (x + j) y)).hash = h0
  generalize (b.buf (GetLevelGroup b (x + j) y + 1)).hash = h1
  unfold GetItemsFromSelectionColor FloatHashToHash
  simp only
  obtain ⟨s0, hs0⟩ := ItemForHash_total murmur ctx tokens htok h0
  obtain ⟨s1, hs1⟩ := ItemForHash_total murmur ctx tokens htok h1
  by_cases hz0 : h0 ≠ 0
  · rw [if_pos hz0, insertItem_ok murmur ctx [] h0 s0 hs0]
    simp only
    by_cases hz1 : h1 ≠ 0
    · rw [if_pos hz1, insertItem_ok murmur ctx _ h1 s1 hs1]
      refine ⟨_, rfl, ?_⟩
      intro s
      rw [mem_strSetInsert, mem_strSetInsert]
      constructor
      · rintro ((h | h) | h)
        · simp at h
        · exact ⟨h0, Or.inl rfl, hz0, by rw [hs0, h]⟩
        · exact ⟨h1, Or.inr rfl, hz1, by rw [hs1, h]⟩
      · rintro ⟨h, (rfl | rfl), _, hi⟩
        · rw [hs0] at hi
          injection hi with hi
          injection hi with hi
          exact Or.inl (Or.inr hi.symm)
        · rw [hs1] at hi
          injection hi with hi
          injection hi with hi
          exact Or.inr hi.symm
    · rw [if_neg hz1]
      refine ⟨_, rfl, ?_⟩
      intro s
      rw [mem_strSetInsert]
      constructor
      · rintro (h | h)
        · simp at h
        · exact ⟨h0, Or.inl rfl, hz0, by rw [hs0, h]⟩
      · rintro ⟨h, (rfl | rfl), hne, hi⟩
        · rw [hs0] at hi
          injection hi with hi
          injection hi with hi
          exact Or.inr hi.symm
        · exact absurd hne hz1
  · rw [if_neg hz0]
    simp only
    by_cases hz1 : h1 ≠ 0
    · rw [if_pos hz1, insertItem_ok murmur ctx _ h1 s1 hs1]
      refine ⟨_, rfl, ?_⟩
      intro s
      rw [mem_strSetInsert]
      constructor
      · rintro (h | h)
        · simp at h
        · exact ⟨h1, Or.inr rfl, hz1, by rw [hs1, h]⟩
      · rintro ⟨h, (rfl | rfl), hne, hi⟩
        · exact absurd hne hz0
        · rw [hs1] at hi
          injection hi with hi
          injection hi with hi
          exact Or.inr hi.symm
    · rw [if_neg hz1]
      refine ⟨_, rfl, ?_⟩
      intro s
      constructor
      · intro h
        simp at h
      · rintro ⟨h, (rfl | rfl), hne, _⟩
        · exact absurd hne hz0
        · exact absurd hne hz1

/-- An instance of the inversion: the pixel of `witnessBuffer` under an empty
selection and an empty manifest resolves to the hex codes of its first two
hashes. -/
theorem GetItemsFromSelectionColor_inverts_witness :
    0 < 1 ∧ 2 ≤ witnessBuffer.numLevels ∧
    quotedTokenize freshContext.selection commaSpace = some (Except.ok []) ∧
    GetItemsFromSelectionColor murmurZero freshContext
        (GetSelectionColor witnessBuffer blankColorRow 1 0 0 0) =
      some (Except.ok ["<42f60000>".toList, "<42f80000>".toList]) ∧
    ∃ items, GetItemsFromSelectionColor murmurZero freshContext
          (GetSelectionColor witnessBuffer blankColorRow 1 0 0 0) = some (Except.ok items) ∧
      ∀ s, s ∈ items ↔
        ∃ h, (h = FloatHashToHash
                (witnessBuffer.buf (GetLevelGroup witnessBuffer (0 + 0) 0)).hash ∨
            h = FloatHashToHash
                (witnessBuffer.buf (GetLevelGroup witnessBuffer (0 + 0) 0 + 1)).hash) ∧
          h ≠ 0 ∧ ItemForHash murmurZero freshContext h = some (Except.ok s) :=
  ⟨by decide, by decide, by decide, by decide,
    GetItemsFromSelectionColor_inverts murmurZero freshContext witnessBuffer blankColorRow
      1 0 0 0 [] (by decide) (by decide) (by decide)⟩

theorem range_succ_map {α : Type} (f : Nat → α) (n : Nat) :
    (List.range (n + 1)).map f = f 0 :: (List.range n).map (fun k => f (k + 1)) := by
  rw [List.range_succ_eq_map, List.map_cons, List.map_map]
  rfl

theorem itemsLoop_spec (murmur : List Char → Nat → Nat → Nat) (ctx : CryptomatteContext)
    (buf : Nat → Level) (tokens : List (List Char))
    (htok : quotedTokenize ctx.selection commaSpace = some (Except.ok tokens)) :
    ∀ (n level : Nat) (items : List (List Char)),
      ((List.range n).map (fun k => buf (level + k))).Pairwise
        (fun l1 l2 => l1.coverage ≥ l2.coverage) →
      ∃ items', itemsLoop murmur ctx buf n level items = some (Except.ok items') ∧
        ∀ s, s ∈ items' ↔ s ∈ items ∨
          ∃ l ∈ (List.range n).map (fun k => buf (level + k)),
            l.coverage > 0 ∧ FloatHashToHash l.hash ≠ 0 ∧
            ItemForHash murmur ctx (FloatHashToHash l.hash) = some (Except.ok s) := by
  intro n
  induction n with
  | zero =>
    intro level items _
    exact ⟨items, rfl, fun s => by simp⟩
  | succ n ih =>
    intro level items hdesc
    have hlist : (List.range (n + 1)).map (fun k => buf (level + k)) =
        buf level :: (List.range n).map (fun k => buf (level + 1 + k)) := by
      rw [range_succ_map]
      simp only [Nat.add_zero]
      congr 1
      apply List.map_congr_left
      intro k _
      congr 1
      omega
    rw [hlist] at hdesc ⊢
    rw [List.pairwise_cons] at hdesc
    rw [itemsLoop]
    by_cases hcov : (buf level).coverage > 0
    · rw [if_pos hcov]
      by_cases hhash : FloatHashToHash (buf level).hash > 0
      · rw [if_pos hhash]
        obtain ⟨s0, hs0⟩ :=
          ItemForHash_total murmur ctx tokens htok (FloatHashToHash (buf level).hash)
        rw [insertItem_ok murmur ctx items _ s0 hs0]
        simp only
        obtain ⟨items', h1, h2⟩ := ih (level + 1) (strSetInsert items s0) hdesc.2
        refine ⟨items', h1, ?_⟩
        intro s
        rw [h2 s, mem_strSetInsert]
        constructor
        · rintro ((h | h) | ⟨l, hl, hrest⟩)
          · exact Or.inl h
          · exact Or.inr ⟨buf level, List.mem_cons_self _ _, hcov, Nat.pos_iff_ne_zero.mp hhash,
              by rw [hs0, h]⟩
          · exact Or.inr ⟨l, List.mem_cons_of_mem _ hl, hrest⟩
        · rintro (h | ⟨l, hl, hc, hz, hi⟩)
          · exact Or.inl (Or.inl h)
          · rcases List.mem_cons.mp hl with hl | hl
            · rw [hl, hs0] at hi
              injection hi with hi
              injection hi with hi
              exact Or.inl (Or.inr hi.symm)
            · exact Or.inr ⟨l, hl, hc, hz, hi⟩
      · rw [if_neg hhash]
        obtain ⟨items', h1, h2⟩ := ih (level + 1) items hdesc.2
        refine ⟨items', h1, ?_⟩
        intro s
        rw [h2 s]
        constructor
        · rintro (h | ⟨l, hl, hrest⟩)
          · exact Or.inl h
          · exact Or.inr ⟨l, List.mem_cons_of_mem _ hl, hrest⟩
        · rintro (h | ⟨l, hl, hc, hz, hi⟩)
          · exact Or.inl h
          · rcases List.mem_cons.mp hl with hl | hl
            · rw [hl] at hz
              exact absurd (Nat.pos_of_ne_zero hz) hhash
            · exact Or.inr ⟨l, hl, hc, hz, hi⟩
    · rw [if_neg hcov]
      refine ⟨items, rfl, ?_⟩
      intro s
      constructor
      · exact fun h => Or.inl h
      · rintro (h | ⟨l, hl, hc, _, _⟩)
        · exact h
        · exfalso
          rcases List.mem_cons.mp hl with hl | hl
          · rw [hl] at hc
            exact hcov hc
          · have := hdesc.1 l hl
            exact hcov (lt_of_lt_of_le hc this)

/-- Where the selection text tokenizes, so that `ItemForHash` returns, and
for a pixel whose levels are in descending order of coverage, `GetItems(x, y)`
returns the set of the `ItemForHash(FloatHashToHash(level.hash))` over the
levels of the pixel with coverage > 0 and a hash whose bits are not 0; a
level of hash 0 adds nothing. -/
theorem GetItems_levels (murmur : List Char → Nat → Nat → Nat) (ctx : CryptomatteContext)
    (b : CryptomatteBuffer) (x y : Nat) (tokens : List (List Char))
    (htok : quotedTokenize ctx.selection commaSpace = some (Except.ok tokens))
    (hdesc : (pixelLevels b x y).Pairwise (fun l1 l2 => l1.coverage ≥ l2.coverage)) :
    ∃ items, GetItems murmur ctx b x y = some (Except.ok items) ∧
      ∀ s, s ∈ items ↔
        ∃ l ∈ pixelLevels b x y, l.coverage > 0 ∧ FloatHashToHash l.hash ≠ 0 ∧
          ItemForHash murmur ctx (FloatHashToHash l.hash) = some (Except.ok s) := by
  obtain ⟨items, h1, h2⟩ :=
    itemsLoop_spec murmur ctx b.buf tokens htok b.numLevels (GetLevelGroup b x y) [] hdesc
  refine ⟨items, h1, ?_⟩
  intro s
  rw [h2 s]
  constructor
  · rintro (h | h)
    · simp at h
    · exact h
  · exact fun h => Or.inr h

theorem witnessBuffer_levels :
    pixelLevels witnessBuffer 0 0 =
      [(⟨0x42f60000, 6 / 10⟩ : Level), ⟨0x42f80000, 4 / 10⟩, ⟨0, 0⟩] := rfl

theorem GetItems_witnessBuffer : GetItems murmurZero freshContext witnessBuffer 0 0 =
      some (Except.ok ["<42f60000>".toList, "<42f80000>".toList]) := by
  have c0 : (witnessBuffer.buf 0).coverage > 0 := by
    show (6 / 10 : ℚ) > 0
    norm_num
  have c1 : (witnessBuffer.buf 1).coverage > 0 := by
    show (4 / 10 : ℚ) > 0
    norm_num
  have c2 : ¬ (witnessBuffer.buf 2).coverage > 0 := by
    show ¬ (0 : ℚ) > 0
    norm_num
  have i0 : insertItem murmurZero freshContext [] (FloatHashToHash (witnessBuffer.buf 0).hash) =
      some (Except.ok ["<42f60000>".toList]) := by decide
  have i1 : insertItem murmurZero freshContext ["<42f60000>".toList]
      (FloatHashToHash (witnessBuffer.buf 1).hash) =
      some (Except.ok ["<42f60000>".toList, "<42f80000>".toList]) := by decide
  show itemsLoop murmurZero freshContext witnessBuffer.buf 3 0 [] = _
  rw [itemsLoop, if_pos c0, if_pos (by decide), i0]
  simp only
  rw [itemsLoop, if_pos c1, if_pos (by decide), i1]
  simp only
  rw [itemsLoop, if_neg c2]

/-- An instance: the pixel of `witnessBuffer`, coverages 0.6, 0.4, 0, whose
items under an empty selection are the hex codes of its first two hashes. -/
theorem GetItems_levels_witness :
    quotedTokenize freshContext.selection commaSpace = some (Except.ok []) ∧
    (pixelLevels witnessBuffer 0 0).Pairwise (fun l1 l2 => l1.coverage ≥ l2.coverage) ∧
    GetItems murmurZero freshContext witnessBuffer 0 0 =
      some (Except.ok ["<42f60000>".toList, "<42f80000>".toList]) ∧
    ∃ items, GetItems murmurZero freshContext witnessBuffer 0 0 = some (Except.ok items) ∧
      ∀ s, s ∈ items ↔
        ∃ l ∈ pixelLevels witnessBuffer 0 0, l.coverage > 0 ∧ FloatHashToHash l.hash ≠ 0 ∧
          ItemForHash murmurZero freshContext (FloatHashToHash l.hash) = some (Except.ok s) :=
  ⟨by decide, by rw [witnessBuffer_levels]; norm_num, GetItems_witnessBuffer,
    GetItems_levels murmurZero freshContext witnessBuffer 0 0 [] (by decide)
      (by rw [witnessBuffer_levels]; norm_num)⟩

/-- C25: for every 32-bit `h`, `FloatHashToHash(HashToFloatHash(h)) = h`, and
for every 32-bit float pattern `f`, `HashToFloatHash(FloatHashToHash(f))` has
the bits of `f`; each conversion is the copy of the four bytes
(`memcpy`), so the bits are kept, not the numeric value. -/
theorem HashToFloatHash_roundtrip (h : Nat) (hh : h < 2 ^ 32) :
    FloatHashToHash (HashToFloatHash h) = h ∧
    HashToFloatHash (FloatHashToHash h) = h ∧
    HashToFloatHash h = memcpy4 h ∧
    FloatHashToHash h = memcpy4 h := by
  have hm : memcpy4 h = h := by
    unfold memcpy4 ofBytes32 bytesOf32
    simp only [List.getD_cons_zero, List.getD_cons_succ]
    omega
  exact ⟨rfl, rfl, hm.symm, hm.symm⟩

/-- Witness of C25: the hash 1 becomes the float of bits 1 (a subnormal),
not the float 1.0 of bits `0x3f800000` an arithmetic cast would give. -/
theorem HashToFloatHash_roundtrip_witness :
    (1 : Nat) < 2 ^ 32 ∧ HashToFloatHash 1 = 1 ∧ f32IsSubnormal (HashToFloatHash 1) = true ∧
    HashToFloatHash 1 ≠ 0x3f800000 ∧
    FloatHashToHash (HashToFloatHash 1) = 1 ∧ HashToFloatHash (FloatHashToHash 1) = 1 :=
  ⟨by decide, by decide, by decide, by decide,
    (HashToFloatHash_roundtrip 1 (by decide)).1, (HashToFloatHash_roundtrip 1 (by decide)).2.1⟩

/-! ### The naming grammar -/

theorem setw2_twoDigits (k : Nat) (hk : k < 100) : setw2 k = twoDigits k := by
  interval_cases k <;> rfl

/-- C22: for every layer `L` and level count `n < 200`, with `NN` the two
digits of `n / 2`: `CalculateNext4Name` gives `L NN .argb`,
`L NN .alpharedgreenblue` or `L NN .ARGB` by the style, and
`CalculateNextNames` gives the hash and coverage names `L NN .` + `r`, `g`
(`red`, `green`; `R`, `G`) when `n` is even and `L NN .` + `b`, `a` (`blue`,
`alpha`; `B`, `A`) when `n` is odd. -/
theorem CalculateNextNames_grammar (L : List Char) (n : Nat) (hn : n < 200) :
    CalculateNext4Name L NamingStyle.rgba n = L ++ twoDigits (n / 2) ++ ".argb".toList ∧
    CalculateNext4Name L NamingStyle.redgreenbluealpha n =
      L ++ twoDigits (n / 2) ++ ".alpharedgreenblue".toList ∧
    CalculateNext4Name L NamingStyle.RGBA n = L ++ twoDigits (n / 2) ++ ".ARGB".toList ∧
    (n % 2 = 0 →
      CalculateNextNames L NamingStyle.rgba n =
        (L ++ twoDigits (n / 2) ++ ".r".toList, L ++ twoDigits (n / 2) ++ ".g".toList) ∧
      CalculateNextNames L NamingStyle.redgreenbluealpha n =
        (L ++ twoDigits (n / 2) ++ ".red".toList, L ++ twoDigits (n / 2) ++ ".green".toList) ∧
      CalculateNextNames L NamingStyle.RGBA n =
        (L ++ twoDigits (n / 2) ++ ".R".toList, L ++ twoDigits (n / 2) ++ ".G".toList)) ∧
    (n % 2 = 1 →
      CalculateNextNames L NamingStyle.rgba n =
        (L ++ twoDigits (n / 2) ++ ".b".toList, L ++ twoDigits (n / 2) ++ ".a".toList) ∧
      CalculateNextNames L NamingStyle.redgreenbluealpha n =
        (L ++ twoDigits (n / 2) ++ ".blue".toList, L ++ twoDigits (n / 2) ++ ".alpha".toList) ∧
      CalculateNextNames L NamingStyle.RGBA n =
        (L ++ twoDigits (n / 2) ++ ".B".toList, L ++ twoDigits (n / 2) ++ ".A".toList)) := by
  have h2 : setw2 (n / 2) = twoDigits (n / 2) := setw2_twoDigits _ (by omega)
  refine ⟨?_, ?_, ?_, ?_, ?_⟩
  · rw [CalculateNext4Name_eq, h2]; rfl
  · rw [CalculateNext4Name_eq, h2]; rfl
  · rw [CalculateNext4Name_eq, h2]; rfl
  · intro he
    have hd : decide (n % 2 ≠ 0) = false := by simp [he]
    refine ⟨?_, ?_, ?_⟩ <;> rw [CalculateNextNames_eq, h2, hd] <;> rfl
  · intro ho
    have hd : decide (n % 2 ≠ 0) = true := by simp [ho]
    refine ⟨?_, ?_, ?_⟩ <;> rw [CalculateNextNames_eq, h2, hd] <;> rfl

/-- Witness of C22: the names of the levels 6 and 7 of the layer `crypto`. -/
theorem CalculateNextNames_grammar_witness :
    (7 : Nat) < 200 ∧
    CalculateNext4Name "crypto".toList NamingStyle.rgba 7 = "crypto03.argb".toList ∧
    CalculateNextNames "crypto".toList NamingStyle.redgreenbluealpha 6 =
      ("crypto03.red".toList, "crypto03.green".toList) ∧
    CalculateNextNames "crypto".toList NamingStyle.RGBA 7 =
      ("crypto03.B".toList, "crypto03.A".toList) ∧
    CalculateNext4Name "crypto".toList NamingStyle.RGBA 7 =
      "crypto".toList ++ twoDigits (7 / 2) ++ ".ARGB".toList :=
  ⟨by decide, by decide, by decide, by decide,
    (CalculateNextNames_grammar "crypto".toList 7 (by decide)).2.2.1⟩

/-! ### Update as a cache -/

theorem updateManifest_same (parse : List Char → JsonValue) (ctx : CryptomatteContext)
    (arb : CryptomatteArbitraryData) (h : ctx.manifestHash = arb.manifest_hash) :
    updateManifest parse ctx arb = ctx := by
  unfold updateManifest
  rw [if_neg (fun hne => hne h)]

theorem updateManifest_selection (parse : List Char → JsonValue) (ctx : CryptomatteContext)
    (arb : CryptomatteArbitraryData) :
    (updateManifest parse ctx arb).selection = ctx.selection ∧
      (updateManifest parse ctx arb).float_selection = ctx.float_selection := by
  unfold updateManifest
  split
  · split <;> exact ⟨rfl, rfl⟩
  · exact ⟨rfl, rfl⟩

theorem updateLayer_selection (ctx : CryptomatteContext) (arb : CryptomatteArbitraryData) :
    (updateLayer ctx arb).selection = ctx.selection ∧
      (updateLayer ctx arb).float_selection = ctx.float_selection := by
  unfold updateLayer
  split <;> exact ⟨rfl, rfl⟩

theorem updateSelection_same (murmur : List Char → Nat → Nat → Nat) (ctx : CryptomatteContext)
    (arb : CryptomatteArbitraryData) (h : ctx.selectionHash = arb.selection_hash) :
    updateSelection murmur ctx arb = some ctx := by
  unfold updateSelection
  rw [if_neg (fun hne => hne h)]

/-- C30: `Update` always returns, and it works as a cache keyed by the two
fingerprints: when the manifest fingerprint of `arb` is the stored one, the
manifest and its fingerprint are as before, whatever manifest text `arb`
holds; when the selection fingerprint of `arb` is the stored one, the
selection text, the selection set and the fingerprint are as before, whatever
selection text `arb` holds; and the level buffer of the object is as
before. -/
theorem Update_cache (murmur : List Char → Nat → Nat → Nat) (parse : List Char → JsonValue)
    (s : CryptomatteSession) (arb : CryptomatteArbitraryData) :
    ∃ s', UpdateSession murmur parse s arb = some s' ∧
      Update murmur parse s.ctx arb = some s'.ctx ∧
      (s.ctx.manifestHash = arb.manifest_hash →
        s'.ctx.manifest = s.ctx.manifest ∧ s'.ctx.manifestHash = s.ctx.manifestHash) ∧
      (s.ctx.selectionHash = arb.selection_hash →
        s'.ctx.selection = s.ctx.selection ∧
        s'.ctx.float_selection = s.ctx.float_selection ∧
        s'.ctx.selectionHash = s.ctx.selectionHash) ∧
      (∀ b, s.buffer = some b → ∃ b', s'.buffer = some b' ∧ b'.buf = b.buf ∧
        b'.width = b.width ∧ b'.height = b.height ∧ b'.numLevels = b.numLevels) ∧
      (s.buffer = none → s'.buffer = none) := by
  obtain ⟨ctx', h1, h2, h3⟩ :=
    updateSelection_total murmur (updateManifest parse (updateLayer s.ctx arb) arb) arb
  have hu : Update murmur parse s.ctx arb = some ctx' := h1
  refine ⟨{ s with ctx := ctx' }, ?_, hu, ?_, ?_, ?_, ?_⟩
  · unfold UpdateSession
    rw [hu]
  · intro hm
    have hm2 : (updateLayer s.ctx arb).manifestHash = arb.manifest_hash := by
      rw [(updateLayer_manifest s.ctx arb).2]
      exact hm
    show ctx'.manifest = _ ∧ ctx'.manifestHash = _
    rw [h2, h3, updateManifest_same parse _ arb hm2, (updateLayer_manifest s.ctx arb).1,
      (updateLayer_manifest s.ctx arb).2]
    exact ⟨rfl, rfl⟩
  · intro hsel
    have hs2 : (updateManifest parse (updateLayer s.ctx arb) arb).selectionHash =
        arb.selection_hash := by
      rw [updateManifest_selectionHash, updateLayer_selectionHash]
      exact hsel
    have h4 := updateSelection_same murmur _ arb hs2
    rw [h1] at h4
    injection h4 with h4
    show ctx'.selection = _ ∧ ctx'.float_selection = _ ∧ ctx'.selectionHash = _
    rw [h4, (updateManifest_selection parse _ arb).1, (updateManifest_selection parse _ arb).2,
      (updateLayer_selection s.ctx arb).1, (updateLayer_selection s.ctx arb).2,
      updateManifest_selectionHash, updateLayer_selectionHash]
    exact ⟨rfl, rfl, rfl⟩
  · intro b hb
    exact ⟨b, hb, rfl, rfl, rfl, rfl⟩
  · exact fun hb => hb

/-- Witness of C30: an `Update` whose two fingerprints are the stored ones
changes nothing, although `arb` holds another manifest text and another
selection text. -/
theorem Update_cache_witness :
    cachedContext.manifestHash = arbSameHashes.manifest_hash ∧
    cachedContext.selectionHash = arbSameHashes.selection_hash ∧
    Update murmurZero parseBall cachedContext arbSameHashes = some cachedContext ∧
    ∃ s', UpdateSession murmurZero parseBall ⟨cachedContext, some witnessBuffer⟩ arbSameHashes =
        some s' ∧
      Update murmurZero parseBall cachedContext arbSameHashes = some s'.ctx ∧
      (cachedContext.manifestHash = arbSameHashes.manifest_hash →
        s'.ctx.manifest = cachedContext.manifest ∧
        s'.ctx.manifestHash = cachedContext.manifestHash) ∧
      (cachedContext.selectionHash = arbSameHashes.selection_hash →
        s'.ctx.selection = cachedContext.selection ∧
        s'.ctx.float_selection = cachedContext.float_selection ∧
        s'.ctx.selectionHash = cachedContext.selectionHash) ∧
      (∀ b, some witnessBuffer = some b → ∃ b', s'.buffer = some b' ∧ b'.buf = b.buf ∧
        b'.width = b.width ∧ b'.height = b.height ∧ b'.numLevels = b.numLevels) ∧
      (some witnessBuffer = none → s'.buffer = none) :=
  ⟨by decide, by decide, by decide,
    Update_cache murmurZero parseBall ⟨cachedContext, some witnessBuffer⟩ arbSameHashes⟩

/-! ### The colour view -/

theorem range_map_shift {α : Type} (buf : Nat → α) (n level : Nat) :
    (List.range (n + 1)).map (fun k => buf (level + k)) =
      buf level :: (List.range n).map (fun k => buf (level + 1 + k)) := by
  rw [range_succ_map]
  simp only [Nat.add_zero]
  congr 1
  apply List.map_congr_left
  intro k _
  congr 1
  omega

theorem colorLoop_eq (sel : List FloatHash) (buf : Nat → Level) (n : Nat) :
    ∀ (level : Nat) (c : ℚ) (p : PF_PixelFloat),
      colorLoop sel buf n level c p =
        ((colorOfLevels sel ((List.range n).map (fun k => buf (level + k))) c p).1,
         (colorOfLevels sel ((List.range n).map (fun k => buf (level + k))) c p).2,
         level + n) := by
  induction n with
  | zero => intro level c p; rfl
  | succ n ih =>
    intro level c p
    rw [range_map_shift, colorLoop, colorOfLevels]
    by_cases hz : (buf level).coverage = 0
    · rw [if_pos hz, if_pos hz]
    · rw [if_neg hz, if_neg hz, ih]
      refine Prod.ext rfl (Prod.ext rfl ?_)
      simp only
      omega

theorem colorOfLevels_coverage (sel : List FloatHash) (levels : List Level) :
    ∀ (c : ℚ) (p : PF_PixelFloat),
      (colorOfLevels sel levels c p).1 = c + selectedCoverage sel levels := by
  induction levels with
  | nil => intro c p; simp [colorOfLevels, selectedCoverage]
  | cons l rest ih =>
    intro c p
    rw [colorOfLevels]
    by_cases hz : l.coverage = 0
    · rw [if_pos hz]
      simp [selectedCoverage, hz]
    · rw [if_neg hz, ih]
      by_cases hm : setCount sel l.hash = 0
      · simp [selectedCoverage, hz, hm]
      · simp [selectedCoverage, hz, hm]
        ring

theorem colorRow_below (sel : List FloatHash) (buf : Nat → Level) (numLevels : Nat)
    (matted : Bool) (len : Nat) :
    ∀ (pix level : Nat) (row : Nat → PF_PixelFloat) (i : Nat), i < pix →
      colorRow sel buf numLevels matted len pix level row i = row i := by
  induction len with
  | zero => intro pix level row i _; rfl
  | succ len ih =>
    intro pix level row i hi
    unfold colorRow
    simp only
    rw [ih (pix + 1) _ _ i (by omega), Function.update_noteq (by omega)]

theorem colorRow_pixel (sel : List FloatHash) (buf : Nat → Level) (numLevels : Nat)
    (matted : Bool) (len : Nat) :
    ∀ (pix level : Nat) (row : Nat → PF_PixelFloat) (j : Nat), j < len →
      colorRow sel buf numLevels matted len pix level row (pix + j) =
        pixelColor sel matted
          ((List.range numLevels).map (fun k => buf (level + j * numLevels + k))) := by
  induction len with
  | zero => intro pix level row j hj; omega
  | succ len ih =>
    intro pix level row j hj
    unfold colorRow
    simp only
    rw [colorLoop_eq]
    dsimp only
    cases j with
    | zero =>
      simp only [Nat.add_zero, Nat.zero_mul]
      rw [colorRow_below _ _ _ _ _ _ _ _ _ (by omega), Function.update_same]
      rfl
    | succ j =>
      rw [show pix + (j + 1) = pix + 1 + j by omega, ih (pix + 1) _ _ j (by omega)]
      congr 2
      funext k
      congr 1
      rw [Nat.add_mul]
      omega

theorem pixelLevels_add (b : CryptomatteBuffer) (x y j : Nat) :
    (List.range b.numLevels).map (fun k => b.buf (GetLevelGroup b x y + j * b.numLevels + k)) =
      pixelLevels b (x + j) y := by
  unfold pixelLevels
  rw [GetLevelGroup_add]

theorem GetColor_pixel (sel : List FloatHash) (b : CryptomatteBuffer)
    (row : Nat → PF_PixelFloat) (len x y j : Nat) (matted : Bool) (hj : j < len) :
    GetColor sel b row len x y matted j = pixelColor sel matted (pixelLevels b (x + j) y) := by
  have h := colorRow_pixel sel b.buf b.numLevels matted len 0 (GetLevelGroup b x y) row j hj
  rw [Nat.zero_add, pixelLevels_add] at h
  exact h

theorem pixelColor_alpha (sel : List FloatHash) (matted : Bool) (levels : List Level) :
    (pixelColor sel matted levels).alpha =
      if matted = true then selectedCoverage sel levels else 1 := by
  unfold pixelColor colorFinish
  simp only
  rw [colorOfLevels_coverage, zero_add]

/-- C28: in every pixel of the row, `GetColor` writes in alpha, when `matted`
is true, the value `GetCoverage` writes in alpha for the same pixel, buffer
and selection set (the sum of the selected coverages before the first level of
coverage 0), and 1 when `matted` is false. -/
theorem GetColor_alpha (sel : List FloatHash) (b : CryptomatteBuffer)
    (row row2 : Nat → PF_PixelFloat) (len x y j : Nat) (hj : j < len) :
    (GetColor sel b row len x y true j).alpha = (GetCoverage sel b row2 len x y j).alpha ∧
    (GetColor sel b row len x y true j).alpha = selectedCoverage sel (pixelLevels b (x + j) y) ∧
    (GetColor sel b row len x y false j).alpha = 1 := by
  rw [GetColor_pixel sel b row len x y j true hj, GetColor_pixel sel b row len x y j false hj,
    GetCoverage_pixel sel b row2 len x y j hj, pixelColor_alpha, pixelColor_alpha]
  exact ⟨rfl, rfl, rfl⟩

/-- Witness of C28: the pixel of `witnessBuffer` under the selection of its
first hash. -/
theorem GetColor_alpha_witness :
    0 < 1 ∧
    (GetColor [0x42f60000] witnessBuffer blankRow 1 0 0 true 0).alpha =
      (GetCoverage [0x42f60000] witnessBuffer blankRow 1 0 0 0).alpha ∧
    (GetColor [0x42f60000] witnessBuffer blankRow 1 0 0 true 0).alpha =
      selectedCoverage [0x42f60000] (pixelLevels witnessBuffer (0 + 0) 0) ∧
    (GetColor [0x42f60000] witnessBuffer blankRow 1 0 0 false 0).alpha = 1 :=
  ⟨by decide, GetColor_alpha [0x42f60000] witnessBuffer blankRow blankRow 1 0 0 0 (by decide)⟩

/-! ### Levels after the first level of coverage 0 -/

theorem selectedCoverage_upto (sel : List FloatHash) (levels : List Level) :
    selectedCoverage sel (uptoFirstZero levels) = selectedCoverage sel levels := by
  unfold selectedCoverage
  congr 3
  induction levels with
  | nil => rfl
  | cons l rest ih =>
    rw [uptoFirstZero]
    by_cases hz : l.coverage = 0
    · rw [if_pos hz]
      simp [List.takeWhile, hz]
    · rw [if_neg hz]
      simp only [List.takeWhile, hz, ne_eq, not_false_eq_true, decide_True]
      rw [ih]

theorem colorOfLevels_upto (sel : List FloatHash) (levels : List Level) :
    ∀ (c : ℚ) (p : PF_PixelFloat),
      colorOfLevels sel (uptoFirstZero levels) c p = colorOfLevels sel levels c p := by
  induction levels with
  | nil => intro c p; rfl
  | cons l rest ih =>
    intro c p
    rw [uptoFirstZero]
    by_cases hz : l.coverage = 0
    · rw [if_pos hz]
      simp only [colorOfLevels, if_pos hz]
    · rw [if_neg hz]
      simp only [colorOfLevels, if_neg hz]
      exact ih _ _

theorem pixelColor_upto (sel : List FloatHash) (matted : Bool) (levels : List Level) :
    pixelColor sel matted (uptoFirstZero levels) = pixelColor sel matted levels := by
  unfold pixelColor
  rw [colorOfLevels_upto]

theorem itemsLoop_eq_list (murmur : List Char → Nat → Nat → Nat) (ctx : CryptomatteContext)
    (buf : Nat → Level) (n : Nat) :
    ∀ (level : Nat) (items : List (List Char)),
      itemsLoop murmur ctx buf n level items =
        itemsOfLevels murmur ctx ((List.range n).map (fun k => buf (level + k))) items := by
  induction n with
  | zero => intro level items; rfl
  | succ n ih =>
    intro level items
    rw [range_map_shift, itemsLoop, itemsOfLevels]
    by_cases hc : (buf level).coverage > 0
    · rw [if_pos hc, if_pos hc]
      by_cases hh : FloatHashToHash (buf level).hash > 0
      · rw [if_pos hh, if_pos hh]
        cases insertItem murmur ctx items (FloatHashToHash (buf level).hash) with
        | none => rfl
        | some r =>
          cases r with
          | error what => rfl
          | ok items1 => exact ih _ _
      · rw [if_neg hh, if_neg hh]
        exact ih _ _
    · rw [if_neg hc, if_neg hc]

theorem GetItems_eq_list (murmur : List Char → Nat → Nat → Nat) (ctx : CryptomatteContext)
    (b : CryptomatteBuffer) (x y : Nat) :
    GetItems murmur ctx b x y = itemsOfLevels murmur ctx (pixelLevels b x y) [] := by
  unfold GetItems pixelLevels
  exact itemsLoop_eq_list murmur ctx b.buf b.numLevels _ _

theorem itemsOfLevels_upto (murmur : List Char → Nat → Nat → Nat) (ctx : CryptomatteContext)
    (levels : List Level) :
    ∀ items : List (List Char),
      itemsOfLevels murmur ctx (uptoFirstZero levels) items =
        itemsOfLevels murmur ctx levels items := by
  induction levels with
  | nil => intro items; rfl
  | cons l rest ih =>
    intro items
    rw [uptoFirstZero]
    by_cases hz : l.coverage = 0
    · have hc : ¬ l.coverage > 0 := by rw [hz]; exact lt_irrefl 0
      rw [if_pos hz]
      simp only [itemsOfLevels, if_neg hc]
    · rw [if_neg hz]
      simp only [itemsOfLevels]
      by_cases hc : l.coverage > 0
      · rw [if_pos hc, if_pos hc]
        by_cases hh : FloatHashToHash l.hash > 0
        · rw [if_pos hh, if_pos hh]
          cases insertItem murmur ctx items (FloatHashToHash l.hash) with
          | none => rfl
          | some r =>
            cases r with
            | error what => rfl
            | ok items1 => exact ih _
        · rw [if_neg hh, if_neg hh]
          exact ih _
      · rw [if_neg hc, if_neg hc]

/-- C21, the claim as written fails for `GetSelectionColor`, which reads the
hashes of the levels 0 and 1 without looking at any coverage: two buffers
that agree on the pixel's levels up to its first level of coverage 0 (the level
0) and differ in the hash of level 1 give different pixels. -/
theorem GetSelectionColor_reads_past_zero :
    uptoFirstZero (pixelLevels zeroFirstBuffer 0 0) =
      uptoFirstZero (pixelLevels zeroFirstBuffer2 0 0) ∧
    (GetSelectionColor zeroFirstBuffer blankColorRow 1 0 0 0).blue = 0x42f80000 ∧
    (GetSelectionColor zeroFirstBuffer2 blankColorRow 1 0 0 0).blue = 0x43000000 ∧
    GetSelectionColor zeroFirstBuffer blankColorRow 1 0 0 0 ≠
      GetSelectionColor zeroFirstBuffer2 blankColorRow 1 0 0 0 := by
  refine ⟨?_, by decide, by decide, by decide⟩
  have h1 : pixelLevels zeroFirstBuffer 0 0 =
      [(⟨0x42f60000, 0⟩ : Level), ⟨0x42f80000, 0⟩] := rfl
  have h2 : pixelLevels zeroFirstBuffer2 0 0 =
      [(⟨0x42f60000, 0⟩ : Level), ⟨0x43000000, 0⟩] := rfl
  rw [h1, h2]
  simp [uptoFirstZero]

/-- C21, amended: for `GetCoverage`, `GetColor` and `GetItems`, two buffers
that agree on the levels of a pixel up to and including its first level of
coverage exactly 0 give the same output for that pixel: the alpha of
`GetCoverage`, the whole pixel of `GetColor`, the result of `GetItems`. -/
theorem outputs_stop_at_first_zero (murmur : List Char → Nat → Nat → Nat)
    (ctx : CryptomatteContext) (sel : List FloatHash) (b b2 : CryptomatteBuffer)
    (row row2 : Nat → PF_PixelFloat) (len x y j : Nat) (matted : Bool) (hj : j < len)
    (hagree : uptoFirstZero (pixelLevels b (x + j) y) =
      uptoFirstZero (pixelLevels b2 (x + j) y)) :
    (GetCoverage sel b row len x y j).alpha = (GetCoverage sel b2 row2 len x y j).alpha ∧
    GetColor sel b row len x y matted j = GetColor sel b2 row2 len x y matted j ∧
    GetItems murmur ctx b (x + j) y = GetItems murmur ctx b2 (x + j) y := by
  refine ⟨?_, ?_, ?_⟩
  · rw [GetCoverage_pixel sel b row len x y j hj, GetCoverage_pixel sel b2 row2 len x y j hj,
      ← selectedCoverage_upto sel (pixelLevels b (x + j) y), hagree, selectedCoverage_upto]
  · rw [GetColor_pixel sel b row len x y j matted hj,
      GetColor_pixel sel b2 row2 len x y j matted hj,
      ← pixelColor_upto sel matted (pixelLevels b (x + j) y), hagree, pixelColor_upto]
  · rw [GetItems_eq_list, GetItems_eq_list,
      ← itemsOfLevels_upto murmur ctx (pixelLevels b (x + j) y), hagree, itemsOfLevels_upto]

theorem witnessBuffer_agree :
    uptoFirstZero (pixelLevels witnessBuffer (0 + 0) 0) =
      uptoFirstZero (pixelLevels witnessBuffer2 (0 + 0) 0) := by
  have h1 : pixelLevels witnessBuffer (0 + 0) 0 =
      [(⟨0x42f60000, 6 / 10⟩ : Level), ⟨0x42f80000, 4 / 10⟩, ⟨0, 0⟩] := rfl
  have h2 : pixelLevels witnessBuffer2 (0 + 0) 0 =
      [(⟨0x42f60000, 6 / 10⟩ : Level), ⟨0x42f80000, 4 / 10⟩, ⟨0, 0⟩, ⟨0x43000000, 1 / 2⟩] := rfl
  rw [h1, h2]
  norm_num [uptoFirstZero]

/-- Witness of C21 as amended: `witnessBuffer` and a buffer with the same
three levels followed by a fourth one. -/
theorem outputs_stop_at_first_zero_witness :
    0 < 1 ∧
    uptoFirstZero (pixelLevels witnessBuffer (0 + 0) 0) =
      uptoFirstZero (pixelLevels witnessBuffer2 (0 + 0) 0) ∧
    (GetCoverage [0x42f60000] witnessBuffer blankRow 1 0 0 0).alpha =
      (GetCoverage [0x42f60000] witnessBuffer2 blankRow 1 0 0 0).alpha ∧
    GetColor [0x42f60000] witnessBuffer blankRow 1 0 0 true 0 =
      GetColor [0x42f60000] witnessBuffer2 blankRow 1 0 0 true 0 ∧
    GetItems murmurZero freshContext witnessBuffer (0 + 0) 0 =
      GetItems murmurZero freshContext witnessBuffer2 (0 + 0) 0 :=
  ⟨by decide, witnessBuffer_agree,
    outputs_stop_at_first_zero murmurZero freshContext [0x42f60000] witnessBuffer witnessBuffer2
      blankRow blankRow 1 0 0 0 true (by decide) witnessBuffer_agree⟩

/-! ### One quad against two pairs -/

/-- C24: the two constructions differ. The four 1-component channels hold,
pixel by pixel, the components R, G, B, A of the 4-component channel, yet at
pixel (1, 1) the buffer built from the quad holds the levels (R, G), (B, A) =
(152, 156), (160, 148) and the buffer built from the pairs holds (152, 152),
(160, 160): the coverage of a pair is read from its hash channel. -/
theorem CryptomatteBuffer_quad_pairs_differ :
    (∀ x < 2, ∀ y < 2, ∀ c < 4,
      (checkoutQuadAndPairs (c + 1)).map (fun ch => channelValue ch 1 x y 0) =
        some (channelValue quadChunk 4 x y (quadSource c))) ∧
    (CryptomatteBuffer_new checkoutQuadAndPairs (fun _ => true) (fun _ => 0) [0] 2).map
      (fun b => (b.levelNum,
        b.buf (slotOffset 2 2 1 1 0 0), b.buf (slotOffset 2 2 1 1 0 1),
        b.buf (slotOffset 2 2 1 1 1 0), b.buf (slotOffset 2 2 1 1 1 1))) =
      Except.ok (2, 152, 156, 160, 148) ∧
    (CryptomatteBuffer_new checkoutQuadAndPairs (fun _ => true) (fun _ => 0) [1, 2, 3, 4] 2).map
      (fun b => (b.levelNum,
        b.buf (slotOffset 2 2 1 1 0 0), b.buf (slotOffset 2 2 1 1 0 1),
        b.buf (slotOffset 2 2 1 1 1 0), b.buf (slotOffset 2 2 1 1 1 1))) =
      Except.ok (2, 152, 152, 160, 160) := by
  refine ⟨by decide, by decide, by decide⟩

/-! ### The search for the layer name -/

theorem rfindDot_append (pre suf : List Char) (hs : ∀ c ∈ suf, c ≠ '.') :
    rfindDot (pre ++ '.' :: suf) = some pre.length := by
  unfold rfindDot
  have hc : (pre ++ '.' :: suf).contains '.' = true := by simp
  rw [if_pos hc]
  have hrev : (pre ++ '.' :: suf).reverse = suf.reverse ++ '.' :: pre.reverse := by simp
  have htw : (suf.reverse ++ '.' :: pre.reverse).takeWhile (fun c => c != '.') = suf.reverse := by
    rw [List.takeWhile_append_of_pos]
    · simp [List.takeWhile]
    · intro c hc
      have := hs c (List.mem_reverse.mp hc)
      simp [this]
  rw [hrev, htw]
  simp only [List.length_append, List.length_cons, List.length_reverse]
  congr 1
  omega

theorem rfindDot_decomp (name : List Char) (d : Nat) (h : rfindDot name = some d) :
    ∃ pre suf, name = pre ++ '.' :: suf ∧ (∀ c ∈ suf, c ≠ '.') ∧ d = pre.length := by
  have hc : name.contains '.' = true := by
    unfold rfindDot at h
    by_cases hc : name.contains '.' = true
    · exact hc
    · rw [if_neg hc] at h
      exact Option.noConfusion h
  have hmem : '.' ∈ name.reverse := by
    rw [List.mem_reverse]
    simpa using hc
  have hsplit := List.takeWhile_append_dropWhile (fun c => c != '.') name.reverse
  have hdrop : ∃ rest, name.reverse.dropWhile (fun c => c != '.') = '.' :: rest := by
    cases hd : name.reverse.dropWhile (fun c => c != '.') with
    | nil =>
      exfalso
      rw [hd, List.append_nil] at hsplit
      rw [← hsplit] at hmem
      have := List.mem_takeWhile_imp hmem
      simp at this
    | cons a rest =>
      have ha := List.head_dropWhile_not (fun c => c != '.') name.reverse (by rw [hd]; simp)
      simp only [hd, List.head_cons] at ha
      have : a = '.' := by simpa using ha
      exact ⟨rest, by rw [this]⟩
  obtain ⟨rest, hrest⟩ := hdrop
  rw [hrest] at hsplit
  have hsuf0 : ∀ c ∈ name.reverse.takeWhile (fun c => c != '.'), c ≠ '.' := by
    intro c hc
    have := List.mem_takeWhile_imp hc
    simpa using this
  generalize name.reverse.takeWhile (fun c => c != '.') = tw at hsplit hsuf0
  have hname : name = rest.reverse ++ '.' :: tw.reverse := by
    have := congrArg List.reverse hsplit
    rw [List.reverse_reverse] at this
    rw [← this]
    simp
  have hsuf : ∀ c ∈ tw.reverse, c ≠ '.' := fun c hc => hsuf0 c (List.mem_reverse.mp hc)
  refine ⟨rest.reverse, _, hname, hsuf, ?_⟩
  have h2 := rfindDot_append rest.reverse _ hsuf
  rw [← hname, h] at h2
  injection h2

theorem isRedSuffix_no_dot (suf : List Char) (h : isRedSuffix suf) : ∀ c ∈ suf, c ≠ '.' := by
  rcases h with h | h | h <;> rw [h] <;> decide

theorem discoverLayer_nonempty (channels : List ChannelEntry) (layer : List Char)
    (h : layer.isEmpty = false) : discoverLayer channels layer = layer := by
  cases channels with
  | nil => rfl
  | cons e rest =>
    rw [discoverLayer, if_neg (by rw [h]; exact Bool.false_ne_true)]

theorem discoverLayer_match (e : ChannelEntry) (rest : List ChannelEntry) (P suf : List Char)
    (helig : eligible e 1 = true) (hlen : 2 ≤ P.length) (hred : isRedSuffix suf)
    (hname : e.channelDesc.name = P ++ "00.".toList ++ suf) :
    discoverLayer (e :: rest) [] = P := by
  have hname2 : e.channelDesc.name = (P ++ "00".toList) ++ '.' :: suf := by
    rw [hname]
    simp
  have hdot : rfindDot e.channelDesc.name = some (P.length + 2) := by
    rw [hname2, rfindDot_append _ _ (isRedSuffix_no_dot suf hred)]
    simp
  have hcolor : e.channelDesc.name.drop (P.length + 2 + 1) = suf := by
    rw [hname2]
    have : P.length + 2 + 1 = (P ++ "00".toList ++ ['.']).length := by simp
    rw [this, show P ++ "00".toList ++ '.' :: suf = (P ++ "00".toList ++ ['.']) ++ suf by simp,
      List.drop_left]
  have hnum : substr e.channelDesc.name (P.length + 2 - 2) 2 = "00".toList := by
    unfold substr
    rw [hname, show P.length + 2 - 2 = P.length by omega,
      show P ++ "00.".toList ++ suf = P ++ ("00.".toList ++ suf) by simp, List.drop_left]
    rfl
  have hpre : substr e.channelDesc.name 0 (P.length + 2 - 2) = P := by
    unfold substr
    rw [hname, show P.length + 2 - 2 = P.length by omega, List.drop_zero,
      show P ++ "00.".toList ++ suf = P ++ ("00.".toList ++ suf) by simp, List.take_left]
  have hPne : P.isEmpty = false := by
    cases P with
    | nil => simp at hlen
    | cons a t => rfl
  rw [discoverLayer, if_pos (show ([] : List Char).isEmpty = true from rfl), if_pos helig,
    hdot]
  simp only
  rw [if_pos (by omega), hcolor, hnum, if_pos ⟨hred, rfl⟩, hpre]
  exact discoverLayer_nonempty rest P hPne

theorem discoverLayer_skip (e : ChannelEntry) (rest : List ChannelEntry)
    (hno : ¬ namesLayerZero e) : discoverLayer (e :: rest) [] = discoverLayer rest [] := by
  rw [discoverLayer, if_pos (show ([] : List Char).isEmpty = true from rfl)]
  by_cases helig : eligible e 1 = true
  · rw [if_pos helig]
    cases hdot : rfindDot e.channelDesc.name with
    | none => rfl
    | some d =>
      simp only
      by_cases hd : d > 3
      · rw [if_pos hd]
        by_cases hcond : (e.channelDesc.name.drop (d + 1) = "R".toList ∨
            e.channelDesc.name.drop (d + 1) = "r".toList ∨
            e.channelDesc.name.drop (d + 1) = "red".toList) ∧
            substr e.channelDesc.name (d - 2) 2 = "00".toList
        · exfalso
          apply hno
          refine ⟨helig, ?_⟩
          obtain ⟨pre, suf, hname, _, hdlen⟩ := rfindDot_decomp _ d hdot
          have hcolor : e.channelDesc.name.drop (d + 1) = suf := by
            rw [hname, hdlen,
              show pre ++ '.' :: suf = (pre ++ ['.']) ++ suf by simp,
              show pre.length + 1 = (pre ++ ['.']).length by simp, List.drop_left]
          have hnum : pre.drop (d - 2) = "00".toList := by
            have h2 := hcond.2
            unfold substr at h2
            rw [hname, List.drop_append_of_le_length (by omega)] at h2
            have hl : (pre.drop (d - 2)).length = 2 := by
              rw [List.length_drop]
              omega
            rw [List.take_append_of_le_length (by omega), List.take_of_length_le (by omega)] at h2
            exact h2
          refine ⟨pre.take (d - 2), suf, ?_, ?_, ?_⟩
          · rw [List.length_take]
            omega
          · rw [← hcolor]
            exact hcond.1
          · have hp : pre = pre.take (d - 2) ++ "00".toList := by
              rw [← hnum, List.take_append_drop]
            rw [hname]
            nth_rewrite 1 [hp]
            simp
        · rw [if_neg hcond]
      · rw [if_neg hd]
  · rw [if_neg helig]

theorem discoverLayer_first (pre : List ChannelEntry) (e : ChannelEntry)
    (post : List ChannelEntry) (P suf : List Char)
    (hpre : ∀ c ∈ pre, ¬ namesLayerZero c) (helig : eligible e 1 = true)
    (hlen : 2 ≤ P.length) (hred : isRedSuffix suf)
    (hname : e.channelDesc.name = P ++ "00.".toList ++ suf) :
    discoverLayer (pre ++ e :: post) [] = P := by
  induction pre with
  | nil => exact discoverLayer_match e post P suf helig hlen hred hname
  | cons c pre ih =>
    rw [List.cons_append, discoverLayer_skip c _ (hpre c (List.mem_cons_self _ _))]
    exact ih (fun x hx => hpre x (List.mem_cons_of_mem _ hx))

/-- C23, the claim as written fails for a prefix of one character: the
search asks for the last dot at a position above 3, so the channel `A00.R`
(dot at position 3) is passed over. Alone, it leaves the layer name empty;
followed by `Bc00.R`, the layer name becomes `Bc`, not `A`. -/
theorem LoadLevels_short_prefix :
    discoverLayer [floatChannel 0 "A00.R".toList 1] [] = [] ∧
    LoadLevels [] [floatChannel 0 "A00.R".toList 1] = some ([], 0, []) ∧
    discoverLayer [floatChannel 0 "A00.R".toList 1, floatChannel 1 "Bc00.R".toList 1] [] =
      "Bc".toList := by
  refine ⟨by decide, by decide, by decide⟩

/-- C23, amended: when the layer name is unknown, for every prefix `P` of at
least two characters: if the first channel that is an eligible 1-component
float channel named `Q00.` + `R`, `r` or `red` with `Q` of at least two
characters is named `P00.` + such a suffix, the layer search of `LoadLevels`
sets the layer name to `P`, and `LoadLevels` goes on as it does when the
layer name `P` is given. -/
theorem LoadLevels_detects_layer (pre : List ChannelEntry) (e : ChannelEntry)
    (post : List ChannelEntry) (P suf : List Char)
    (hpre : ∀ c ∈ pre, ¬ namesLayerZero c) (helig : eligible e 1 = true)
    (hlen : 2 ≤ P.length) (hred : isRedSuffix suf)
    (hname : e.channelDesc.name = P ++ "00.".toList ++ suf) :
    discoverLayer (pre ++ e :: post) [] = P ∧
    LoadLevels [] (pre ++ e :: post) = LoadLevels P (pre ++ e :: post) ∧
    ∀ r, LoadLevels [] (pre ++ e :: post) = some r → r.1 = P := by
  have hd := discoverLayer_first pre e post P suf hpre helig hlen hred hname
  have hpos : ([] : List Char).isEmpty = true ∧ (pre ++ e :: post).length > 0 := by
    refine ⟨rfl, ?_⟩
    rw [List.length_append, List.length_cons]
    omega
  have hPne : P.isEmpty = false := by
    cases P with
    | nil => simp at hlen
    | cons a t => rfl
  have hneg : ¬ (P.isEmpty = true ∧ (pre ++ e :: post).length > 0) := by
    rw [hPne]
    exact fun h => Bool.noConfusion h.1
  refine ⟨hd, ?_, ?_⟩
  · unfold LoadLevels
    rw [if_pos hpos, if_neg hneg, hd]
  · intro r hr
    unfold LoadLevels at hr
    rw [if_pos hpos, hd] at hr
    simp only at hr
    split at hr
    · split at hr
      · exact Option.noConfusion hr
      · split at hr
        · exact Option.noConfusion hr
        · injection hr with hr
          rw [← hr]
    · injection hr with hr
      rw [← hr]

/-- Witness of C23 as amended: the 4-component channel is not eligible, the
layer name comes from `crypto00.red`, and `other00.R` after it is not looked
at. -/
theorem LoadLevels_detects_layer_witness :
    (∀ c ∈ [floatChannel 0 "crypto00.argb".toList 4], ¬ namesLayerZero c) ∧
    eligible (floatChannel 1 "crypto00.red".toList 1) 1 = true ∧
    2 ≤ "crypto".toList.length ∧ isRedSuffix "red".toList ∧
    LoadLevels [] layerSearchChannels = some ("crypto".toList, 2, [0]) ∧
    discoverLayer ([floatChannel 0 "crypto00.argb".toList 4] ++
      floatChannel 1 "crypto00.red".toList 1 :: [floatChannel 2 "other00.R".toList 1]) [] =
      "crypto".toList :=
  ⟨fun c hc h => by
      rw [List.mem_singleton.mp hc] at h
      exact absurd h.1 (by decide),
    by decide, by decide, Or.inr (Or.inr rfl), by decide,
    (LoadLevels_detects_layer [floatChannel 0 "crypto00.argb".toList 4]
      (floatChannel 1 "crypto00.red".toList 1) [floatChannel 2 "other00.R".toList 1]
      "crypto".toList "red".toList
      (fun c hc h => by
        rw [List.mem_singleton.mp hc] at h
        exact absurd h.1 (by decide))
      (by decide) (by decide) (Or.inr (Or.inr rfl)) rfl).1⟩

/-! ### What `searchReplace` computes -/

theorem replaceSkip_drop (search replace : List Char) (t : List Char) :
    ∀ k : Nat, replaceSkip search replace k t = replaceSkip search replace 0 (t.drop k) := by
  induction t with
  | nil => intro k; cases k <;> rfl
  | cons c r ih =>
    intro k
    cases k with
    | zero => rfl
    | succ k =>
      rw [replaceSkip, List.drop_succ_cons]
      exact ih k

theorem isPrefixOf_length (search t : List Char) (h : search.isPrefixOf t = true) :
    search.length ≤ t.length := by
  have := List.isPrefixOf_iff_prefix.mp h
  exact this.length_le

theorem replaceSkip_no_match (search replace : List Char) (t : List Char)
    (h : ∀ q, search.isPrefixOf (t.drop q) = false) : replaceSkip search replace 0 t = t := by
  induction t with
  | nil => rfl
  | cons c r ih =>
    have h0 := h 0
    rw [List.drop_zero] at h0
    rw [replaceSkip, if_neg (by rw [h0]; exact Bool.false_ne_true)]
    congr 1
    apply ih
    intro q
    have := h (q + 1)
    rw [List.drop_succ_cons] at this
    exact this

theorem replaceSkip_first_match (search replace : List Char) (hs : 1 ≤ search.length)
    (u : List Char) :
    ∀ w : List Char, (∀ q, q < u.length → search.isPrefixOf ((u ++ w).drop q) = false) →
      search.isPrefixOf w = true →
      replaceSkip search replace 0 (u ++ w) =
        u ++ replace ++ replaceSkip search replace 0 (w.drop search.length) := by
  induction u with
  | nil =>
    intro w _ hm
    cases w with
    | nil =>
      have := isPrefixOf_length search [] hm
      rw [List.length_nil] at this
      omega
    | cons c r =>
      rw [List.nil_append, replaceSkip, if_pos hm, replaceSkip_drop, List.nil_append]
      congr 2
      rw [show search.length = (search.length - 1) + 1 by omega, List.drop_succ_cons]
      simp
  | cons c u ih =>
    intro w hno hm
    have h0 := hno 0 (by simp)
    rw [List.drop_zero, List.cons_append] at h0
    rw [List.cons_append, replaceSkip, if_neg (by rw [h0]; exact Bool.false_ne_true)]
    rw [ih w (fun q hq => by
      have := hno (q + 1) (by simp; omega)
      rw [List.cons_append, List.drop_succ_cons] at this
      exact this) hm]
    rfl

theorem findAux_spec (s search : List Char) :
    ∀ (n i : Nat),
      (∀ p, findAux s search n i = some p →
        search.isPrefixOf (s.drop p) = true ∧
          ∀ q, i ≤ q → q < p → search.isPrefixOf (s.drop q) = false) ∧
      (findAux s search n i = none →
        ∀ q, i ≤ q → q < i + n → search.isPrefixOf (s.drop q) = false) := by
  intro n
  induction n with
  | zero =>
    intro i
    refine ⟨?_, ?_⟩
    · intro p h
      simp [findAux] at h
    · intro _ q h1 h2
      omega
  | succ n ih =>
    intro i
    unfold findAux
    by_cases hm : search.isPrefixOf (s.drop i) = true
    · rw [if_pos hm]
      refine ⟨?_, ?_⟩
      · intro p hp
        injection hp with hp
        subst hp
        exact ⟨hm, fun q h1 h2 => by omega⟩
      · intro h
        exact Option.noConfusion h
    · rw [if_neg hm]
      have hmf : search.isPrefixOf (s.drop i) = false := by
        cases hb : search.isPrefixOf (s.drop i)
        · rfl
        · exact absurd hb hm
      obtain ⟨ih1, ih2⟩ := ih (i + 1)
      refine ⟨?_, ?_⟩
      · intro p hp
        obtain ⟨h1, h2⟩ := ih1 p hp
        refine ⟨h1, ?_⟩
        intro q hq1 hq2
        by_cases he : q = i
        · rw [he]; exact hmf
        · exact h2 q (by omega) hq2
      · intro hnone q hq1 hq2
        by_cases he : q = i
        · rw [he]; exact hmf
        · exact ih2 hnone q (by omega) (by omega)

theorem find_some_spec (s search : List Char) (pos p : Nat) (h : find s search pos = some p) :
    pos ≤ p ∧ search.isPrefixOf (s.drop p) = true ∧
      ∀ q, pos ≤ q → q < p → search.isPrefixOf (s.drop q) = false := by
  refine ⟨find_ge s search pos p h, ?_⟩
  unfold find at h
  split at h
  · exact (findAux_spec s search _ pos).1 p h
  · exact Option.noConfusion h

theorem find_none_spec (s search : List Char) (hs : 1 ≤ search.length) (pos : Nat)
    (h : find s search pos = none) :
    ∀ q, pos ≤ q → search.isPrefixOf (s.drop q) = false := by
  intro q hq
  cases hb : search.isPrefixOf (s.drop q) with
  | false => rfl
  | true =>
    exfalso
    have hlen := isPrefixOf_length search _ hb
    rw [List.length_drop] at hlen
    unfold find at h
    rw [if_pos (by omega)] at h
    have := (findAux_spec s search _ pos).2 h q hq (by omega)
    rw [hb] at this
    exact Bool.noConfusion this

theorem eraseInsert_take_append (s R : List Char) (p n : Nat) (replace : List Char)
    (h : p + n ≤ s.length) :
    eraseInsert (s.take (p + n) ++ R) p n replace = s.take p ++ replace ++ R := by
  unfold eraseInsert
  have hl : (s.take (p + n)).length = p + n := by
    rw [List.length_take]
    omega
  rw [List.take_append_of_le_length (by omega), List.take_take,
    show min p (p + n) = p by omega, List.drop_append_of_le_length (by omega),
    List.drop_of_length_le (by omega), List.nil_append]

theorem findPositions_spec (s search replace : List Char) (hs : 1 ≤ search.length) :
    ∀ (fuel i : Nat) (acc : List Nat), i ≤ s.length → s.length - i < fuel →
      ∃ Q, findPositions s search fuel i acc = some (acc ++ Q) ∧
        Q.foldr (fun pos t => eraseInsert t pos search.length replace) s =
          s.take i ++ replaceSkip search replace 0 (s.drop i) := by
  intro fuel
  induction fuel with
  | zero => intro i acc _ h; omega
  | succ fuel ih =>
    intro i acc hi hfuel
    unfold findPositions
    by_cases hlt : i < s.length
    · rw [if_pos hlt]
      cases hf : find s search i with
      | none =>
        refine ⟨[], by simp, ?_⟩
        have hno := find_none_spec s search hs i hf
        rw [replaceSkip_no_match search replace (s.drop i) (fun q => by
          rw [List.drop_drop]
          exact hno (i + q) (by omega))]
        simp
      | some p =>
        obtain ⟨hp1, hp2, hp3⟩ := find_some_spec s search i p hf
        have hplen : p + search.length ≤ s.length := by
          have := isPrefixOf_length search _ hp2
          rw [List.length_drop] at this
          omega
        obtain ⟨Q, hQ1, hQ2⟩ := ih (p + search.length) (acc ++ [p]) hplen (by omega)
        refine ⟨p :: Q, ?_, ?_⟩
        · simp only
          rw [hQ1, List.append_assoc]
          rfl
        · rw [List.foldr_cons, hQ2, eraseInsert_take_append s _ p search.length replace hplen]
          have hsplit : s.drop i = (s.drop i).take (p - i) ++ s.drop p := by
            have h1 := (List.take_append_drop (p - i) (s.drop i)).symm
            rw [List.drop_drop, show i + (p - i) = p by omega] at h1
            exact h1
          have hulen : ((s.drop i).take (p - i)).length = p - i := by
            rw [List.length_take, List.length_drop]
            omega
          have hfm := replaceSkip_first_match search replace hs ((s.drop i).take (p - i))
            (s.drop p) (fun q hq => by
              rw [← hsplit, List.drop_drop]
              exact hp3 (i + q) (by omega) (by rw [hulen] at hq; omega)) hp2
          rw [← hsplit] at hfm
          rw [hfm, List.drop_drop, ← List.append_assoc, ← List.append_assoc]
          congr 2
          · have h2 := List.take_append_drop i (s.take p)
            rw [List.take_take, show min i p = i by omega] at h2
            rw [← h2]
            congr 1
            rw [List.drop_take]
    · rw [if_neg hlt]
      have hil : i = s.length := by omega
      refine ⟨[], by simp, ?_⟩
      rw [hil, List.drop_length, List.take_length]
      simp [replaceSkip]

theorem searchReplace_eq (str search replace : List Char) (hs : 1 ≤ search.length) :
    searchReplace str search replace = some (replaceSkip search replace 0 str) := by
  obtain ⟨Q, h1, h2⟩ :=
    findPositions_spec str search replace hs (str.length + 1) 0 [] (Nat.zero_le _) (by omega)
  unfold searchReplace
  rw [h1]
  simp only [List.nil_append]
  rw [List.foldl_reverse, h2]
  simp

/-! ### Quoting and de-quoting -/

theorem escapeQuotes_cons (c : Char) (r : List Char) :
    escapeQuotes (c :: r) =
      (if c = dquote then [backslash, dquote] else [c]) ++ escapeQuotes r := by
  simp [escapeQuotes]

theorem escapeQuotes_append (a b : List Char) :
    escapeQuotes (a ++ b) = escapeQuotes a ++ escapeQuotes b := by
  simp [escapeQuotes]

theorem escapeQuotes_length (s : List Char) : (escapeQuotes s).length ≤ 2 * s.length := by
  induction s with
  | nil => simp [escapeQuotes]
  | cons c r ih =>
    rw [escapeQuotes_cons, List.length_append, List.length_cons]
    by_cases hc : c = dquote
    · rw [if_pos hc]
      simp only [List.length_cons, List.length_nil]
      omega
    · rw [if_neg hc]
      simp only [List.length_cons, List.length_nil]
      omega

theorem escapeQuotes_head (s t : List Char) : escapeQuotes s ≠ dquote :: t := by
  cases s with
  | nil => simp [escapeQuotes]
  | cons c r =>
    rw [escapeQuotes_cons]
    by_cases hc : c = dquote
    · rw [if_pos hc]
      intro h
      injection h with h1 _
      exact absurd h1 (by decide)
    · rw [if_neg hc]
      intro h
      injection h with h1 _
      exact hc h1

theorem replaceSkip_escape (s : List Char) :
    replaceSkip [dquote] [backslash, dquote] 0 s = escapeQuotes s := by
  induction s with
  | nil => rfl
  | cons c r ih =>
    rw [replaceSkip, escapeQuotes_cons]
    by_cases hc : c = dquote
    · have hp : [dquote].isPrefixOf (c :: r) = true := by simp [List.isPrefixOf, hc]
      rw [if_pos hp, if_pos hc]
      show [backslash, dquote] ++ replaceSkip [dquote] [backslash, dquote] 0 r = _
      rw [ih]
    · have hp : ¬ [dquote].isPrefixOf (c :: r) = true := by
        simp only [List.isPrefixOf, Bool.and_true, beq_iff_eq]
        exact fun h => hc h.symm
      rw [if_neg hp, if_neg hc, ih]
      rfl

theorem replaceSkip_unescape (s : List Char) :
    replaceSkip [backslash, dquote] [dquote] 0 (escapeQuotes s) = s := by
  induction s with
  | nil => rfl
  | cons c r ih =>
    rw [escapeQuotes_cons]
    by_cases hc : c = dquote
    · rw [if_pos hc]
      have hp : [backslash, dquote].isPrefixOf (backslash :: dquote :: escapeQuotes r) = true := by
        simp [List.isPrefixOf]
      show replaceSkip [backslash, dquote] [dquote] 0
        (backslash :: (dquote :: escapeQuotes r)) = _
      rw [replaceSkip, if_pos hp]
      show [dquote] ++ replaceSkip [backslash, dquote] [dquote] 1 (dquote :: escapeQuotes r) = _
      rw [replaceSkip, ih, hc]
      rfl
    · rw [if_neg hc]
      show replaceSkip [backslash, dquote] [dquote] 0 (c :: escapeQuotes r) = _
      have hp : ¬ [backslash, dquote].isPrefixOf (c :: escapeQuotes r) = true := by
        intro h
        cases he : escapeQuotes r with
        | nil =>
          rw [he] at h
          simp [List.isPrefixOf] at h
        | cons a t =>
          rw [he] at h
          simp only [List.isPrefixOf, Bool.and_true, Bool.and_eq_true, beq_iff_eq] at h
          exact escapeQuotes_head r t (by rw [he, h.2])
      rw [replaceSkip, if_neg hp, ih]

theorem enQuote_eq (s : List Char) :
    enQuote s = some (dquote :: escapeQuotes s ++ [dquote]) := by
  unfold enQuote
  rw [searchReplace_eq s [dquote] [backslash, dquote] (by decide), replaceSkip_escape]
  rfl

theorem getD_append_mid (a : List Char) (z : Char) (b : List Char) (d : Char) :
    (a ++ z :: b).getD a.length d = z := by
  induction a with
  | nil => rfl
  | cons c a ih =>
    rw [List.cons_append, List.length_cons, List.getD_cons_succ]
    exact ih

theorem escapeQuotes_last (s : List Char) (hlast : s.getLast? ≠ some backslash) :
    charAt (dquote :: escapeQuotes s ++ [dquote]) (escapeQuotes s).length ≠ backslash := by
  rcases List.eq_nil_or_concat s with hs | ⟨s1, z, hs⟩
  · rw [hs]
    decide
  · rw [List.concat_eq_append] at hs
    have hz : z ≠ backslash := by
      intro h
      apply hlast
      rw [hs, h]
      simp
    have he : ∃ X, escapeQuotes s = X ++ [z] := by
      rw [hs, escapeQuotes_append, escapeQuotes_cons]
      by_cases hc : z = dquote
      · rw [if_pos hc]
        refine ⟨escapeQuotes s1 ++ [backslash], ?_⟩
        rw [hc]
        simp [escapeQuotes]
      · rw [if_neg hc]
        exact ⟨escapeQuotes s1, by simp [escapeQuotes]⟩
    obtain ⟨X, hX⟩ := he
    rw [hX]
    unfold charAt
    rw [List.length_append, List.length_cons, List.length_nil,
      show dquote :: (X ++ [z]) ++ [dquote] = (dquote :: X) ++ z :: [dquote] by simp,
      show X.length + (0 + 1) = (dquote :: X).length by simp, getD_append_mid]
    exact hz

theorem deQuote_quoted (E : List Char) (hsize : E.length + 2 < 2 ^ 64)
    (hlast : charAt (dquote :: E ++ [dquote]) E.length ≠ backslash) :
    deQuote (dquote :: E ++ [dquote]) = searchReplace E [backslash, dquote] [dquote] := by
  unfold deQuote
  have hlen : (dquote :: E ++ [dquote]).length = E.length + 2 := by simp
  have h0 : charAt (dquote :: E ++ [dquote]) 0 = dquote := rfl
  have hend : charAt (dquote :: E ++ [dquote]) (E.length + 2 - 1) = dquote := by
    unfold charAt
    rw [show dquote :: E ++ [dquote] = (dquote :: E) ++ dquote :: [] by simp,
      show E.length + 2 - 1 = (dquote :: E).length by simp, getD_append_mid]
  rw [hlen, h0, if_pos rfl]
  simp only
  rw [if_pos ⟨by omega, hend, by rw [show E.length + 2 - 2 = E.length by omega]; exact hlast⟩]
  have hn : (E.length + 2 - 2 + 1 + 2 ^ 64 - 1) % 2 ^ 64 = E.length := by
    rw [show E.length + 2 - 2 + 1 + 2 ^ 64 - 1 = E.length + 2 ^ 64 by omega,
      Nat.add_mod_right]
    exact Nat.mod_eq_of_lt (by omega)
  have hsub : substr (dquote :: E ++ [dquote]) 1 E.length = E := by
    unfold substr
    rw [show dquote :: E ++ [dquote] = [dquote] ++ (E ++ [dquote]) by simp,
      show (1 : Nat) = [dquote].length by rfl, List.drop_left, List.take_left]
  rw [hn, hsub]

/-- C26: for every string `s` that does not end with a backslash (its quoted
form being a `std::string`, of a size below `2^64`), `enQuote(s)` is `s` with
a backslash put before each double quote, between two double quotes, and
`deQuote(enQuote(s)) = s`. -/
theorem deQuote_enQuote (s : List Char) (hlast : s.getLast? ≠ some backslash)
    (hsize : (escapeQuotes s).length + 2 < 2 ^ 64) :
    ∃ q, enQuote s = some q ∧ q = dquote :: escapeQuotes s ++ [dquote] ∧
      deQuote q = some s := by
  refine ⟨_, enQuote_eq s, rfl, ?_⟩
  rw [deQuote_quoted (escapeQuotes s) hsize (escapeQuotes_last s hlast),
    searchReplace_eq _ _ _ (by decide), replaceSkip_unescape]

/-- Witness of C26: the name `a"b` is quoted as the six characters quote,
`a`, backslash, quote, `b`, quote, and `deQuote` of these gives `a"b`
back. -/
theorem deQuote_enQuote_witness :
    ['a', dquote, 'b'].getLast? ≠ some backslash ∧
    (escapeQuotes ['a', dquote, 'b']).length + 2 < 2 ^ 64 ∧
    enQuote ['a', dquote, 'b'] = some [dquote, 'a', backslash, dquote, 'b', dquote] ∧
    deQuote [dquote, 'a', backslash, dquote, 'b', dquote] = some ['a', dquote, 'b'] ∧
    ∃ q, enQuote ['a', dquote, 'b'] = some q ∧
      q = dquote :: escapeQuotes ['a', dquote, 'b'] ++ [dquote] ∧
      deQuote q = some ['a', dquote, 'b'] :=
  ⟨by decide, by decide, by decide, by decide,
    deQuote_enQuote ['a', dquote, 'b'] (by decide) (by decide)⟩

/-! ### A quoted name is one token -/

theorem escapeQuotes_quote_at (s : List Char) :
    ∀ j, j < (escapeQuotes s).length → charAt (escapeQuotes s) j = dquote →
      0 < j ∧ charAt (escapeQuotes s) (j - 1) = backslash := by
  induction s with
  | nil =>
    intro j hj _
    simp [escapeQuotes] at hj
  | cons c r ih =>
    intro j hj hq
    rw [escapeQuotes_cons] at hj hq ⊢
    by_cases hc : c = dquote
    · rw [if_pos hc] at hj hq ⊢
      cases j with
      | zero =>
        have hbq : backslash = dquote := hq
        exact absurd hbq (by decide)
      | succ j =>
        cases j with
        | zero => exact ⟨by omega, rfl⟩
        | succ j =>
          have hj2 : j < (escapeQuotes r).length := by
            simp only [List.cons_append, List.nil_append, List.length_cons] at hj
            omega
          have hq2 : charAt (escapeQuotes r) j = dquote := hq
          obtain ⟨h1, h2⟩ := ih j hj2 hq2
          refine ⟨by omega, ?_⟩
          show charAt ([backslash, dquote] ++ escapeQuotes r) (j + 1) = backslash
          rw [show j + 1 = (j - 1) + 2 by omega]
          exact h2
    · rw [if_neg hc] at hj hq ⊢
      cases j with
      | zero => exact absurd hq hc
      | succ j =>
        have hj2 : j < (escapeQuotes r).length := by
          simp only [List.cons_append, List.nil_append, List.length_cons] at hj
          omega
        have hq2 : charAt (escapeQuotes r) j = dquote := hq
        obtain ⟨h1, h2⟩ := ih j hj2 hq2
        refine ⟨by omega, ?_⟩
        show charAt ([c] ++ escapeQuotes r) j = backslash
        rw [show j = (j - 1) + 1 by omega]
        exact h2

theorem charAt_quoted_inner (E : List Char) (i : Nat) (h1 : 1 ≤ i) :
    charAt (dquote :: E ++ [dquote]) i = charAt (E ++ [dquote]) (i - 1) := by
  unfold charAt
  rw [List.cons_append, show i = (i - 1) + 1 by omega, List.getD_cons_succ]
  simp

theorem charAt_append_left (E F : List Char) (i : Nat) (h : i < E.length) :
    charAt (E ++ F) i = charAt E i := by
  unfold charAt
  rw [List.getD_eq_getElem _ _ (by rw [List.length_append]; omega),
    List.getD_eq_getElem _ _ h, List.getElem_append_left h]

theorem charAt_quoted_end (E : List Char) :
    charAt (dquote :: E ++ [dquote]) (E.length + 1) = dquote := by
  unfold charAt
  rw [show dquote :: E ++ [dquote] = (dquote :: E) ++ dquote :: [] by simp,
    show E.length + 1 = (dquote :: E).length by simp, getD_append_mid]

theorem isQuoteMark_quoted_inner (s : List Char) (i : Nat) (h1 : 1 ≤ i)
    (h2 : i ≤ (escapeQuotes s).length) :
    isQuoteMark (dquote :: escapeQuotes s ++ [dquote]) i = false := by
  unfold isQuoteMark
  by_cases hq : charAt (dquote :: escapeQuotes s ++ [dquote]) i = dquote
  · have hq2 : charAt (escapeQuotes s) (i - 1) = dquote := by
      rw [charAt_quoted_inner _ i h1, charAt_append_left _ _ _ (by omega)] at hq
      exact hq
    obtain ⟨h3, h4⟩ := escapeQuotes_quote_at s (i - 1) (by omega) hq2
    have hb : charAt (dquote :: escapeQuotes s ++ [dquote]) (i - 1) = backslash := by
      rw [charAt_quoted_inner _ (i - 1) (by omega), charAt_append_left _ _ _ (by omega)]
      exact h4
    have hi0 : i ≠ 0 := by omega
    generalize dquote :: escapeQuotes s ++ [dquote] = t at hq hb ⊢
    simp [hb, hi0]
  · generalize dquote :: escapeQuotes s ++ [dquote] = t at hq ⊢
    simp [hq]

theorem isQuoteMark_quoted_end (s : List Char) (hlast : s.getLast? ≠ some backslash) :
    isQuoteMark (dquote :: escapeQuotes s ++ [dquote]) ((escapeQuotes s).length + 1) = true := by
  unfold isQuoteMark
  have h1 := charAt_quoted_end (escapeQuotes s)
  have h2 := escapeQuotes_last s hlast
  have h3 : (escapeQuotes s).length + 1 < (dquote :: escapeQuotes s ++ [dquote]).length := by
    simp
  generalize dquote :: escapeQuotes s ++ [dquote] = t at h1 h2 h3 ⊢
  simp [h1, h2, h3]

theorem insideQuotes_quoted_inner (s : List Char) :
    ∀ i, i ≤ (escapeQuotes s).length →
      insideQuotes (dquote :: escapeQuotes s ++ [dquote]) (i + 1) = true := by
  intro i
  induction i with
  | zero =>
    intro _
    rw [insideQuotes_succ_mark _ 0 (by simp [isQuoteMark, charAt])]
    rfl
  | succ i ih =>
    intro hi
    rw [insideQuotes_succ_plain _ (i + 1) (isQuoteMark_quoted_inner s (i + 1) (by omega) hi)]
    exact ih (by omega)

theorem insideQuotes_quoted_end (s : List Char) (hlast : s.getLast? ≠ some backslash) :
    insideQuotes (dquote :: escapeQuotes s ++ [dquote])
      (dquote :: escapeQuotes s ++ [dquote]).length = false := by
  have hlen : (dquote :: escapeQuotes s ++ [dquote]).length = (escapeQuotes s).length + 1 + 1 := by
    simp
  rw [hlen, insideQuotes_succ_mark _ _ (isQuoteMark_quoted_end s hlast),
    insideQuotes_quoted_inner s _ (le_refl _)]
  rfl

theorem isCut_quoted (s : List Char) (i : Nat)
    (hi : i < (dquote :: escapeQuotes s ++ [dquote]).length) :
    isCut (dquote :: escapeQuotes s ++ [dquote]) commaSpace i = false := by
  have hlen : (dquote :: escapeQuotes s ++ [dquote]).length = (escapeQuotes s).length + 1 + 1 := by
    simp
  unfold isCut
  cases i with
  | zero =>
    have : charAt (dquote :: escapeQuotes s ++ [dquote]) 0 = dquote := rfl
    rw [this, commaSpace_no_quote]
    rfl
  | succ i =>
    rw [insideQuotes_quoted_inner s i (by omega)]
    simp

theorem tokensFrom_no_cut (str delimiters : List Char)
    (hno : ∀ j, j < str.length → isCut str delimiters j = false) :
    ∀ (n a : Nat) (cur : List Char), a + n = str.length →
      tokensFrom str delimiters a cur =
        if (cur ++ str.drop a).isEmpty then [] else [cur ++ str.drop a] := by
  intro n
  induction n with
  | zero =>
    intro a cur ha
    have : a = str.length := by omega
    rw [this, tokensFrom_end, List.drop_length, List.append_nil]
  | succ n ih =>
    intro a cur ha
    rw [tokensFrom_keep str delimiters a cur (by omega) (hno a (by omega)),
      ih (a + 1) _ (by omega), drop_eq_charAt_cons str a (by omega)]
    simp

theorem specTokens_no_cut (str delimiters : List Char) (hne : str ≠ [])
    (hno : ∀ j, j < str.length → isCut str delimiters j = false) :
    specTokens str delimiters = [str] := by
  have h := tokensFrom_no_cut str delimiters hno str.length 0 [] (by omega)
  have he : specTokens str delimiters = tokensFrom str delimiters 0 [] := by
    unfold specTokens tokensFrom
    rw [List.drop_zero]
  rw [he, h, List.drop_zero, List.nil_append]
  cases str with
  | nil => exact absurd rfl hne
  | cons c r => rfl

/-- C27, the claim as written fails for a name that ends with a backslash:
`enQuote` does not escape backslashes, so the closing quote of the quoted name
`a\` reads as an escaped quote and `quotedTokenize` throws. -/
theorem quotedTokenize_enQuote_backslash :
    enQuote ['a', backslash] = some [dquote, 'a', backslash, dquote] ∧
    quotedTokenize [dquote, 'a', backslash, dquote] commaSpace =
      some (Except.error "Quoted tokenize error.") := by
  refine ⟨by decide, by decide⟩

/-- C27, amended: quoting makes every name that does not end with a backslash
a single selection token: whatever delimiters, quotes or other backslashes
the name `s` holds, `quotedTokenize(enQuote(s), ", ")` returns exactly the one
token `enQuote(s)`. -/
theorem quotedTokenize_enQuote (s : List Char) (hlast : s.getLast? ≠ some backslash) :
    ∃ q, enQuote s = some q ∧ quotedTokenize q commaSpace = some (Except.ok [q]) := by
  refine ⟨_, enQuote_eq s, ?_⟩
  rw [quotedTokenize_eq _ _ commaSpace_no_quote, insideQuotes_quoted_end s hlast,
    specTokens_no_cut _ _ (by simp) (isCut_quoted s)]
  rfl

/-- Witness of C27 as amended: the name `a, "b \c` with a comma, a space, a
quote and a backslash. -/
theorem quotedTokenize_enQuote_witness :
    ("a, ".toList ++ [dquote] ++ "b ".toList ++ [backslash, 'c']).getLast? ≠ some backslash ∧
    quotedTokenize ([dquote] ++ "a, ".toList ++ [backslash, dquote] ++ "b ".toList ++
        [backslash, 'c', dquote]) commaSpace =
      some (Except.ok [[dquote] ++ "a, ".toList ++ [backslash, dquote] ++ "b ".toList ++
        [backslash, 'c', dquote]]) ∧
    ∃ q, enQuote ("a, ".toList ++ [dquote] ++ "b ".toList ++ [backslash, 'c']) = some q ∧
      quotedTokenize q commaSpace = some (Except.ok [q]) :=
  ⟨by decide, by decide,
    quotedTokenize_enQuote ("a, ".toList ++ [dquote] ++ "b ".toList ++ [backslash, 'c'])
      (by decide)⟩

/-! ### The item of a quoted token -/

theorem replaceSkip_length (search replace : List Char) (hr : replace.length ≤ search.length)
    (t : List Char) :
    ∀ k : Nat, (replaceSkip search replace k t).length + min k t.length ≤ t.length := by
  induction t with
  | nil => intro k; cases k <;> simp [replaceSkip]
  | cons c r ih =>
    intro k
    cases k with
    | succ k =>
      rw [replaceSkip, List.length_cons]
      have := ih k
      omega
    | zero =>
      rw [replaceSkip]
      by_cases hm : search.isPrefixOf (c :: r) = true
      · rw [if_pos hm, List.length_append, List.length_cons]
        have h1 := isPrefixOf_length search _ hm
        rw [List.length_cons] at h1
        have h2 := ih (search.length - 1)
        omega
      · rw [if_neg hm, List.length_cons, List.length_cons]
        have := ih 0
        omega

theorem deQuote_form (t : List Char) :
    ∃ n, deQuote t =
      searchReplace (substr t (if charAt t 0 = dquote then 1 else 0) n)
        [backslash, dquote] [dquote] :=
  ⟨_, rfl⟩

theorem deQuote_shorter (t val : List Char) (hq : t.head? = some dquote)
    (hval : deQuote t = some val) : val.length < t.length := by
  cases t with
  | nil => simp at hq
  | cons c r =>
    have hc : c = dquote := by simpa using hq
    obtain ⟨n, hn⟩ := deQuote_form (c :: r)
    have h0 : charAt (c :: r) 0 = dquote := hc
    rw [h0, if_pos rfl, searchReplace_eq _ _ _ (by decide), hval] at hn
    injection hn with hn
    have h1 := replaceSkip_length [backslash, dquote] [dquote] (by decide)
      (substr (c :: r) 1 n) 0
    have h2 : (substr (c :: r) 1 n).length ≤ r.length := by
      unfold substr
      rw [List.length_take, List.drop_succ_cons, List.drop_zero]
      omega
    rw [← hn] at h1
    rw [List.length_cons]
    omega

theorem filterMap_deQuote_split (pre : List (List Char)) (t : List Char)
    (post : List (List Char)) (val : List Char) (hval : deQuote t = some val) :
    (pre ++ t :: post).filterMap deQuote =
      pre.filterMap deQuote ++ val :: post.filterMap deQuote := by
  rw [List.filterMap_append, List.filterMap_cons_some hval]

/-- C29, the claim as written fails: the item is the de-quoted token. For
the selection that is the one token `My Name` between double quotes, the item
of the hash of `My Name` is `My Name` without the quotes, not the token as it
is written in the selection. -/
theorem ItemForHash_strips_quotes :
    quotedTokenize quotedNameContext.selection commaSpace =
      some (Except.ok [[dquote] ++ "My Name".toList ++ [dquote]]) ∧
    ItemForHash murmurZero quotedNameContext (HashName murmurZero "My Name".toList) =
      some (Except.ok "My Name".toList) ∧
    ItemForHash murmurZero quotedNameContext (HashName murmurZero "My Name".toList) ≠
      some (Except.ok ([dquote] ++ "My Name".toList ++ [dquote])) := by
  refine ⟨by decide, by decide, by decide⟩

/-- C29, amended: when `ItemForHash` matches a selection token, it returns
the de-quoted text of the first matching token, capitals as written: for a
well-formed selection whose first matching token `t` de-quotes to `val`, the
item is `val`; when `t` is written with an opening double quote, `val` is
shorter than `t`, so it is not the token as written. -/
theorem ItemForHash_dequoted (murmur : List Char → Nat → Nat → Nat) (ctx : CryptomatteContext)
    (h : Hash) (pre : List (List Char)) (t : List Char) (post : List (List Char))
    (val : List Char)
    (htok : quotedTokenize ctx.selection commaSpace = some (Except.ok (pre ++ t :: post)))
    (hpre : ∀ u ∈ pre, ∀ v, deQuote u = some v → tokenMatches murmur h v = false)
    (hval : deQuote t = some val) (hm : tokenMatches murmur h val = true) :
    ItemForHash murmur ctx h = some (Except.ok val) ∧
    (t.head? = some dquote → val.length < t.length ∧ val ≠ t) := by
  refine ⟨?_, ?_⟩
  · rw [ItemForHash_eq murmur ctx h _ htok, filterMap_deQuote_split pre t post val hval,
      find_append_first _ _ val _ (fun v hv => by
        obtain ⟨u, hu, huv⟩ := List.mem_filterMap.mp hv
        exact hpre u hu v huv) hm]
  · intro hq
    have hlt := deQuote_shorter t val hq hval
    refine ⟨hlt, ?_⟩
    intro he
    rw [he] at hlt
    exact lt_irrefl _ hlt

/-- Witness of C29 as amended: the selection of the quoted name `My Name`. -/
theorem ItemForHash_dequoted_witness :
    quotedTokenize quotedNameContext.selection commaSpace =
      some (Except.ok ([] ++ ([dquote] ++ "My Name".toList ++ [dquote]) :: [])) ∧
    deQuote ([dquote] ++ "My Name".toList ++ [dquote]) = some "My Name".toList ∧
    tokenMatches murmurZero (HashName murmurZero "My Name".toList) "My Name".toList = true ∧
    ItemForHash murmurZero quotedNameContext (HashName murmurZero "My Name".toList) =
      some (Except.ok "My Name".toList) ∧
    (([dquote] ++ "My Name".toList ++ [dquote]).head? = some dquote →
      "My Name".toList.length < ([dquote] ++ "My Name".toList ++ [dquote]).length ∧
      "My Name".toList ≠ [dquote] ++ "My Name".toList ++ [dquote]) :=
  ⟨by decide, by decide, by decide,
    ItemForHash_dequoted murmurZero quotedNameContext (HashName murmurZero "My Name".toList) []
      ([dquote] ++ "My Name".toList ++ [dquote]) [] "My Name".toList (by decide)
      (fun u hu => absurd hu (List.not_mem_nil u)) (by decide) (by decide)⟩

/-! ### Monotony in the selection -/

theorem selectedCoverage_cons (sel : List FloatHash) (l : Level) (rest : List Level) :
    selectedCoverage sel (l :: rest) =
      if l.coverage = 0 then 0
      else (if setCount sel l.hash ≠ 0 then l.coverage else 0) + selectedCoverage sel rest := by
  by_cases hz : l.coverage = 0
  · simp [selectedCoverage, hz]
  · by_cases hm : setCount sel l.hash = 0
    · simp [selectedCoverage, hz, hm]
    · simp [selectedCoverage, hz, hm]

theorem setCount_subset (S S2 : List FloatHash) (hsub : ∀ e ∈ S, e ∈ S2) (x : FloatHash)
    (h : setCount S x ≠ 0) : setCount S2 x ≠ 0 := by
  rw [setCount_ne_zero] at h ⊢
  obtain ⟨e, he, heq⟩ := h
  exact ⟨e, hsub e he, heq⟩

theorem selectedCoverage_nonneg (sel : List FloatHash) (levels : List Level)
    (hnn : ∀ l ∈ levels, 0 ≤ l.coverage) : 0 ≤ selectedCoverage sel levels := by
  induction levels with
  | nil => simp [selectedCoverage]
  | cons l rest ih =>
    rw [selectedCoverage_cons]
    have h1 := hnn l (List.mem_cons_self _ _)
    have h2 := ih (fun x hx => hnn x (List.mem_cons_of_mem _ hx))
    split
    · exact le_refl 0
    · split
      · exact add_nonneg h1 h2
      · rw [zero_add]; exact h2

theorem selectedCoverage_mono (S S2 : List FloatHash) (hsub : ∀ e ∈ S, e ∈ S2)
    (levels : List Level) (hnn : ∀ l ∈ levels, 0 ≤ l.coverage) :
    selectedCoverage S levels ≤ selectedCoverage S2 levels := by
  induction levels with
  | nil => simp [selectedCoverage]
  | cons l rest ih =>
    rw [selectedCoverage_cons, selectedCoverage_cons]
    have h1 := hnn l (List.mem_cons_self _ _)
    have h2 := ih (fun x hx => hnn x (List.mem_cons_of_mem _ hx))
    by_cases hz : l.coverage = 0
    · rw [if_pos hz, if_pos hz]
    · rw [if_neg hz, if_neg hz]
      by_cases hm : setCount S l.hash ≠ 0
      · rw [if_pos hm, if_pos (setCount_subset S S2 hsub _ hm)]
        exact add_le_add_left h2 _
      · rw [if_neg hm]
        by_cases hm2 : setCount S2 l.hash ≠ 0
        · rw [if_pos hm2]
          exact add_le_add h1 h2
        · rw [if_neg hm2]
          exact add_le_add_left h2 _

/-- C37: in exact arithmetic, for every pixel whose levels all have a
coverage that is not negative, and all selection sets `S`, `S2` with every
member of `S` a member of `S2`, the coverage `GetCoverage` writes with `S` is
at most the coverage it writes with `S2`. -/
theorem GetCoverage_monotone (S S2 : List FloatHash) (b : CryptomatteBuffer)
    (row row2 : Nat → PF_PixelFloat) (len x y j : Nat) (hj : j < len)
    (hnn : ∀ l ∈ pixelLevels b (x + j) y, 0 ≤ l.coverage) (hsub : ∀ e ∈ S, e ∈ S2) :
    (GetCoverage S b row len x y j).alpha ≤ (GetCoverage S2 b row2 len x y j).alpha := by
  rw [GetCoverage_pixel S b row len x y j hj, GetCoverage_pixel S2 b row2 len x y j hj]
  exact selectedCoverage_mono S S2 hsub _ hnn

theorem normalBuffer_levels :
    pixelLevels normalBuffer (0 + 0) 0 =
      [(⟨0x42f60000, 6 / 10⟩ : Level), ⟨0x42f80000, 4 / 10⟩] := rfl

/-- Witness of C37: the pixel of `normalBuffer`, with the first hash selected
and with both. -/
theorem GetCoverage_monotone_witness :
    0 < 1 ∧ (∀ l ∈ pixelLevels normalBuffer (0 + 0) 0, 0 ≤ l.coverage) ∧
    (∀ e ∈ [0x42f60000], e ∈ [0x42f60000, 0x42f80000]) ∧
    (GetCoverage [0x42f60000] normalBuffer blankRow 1 0 0 0).alpha ≤
      (GetCoverage [0x42f60000, 0x42f80000] normalBuffer blankRow 1 0 0 0).alpha :=
  ⟨by decide, by rw [normalBuffer_levels]; norm_num, by decide,
    GetCoverage_monotone [0x42f60000] [0x42f60000, 0x42f80000] normalBuffer blankRow blankRow
      1 0 0 0 (by decide) (by rw [normalBuffer_levels]; norm_num) (by decide)⟩

/-! ### Float equality of hashes -/

theorem f32Exponent_not_nan (h : Nat) (he : f32Exponent h ≤ 254) : f32IsNaN h = false := by
  unfold f32IsNaN
  have : ¬ f32Exponent h = 255 := by omega
  simp [this]

theorem f32Key_injective (h1 h2 : Nat) (hh1 : h1 < 2 ^ 32) (hh2 : h2 < 2 ^ 32)
    (he1 : 1 ≤ f32Exponent h1) (hk : f32Key h1 = f32Key h2) :
    h1 = h2 := by
  unfold f32Key f32Sign at hk
  unfold f32Exponent at he1
  by_cases s1 : h1 / 2 ^ 31 % 2 = 1 <;> by_cases s2 : h2 / 2 ^ 31 % 2 = 1
  · rw [if_pos s1, if_pos s2] at hk
    omega
  · rw [if_pos s1, if_neg s2] at hk
    omega
  · rw [if_neg s1, if_pos s2] at hk
    omega
  · rw [if_neg s1, if_neg s2] at hk
    omega

theorem f32Eq_normal (h1 h2 : Nat) (hh1 : h1 < 2 ^ 32) (hh2 : h2 < 2 ^ 32)
    (he1 : 1 ≤ f32Exponent h1 ∧ f32Exponent h1 ≤ 254)
    (he2 : 1 ≤ f32Exponent h2 ∧ f32Exponent h2 ≤ 254) :
    f32Eq h1 h2 = true ↔ h1 = h2 := by
  rw [f32Eq_key h1 h2 (f32Exponent_not_nan h1 he1.2) (f32Exponent_not_nan h2 he2.2)]
  constructor
  · exact f32Key_injective h1 h2 hh1 hh2 he1.1
  · intro h
    rw [h]

/-- C35: for all 32-bit `h1`, `h2` whose exponent fields are in 1..254, the
floats `HashToFloatHash(h1)` and `HashToFloatHash(h2)` are not NaN and are
equal as IEEE-754 floats exactly when `h1 = h2`; hence, in a selection set
built from such hashes, the float of such a hash is counted exactly when the
hash is one of them. -/
theorem HashToFloatHash_float_equality (h1 h2 : Hash) (hh1 : h1 < 2 ^ 32) (hh2 : h2 < 2 ^ 32)
    (he1 : 1 ≤ f32Exponent h1 ∧ f32Exponent h1 ≤ 254)
    (he2 : 1 ≤ f32Exponent h2 ∧ f32Exponent h2 ≤ 254) :
    f32IsNaN (HashToFloatHash h1) = false ∧ f32IsNaN (HashToFloatHash h2) = false ∧
    (f32Eq (HashToFloatHash h1) (HashToFloatHash h2) = true ↔ h1 = h2) ∧
    ∀ S : List Hash, (∀ e ∈ S, e < 2 ^ 32 ∧ 1 ≤ f32Exponent e ∧ f32Exponent e ≤ 254) →
      (setCount (S.map HashToFloatHash) (HashToFloatHash h1) ≠ 0 ↔ h1 ∈ S) := by
  refine ⟨f32Exponent_not_nan h1 he1.2, f32Exponent_not_nan h2 he2.2,
    f32Eq_normal h1 h2 hh1 hh2 he1 he2, ?_⟩
  intro S hS
  rw [setCount_ne_zero]
  constructor
  · rintro ⟨e, he, heq⟩
    obtain ⟨e0, he0, rfl⟩ := List.mem_map.mp he
    obtain ⟨hlt, hexp1, hexp2⟩ := hS e0 he0
    rw [f32Equiv_eq_f32Eq (HashToFloatHash e0) (HashToFloatHash h1)
      (f32Exponent_not_nan e0 hexp2) (f32Exponent_not_nan h1 he1.2)] at heq
    have := (f32Eq_normal e0 h1 hlt hh1 ⟨hexp1, hexp2⟩ he1).mp heq
    rw [← this]
    exact he0
  · intro hmem
    refine ⟨HashToFloatHash h1, List.mem_map.mpr ⟨h1, hmem, rfl⟩, ?_⟩
    rw [f32Equiv_eq_f32Eq (HashToFloatHash h1) (HashToFloatHash h1)
      (f32Exponent_not_nan h1 he1.2) (f32Exponent_not_nan h1 he1.2)]
    exact (f32Eq_normal h1 h1 hh1 hh1 he1 he1).mpr rfl

/-- Witness of C35: the hashes of bits `0x42f60000` and `0xc2f60000`, the
floats 123.0 and -123.0. -/
theorem HashToFloatHash_float_equality_witness :
    (0x42f60000 : Nat) < 2 ^ 32 ∧ (0xc2f60000 : Nat) < 2 ^ 32 ∧
    (1 ≤ f32Exponent 0x42f60000 ∧ f32Exponent 0x42f60000 ≤ 254) ∧
    (1 ≤ f32Exponent 0xc2f60000 ∧ f32Exponent 0xc2f60000 ≤ 254) ∧
    f32Eq (HashToFloatHash 0x42f60000) (HashToFloatHash 0xc2f60000) = false ∧
    (f32Eq (HashToFloatHash 0x42f60000) (HashToFloatHash 0xc2f60000) = true ↔
      (0x42f60000 : Nat) = 0xc2f60000) :=
  ⟨by decide, by decide, by decide, by decide, by decide,
    (HashToFloatHash_float_equality 0x42f60000 0xc2f60000 (by decide) (by decide) (by decide)
      (by decide)).2.2.1⟩

/-! ### The walk along a row -/

theorem pixelLevels_get (b : CryptomatteBuffer) (x y k : Nat) (hk : k < b.numLevels) :
    (pixelLevels b x y)[k]? = some (b.buf (GetLevelGroup b x y + k)) := by
  unfold pixelLevels
  rw [List.getElem?_map, List.getElem?_range hk]
  rfl

theorem pixelLevels_length (b : CryptomatteBuffer) (x y : Nat) :
    (pixelLevels b x y).length = b.numLevels := by
  unfold pixelLevels
  rw [List.length_map, List.length_range]

theorem GetSelectionColor_levels (b : CryptomatteBuffer) (row : Nat → PF_PixelFloat32)
    (len x y j : Nat) (hj : j < len) :
    GetSelectionColor b row len x y j =
      { alpha := f32One,
        red := (((pixelLevels b (x + j) y)[0]?).map (fun l => l.hash)).getD 0,
        green := 0,
        blue := (((pixelLevels b (x + j) y)[1]?).map (fun l => l.hash)).getD 0 } := by
  rw [GetSelectionColor_eq b row len x y j hj]
  have hred : (if b.numLevels ≥ 1 then (b.buf (GetLevelGroup b (x + j) y)).hash else 0) =
      (((pixelLevels b (x + j) y)[0]?).map (fun l => l.hash)).getD 0 := by
    by_cases h1 : b.numLevels ≥ 1
    · rw [if_pos h1, pixelLevels_get b (x + j) y 0 (by omega)]
      rfl
    · rw [if_neg h1, List.getElem?_eq_none (by rw [pixelLevels_length]; omega)]
      rfl
  have hblue : (if b.numLevels ≥ 2 then (b.buf (GetLevelGroup b (x + j) y + 1)).hash else 0) =
      (((pixelLevels b (x + j) y)[1]?).map (fun l => l.hash)).getD 0 := by
    by_cases h2 : b.numLevels ≥ 2
    · rw [if_pos h2, pixelLevels_get b (x + j) y 1 (by omega)]
      rfl
    · rw [if_neg h2, List.getElem?_eq_none (by rw [pixelLevels_length]; omega)]
      rfl
  rw [hred, hblue]

/-- C34: for every `x`, `y`, `len` and every `j < len`, the output pixel `j`
of `GetCoverage` (its alpha), of `GetColor` and of `GetSelectionColor` is a
function of the levels of buffer pixel `(x + j, y)` alone: the selected
coverage of these levels, their colour, and the hashes of the first two of
them. So it is what a walk of one pixel started at `(x + j, y)` writes,
whatever the levels of the pixels before it in the row: the level pointer has
advanced by `numLevels` for each of them. -/
theorem row_walk (sel : List FloatHash) (b : CryptomatteBuffer) (row : Nat → PF_PixelFloat)
    (crow : Nat → PF_PixelFloat32) (len x y j : Nat) (matted : Bool) (hj : j < len) :
    (GetCoverage sel b row len x y j).alpha = selectedCoverage sel (pixelLevels b (x + j) y) ∧
    GetColor sel b row len x y matted j = pixelColor sel matted (pixelLevels b (x + j) y) ∧
    GetSelectionColor b crow len x y j =
      { alpha := f32One,
        red := (((pixelLevels b (x + j) y)[0]?).map (fun l => l.hash)).getD 0,
        green := 0,
        blue := (((pixelLevels b (x + j) y)[1]?).map (fun l => l.hash)).getD 0 } ∧
    (GetCoverage sel b row len x y j).alpha = (GetCoverage sel b row 1 (x + j) y 0).alpha ∧
    GetColor sel b row len x y matted j = GetColor sel b row 1 (x + j) y matted 0 ∧
    GetSelectionColor b crow len x y j = GetSelectionColor b crow 1 (x + j) y 0 := by
  refine ⟨GetCoverage_pixel sel b row len x y j hj, GetColor_pixel sel b row len x y j matted hj,
    GetSelectionColor_levels b crow len x y j hj, ?_, ?_, ?_⟩
  · rw [GetCoverage_pixel sel b row len x y j hj,
      GetCoverage_pixel sel b row 1 (x + j) y 0 (by omega)]
    rfl
  · rw [GetColor_pixel sel b row len x y j matted hj,
      GetColor_pixel sel b row 1 (x + j) y 0 matted (by omega)]
    rfl
  · rw [GetSelectionColor_levels b crow len x y j hj,
      GetSelectionColor_levels b crow 1 (x + j) y 0 (by omega)]
    rfl

theorem twoPixelBuffer_levels :
    pixelLevels twoPixelBuffer (0 + 1) 0 =
      [(⟨0x42f80000, 1⟩ : Level), ⟨0x42f60000, 0⟩] := rfl

/-- Witness of C34: the second pixel of `twoPixelBuffer`, whose first pixel
stops at its first level: with the hash of 124.0 selected its coverage is 1,
the coverage of its own first level. -/
theorem row_walk_witness :
    1 < 2 ∧
    (GetCoverage [0x42f80000] twoPixelBuffer blankRow 2 0 0 1).alpha = 1 ∧
    GetSelectionColor twoPixelBuffer blankColorRow 2 0 0 1 =
      { alpha := f32One, red := 0x42f80000, green := 0, blue := 0x42f60000 } ∧
    (GetCoverage [0x42f80000] twoPixelBuffer blankRow 2 0 0 1).alpha =
      (GetCoverage [0x42f80000] twoPixelBuffer blankRow 1 (0 + 1) 0 0).alpha ∧
    GetColor [0x42f80000] twoPixelBuffer blankRow 2 0 0 true 1 =
      GetColor [0x42f80000] twoPixelBuffer blankRow 1 (0 + 1) 0 true 0 :=
  ⟨by decide,
    by
      rw [(row_walk [0x42f80000] twoPixelBuffer blankRow blankColorRow 2 0 0 1 true
        (by decide)).1, twoPixelBuffer_levels]
      have hm : setCount [0x42f80000] 0x42f80000 ≠ 0 := by decide
      simp [selectedCoverage_cons, hm],
    by decide,
    (row_walk [0x42f80000] twoPixelBuffer blankRow blankColorRow 2 0 0 1 true
      (by decide)).2.2.2.1,
    (row_walk [0x42f80000] twoPixelBuffer blankRow blankColorRow 2 0 0 1 true
      (by decide)).2.2.2.2.1⟩

/-! ### The range of the colours -/

theorem fmodf_range (x y : ℚ) (hx : 0 ≤ x) (hy : 0 < y) : 0 ≤ fmodf x y ∧ fmodf x y < y := by
  unfold fmodf
  have hq : 0 ≤ x / y := div_nonneg hx (le_of_lt hy)
  rw [if_pos hq]
  have h1 : ((⌊x / y⌋ : ℤ) : ℚ) ≤ x / y := Int.floor_le _
  have h2 : x / y < ((⌊x / y⌋ : ℤ) : ℚ) + 1 := Int.lt_floor_add_one _
  have h3 : y * (x / y) = x := by field_simp
  constructor
  · have := mul_le_mul_of_nonneg_left h1 (le_of_lt hy)
    rw [h3] at this
    linarith
  · have := mul_lt_mul_of_pos_left h2 hy
    rw [h3] at this
    linarith

theorem f32Exponent_fabsf (h : Nat) : f32Exponent (fabsf h) = f32Exponent h := by
  unfold f32Exponent fabsf
  omega

theorem frexpf_normal (h : Nat) (he : 1 ≤ f32Exponent h) :
    1 / 2 ≤ frexpf (fabsf h) ∧ frexpf (fabsf h) < 1 := by
  unfold frexpf
  rw [f32Exponent_fabsf, if_neg (by omega)]
  have hf : f32Fraction (fabsf h) < 2 ^ 23 := by
    unfold f32Fraction
    exact Nat.mod_lt _ (by decide)
  have hfq : (f32Fraction (fabsf h) : ℚ) < 2 ^ 23 := by exact_mod_cast hf
  have hnn : (0 : ℚ) ≤ (f32Fraction (fabsf h) : ℚ) := Nat.cast_nonneg _
  constructor
  · rw [div_le_div_iff₀ (by norm_num) (by norm_num)]
    linarith
  · rw [div_lt_one (by norm_num)]
    linarith

theorem colorFactor_range (h : Nat) (he : 1 ≤ f32Exponent h) (k : ℚ) (hk : 0 ≤ k) :
    0 ≤ fmodf (frexpf (fabsf h) * k) (1 / 4) ∧ fmodf (frexpf (fabsf h) * k) (1 / 4) < 1 / 4 :=
  fmodf_range _ _ (mul_nonneg (le_trans (by norm_num) (frexpf_normal h he).1) hk) (by norm_num)

theorem colorOfLevels_bounds (sel : List FloatHash) (levels : List Level)
    (hh : ∀ l ∈ levels, 1 ≤ f32Exponent l.hash ∧ 0 ≤ l.coverage) :
    ∀ (c : ℚ) (p : PF_PixelFloat),
      c ≤ (colorOfLevels sel levels c p).1 ∧
      (colorOfLevels sel levels c p).1 ≤ c + (levels.map (fun l => l.coverage)).sum ∧
      p.red ≤ (colorOfLevels sel levels c p).2.red ∧
      (colorOfLevels sel levels c p).2.red ≤
        p.red + 1 / 4 * (levels.map (fun l => l.coverage)).sum ∧
      p.green ≤ (colorOfLevels sel levels c p).2.green ∧
      (colorOfLevels sel levels c p).2.green ≤
        p.green + 1 / 4 * (levels.map (fun l => l.coverage)).sum ∧
      p.blue ≤ (colorOfLevels sel levels c p).2.blue ∧
      (colorOfLevels sel levels c p).2.blue ≤
        p.blue + 1 / 4 * (levels.map (fun l => l.coverage)).sum := by
  induction levels with
  | nil =>
    intro c p
    simp [colorOfLevels]
  | cons l rest ih =>
    intro c p
    obtain ⟨he, hc⟩ := hh l (List.mem_cons_self _ _)
    have hrest : 0 ≤ (rest.map (fun l => l.coverage)).sum := by
      apply List.sum_nonneg
      intro q hq
      obtain ⟨l2, hl2, rfl⟩ := List.mem_map.mp hq
      exact (hh l2 (List.mem_cons_of_mem _ hl2)).2
    rw [colorOfLevels, List.map_cons, List.sum_cons]
    by_cases hz : l.coverage = 0
    · rw [if_pos hz]
      simp only
      rw [hz, zero_add]
      refine ⟨le_refl _, ?_, le_refl _, ?_, le_refl _, ?_, le_refl _, ?_⟩ <;> linarith
    · rw [if_neg hz]
      obtain ⟨r1, r2⟩ := colorFactor_range l.hash he 1 (by norm_num)
      obtain ⟨g1, g2⟩ := colorFactor_range l.hash he 4 (by norm_num)
      obtain ⟨b1, b2⟩ := colorFactor_range l.hash he 16 (by norm_num)
      have hr1 := mul_nonneg hc r1
      have hr2 := mul_le_mul_of_nonneg_left (le_of_lt r2) hc
      have hg1 := mul_nonneg hc g1
      have hg2 := mul_le_mul_of_nonneg_left (le_of_lt g2) hc
      have hb1 := mul_nonneg hc b1
      have hb2 := mul_le_mul_of_nonneg_left (le_of_lt b2) hc
      obtain ⟨i1, i2, i3, i4, i5, i6, i7, i8⟩ :=
        ih (fun x hx => hh x (List.mem_cons_of_mem _ hx))
          (if setCount sel l.hash ≠ 0 then c + l.coverage else c)
          { p with
            red := p.red + l.coverage * fmodf (frexpf (fabsf l.hash) * 1) (1 / 4)
            green := p.green + l.coverage * fmodf (frexpf (fabsf l.hash) * 4) (1 / 4)
            blue := p.blue + l.coverage * fmodf (frexpf (fabsf l.hash) * 16) (1 / 4) }
      simp only at i3 i4 i5 i6 i7 i8
      have hcc : c ≤ (if setCount sel l.hash ≠ 0 then c + l.coverage else c) ∧
          (if setCount sel l.hash ≠ 0 then c + l.coverage else c) ≤ c + l.coverage := by
        split
        · exact ⟨by linarith, le_refl _⟩
        · exact ⟨le_refl _, by linarith⟩
      refine ⟨?_, ?_, ?_, ?_, ?_, ?_, ?_, ?_⟩ <;> linarith [hcc.1, hcc.2]

theorem colorFinish_range (matted : Bool) (c : ℚ) (p : PF_PixelFloat) (hc : c ≤ 1)
    (hr : 0 ≤ p.red ∧ p.red ≤ 1) (hg : 0 ≤ p.green ∧ p.green ≤ 1)
    (hb : 0 ≤ p.blue ∧ p.blue ≤ 1) :
    (0 ≤ (colorFinish matted c p).red ∧ (colorFinish matted c p).red ≤ 1) ∧
    (0 ≤ (colorFinish matted c p).green ∧ (colorFinish matted c p).green ≤ 1) ∧
    (0 ≤ (colorFinish matted c p).blue ∧ (colorFinish matted c p).blue ≤ 1) := by
  unfold colorFinish
  by_cases hpos : c > 0
  · simp only [if_pos hpos]
    refine ⟨⟨?_, ?_⟩, ⟨?_, ?_⟩, ⟨?_, ?_⟩⟩ <;> nlinarith [hr.1, hr.2, hg.1, hg.2, hb.1, hb.2]
  · simp only [if_neg hpos]
    exact ⟨hr, hg, hb⟩

/-- C31: in exact arithmetic, for every level hash whose exponent field is in
1..254 each of the three colour factors of `GetColor` (the remainders modulo
0.25 of 1, 4 and 16 times the mantissa `frexpf` gives for the hash) lies in
`[0, 0.25)`; and for every pixel whose levels have such hashes and
coverages that are not negative and sum to at most 1, the red, green and
blue `GetColor` writes lie in `[0, 1]`. -/
theorem GetColor_range (sel : List FloatHash) (b : CryptomatteBuffer)
    (row : Nat → PF_PixelFloat) (len x y j : Nat) (matted : Bool) (hj : j < len)
    (hlev : ∀ l ∈ pixelLevels b (x + j) y,
      1 ≤ f32Exponent l.hash ∧ f32Exponent l.hash ≤ 254 ∧ 0 ≤ l.coverage)
    (hsum : ((pixelLevels b (x + j) y).map (fun l => l.coverage)).sum ≤ 1) :
    (∀ l ∈ pixelLevels b (x + j) y,
      (0 ≤ fmodf (frexpf (fabsf l.hash) * 1) (1 / 4) ∧
        fmodf (frexpf (fabsf l.hash) * 1) (1 / 4) < 1 / 4) ∧
      (0 ≤ fmodf (frexpf (fabsf l.hash) * 4) (1 / 4) ∧
        fmodf (frexpf (fabsf l.hash) * 4) (1 / 4) < 1 / 4) ∧
      (0 ≤ fmodf (frexpf (fabsf l.hash) * 16) (1 / 4) ∧
        fmodf (frexpf (fabsf l.hash) * 16) (1 / 4) < 1 / 4)) ∧
    (0 ≤ (GetColor sel b row len x y matted j).red ∧
      (GetColor sel b row len x y matted j).red ≤ 1) ∧
    (0 ≤ (GetColor sel b row len x y matted j).green ∧
      (GetColor sel b row len x y matted j).green ≤ 1) ∧
    (0 ≤ (GetColor sel b row len x y matted j).blue ∧
      (GetColor sel b row len x y matted j).blue ≤ 1) := by
  refine ⟨?_, ?_⟩
  · intro l hl
    have he := (hlev l hl).1
    exact ⟨colorFactor_range l.hash he 1 (by norm_num),
      colorFactor_range l.hash he 4 (by norm_num),
      colorFactor_range l.hash he 16 (by norm_num)⟩
  · rw [GetColor_pixel sel b row len x y j matted hj]
    unfold pixelColor
    obtain ⟨i1, i2, i3, i4, i5, i6, i7, i8⟩ :=
      colorOfLevels_bounds sel (pixelLevels b (x + j) y)
        (fun l hl => ⟨(hlev l hl).1, (hlev l hl).2.2⟩) 0 ⟨0, 0, 0, 0⟩
    simp only at i3 i4 i5 i6 i7 i8
    apply colorFinish_range
    · linarith
    · exact ⟨i3, by linarith⟩
    · exact ⟨i5, by linarith⟩
    · exact ⟨i7, by linarith⟩

/-- Witness of C31: the pixel of `normalBuffer`, two levels of coverages 0.6
and 0.4 whose hashes are the floats 123.0 and 124.0. -/
theorem GetColor_range_witness :
    0 < 1 ∧
    (∀ l ∈ pixelLevels normalBuffer (0 + 0) 0,
      1 ≤ f32Exponent l.hash ∧ f32Exponent l.hash ≤ 254 ∧ 0 ≤ l.coverage) ∧
    ((pixelLevels normalBuffer (0 + 0) 0).map (fun l => l.coverage)).sum ≤ 1 ∧
    (0 ≤ (GetColor [0x42f60000] normalBuffer blankRow 1 0 0 true 0).red ∧
      (GetColor [0x42f60000] normalBuffer blankRow 1 0 0 true 0).red ≤ 1) :=
  ⟨by decide,
    by
      rw [normalBuffer_levels]
      intro l hl
      simp only [List.mem_cons, List.mem_singleton, List.not_mem_nil, or_false] at hl
      rcases hl with rfl | rfl
      · exact ⟨by decide, by decide, by norm_num⟩
      · exact ⟨by decide, by decide, by norm_num⟩,
    by rw [normalBuffer_levels]; norm_num,
    (GetColor_range [0x42f60000] normalBuffer blankRow 1 0 0 0 true (by decide)
      (by
        rw [normalBuffer_levels]
        intro l hl
        simp only [List.mem_cons, List.mem_singleton, List.not_mem_nil, or_false] at hl
        rcases hl with rfl | rfl
        · exact ⟨by decide, by decide, by norm_num⟩
        · exact ⟨by decide, by decide, by norm_num⟩)
      (by rw [normalBuffer_levels]; norm_num)).2.1⟩

/-! ### The selection set and the manifest it was resolved against -/

theorem selectionSetOf_total (murmur : List Char → Nat → Nat → Nat)
    (manifest : List (List Char × Hash)) (selection : List Char) :
    ∃ r, selectionSetOf murmur manifest selection = some r := by
  unfold selectionSetOf
  by_cases he : selection.isEmpty = false
  · rw [if_pos he, quotedTokenize_eq _ _ commaSpace_no_quote]
    by_cases hq : insideQuotes selection selection.length = true
    · rw [if_pos hq]
      exact ⟨_, rfl⟩
    · rw [if_neg hq]
      simp only
      rw [resolveTokens_eq]
      exact ⟨_, rfl⟩
  · rw [if_neg he]
    exact ⟨_, rfl⟩

theorem updateSelection_coherent (murmur : List Char → Nat → Nat → Nat)
    (ctx : CryptomatteContext) (arb : CryptomatteArbitraryData)
    (hchg : ctx.selectionHash ≠ arb.selection_hash) :
    ∃ ctx', updateSelection murmur ctx arb = some ctx' ∧ ctx'.manifest = ctx.manifest ∧
      selectionSetOf murmur ctx'.manifest ctx'.selection = some ctx'.float_selection := by
  unfold updateSelection selectionSetOf
  rw [if_pos hchg]
  simp only
  by_cases he : arb.selection.isEmpty = false
  · rw [if_pos he, quotedTokenize_eq _ _ commaSpace_no_quote]
    by_cases hq : insideQuotes arb.selection arb.selection.length = true
    · rw [if_pos hq]
      refine ⟨_, rfl, rfl, ?_⟩
      simp only
      rw [if_pos he, quotedTokenize_eq _ _ commaSpace_no_quote, if_pos hq]
    · rw [if_neg hq]
      simp only
      rw [resolveTokens_eq]
      refine ⟨_, rfl, rfl, ?_⟩
      simp only
      rw [if_pos he, quotedTokenize_eq _ _ commaSpace_no_quote, if_neg hq]
      simp only
      rw [resolveTokens_eq]
  · rw [if_neg he]
    refine ⟨_, rfl, rfl, ?_⟩
    simp only
    rw [if_neg he]

/-- C36, the claim as written fails: `Update` resolves the selection only
when the selection fingerprint changes. A first `Update` selects `foo` while
the manifest is empty, so the set holds the hash of the name `foo`; a second
`Update` brings a manifest that gives `foo` the hash `0x3fc00000` under the
same selection fingerprint, and the set stays as it was, while resolving the
stored selection against the stored manifest gives `0x3fc00000`. -/
theorem Update_stale_selection :
    ((Update murmurZero parseTwo freshContext arbSelectFoo).bind
        (fun c => Update murmurZero parseTwo c arbNewManifest)).map
      (fun c => (c.manifest, c.selection, c.float_selection)) =
      some ([("<3f800000>".toList, 0x40000000), ("foo".toList, 0x3fc00000)], "foo".toList,
        [HashName murmurZero "foo".toList]) ∧
    selectionSetOf murmurZero
        [("<3f800000>".toList, 0x40000000), ("foo".toList, 0x3fc00000)] "foo".toList =
      some [0x3fc00000] ∧
    HashName murmurZero "foo".toList ≠ 0x3fc00000 := by
  refine ⟨by decide, by decide, by decide⟩

/-- C36, amended: `Update` always returns, and after an `Update` that
resolves the selection (the selection fingerprint changed), the selection set
is the result of resolving the stored selection text against the stored
manifest (manifest lookup, then literal, then name hash), also when the same
`Update` changed the manifest; an `Update` that changes neither fingerprint
keeps a set that was so. -/
theorem Update_coherent (murmur : List Char → Nat → Nat → Nat) (parse : List Char → JsonValue)
    (ctx : CryptomatteContext) (arb : CryptomatteArbitraryData)
    (hcase : ctx.selectionHash ≠ arb.selection_hash ∨
      (ctx.manifestHash = arb.manifest_hash ∧
        selectionSetOf murmur ctx.manifest ctx.selection = some ctx.float_selection)) :
    ∃ ctx', Update murmur parse ctx arb = some ctx' ∧
      selectionSetOf murmur ctx'.manifest ctx'.selection = some ctx'.float_selection := by
  by_cases hchg : ctx.selectionHash ≠ arb.selection_hash
  · have hchg2 : (updateManifest parse (updateLayer ctx arb) arb).selectionHash ≠
        arb.selection_hash := by
      rw [updateManifest_selectionHash, updateLayer_selectionHash]
      exact hchg
    obtain ⟨ctx', h1, _, h3⟩ := updateSelection_coherent murmur _ arb hchg2
    exact ⟨ctx', h1, h3⟩
  · rcases hcase with h | ⟨hm, hcoh⟩
    · exact absurd h hchg
    · have hsame : ctx.selectionHash = arb.selection_hash := by
        by_contra hne
        exact hchg hne
      have hm2 : (updateLayer ctx arb).manifestHash = arb.manifest_hash := by
        rw [(updateLayer_manifest ctx arb).2]
        exact hm
      have hs2 : (updateManifest parse (updateLayer ctx arb) arb).selectionHash =
          arb.selection_hash := by
        rw [updateManifest_selectionHash, updateLayer_selectionHash]
        exact hsame
      refine ⟨updateManifest parse (updateLayer ctx arb) arb,
        updateSelection_same murmur _ arb hs2, ?_⟩
      rw [updateManifest_same parse _ arb hm2, (updateLayer_manifest ctx arb).1,
        (updateLayer_selection ctx arb).1, (updateLayer_selection ctx arb).2]
      exact hcoh

/-- Witness of C36 as amended: the first `Update` of a fresh context, which
selects `foo`. -/
theorem Update_coherent_witness :
    (freshContext.selectionHash ≠ arbSelectFoo.selection_hash ∨
      (freshContext.manifestHash = arbSelectFoo.manifest_hash ∧
        selectionSetOf murmurZero freshContext.manifest freshContext.selection =
          some freshContext.float_selection)) ∧
    (Update murmurZero parseTwo freshContext arbSelectFoo).map
        (fun c => (c.manifest, c.selection, c.float_selection)) =
      some ([], "foo".toList, [HashName murmurZero "foo".toList]) ∧
    ∃ ctx', Update murmurZero parseTwo freshContext arbSelectFoo = some ctx' ∧
      selectionSetOf murmurZero ctx'.manifest ctx'.selection = some ctx'.float_selection :=
  ⟨Or.inl (by decide), by decide,
    Update_coherent murmurZero parseTwo freshContext arbSelectFoo (Or.inl (by decide))⟩

/-! ### Channel discovery on any channel list -/

theorem four_name_ne (layer : List Char) (s s2 : NamingStyle) (n m : Nat) (h : n + 2 ≤ m) :
    CalculateNext4Name layer s n ≠ CalculateNext4Name layer s2 m := by
  intro he
  rw [CalculateNext4Name_eq, CalculateNext4Name_eq] at he
  have := (name_eq _ _ _ _ _ he).1
  omega

theorem quadRun_append (layer : List Char) (channels : List ChannelEntry)
    (a : List ChannelEntry) :
    ∀ (n : Nat) (b : List ChannelEntry), quadRun layer channels n a →
      quadRun layer channels (n + 2 * a.length) b → quadRun layer channels n (a ++ b) := by
  induction a with
  | nil => intro n b _ hb; exact hb
  | cons e a ih =>
    intro n b ha hb
    obtain ⟨h1, h2, h3, h4⟩ := ha
    refine ⟨h1, h2, h3, ?_⟩
    apply ih (n + 2) b h4
    rw [show n + 2 + 2 * a.length = n + 2 * (e :: a).length by
      rw [List.length_cons]; omega]
    exact hb

theorem getElem?_mem_of_some {α : Type} (l : List α) (i : Nat) (e : α)
    (h : l[i]? = some e) : e ∈ l ∧ i < l.length := by
  have hi : i < l.length := by
    by_contra hc
    rw [List.getElem?_eq_none (by omega)] at h
    cases h
  rw [List.getElem?_eq_getElem hi] at h
  injection h with h
  rw [← h]
  exact ⟨List.getElem_mem hi, hi⟩

theorem scanFour_total (layer : List Char) (channels : List ChannelEntry) (s : NamingStyle) :
    ∀ (fuel i n : Nat) (refs : List Nat) (S : Finset ChannelEntry),
      (∀ e ∈ channels, quadPending layer n e → e ∈ S) →
      S.card * (channels.length + 1) + (channels.length - i) + 1 ≤ fuel →
      ∃ (n2 : Nat) (new : List ChannelEntry) (S2 : Finset ChannelEntry),
        scanFour layer channels s fuel i n refs (CalculateNext4Name layer s n) =
          some (n2, refs ++ new.map (fun e => e.channelRef)) ∧
        quadRun layer channels n new ∧ n2 = n + 2 * new.length ∧
        (∀ e ∈ channels, quadPending layer n2 e → e ∈ S2) ∧
        S2.card + new.length ≤ S.card := by
  intro fuel
  induction fuel with
  | zero => intro i n refs S _ h; omega
  | succ fuel ih =>
    intro i n refs S hS hfuel
    unfold scanFour
    cases he : channels[i]? with
    | none =>
      exact ⟨n, [], S, by simp, trivial, by simp, hS, by simp⟩
    | some e =>
      obtain ⟨hmem, hi⟩ := getElem?_mem_of_some channels i e he
      simp only
      by_cases hmatch : eligible e 4 = true ∧ e.channelDesc.name = CalculateNext4Name layer s n
      · rw [if_pos hmatch]
        have heS : e ∈ S := hS e hmem ⟨hmatch.1, s, n, le_refl _, hmatch.2⟩
        have hcard : (S.erase e).card + 1 = S.card := Finset.card_erase_add_one heS
        have hS1 : ∀ x ∈ channels, quadPending layer (n + 2) x → x ∈ S.erase e := by
          intro x hx hp
          obtain ⟨hel, s2, m, hm, hname⟩ := hp
          rw [Finset.mem_erase]
          refine ⟨?_, hS x hx ⟨hel, s2, m, by omega, hname⟩⟩
          intro hxe
          rw [hxe, hmatch.2] at hname
          exact four_name_ne layer s s2 n m hm hname
        have hprod : S.card * (channels.length + 1) =
            (S.erase e).card * (channels.length + 1) + (channels.length + 1) := by
          rw [← hcard, Nat.add_mul, Nat.one_mul]
        obtain ⟨n2, new, S2, h1, h2, h3, h4, h5⟩ :=
          ih (0 + 1) (n + 2) (refs ++ [e.channelRef]) (S.erase e) hS1 (by omega)
        refine ⟨n2, e :: new, S2, ?_, ⟨hmem, hmatch.1, ⟨s, hmatch.2⟩, h2⟩, ?_, h4, ?_⟩
        · rw [h1]
          simp
        · rw [h3, List.length_cons]
          omega
        · rw [List.length_cons]
          omega
      · rw [if_neg hmatch]
        exact ih (i + 1) n refs S hS (by omega)

theorem scanFourStyles_total (layer : List Char) (channels : List ChannelEntry) :
    ∀ (styles : List NamingStyle) (n : Nat) (refs : List Nat) (S : Finset ChannelEntry),
      (∀ e ∈ channels, quadPending layer n e → e ∈ S) → S.card ≤ channels.length →
      ∃ (n2 : Nat) (new : List ChannelEntry) (S2 : Finset ChannelEntry),
        scanFourStyles layer channels styles n refs =
          some (n2, refs ++ new.map (fun e => e.channelRef)) ∧
        quadRun layer channels n new ∧ n2 = n + 2 * new.length ∧
        S2.card + new.length ≤ S.card := by
  intro styles
  induction styles with
  | nil =>
    intro n refs S _ _
    exact ⟨n, [], S, by simp [scanFourStyles], trivial, by simp, by simp⟩
  | cons s rest ih =>
    intro n refs S hS hcard
    have hfuel : S.card * (channels.length + 1) + (channels.length - 0) + 1 ≤
        scanFuel channels := by
      unfold scanFuel
      have := Nat.mul_le_mul_right (channels.length + 1) hcard
      have h2 : (channels.length + 1) * (channels.length + 1) =
          channels.length * (channels.length + 1) + (channels.length + 1) := by
        rw [Nat.add_mul, Nat.one_mul]
      omega
    obtain ⟨n1, new1, S1, h1, h2, h3, h4, h5⟩ :=
      scanFour_total layer channels s (scanFuel channels) 0 n refs S hS hfuel
    obtain ⟨n2, new2, S2, g1, g2, g3, g4⟩ :=
      ih n1 (refs ++ new1.map (fun e => e.channelRef)) S1 h4 (by omega)
    refine ⟨n2, new1 ++ new2, S2, ?_, ?_, ?_, ?_⟩
    · rw [scanFourStyles, h1]
      simp only
      rw [g1]
      simp
    · apply quadRun_append layer channels new1 n new2 h2
      rw [← h3]
      exact g2
    · rw [g3, h3, List.length_append]
      omega
    · rw [List.length_append]
      omega
theorem pair_name_eq (layer : List Char) (s s2 : NamingStyle) (n m : Nat) (c c2 : Bool)
    (h : (if c = true then (CalculateNextNames layer s n).2 else (CalculateNextNames layer s n).1) =
      (if c2 = true then (CalculateNextNames layer s2 m).2
        else (CalculateNextNames layer s2 m).1)) : s = s2 ∧ n = m ∧ c = c2 := by
  rw [CalculateNextNames_eq, CalculateNextNames_eq] at h
  have key : layer ++ setw2 (n / 2) ++ '.' :: pairSuffix s (decide (n % 2 ≠ 0)) c =
      layer ++ setw2 (m / 2) ++ '.' :: pairSuffix s2 (decide (m % 2 ≠ 0)) c2 := by
    cases c <;> cases c2 <;> simpa using h
  obtain ⟨h1, h2⟩ := name_eq _ _ _ _ _ key
  obtain ⟨h3, h4, h5⟩ := pairSuffix_injective _ _ _ _ _ _ h2
  refine ⟨h3, ?_, h5⟩
  have h6 : (n % 2 ≠ 0) ↔ (m % 2 ≠ 0) := by
    simpa using h4
  by_cases hn : n % 2 = 0
  · have : m % 2 = 0 := by
      by_contra hc
      exact (h6.2 hc) hn
    omega
  · have : m % 2 ≠ 0 := h6.1 hn
    omega

theorem pair_hash_ne_coverage (layer : List Char) (s s2 : NamingStyle) (n m : Nat) :
    (CalculateNextNames layer s n).1 ≠ (CalculateNextNames layer s2 m).2 := by
  intro h
  have := (pair_name_eq layer s s2 n m false true (by simpa using h)).2.2
  cases this

theorem pair_hash_ne (layer : List Char) (s s2 : NamingStyle) (n m : Nat) (h : n + 1 ≤ m) :
    (CalculateNextNames layer s n).1 ≠ (CalculateNextNames layer s2 m).1 := by
  intro he
  have := (pair_name_eq layer s s2 n m false false (by simpa using he)).2.1
  omega

theorem pair_coverage_ne (layer : List Char) (s s2 : NamingStyle) (n m : Nat) (h : n + 1 ≤ m) :
    (CalculateNextNames layer s n).2 ≠ (CalculateNextNames layer s2 m).2 := by
  intro he
  have := (pair_name_eq layer s s2 n m true true (by simpa using he)).2.1
  omega

theorem pairRun_append (layer : List Char) (channels : List ChannelEntry)
    (a : List (ChannelEntry × ChannelEntry)) :
    ∀ (n : Nat) (b : List (ChannelEntry × ChannelEntry)), pairRun layer channels n a →
      pairRun layer channels (n + a.length) b → pairRun layer channels n (a ++ b) := by
  induction a with
  | nil => intro n b _ hb; exact hb
  | cons e a ih =>
    intro n b ha hb
    obtain ⟨h1, h2, h3, h4, h5, h6⟩ := ha
    refine ⟨h1, h2, h3, h4, h5, ?_⟩
    apply ih (n + 1) b h6
    rw [show n + 1 + a.length = n + (e :: a).length by
      rw [List.length_cons]; omega]
    exact hb

theorem pairRefs_cons (p : ChannelEntry × ChannelEntry)
    (rest : List (ChannelEntry × ChannelEntry)) :
    pairRefs (p :: rest) = p.1.channelRef :: p.2.channelRef :: pairRefs rest := by
  simp [pairRefs]

theorem pairRefs_append (a b : List (ChannelEntry × ChannelEntry)) :
    pairRefs (a ++ b) = pairRefs a ++ pairRefs b := by
  simp [pairRefs]

/-- One round of the pair scan keeps the state sound; it either leaves the
level count and the references alone, or completes a pair of two channels of
the host with the names of the level count. -/
theorem pairStep_total (layer : List Char) (channels : List ChannelEntry) (s : NamingStyle)
    (e : ChannelEntry) (st : PairState) (he : e ∈ channels)
    (hinv : pairInv layer channels s st) :
    ((pairStep layer s e st).2 = false ∧ pairInv layer channels s (pairStep layer s e st).1 ∧
      (pairStep layer s e st).1.numLevels = st.numLevels ∧
      (pairStep layer s e st).1.channelRefs = st.channelRefs) ∨
    ((pairStep layer s e st).2 = true ∧ ∃ eh ec, eh ∈ channels ∧ ec ∈ channels ∧
      eligible eh 1 = true ∧ eligible ec 1 = true ∧
      eh.channelDesc.name = (CalculateNextNames layer s st.numLevels).1 ∧
      ec.channelDesc.name = (CalculateNextNames layer s st.numLevels).2 ∧
      (pairStep layer s e st).1.numLevels = st.numLevels + 1 ∧
      (pairStep layer s e st).1.channelRefs =
        st.channelRefs ++ [eh.channelRef, ec.channelRef] ∧
      pairInv layer channels s (pairStep layer s e st).1) := by
  obtain ⟨h1, h2, h3, h4, h5⟩ := hinv
  by_cases hm : eligible e 1 = true ∧
      (e.channelDesc.name = st.nextHashName ∨ e.channelDesc.name = st.nextCoverageName)
  · by_cases hn : e.channelDesc.name = st.nextHashName
    · by_cases hc : st.foundCoverage = true
      · right
        obtain ⟨ec, hec, hel, hname, href⟩ := h4 hc
        have hstep : pairStep layer s e st =
            ({ st with
                hash := e.channelRef
                numLevels := st.numLevels + 1
                channelRefs := st.channelRefs ++ [e.channelRef, st.coverage]
                nextHashName := (CalculateNextNames layer s (st.numLevels + 1)).1
                nextCoverageName := (CalculateNextNames layer s (st.numLevels + 1)).2
                foundHash := false
                foundCoverage := false }, true) := by
          unfold pairStep
          rw [if_pos hm]
          simp only [if_pos hn, hc]
          simp
        rw [hstep]
        refine ⟨rfl, e, ec, he, hec, hm.1, hel, by rw [hn, h1], by rw [hname, h2], rfl, ?_, ?_⟩
        · simp only [href]
        · exact ⟨rfl, rfl, by simp, by simp, by simp⟩
      · left
        have hc2 : st.foundCoverage = false := by simpa using hc
        rw [pairStep_hash layer s e st hm.1 hn hc2]
        refine ⟨rfl, ⟨h1, h2, ?_, ?_, ?_⟩, rfl, rfl⟩
        · intro _
          exact ⟨e, he, hm.1, hn, rfl⟩
        · intro hf
          exact absurd hf hc
        · intro hb
          exact hc hb.2
    · have hcov : e.channelDesc.name = st.nextCoverageName := by
        rcases hm.2 with h | h
        · exact absurd h hn
        · exact h
      by_cases hh : st.foundHash = true
      · right
        obtain ⟨eh, heh, hel, hname, href⟩ := h3 hh
        rw [pairStep_coverage layer s e st hm.1 hn hcov hh]
        refine ⟨rfl, eh, e, heh, he, hel, hm.1, by rw [hname, h1], by rw [hcov, h2], rfl, ?_, ?_⟩
        · simp only [href]
        · exact ⟨rfl, rfl, by simp, by simp, by simp⟩
      · left
        have hh2 : st.foundHash = false := by simpa using hh
        have hstep : pairStep layer s e st =
            ({ st with coverage := e.channelRef, foundCoverage := true }, false) := by
          unfold pairStep
          rw [if_pos hm]
          simp only [if_neg hn, hh2]
          simp
        rw [hstep]
        refine ⟨rfl, ⟨h1, h2, ?_, ?_, ?_⟩, rfl, rfl⟩
        · intro hf
          exact absurd hf hh
        · intro _
          exact ⟨e, he, hm.1, hcov, rfl⟩
        · intro hb
          exact hh hb.1
  · rw [pairStep_skip layer s e st hm]
    left
    exact ⟨rfl, ⟨h1, h2, h3, h4, h5⟩, rfl, rfl⟩
theorem scanPairs_total (layer : List Char) (channels : List ChannelEntry) (s : NamingStyle) :
    ∀ (fuel i : Nat) (st : PairState) (S : Finset ChannelEntry),
      pairInv layer channels s st →
      (∀ e ∈ channels, pairPending layer st.numLevels e → e ∈ S) →
      S.card * (channels.length + 1) + (channels.length - i) + 1 ≤ fuel →
      ∃ (st2 : PairState) (new : List (ChannelEntry × ChannelEntry))
          (S2 : Finset ChannelEntry),
        scanPairs layer channels s fuel i st = some st2 ∧
        st2.channelRefs = st.channelRefs ++ pairRefs new ∧
        pairRun layer channels st.numLevels new ∧
        st2.numLevels = st.numLevels + new.length ∧
        (∀ e ∈ channels, pairPending layer st2.numLevels e → e ∈ S2) ∧
        S2.card + 2 * new.length ≤ S.card := by
  intro fuel
  induction fuel with
  | zero => intro i st S _ _ h; omega
  | succ fuel ih =>
    intro i st S hinv hS hfuel
    unfold scanPairs
    cases he : channels[i]? with
    | none =>
      exact ⟨st, [], S, rfl, by simp [pairRefs], trivial, by simp, hS, by simp⟩
    | some e =>
      obtain ⟨hmem, hi⟩ := getElem?_mem_of_some channels i e he
      simp only
      rcases pairStep_total layer channels s e st hmem hinv with
        ⟨hf, hinv2, hnum, hrefs⟩ | ⟨ht, eh, ec, heh, hec, helh, helc, hnh, hnc, hnum, hrefs, hinv2⟩
      · rw [if_neg (by rw [hf]; simp)]
        obtain ⟨st2, new, S2, g1, g2, g3, g4, g5, g6⟩ :=
          ih (i + 1) (pairStep layer s e st).1 S hinv2 (by rw [hnum]; exact hS) (by omega)
        exact ⟨st2, new, S2, g1, by rw [g2, hrefs], by rw [← hnum]; exact g3,
          by rw [g4, hnum], g5, g6⟩
      · rw [if_pos ht]
        have hehS : eh ∈ S := hS eh heh ⟨helh, s, st.numLevels, le_refl _, Or.inl hnh⟩
        have hecS : ec ∈ S := hS ec hec ⟨helc, s, st.numLevels, le_refl _, Or.inr hnc⟩
        have hne : ec ≠ eh := by
          intro h
          rw [h, hnh] at hnc
          exact pair_hash_ne_coverage layer s s st.numLevels st.numLevels hnc
        have hecS1 : ec ∈ S.erase eh := Finset.mem_erase.2 ⟨hne, hecS⟩
        have hcard1 : (S.erase eh).card + 1 = S.card := Finset.card_erase_add_one hehS
        have hcard2 : ((S.erase eh).erase ec).card + 1 = (S.erase eh).card :=
          Finset.card_erase_add_one hecS1
        have hS1 : ∀ x ∈ channels,
            pairPending layer (pairStep layer s e st).1.numLevels x →
              x ∈ (S.erase eh).erase ec := by
          intro x hx hp
          rw [hnum] at hp
          obtain ⟨hel, s2, m, hm, hname⟩ := hp
          have hxS : x ∈ S := hS x hx ⟨hel, s2, m, by omega, hname⟩
          rw [Finset.mem_erase, Finset.mem_erase]
          refine ⟨?_, ?_, hxS⟩
          · intro hxe
            rw [hxe, hnc] at hname
            rcases hname with h | h
            · exact pair_hash_ne_coverage layer s2 s m st.numLevels h.symm
            · exact pair_coverage_ne layer s s2 st.numLevels m hm h
          · intro hxe
            rw [hxe, hnh] at hname
            rcases hname with h | h
            · exact pair_hash_ne layer s s2 st.numLevels m hm h
            · exact pair_hash_ne_coverage layer s s2 st.numLevels m h
        have hprod : S.card * (channels.length + 1) =
            ((S.erase eh).erase ec).card * (channels.length + 1) +
              2 * (channels.length + 1) := by
          rw [← hcard1, ← hcard2, Nat.add_mul, Nat.add_mul, Nat.one_mul]
          omega
        obtain ⟨st2, new, S2, g1, g2, g3, g4, g5, g6⟩ :=
          ih (0 + 1) (pairStep layer s e st).1 ((S.erase eh).erase ec) hinv2 hS1 (by omega)
        refine ⟨st2, (eh, ec) :: new, S2, g1, ?_, ⟨heh, hec, helh, helc, ⟨s, hnh, hnc⟩, ?_⟩,
          ?_, g5, ?_⟩
        · rw [g2, hrefs, pairRefs_cons]
          simp
        · rw [← hnum]
          exact g3
        · rw [g4, hnum, List.length_cons]
          omega
        · rw [List.length_cons]
          omega

theorem scanPairsStyles_total (layer : List Char) (channels : List ChannelEntry) :
    ∀ (styles : List NamingStyle) (n : Nat) (refs : List Nat) (S : Finset ChannelEntry),
      (∀ e ∈ channels, pairPending layer n e → e ∈ S) → S.card ≤ channels.length →
      ∃ (n2 : Nat) (new : List (ChannelEntry × ChannelEntry)) (S2 : Finset ChannelEntry),
        scanPairsStyles layer channels styles n refs = some (n2, refs ++ pairRefs new) ∧
        pairRun layer channels n new ∧ n2 = n + new.length ∧
        S2.card + 2 * new.length ≤ S.card := by
  intro styles
  induction styles with
  | nil =>
    intro n refs S _ _
    exact ⟨n, [], S, by simp [scanPairsStyles, pairRefs], trivial, by simp, by simp⟩
  | cons s rest ih =>
    intro n refs S hS hcard
    have hfuel : S.card * (channels.length + 1) + (channels.length - 0) + 1 ≤
        scanFuel channels := by
      unfold scanFuel
      have := Nat.mul_le_mul_right (channels.length + 1) hcard
      have h2 : (channels.length + 1) * (channels.length + 1) =
          channels.length * (channels.length + 1) + (channels.length + 1) := by
        rw [Nat.add_mul, Nat.one_mul]
      omega
    obtain ⟨st1, new1, S1, h1, h2, h3, h4, h5, h6⟩ :=
      scanPairs_total layer channels s (scanFuel channels) 0
        { numLevels := n, channelRefs := refs,
          nextHashName := (CalculateNextNames layer s n).1,
          nextCoverageName := (CalculateNextNames layer s n).2,
          hash := 0, coverage := 0, foundHash := false, foundCoverage := false } S
        ⟨rfl, rfl, by simp, by simp, by simp⟩ hS hfuel
    simp only at h2 h3 h4
    obtain ⟨n2, new2, S2, g1, g2, g3, g4⟩ :=
      ih st1.numLevels st1.channelRefs S1 h5 (by omega)
    refine ⟨n2, new1 ++ new2, S2, ?_, ?_, ?_, ?_⟩
    · rw [scanPairsStyles, h1]
      simp only
      rw [g1, h2, pairRefs_append, List.append_assoc]
    · apply pairRun_append layer channels new1 n new2 h3
      rw [← h4]
      exact g2
    · rw [g3, h4, List.length_append]
      omega
    · rw [List.length_append]
      omega

theorem eligible_card (channels : List ChannelEntry) (d : Nat) :
    ((channels.filter (fun e => eligible e d)).toFinset).card ≤
      channels.countP (fun e => decide (e.channelDesc.dimension = d)) := by
  refine le_trans (List.toFinset_card_le _) ?_
  rw [← List.countP_eq_length_filter]
  apply List.countP_mono_left
  intro e _ h
  unfold eligible at h
  simp only [Bool.and_eq_true] at h
  exact h.2

/-- The discovery of `LoadLevels` returns for every channel list: the
references are those of a run of 4-component channels followed by those of a
run of pairs, and `numLevels` counts two per 4-component channel and one per
pair. -/
theorem LoadLevels_total (layer0 : List Char) (channels : List ChannelEntry) :
    ∃ (layer : List Char) (quads : List ChannelEntry)
        (pairs : List (ChannelEntry × ChannelEntry)),
      LoadLevels layer0 channels =
        some (layer, 2 * quads.length + pairs.length,
          quads.map (fun e => e.channelRef) ++ pairRefs pairs) ∧
      quadRun layer channels 0 quads ∧
      pairRun layer channels (2 * quads.length) pairs ∧
      quads.length ≤ channels.countP (fun e => decide (e.channelDesc.dimension = 4)) ∧
      2 * pairs.length ≤ channels.countP (fun e => decide (e.channelDesc.dimension = 1)) := by
  unfold LoadLevels
  generalize (if layer0.isEmpty = true ∧ channels.length > 0 then discoverLayer channels layer0
    else layer0) = layer
  simp only
  by_cases hc : layer.isEmpty = false ∧ channels.length > 0
  · rw [if_pos hc]
    have hS0 : ∀ e ∈ channels, quadPending layer 0 e →
        e ∈ (channels.filter (fun e => eligible e 4)).toFinset := by
      intro e he hp
      rw [List.mem_toFinset, List.mem_filter]
      exact ⟨he, hp.1⟩
    have hS1 : ∀ (n : Nat), ∀ e ∈ channels, pairPending layer n e →
        e ∈ (channels.filter (fun e => eligible e 1)).toFinset := by
      intro n e he hp
      rw [List.mem_toFinset, List.mem_filter]
      exact ⟨he, hp.1⟩
    have hc0 := eligible_card channels 4
    have hc1 := eligible_card channels 1
    obtain ⟨n1, quads, S2, h1, h2, h3, h4⟩ :=
      scanFourStyles_total layer channels namingStyles 0 [] _ hS0
        (le_trans hc0 (List.countP_le_length _))
    obtain ⟨n2, pairs, S3, g1, g2, g3, g4⟩ :=
      scanPairsStyles_total layer channels namingStyles n1
        ([] ++ quads.map (fun e => e.channelRef)) _ (hS1 n1)
        (le_trans hc1 (List.countP_le_length _))
    refine ⟨layer, quads, pairs, ?_, h2, ?_, by omega, by omega⟩
    · rw [h1]
      simp only
      rw [g1]
      simp only [List.nil_append]
      rw [g3, h3, Nat.zero_add]
    · rw [h3, Nat.zero_add] at g2
      exact g2
  · rw [if_neg hc]
    exact ⟨layer, [], [], by simp [pairRefs], trivial, trivial, by simp, by simp⟩
/-! ### The stores of the buffer builder -/

theorem applyWrites_append {α : Type} (a b : List (Nat × α)) (mem : Nat → α) :
    applyWrites (a ++ b) mem = applyWrites b (applyWrites a mem) := by
  unfold applyWrites
  rw [List.foldl_append]

theorem quadLoop_writes {α : Type} (origin : Nat → α) (inStep outStep : Nat) :
    ∀ (n inp out : Nat) (mem : Nat → α),
      quadLoop origin inStep outStep n inp out mem =
        applyWrites (quadLoopWrites origin inStep outStep n inp out) mem := by
  intro n
  induction n with
  | zero => intro inp out mem; rfl
  | succ n ih =>
    intro inp out mem
    rw [quadLoop, quadLoopWrites, applyWrites_append, ← ih]
    rfl

theorem singleLoop_writes {α : Type} (origin : Nat → α) (inStep outStep : Nat) :
    ∀ (n inp out : Nat) (mem : Nat → α),
      singleLoop origin inStep outStep n inp out mem =
        applyWrites (singleLoopWrites origin inStep outStep n inp out) mem := by
  intro n
  induction n with
  | zero => intro inp out mem; rfl
  | succ n ih =>
    intro inp out mem
    rw [singleLoop, singleLoopWrites, ih]
    rfl

theorem Iterate_writes {α : Type} (i_data : CryptomatteBufferIterateData α) (i : Nat)
    (mem : Nat → α) :
    CryptomatteBuffer_Iterate i_data i mem =
      applyWrites (CryptomatteBuffer_IterateWrites i_data i) mem := by
  unfold CryptomatteBuffer_Iterate CryptomatteBuffer_IterateWrites
  simp only
  split
  · exact quadLoop_writes _ _ _ _ _ _ _
  · exact singleLoop_writes _ _ _ _ _ _ _

theorem foldl_writes {α : Type} (fn : Nat → (Nat → α) → (Nat → α))
    (fnW : Nat → List (Nat × α)) (h : ∀ i mem, fn i mem = applyWrites (fnW i) mem) :
    ∀ (l : List Nat) (mem : Nat → α),
      l.foldl (fun m i => fn i m) mem = applyWrites (l.flatMap fnW) mem := by
  intro l
  induction l with
  | nil => intro mem; rfl
  | cons i l ih =>
    intro mem
    rw [List.foldl_cons, List.flatMap_cons, applyWrites_append, ih, h]

theorem iterate_generic_writes {α : Type} (iterationsL : Nat)
    (fn : Nat → (Nat → α) → (Nat → α)) (fnW : Nat → List (Nat × α))
    (h : ∀ i mem, fn i mem = applyWrites (fnW i) mem) (mem : Nat → α) :
    iterate_generic iterationsL fn mem = applyWrites (iterate_genericWrites iterationsL fnW) mem :=
  foldl_writes fn fnW h _ mem

theorem buildQuad_writes {α : Type} (numLevels : Nat) (chunk : PF_ChannelChunk α)
    (st : BuildState α) :
    (buildQuad numLevels chunk st).buf =
      applyWrites (buildQuadWrites numLevels chunk st) st.buf :=
  iterate_generic_writes _ _ _ (Iterate_writes _) _

theorem buildSingle_writes {α : Type} (numLevels : Nat) (chunk : PF_ChannelChunk α)
    (coverageChunk : Option (PF_ChannelChunk α)) (st : BuildState α) :
    (buildSingle numLevels chunk coverageChunk st).buf =
      applyWrites (buildSingleWrites numLevels chunk coverageChunk st) st.buf := by
  unfold buildSingle buildSingleWrites
  rw [applyWrites_append]
  cases coverageChunk with
  | none =>
    simp only
    rw [iterate_generic_writes _ _ _ (Iterate_writes _)]
    rfl
  | some c =>
    simp only
    rw [iterate_generic_writes _ _ _ (Iterate_writes _),
      iterate_generic_writes _ _ _ (Iterate_writes _)]

/-- The memory the builder leaves is the memory it started from after its
stores. -/
theorem buildChannels_writes {α : Type} (checkout : Nat → Option (PF_ChannelChunk α))
    (mallocOk : Nat → Bool) (numLevels : Nat) :
    ∀ (k : Nat) (refs : List Nat), refs.length ≤ k → ∀ (st st2 : BuildState α),
      buildChannels checkout mallocOk numLevels refs st = Except.ok st2 →
      st2.buf = applyWrites (buildChannelsWrites checkout mallocOk numLevels refs st) st.buf := by
  intro k
  induction k with
  | zero =>
    intro refs hlen st st2 h
    have : refs = [] := List.length_eq_zero.1 (by omega)
    subst this
    rw [buildChannels] at h
    cases h
    rfl
  | succ k ih =>
    intro refs hlen st st2 h
    cases refs with
    | nil =>
      rw [buildChannels] at h
      cases h
      rfl
    | cons r rest =>
      rw [List.length_cons] at hlen
      rw [buildChannels] at h
      rw [buildChannelsWrites]
      cases hc : checkout r with
      | none =>
        rw [hc] at h
        exact ih rest (by omega) st st2 h
      | some chunk =>
        rw [hc] at h
        simp only at h ⊢
        cases ha : allocate mallocOk numLevels chunk st with
        | error what =>
          rw [ha] at h
          cases h
        | ok st1 =>
          rw [ha] at h
          simp only at h ⊢
          have hbuf : st1.buf = st.buf := (allocate_ok _ _ _ _ _ ha).1
          by_cases hd : chunk.dimensionL = 4
          · rw [if_pos hd] at h ⊢
            rw [applyWrites_append, ih rest (by omega) _ st2 h, buildQuad_writes, hbuf]
          · rw [if_neg hd] at h ⊢
            cases rest with
            | nil =>
              simp only at h ⊢
              cases h
              rw [buildSingle_writes, hbuf]
            | cons cov rest2 =>
              simp only at h ⊢
              rw [List.length_cons] at hlen
              rw [applyWrites_append, ih rest2 (by omega) _ st2 h, buildSingle_writes, hbuf]
theorem divmod_unique (N q q2 r r2 : Nat) (hr : r < N) (hr2 : r2 < N)
    (h : q * N + r = q2 * N + r2) : q = q2 ∧ r = r2 := by
  have hN : 0 < N := by omega
  have h1 : (q * N + r) / N = q := by
    rw [Nat.add_comm, Nat.add_mul_div_right _ _ hN, Nat.div_eq_of_lt hr, Nat.zero_add]
  have h2 : (q2 * N + r2) / N = q2 := by
    rw [Nat.add_comm, Nat.add_mul_div_right _ _ hN, Nat.div_eq_of_lt hr2, Nat.zero_add]
  have hq : q = q2 := by rw [← h1, ← h2, h]
  subst hq
  exact ⟨rfl, by omega⟩

theorem slotOffset_inj (W N x y k c x2 y2 k2 c2 : Nat) (hx : x < W) (hx2 : x2 < W)
    (hk : k < N) (hk2 : k2 < N) (hc : c < 2) (hc2 : c2 < 2)
    (h : slotOffset W N x y k c = slotOffset W N x2 y2 k2 c2) :
    x = x2 ∧ y = y2 ∧ k = k2 ∧ c = c2 := by
  unfold slotOffset at h
  have h1 : (y * W + x) * N + k = (y2 * W + x2) * N + k2 := by omega
  have h2 : c = c2 := by omega
  obtain ⟨h3, h4⟩ := divmod_unique N _ _ _ _ hk hk2 h1
  obtain ⟨h5, h6⟩ := divmod_unique W _ _ _ _ hx hx2 h3
  exact ⟨h6, h5, h4, h2⟩

theorem slotGrid_mem (W H N : Nat) (levels : List (Nat × Nat)) (a : Nat) :
    a ∈ slotGrid W H N levels ↔
      ∃ x y k c, x < W ∧ y < H ∧ (k, c) ∈ levels ∧ a = slotOffset W N x y k c := by
  unfold slotGrid
  simp only [List.mem_flatMap, List.mem_range, List.mem_map]
  constructor
  · rintro ⟨y, hy, x, hx, kc, hkc, rfl⟩
    exact ⟨x, y, kc.1, kc.2, hx, hy, hkc, rfl⟩
  · rintro ⟨x, y, k, c, hx, hy, hkc, rfl⟩
    exact ⟨y, hy, x, hx, (k, c), hkc, rfl⟩

theorem slotGrid_nodup (W H N : Nat) (levels : List (Nat × Nat)) (hnd : levels.Nodup)
    (hlev : ∀ kc ∈ levels, kc.1 < N ∧ kc.2 < 2) : (slotGrid W H N levels).Nodup := by
  unfold slotGrid
  rw [List.nodup_flatMap]
  constructor
  · intro y _
    rw [List.nodup_flatMap]
    constructor
    · intro x hx
      rw [List.mem_range] at hx
      apply List.Nodup.map_on _ hnd
      intro kc hkc kc2 hkc2 he
      obtain ⟨_, _, h3, h4⟩ := slotOffset_inj W N x y kc.1 kc.2 x y kc2.1 kc2.2 hx hx
        (hlev kc hkc).1 (hlev kc2 hkc2).1 (hlev kc hkc).2 (hlev kc2 hkc2).2 he
      exact Prod.ext h3 h4
    · apply List.Nodup.pairwise_of_forall_ne (List.nodup_range W)
      intro x hx x2 hx2 hne
      rw [List.mem_range] at hx hx2
      simp only [Function.onFun]
      intro a ha ha2
      rw [List.mem_map] at ha ha2
      obtain ⟨kc, hkc, rfl⟩ := ha
      obtain ⟨kc2, hkc2, he⟩ := ha2
      exact hne (slotOffset_inj W N x2 y kc2.1 kc2.2 x y kc.1 kc.2 hx2 hx
        (hlev kc2 hkc2).1 (hlev kc hkc).1 (hlev kc2 hkc2).2 (hlev kc hkc).2 he).1.symm
  · apply List.Nodup.pairwise_of_forall_ne (List.nodup_range H)
    intro y _ y2 _ hne
    simp only [Function.onFun]
    intro a ha ha2
    simp only [List.mem_flatMap, List.mem_range, List.mem_map] at ha ha2
    obtain ⟨x, hx, kc, hkc, rfl⟩ := ha
    obtain ⟨x2, hx2, kc2, hkc2, he⟩ := ha2
    exact hne (slotOffset_inj W N x2 y2 kc2.1 kc2.2 x y kc.1 kc.2 hx2 hx
      (hlev kc2 hkc2).1 (hlev kc hkc).1 (hlev kc2 hkc2).2 (hlev kc hkc).2 he).2.1.symm

theorem flatMap_range_succ {β : Type} (n : Nat) (f : Nat → List β) :
    (List.range (n + 1)).flatMap f = f 0 ++ (List.range n).flatMap (fun x => f (x + 1)) := by
  rw [List.range_succ_eq_map, List.flatMap_cons, List.flatMap_map]

theorem quadLoopWrites_addrs {α : Type} (origin : Nat → α) (inStep outStep : Nat) :
    ∀ (n inp out : Nat),
      (quadLoopWrites origin inStep outStep n inp out).map Prod.fst =
        (List.range n).flatMap (fun x =>
          [out + 4 * outStep * x, out + 4 * outStep * x + 4, out + 4 * outStep * x + 8,
            out + 4 * outStep * x + 12]) := by
  intro n
  induction n with
  | zero => intro inp out; rfl
  | succ n ih =>
    intro inp out
    rw [quadLoopWrites, List.map_append, ih, flatMap_range_succ]
    simp only [List.map_cons, List.map_nil, Nat.mul_zero, Nat.add_zero]
    congr 1
    congr 1
    funext x
    simp only [Nat.mul_add, Nat.mul_one, List.cons.injEq, and_true]
    omega

theorem singleLoopWrites_addrs {α : Type} (origin : Nat → α) (inStep outStep : Nat) :
    ∀ (n inp out : Nat),
      (singleLoopWrites origin inStep outStep n inp out).map Prod.fst =
        (List.range n).flatMap (fun x => [out + 4 * outStep * x]) := by
  intro n
  induction n with
  | zero => intro inp out; rfl
  | succ n ih =>
    intro inp out
    rw [singleLoopWrites, List.map_cons, ih, flatMap_range_succ]
    simp only [Nat.mul_zero, Nat.add_zero, List.singleton_append]
    congr 1
    congr 1
    funext x
    simp only [Nat.mul_add, Nat.mul_one, List.cons.injEq, and_true]
    omega

theorem buildQuadWrites_addrs {α : Type} (numLevels : Nat) (chunk : PF_ChannelChunk α)
    (st : BuildState α) :
    (buildQuadWrites numLevels chunk st).map Prod.fst =
      slotGrid st.width st.height numLevels
        [(st.levelNum, 0), (st.levelNum, 1), (st.levelNum + 1, 0), (st.levelNum + 1, 1)] := by
  unfold buildQuadWrites iterate_genericWrites slotGrid
  rw [List.map_flatMap]
  congr 1
  funext y
  unfold CryptomatteBuffer_IterateWrites
  simp only [if_true]
  rw [quadLoopWrites_addrs]
  congr 1
  funext x
  simp only [List.map_cons, List.map_nil, slotOffset, List.cons.injEq, and_true]
  refine ⟨?_, ?_, ?_, ?_⟩ <;> ring

theorem singlePass_addrs {α : Type} (numLevels : Nat) (origin : Nat → α) (yStride : Nat)
    (W H k c : Nat) :
    (iterate_genericWrites H
      (CryptomatteBuffer_IterateWrites
        { buf := k * 8 + 4 * c, dimension := 1, numLevels := numLevels,
          origin := origin, width := W, xStride := 4,
          yStride := yStride })).map Prod.fst =
      slotGrid W H numLevels [(k, c)] := by
  unfold iterate_genericWrites slotGrid
  rw [List.map_flatMap]
  congr 1
  funext y
  unfold CryptomatteBuffer_IterateWrites
  simp only [if_neg (show ¬ (1 = 4) by decide)]
  rw [singleLoopWrites_addrs]
  congr 1
  funext x
  simp only [List.map_cons, List.map_nil, slotOffset, List.cons.injEq, and_true]
  ring

theorem buildSingleWrites_addrs {α : Type} (numLevels : Nat) (chunk cov : PF_ChannelChunk α)
    (st : BuildState α) :
    (buildSingleWrites numLevels chunk (some cov) st).map Prod.fst =
      slotGrid st.width st.height numLevels [(st.levelNum, 0)] ++
        slotGrid st.width st.height numLevels [(st.levelNum, 1)] := by
  unfold buildSingleWrites
  simp only
  rw [List.map_append]
  have h0 := singlePass_addrs numLevels chunk.dataPV chunk.row_bytesL st.width st.height
    st.levelNum 0
  have h1 := singlePass_addrs numLevels chunk.dataPV chunk.row_bytesL st.width st.height
    st.levelNum 1
  simp only [Nat.mul_zero, Nat.add_zero, Nat.mul_one] at h0 h1
  rw [h0, h1]
theorem levels_append (W H N lo mid hi : Nat) (A B : List Nat) (hlo : lo ≤ mid)
    (hmid : mid ≤ hi) (hN : hi ≤ N)
    (hA : A.Nodup ∧ ∀ a, a ∈ A ↔ levelSlots W H N lo mid a)
    (hB : B.Nodup ∧ ∀ a, a ∈ B ↔ levelSlots W H N mid hi a) :
    (A ++ B).Nodup ∧ ∀ a, a ∈ A ++ B ↔ levelSlots W H N lo hi a := by
  constructor
  · rw [List.nodup_append]
    refine ⟨hA.1, hB.1, ?_⟩
    intro a ha hb
    obtain ⟨x, y, k, c, hx, _, _, hk, hc, rfl⟩ := (hA.2 a).1 ha
    obtain ⟨x2, y2, k2, c2, hx2, _, hk2, hk3, hc2, he⟩ := (hB.2 _).1 hb
    have := (slotOffset_inj W N x y k c x2 y2 k2 c2 hx hx2 (by omega) (by omega) hc hc2 he).2.2.1
    omega
  · intro a
    rw [List.mem_append, hA.2, hB.2]
    constructor
    · rintro (⟨x, y, k, c, hx, hy, h1, h2, hc, rfl⟩ | ⟨x, y, k, c, hx, hy, h1, h2, hc, rfl⟩)
      · exact ⟨x, y, k, c, hx, hy, h1, by omega, hc, rfl⟩
      · exact ⟨x, y, k, c, hx, hy, by omega, h2, hc, rfl⟩
    · rintro ⟨x, y, k, c, hx, hy, h1, h2, hc, rfl⟩
      by_cases hk : k < mid
      · exact Or.inl ⟨x, y, k, c, hx, hy, h1, hk, hc, rfl⟩
      · exact Or.inr ⟨x, y, k, c, hx, hy, by omega, h2, hc, rfl⟩

theorem quadPass_levels (W H N k : Nat) (hk : k + 2 ≤ N) :
    (slotGrid W H N [(k, 0), (k, 1), (k + 1, 0), (k + 1, 1)]).Nodup ∧
      ∀ a, a ∈ slotGrid W H N [(k, 0), (k, 1), (k + 1, 0), (k + 1, 1)] ↔
        levelSlots W H N k (k + 2) a := by
  constructor
  · apply slotGrid_nodup
    · simp
    · intro kc hkc
      simp only [List.mem_cons, List.mem_singleton, List.mem_nil_iff, or_false] at hkc
      rcases hkc with h | h | h | h <;> subst h <;> simp <;> omega
  · intro a
    rw [slotGrid_mem]
    constructor
    · rintro ⟨x, y, k2, c, hx, hy, hkc, rfl⟩
      simp only [List.mem_cons, List.mem_singleton, List.mem_nil_iff, or_false,
        Prod.mk.injEq] at hkc
      exact ⟨x, y, k2, c, hx, hy, by omega, by omega, by omega, rfl⟩
    · rintro ⟨x, y, k2, c, hx, hy, h1, h2, hc, rfl⟩
      refine ⟨x, y, k2, c, hx, hy, ?_, rfl⟩
      simp only [List.mem_cons, List.mem_singleton, List.mem_nil_iff, or_false,
        Prod.mk.injEq]
      omega

theorem singlePass_levels (W H N k : Nat) (hk : k + 1 ≤ N) :
    (slotGrid W H N [(k, 0)] ++ slotGrid W H N [(k, 1)]).Nodup ∧
      ∀ a, a ∈ slotGrid W H N [(k, 0)] ++ slotGrid W H N [(k, 1)] ↔
        levelSlots W H N k (k + 1) a := by
  constructor
  · rw [List.nodup_append]
    refine ⟨slotGrid_nodup W H N _ (by simp) (by simp; omega),
      slotGrid_nodup W H N _ (by simp) (by simp; omega), ?_⟩
    intro a ha hb
    rw [slotGrid_mem] at ha hb
    obtain ⟨x, y, k1, c, hx, _, hkc, rfl⟩ := ha
    obtain ⟨x2, y2, k2, c2, hx2, _, hkc2, he⟩ := hb
    simp only [List.mem_singleton, Prod.mk.injEq] at hkc hkc2
    have := (slotOffset_inj W N x y k1 c x2 y2 k2 c2 hx hx2 (by omega) (by omega) (by omega)
      (by omega) he).2.2.2
    omega
  · intro a
    rw [List.mem_append, slotGrid_mem, slotGrid_mem]
    constructor
    · rintro (⟨x, y, k2, c, hx, hy, hkc, rfl⟩ | ⟨x, y, k2, c, hx, hy, hkc, rfl⟩) <;>
        simp only [List.mem_singleton, Prod.mk.injEq] at hkc <;>
        exact ⟨x, y, k2, c, hx, hy, by omega, by omega, by omega, rfl⟩
    · rintro ⟨x, y, k2, c, hx, hy, h1, h2, hc, rfl⟩
      by_cases h0 : c = 0
      · left
        exact ⟨x, y, k2, c, hx, hy, by simp; omega, rfl⟩
      · right
        exact ⟨x, y, k2, c, hx, hy, by simp; omega, rfl⟩

theorem allocate_same_size {α : Type} (mallocOk : Nat → Bool) (numLevels W H : Nat)
    (chunk : PF_ChannelChunk α) (st : BuildState α) (hw : chunk.widthL = W)
    (hh : chunk.heightL = H) (hmalloc : mallocOk (bufferSize W H numLevels) = true)
    (hst : st.allocated = true → st.width = W ∧ st.height = H) :
    ∃ st1, allocate mallocOk numLevels chunk st = Except.ok st1 ∧ st1.allocated = true ∧
      st1.width = W ∧ st1.height = H ∧ st1.levelNum = st.levelNum := by
  unfold allocate
  by_cases ha : st.allocated = false
  · rw [if_pos ha, hw, hh, if_pos hmalloc]
    exact ⟨_, rfl, rfl, rfl, rfl, rfl⟩
  · rw [if_neg ha]
    have ht : st.allocated = true := by simpa using ha
    exact ⟨st, rfl, ht, (hst ht).1, (hst ht).2, rfl⟩

/-- The builder on a run of checked-out pairs: one level per pair, and the
stores cover the components of these levels of every pixel, each once. -/
theorem buildPairs_spec {α : Type} (checkout : Nat → Option (PF_ChannelChunk α))
    (mallocOk : Nat → Bool) (N W H : Nat)
    (hmalloc : mallocOk (bufferSize W H N) = true) :
    ∀ (pairs : List (ChannelEntry × ChannelEntry)) (st : BuildState α),
      (st.allocated = true → st.width = W ∧ st.height = H) →
      st.levelNum + pairs.length ≤ N →
      (∀ p ∈ pairs,
        (∃ chunk, checkout p.1.channelRef = some chunk ∧ chunk.dimensionL ≠ 4 ∧
          chunk.widthL = W ∧ chunk.heightL = H) ∧
        ∃ cov, checkout p.2.channelRef = some cov) →
      ∃ st2, buildChannels checkout mallocOk N (pairRefs pairs) st = Except.ok st2 ∧
        st2.levelNum = st.levelNum + pairs.length ∧
        ((buildChannelsWrites checkout mallocOk N (pairRefs pairs) st).map Prod.fst).Nodup ∧
        ∀ a, a ∈ (buildChannelsWrites checkout mallocOk N (pairRefs pairs) st).map Prod.fst ↔
          levelSlots W H N st.levelNum (st.levelNum + pairs.length) a := by
  intro pairs
  induction pairs with
  | nil =>
    intro st _ _ _
    refine ⟨st, rfl, rfl, List.nodup_nil, ?_⟩
    intro a
    constructor
    · intro h
      cases h
    · rintro ⟨x, y, k, c, _, _, h1, h2, _⟩
      simp only [List.length_nil, Nat.add_zero] at h2
      omega
  | cons p rest ih =>
    intro st hst hlen hp
    rw [List.length_cons] at hlen
    obtain ⟨⟨chunk, hck, hd, hw, hh⟩, cov, hcov⟩ := hp p (List.mem_cons_self _ _)
    obtain ⟨st1, ha, ha1, ha2, ha3, ha4⟩ :=
      allocate_same_size mallocOk N W H chunk st hw hh hmalloc hst
    obtain ⟨st2, g1, g2, g3, g4⟩ := ih (buildSingle N chunk (some cov) st1)
      (fun _ => ⟨ha2, ha3⟩) (by
        show st1.levelNum + 1 + rest.length ≤ N
        omega)
      (fun q hq => hp q (List.mem_cons_of_mem _ hq))
    have hlev : (buildSingle N chunk (some cov) st1).levelNum = st.levelNum + 1 := by
      show st1.levelNum + 1 = st.levelNum + 1
      rw [ha4]
    rw [hlev] at g2 g4
    rw [pairRefs_cons, buildChannels, buildChannelsWrites, hck]
    simp only [ha, if_neg hd, hcov]
    refine ⟨st2, g1, ?_, ?_⟩
    · rw [g2, List.length_cons]
      omega
    · rw [List.map_append, buildSingleWrites_addrs, ha2, ha3, ha4, List.length_cons,
        show st.levelNum + (rest.length + 1) = st.levelNum + 1 + rest.length by omega]
      exact levels_append W H N st.levelNum (st.levelNum + 1) (st.levelNum + 1 + rest.length)
        _ _ (by omega) (by omega) (by omega) (singlePass_levels W H N st.levelNum (by omega))
        ⟨g3, g4⟩

/-- The builder on a run of checked-out 4-component channels followed by a
run of checked-out pairs. -/
theorem buildQuads_spec {α : Type} (checkout : Nat → Option (PF_ChannelChunk α))
    (mallocOk : Nat → Bool) (N W H : Nat)
    (hmalloc : mallocOk (bufferSize W H N) = true)
    (pairs : List (ChannelEntry × ChannelEntry))
    (hp : ∀ p ∈ pairs,
      (∃ chunk, checkout p.1.channelRef = some chunk ∧ chunk.dimensionL ≠ 4 ∧
        chunk.widthL = W ∧ chunk.heightL = H) ∧
      ∃ cov, checkout p.2.channelRef = some cov) :
    ∀ (quads : List ChannelEntry) (st : BuildState α),
      (st.allocated = true → st.width = W ∧ st.height = H) →
      st.levelNum + 2 * quads.length + pairs.length ≤ N →
      (∀ e ∈ quads, ∃ chunk, checkout e.channelRef = some chunk ∧ chunk.dimensionL = 4 ∧
          chunk.widthL = W ∧ chunk.heightL = H) →
      ∃ st2, buildChannels checkout mallocOk N
          (quads.map (fun e => e.channelRef) ++ pairRefs pairs) st = Except.ok st2 ∧
        st2.levelNum = st.levelNum + 2 * quads.length + pairs.length ∧
        ((buildChannelsWrites checkout mallocOk N
          (quads.map (fun e => e.channelRef) ++ pairRefs pairs) st).map Prod.fst).Nodup ∧
        ∀ a, a ∈ (buildChannelsWrites checkout mallocOk N
            (quads.map (fun e => e.channelRef) ++ pairRefs pairs) st).map Prod.fst ↔
          levelSlots W H N st.levelNum (st.levelNum + 2 * quads.length + pairs.length) a := by
  intro quads
  induction quads with
  | nil =>
    intro st hst hlen _
    simp only [List.length_nil, Nat.mul_zero, Nat.add_zero, List.map_nil, List.nil_append]
      at hlen ⊢
    exact buildPairs_spec checkout mallocOk N W H hmalloc pairs st hst hlen hp
  | cons e rest ih =>
    intro st hst hlen hq
    rw [List.length_cons] at hlen
    obtain ⟨chunk, hck, hd, hw, hh⟩ := hq e (List.mem_cons_self _ _)
    obtain ⟨st1, ha, ha1, ha2, ha3, ha4⟩ :=
      allocate_same_size mallocOk N W H chunk st hw hh hmalloc hst
    obtain ⟨st2, g1, g2, g3, g4⟩ := ih (buildQuad N chunk st1)
      (fun _ => ⟨ha2, ha3⟩) (by
        show st1.levelNum + 2 + 2 * rest.length + pairs.length ≤ N
        omega)
      (fun q hq2 => hq q (List.mem_cons_of_mem _ hq2))
    have hlev : (buildQuad N chunk st1).levelNum = st.levelNum + 2 := by
      show st1.levelNum + 2 = st.levelNum + 2
      rw [ha4]
    rw [hlev] at g2 g4
    rw [List.map_cons, List.cons_append, buildChannels, buildChannelsWrites, hck]
    simp only [ha, if_pos hd]
    refine ⟨st2, g1, ?_, ?_⟩
    · rw [g2, List.length_cons]
      omega
    · rw [List.map_append, buildQuadWrites_addrs, ha2, ha3, ha4, List.length_cons,
        show st.levelNum + 2 * (rest.length + 1) + pairs.length =
          st.levelNum + 2 + 2 * rest.length + pairs.length by omega]
      exact levels_append W H N st.levelNum (st.levelNum + 2)
        (st.levelNum + 2 + 2 * rest.length + pairs.length)
        _ _ (by omega) (by omega) (by omega) (quadPass_levels W H N st.levelNum (by omega))
        ⟨g3, g4⟩
theorem eligible_spec (e : ChannelEntry) (d : Nat) (h : eligible e d = true) :
    e.found = true ∧ e.channelDesc.dimension = d := by
  unfold eligible at h
  simp only [Bool.and_eq_true, decide_eq_true_eq] at h
  exact ⟨h.1.1.1, h.2⟩

theorem quadRun_mem (layer : List Char) (channels : List ChannelEntry) :
    ∀ (l : List ChannelEntry) (n : Nat), quadRun layer channels n l →
      ∀ e ∈ l, e ∈ channels ∧ quadPending layer n e := by
  intro l
  induction l with
  | nil => intro n _ e he; cases he
  | cons a rest ih =>
    intro n h e he
    obtain ⟨h1, h2, ⟨s, h3⟩, h4⟩ := h
    rcases List.mem_cons.1 he with rfl | hr
    · exact ⟨h1, h2, s, n, le_refl _, h3⟩
    · obtain ⟨g1, g2, s2, m, hm, g3⟩ := ih (n + 2) h4 e hr
      exact ⟨g1, g2, s2, m, by omega, g3⟩

theorem quadRun_nodup (layer : List Char) (channels : List ChannelEntry) :
    ∀ (l : List ChannelEntry) (n : Nat), quadRun layer channels n l → l.Nodup := by
  intro l
  induction l with
  | nil => intro n _; exact List.nodup_nil
  | cons a rest ih =>
    intro n h
    obtain ⟨_, _, ⟨s, h3⟩, h4⟩ := h
    rw [List.nodup_cons]
    refine ⟨?_, ih (n + 2) h4⟩
    intro ha
    obtain ⟨_, _, s2, m, hm, g3⟩ := quadRun_mem layer channels rest (n + 2) h4 a ha
    rw [h3] at g3
    exact four_name_ne layer s s2 n m hm g3

theorem pairEntries_cons (p : ChannelEntry × ChannelEntry)
    (rest : List (ChannelEntry × ChannelEntry)) :
    pairEntries (p :: rest) = p.1 :: p.2 :: pairEntries rest := by
  simp [pairEntries]

theorem pairRun_mem (layer : List Char) (channels : List ChannelEntry) :
    ∀ (l : List (ChannelEntry × ChannelEntry)) (n : Nat), pairRun layer channels n l →
      ∀ e ∈ pairEntries l, e ∈ channels ∧ pairPending layer n e := by
  intro l
  induction l with
  | nil => intro n _ e he; cases he
  | cons p rest ih =>
    intro n h e he
    obtain ⟨h1, h2, h3, h4, ⟨s, h5, h6⟩, h7⟩ := h
    rw [pairEntries_cons] at he
    rcases List.mem_cons.1 he with rfl | hr
    · exact ⟨h1, h3, s, n, le_refl _, Or.inl h5⟩
    · rcases List.mem_cons.1 hr with rfl | hr2
      · exact ⟨h2, h4, s, n, le_refl _, Or.inr h6⟩
      · obtain ⟨g1, g2, s2, m, hm, g3⟩ := ih (n + 1) h7 e hr2
        exact ⟨g1, g2, s2, m, by omega, g3⟩

theorem pairRun_nodup (layer : List Char) (channels : List ChannelEntry) :
    ∀ (l : List (ChannelEntry × ChannelEntry)) (n : Nat), pairRun layer channels n l →
      (pairEntries l).Nodup := by
  intro l
  induction l with
  | nil => intro n _; exact List.nodup_nil
  | cons p rest ih =>
    intro n h
    obtain ⟨_, _, _, _, ⟨s, h5, h6⟩, h7⟩ := h
    rw [pairEntries_cons, List.nodup_cons, List.nodup_cons]
    refine ⟨?_, ?_, ih (n + 1) h7⟩
    · intro ha
      rcases List.mem_cons.1 ha with he | hr
      · rw [he, h6] at h5
        exact pair_hash_ne_coverage layer s s n n h5.symm
      · obtain ⟨_, _, s2, m, hm, g3⟩ := pairRun_mem layer channels rest (n + 1) h7 _ hr
        rw [h5] at g3
        rcases g3 with g | g
        · exact pair_hash_ne layer s s2 n m hm g
        · exact pair_hash_ne_coverage layer s s2 n m g
    · intro ha
      obtain ⟨_, _, s2, m, hm, g3⟩ := pairRun_mem layer channels rest (n + 1) h7 _ ha
      rw [h6] at g3
      rcases g3 with g | g
      · exact pair_hash_ne_coverage layer s2 s m n g.symm
      · exact pair_coverage_ne layer s s2 n m hm g

theorem pairRefs_eq_map (pairs : List (ChannelEntry × ChannelEntry)) :
    pairRefs pairs = (pairEntries pairs).map (fun e => e.channelRef) := by
  induction pairs with
  | nil => rfl
  | cons p rest ih => rw [pairRefs_cons, pairEntries_cons, ih]; rfl

/-! ### The matches of the discovery -/

theorem four_name_style (layer : List Char) (s s2 : NamingStyle) (n m : Nat)
    (h : CalculateNext4Name layer s n = CalculateNext4Name layer s2 m) : s = s2 := by
  rw [CalculateNext4Name_eq, CalculateNext4Name_eq] at h
  exact fourSuffix_injective _ _ (name_eq _ _ _ _ _ h).2

theorem pair_name_style (layer : List Char) (s s2 : NamingStyle) (n m : Nat)
    (e : ChannelEntry)
    (h1 : e.channelDesc.name = (CalculateNextNames layer s n).1 ∨
      e.channelDesc.name = (CalculateNextNames layer s n).2)
    (h2 : e.channelDesc.name = (CalculateNextNames layer s2 m).1 ∨
      e.channelDesc.name = (CalculateNextNames layer s2 m).2) : s = s2 ∧ n = m := by
  rcases h1 with h1 | h1 <;> rcases h2 with h2 | h2 <;> rw [h1] at h2
  · exact ⟨(pair_name_eq layer s s2 n m false false (by simpa using h2)).1,
      (pair_name_eq layer s s2 n m false false (by simpa using h2)).2.1⟩
  · exact absurd h2 (pair_hash_ne_coverage layer s s2 n m)
  · exact absurd h2.symm (pair_hash_ne_coverage layer s2 s m n)
  · exact ⟨(pair_name_eq layer s s2 n m true true (by simpa using h2)).1,
      (pair_name_eq layer s s2 n m true true (by simpa using h2)).2.1⟩

theorem scanFourMatches_spec (layer : List Char) (channels : List ChannelEntry)
    (s : NamingStyle) :
    ∀ (fuel i n : Nat),
      (scanFourMatches layer channels s fuel i n (CalculateNext4Name layer s n)).Nodup ∧
      ∀ j ∈ scanFourMatches layer channels s fuel i n (CalculateNext4Name layer s n),
        ∃ e, channels[j]? = some e ∧ eligible e 4 = true ∧
          ∃ m, n ≤ m ∧ e.channelDesc.name = CalculateNext4Name layer s m := by
  intro fuel
  induction fuel with
  | zero =>
    intro i n
    exact ⟨List.nodup_nil, fun j hj => by cases hj⟩
  | succ fuel ih =>
    intro i n
    unfold scanFourMatches
    cases he : channels[i]? with
    | none => exact ⟨List.nodup_nil, fun j hj => by cases hj⟩
    | some e =>
      simp only
      by_cases hm : eligible e 4 = true ∧ e.channelDesc.name = CalculateNext4Name layer s n
      · rw [if_pos hm]
        obtain ⟨g1, g2⟩ := ih (0 + 1) (n + 2)
        constructor
        · rw [List.nodup_cons]
          refine ⟨?_, g1⟩
          intro hi
          obtain ⟨e2, h1, _, m, h3, h4⟩ := g2 i hi
          rw [he] at h1
          injection h1 with h1
          rw [← h1, hm.2] at h4
          exact four_name_ne layer s s n m h3 h4
        · intro j hj
          rcases List.mem_cons.1 hj with rfl | hr
          · exact ⟨e, he, hm.1, n, le_refl _, hm.2⟩
          · obtain ⟨e2, h1, h2, m, h3, h4⟩ := g2 j hr
            exact ⟨e2, h1, h2, m, by omega, h4⟩
      · rw [if_neg hm]
        exact ih (i + 1) n

theorem scanPairsMatches_spec (layer : List Char) (channels : List ChannelEntry)
    (s : NamingStyle) :
    ∀ (fuel i : Nat) (st : PairState), pairInv layer channels s st →
      (scanPairsMatches layer channels s fuel i st).Nodup ∧
      ∀ j ∈ scanPairsMatches layer channels s fuel i st,
        ∃ e, channels[j]? = some e ∧ eligible e 1 = true ∧
          ∃ m, st.numLevels ≤ m ∧
            (e.channelDesc.name = (CalculateNextNames layer s m).1 ∨
              e.channelDesc.name = (CalculateNextNames layer s m).2) ∧
            (m = st.numLevels → i ≤ j) := by
  intro fuel
  induction fuel with
  | zero =>
    intro i st _
    exact ⟨List.nodup_nil, fun j hj => by cases hj⟩
  | succ fuel ih =>
    intro i st hinv
    unfold scanPairsMatches
    cases he : channels[i]? with
    | none => exact ⟨List.nodup_nil, fun j hj => by cases hj⟩
    | some e =>
      obtain ⟨hmem, _⟩ := getElem?_mem_of_some channels i e he
      simp only
      by_cases hm : eligible e 1 = true ∧
          (e.channelDesc.name = st.nextHashName ∨ e.channelDesc.name = st.nextCoverageName)
      · rw [if_pos hm]
        have hname : e.channelDesc.name = (CalculateNextNames layer s st.numLevels).1 ∨
            e.channelDesc.name = (CalculateNextNames layer s st.numLevels).2 := by
          rw [← hinv.1, ← hinv.2.1]
          exact hm.2
        rcases pairStep_total layer channels s e st hmem hinv with
          ⟨hf, hinv2, hnum, _⟩ | ⟨ht, _, _, _, _, _, _, _, _, hnum, _, hinv2⟩
        · rw [if_neg (by rw [hf]; simp)]
          obtain ⟨g1, g2⟩ := ih (i + 1) _ hinv2
          rw [hnum] at g2
          simp only [List.singleton_append]
          constructor
          · rw [List.nodup_cons]
            refine ⟨?_, g1⟩
            intro hi
            obtain ⟨e2, h1, _, m, _, h4, h5⟩ := g2 i hi
            rw [he] at h1
            injection h1 with h1
            rw [← h1] at h4
            have := h5 (pair_name_style layer s s st.numLevels m e hname h4).2.symm
            omega
          · intro j hj
            rcases List.mem_cons.1 hj with rfl | hr
            · exact ⟨e, he, hm.1, st.numLevels, le_refl _, hname, fun _ => le_refl _⟩
            · obtain ⟨e2, h1, h2, m, h3, h4, h5⟩ := g2 j hr
              exact ⟨e2, h1, h2, m, h3, h4, fun h => by have := h5 h; omega⟩
        · rw [if_pos ht]
          obtain ⟨g1, g2⟩ := ih (0 + 1) _ hinv2
          rw [hnum] at g2
          simp only [List.singleton_append]
          constructor
          · rw [List.nodup_cons]
            refine ⟨?_, g1⟩
            intro hi
            obtain ⟨e2, h1, _, m, h3, h4, _⟩ := g2 i hi
            rw [he] at h1
            injection h1 with h1
            rw [← h1] at h4
            have := (pair_name_style layer s s st.numLevels m e hname h4).2
            omega
          · intro j hj
            rcases List.mem_cons.1 hj with rfl | hr
            · exact ⟨e, he, hm.1, st.numLevels, le_refl _, hname, fun _ => le_refl _⟩
            · obtain ⟨e2, h1, h2, m, h3, h4, _⟩ := g2 j hr
              exact ⟨e2, h1, h2, m, by omega, h4, fun h => by omega⟩
      · rw [if_neg hm, pairStep_skip layer s e st hm]
        simp only [List.nil_append]
        rw [if_neg (by simp)]
        obtain ⟨g1, g2⟩ := ih (i + 1) st hinv
        refine ⟨g1, ?_⟩
        intro j hj
        obtain ⟨e2, h1, h2, m, h3, h4, h5⟩ := g2 j hj
        exact ⟨e2, h1, h2, m, h3, h4, fun h => by have := h5 h; omega⟩

theorem scanFourStylesMatches_spec (layer : List Char) (channels : List ChannelEntry) :
    ∀ (styles : List NamingStyle), styles.Nodup → ∀ (n : Nat) (refs : List Nat),
      (scanFourStylesMatches layer channels styles n refs).Nodup ∧
      ∀ j ∈ scanFourStylesMatches layer channels styles n refs,
        ∃ e, channels[j]? = some e ∧ eligible e 4 = true ∧
          ∃ s ∈ styles, ∃ m, e.channelDesc.name = CalculateNext4Name layer s m := by
  intro styles
  induction styles with
  | nil =>
    intro _ n refs
    exact ⟨List.nodup_nil, fun j hj => by cases hj⟩
  | cons s rest ih =>
    intro hnd n refs
    rw [List.nodup_cons] at hnd
    obtain ⟨g1, g2⟩ := scanFourMatches_spec layer channels s (scanFuel channels) 0 n
    rw [scanFourStylesMatches]
    cases hr : scanFour layer channels s (scanFuel channels) 0 n refs
        (CalculateNext4Name layer s n) with
    | none =>
      simp only [List.append_nil]
      refine ⟨g1, ?_⟩
      intro j hj
      obtain ⟨e, h1, h2, m, _, h4⟩ := g2 j hj
      exact ⟨e, h1, h2, s, List.mem_cons_self _ _, m, h4⟩
    | some r =>
      simp only
      obtain ⟨k1, k2⟩ := ih hnd.2 r.1 r.2
      constructor
      · rw [List.nodup_append]
        refine ⟨g1, k1, ?_⟩
        intro j hj hj2
        obtain ⟨e, h1, _, m, _, h4⟩ := g2 j hj
        obtain ⟨e2, f1, _, s2, hs2, m2, f4⟩ := k2 j hj2
        rw [h1] at f1
        injection f1 with f1
        rw [← f1, h4] at f4
        rw [← four_name_style layer s s2 m m2 f4] at hs2
        exact hnd.1 hs2
      · intro j hj
        rcases List.mem_append.1 hj with h | h
        · obtain ⟨e, h1, h2, m, _, h4⟩ := g2 j h
          exact ⟨e, h1, h2, s, List.mem_cons_self _ _, m, h4⟩
        · obtain ⟨e, h1, h2, s2, hs2, m, h4⟩ := k2 j h
          exact ⟨e, h1, h2, s2, List.mem_cons_of_mem _ hs2, m, h4⟩

theorem scanPairsStylesMatches_spec (layer : List Char) (channels : List ChannelEntry) :
    ∀ (styles : List NamingStyle), styles.Nodup → ∀ (n : Nat) (refs : List Nat),
      (scanPairsStylesMatches layer channels styles n refs).Nodup ∧
      ∀ j ∈ scanPairsStylesMatches layer channels styles n refs,
        ∃ e, channels[j]? = some e ∧ eligible e 1 = true ∧
          ∃ s ∈ styles, ∃ m, (e.channelDesc.name = (CalculateNextNames layer s m).1 ∨
            e.channelDesc.name = (CalculateNextNames layer s m).2) := by
  intro styles
  induction styles with
  | nil =>
    intro _ n refs
    exact ⟨List.nodup_nil, fun j hj => by cases hj⟩
  | cons s rest ih =>
    intro hnd n refs
    rw [List.nodup_cons] at hnd
    obtain ⟨g1, g2⟩ := scanPairsMatches_spec layer channels s (scanFuel channels) 0
      { numLevels := n, channelRefs := refs,
        nextHashName := (CalculateNextNames layer s n).1,
        nextCoverageName := (CalculateNextNames layer s n).2,
        hash := 0, coverage := 0, foundHash := false, foundCoverage := false }
      ⟨rfl, rfl, by simp, by simp, by simp⟩
    rw [scanPairsStylesMatches]
    cases hr : scanPairs layer channels s (scanFuel channels) 0
      { numLevels := n, channelRefs := refs,
        nextHashName := (CalculateNextNames layer s n).1,
        nextCoverageName := (CalculateNextNames layer s n).2,
        hash := 0, coverage := 0, foundHash := false, foundCoverage := false } with
    | none =>
      simp only [List.append_nil]
      refine ⟨g1, ?_⟩
      intro j hj
      obtain ⟨e, h1, h2, m, _, h4, _⟩ := g2 j hj
      exact ⟨e, h1, h2, s, List.mem_cons_self _ _, m, h4⟩
    | some r =>
      simp only
      obtain ⟨k1, k2⟩ := ih hnd.2 r.numLevels r.channelRefs
      constructor
      · rw [List.nodup_append]
        refine ⟨g1, k1, ?_⟩
        intro j hj hj2
        obtain ⟨e, h1, _, m, _, h4, _⟩ := g2 j hj
        obtain ⟨e2, f1, _, s2, hs2, m2, f4⟩ := k2 j hj2
        rw [h1] at f1
        injection f1 with f1
        rw [← f1] at f4
        rw [← (pair_name_style layer s s2 m m2 e h4 f4).1] at hs2
        exact hnd.1 hs2
      · intro j hj
        rcases List.mem_append.1 hj with h | h
        · obtain ⟨e, h1, h2, m, _, h4, _⟩ := g2 j h
          exact ⟨e, h1, h2, s, List.mem_cons_self _ _, m, h4⟩
        · obtain ⟨e, h1, h2, s2, hs2, m, h4⟩ := k2 j h
          exact ⟨e, h1, h2, s2, List.mem_cons_of_mem _ hs2, m, h4⟩

/-- No channel is matched twice by the discovery of `LoadLevels`. -/
theorem LoadLevelsMatches_nodup (layer0 : List Char) (channels : List ChannelEntry) :
    (LoadLevelsMatches layer0 channels).Nodup ∧
      ∀ j ∈ LoadLevelsMatches layer0 channels, j < channels.length := by
  unfold LoadLevelsMatches
  generalize (if layer0.isEmpty = true ∧ channels.length > 0 then discoverLayer channels layer0
    else layer0) = layer
  simp only
  by_cases hc : layer.isEmpty = false ∧ channels.length > 0
  · rw [if_pos hc]
    have hnd : namingStyles.Nodup := by decide
    obtain ⟨g1, g2⟩ := scanFourStylesMatches_spec layer channels namingStyles hnd 0 []
    cases hr : scanFourStyles layer channels namingStyles 0 [] with
    | none =>
      simp only [List.append_nil]
      refine ⟨g1, ?_⟩
      intro j hj
      obtain ⟨e, h1, _⟩ := g2 j hj
      exact (getElem?_mem_of_some channels j e h1).2
    | some r =>
      simp only
      obtain ⟨k1, k2⟩ := scanPairsStylesMatches_spec layer channels namingStyles hnd r.1 r.2
      constructor
      · rw [List.nodup_append]
        refine ⟨g1, k1, ?_⟩
        intro j hj hj2
        obtain ⟨e, h1, h2, _⟩ := g2 j hj
        obtain ⟨e2, f1, f2, _⟩ := k2 j hj2
        rw [h1] at f1
        injection f1 with f1
        rw [← f1] at f2
        have d4 := (eligible_spec e 4 h2).2
        have d1 := (eligible_spec e 1 f2).2
        omega
      · intro j hj
        rcases List.mem_append.1 hj with h | h
        · obtain ⟨e, h1, _⟩ := g2 j h
          exact (getElem?_mem_of_some channels j e h1).2
        · obtain ⟨e, h1, _⟩ := k2 j h
          exact (getElem?_mem_of_some channels j e h1).2
  · rw [if_neg hc]
    exact ⟨List.nodup_nil, fun j hj => by cases hj⟩
/-- C33: both discovery loops of `LoadLevels` return within the fuel
`scanFuel channels`, for every channel list, layer name, level count and
reference list they start from, and so does `LoadLevels`. No channel is
matched twice: the indices of the matches of the two loops are pairwise
different. The channels that are counted, the 4-component channels `quads`
and the hash and coverage channels of `pairs`, are pairwise different
channels of the host, the former of dimension 4 and the latter of dimension
1, and
`numLevels ≤ 2 * (number of 4-component channels) + (number of 1-component channels) / 2`. -/
theorem LoadLevels_terminates (layer0 : List Char) (channels : List ChannelEntry) :
    (∀ layer n refs, ∃ r, scanFourStyles layer channels namingStyles n refs = some r) ∧
    (∀ layer n refs, ∃ r, scanPairsStyles layer channels namingStyles n refs = some r) ∧
    ((LoadLevelsMatches layer0 channels).Nodup ∧
      ∀ j ∈ LoadLevelsMatches layer0 channels, j < channels.length) ∧
    ∃ (layer : List Char) (quads : List ChannelEntry)
        (pairs : List (ChannelEntry × ChannelEntry)),
      LoadLevels layer0 channels =
        some (layer, 2 * quads.length + pairs.length,
          (quads ++ pairEntries pairs).map (fun e => e.channelRef)) ∧
      (quads ++ pairEntries pairs).Nodup ∧
      (∀ e ∈ quads, e ∈ channels ∧ e.channelDesc.dimension = 4) ∧
      (∀ e ∈ pairEntries pairs, e ∈ channels ∧ e.channelDesc.dimension = 1) ∧
      2 * quads.length + pairs.length ≤
        2 * channels.countP (fun e => decide (e.channelDesc.dimension = 4)) +
          channels.countP (fun e => decide (e.channelDesc.dimension = 1)) / 2 := by
  refine ⟨?_, ?_, LoadLevelsMatches_nodup layer0 channels, ?_⟩
  · intro layer n refs
    obtain ⟨n2, new, _, h, _⟩ := scanFourStyles_total layer channels namingStyles n refs
      (channels.filter (fun e => eligible e 4)).toFinset
      (fun e he hp => by
        rw [List.mem_toFinset, List.mem_filter]
        exact ⟨he, hp.1⟩)
      (le_trans (eligible_card channels 4) (List.countP_le_length _))
    exact ⟨_, h⟩
  · intro layer n refs
    obtain ⟨n2, new, _, h, _⟩ := scanPairsStyles_total layer channels namingStyles n refs
      (channels.filter (fun e => eligible e 1)).toFinset
      (fun e he hp => by
        rw [List.mem_toFinset, List.mem_filter]
        exact ⟨he, hp.1⟩)
      (le_trans (eligible_card channels 1) (List.countP_le_length _))
    exact ⟨_, h⟩
  · obtain ⟨layer, quads, pairs, h1, h2, h3, h4, h5⟩ := LoadLevels_total layer0 channels
    refine ⟨layer, quads, pairs, ?_, ?_, ?_, ?_, by omega⟩
    · rw [h1, List.map_append, pairRefs_eq_map]
    · rw [List.nodup_append]
      refine ⟨quadRun_nodup layer channels quads 0 h2,
        pairRun_nodup layer channels pairs _ h3, ?_⟩
      intro e hq hp
      have d4 := (eligible_spec e 4 (quadRun_mem layer channels quads 0 h2 e hq).2.1).2
      have d1 := (eligible_spec e 1 (pairRun_mem layer channels pairs _ h3 e hp).2.1).2
      omega
    · intro e he
      obtain ⟨g1, g2, _⟩ := quadRun_mem layer channels quads 0 h2 e he
      exact ⟨g1, (eligible_spec e 4 g2).2⟩
    · intro e he
      obtain ⟨g1, g2, _⟩ := pairRun_mem layer channels pairs _ h3 e he
      exact ⟨g1, (eligible_spec e 1 g2).2⟩

/-- C32: on a host that checks out every channel it enumerates, with the
dimension it describes and one size `W` x `H`, and whose `malloc` succeeds:
the discovery of `LoadLevels` ends with the references of `q` channels
`quads`, each an eligible 4-component channel of the host named for the level
counts 0, 2, ..., followed by those of `p` pairs, each the eligible
1-component hash channel and coverage channel of the host named for the
level counts `2q`, `2q + 1`, ... (a level is counted with both its channels),
and `numLevels = 2q + p`. Building the buffer from them returns with
`levelNum = numLevels`; the memory it leaves is what its stores make of the
allocated memory, no two stores go to the same byte offset, and the offsets
stored to are those of the hash and the coverage of the levels
`k < numLevels` of the pixels `(x, y)`, `x < W`, `y < H`. -/
theorem LoadLevels_invariant {α : Type} (layer0 : List Char) (channels : List ChannelEntry)
    (checkout : Nat → Option (PF_ChannelChunk α)) (mallocOk : Nat → Bool)
    (garbage : Nat → α) (W H : Nat)
    (hhost : ∀ e ∈ channels, e.found = true →
      ∃ chunk, checkout e.channelRef = some chunk ∧
        chunk.dimensionL = e.channelDesc.dimension ∧ chunk.widthL = W ∧ chunk.heightL = H)
    (hmalloc : ∀ n, mallocOk (bufferSize W H n) = true) :
    ∃ (layer : List Char) (quads : List ChannelEntry)
        (pairs : List (ChannelEntry × ChannelEntry)),
      LoadLevels layer0 channels =
        some (layer, 2 * quads.length + pairs.length,
          quads.map (fun e => e.channelRef) ++ pairRefs pairs) ∧
      quadRun layer channels 0 quads ∧
      pairRun layer channels (2 * quads.length) pairs ∧
      (∀ e ∈ quads, e.channelDesc.dimension = 4) ∧
      (∀ p ∈ pairs, p.1.channelDesc.dimension = 1 ∧ p.2.channelDesc.dimension = 1) ∧
      ∃ st, CryptomatteBuffer_new checkout mallocOk garbage
          (quads.map (fun e => e.channelRef) ++ pairRefs pairs)
          (2 * quads.length + pairs.length) = Except.ok st ∧
        st.levelNum = 2 * quads.length + pairs.length ∧
        st.buf = applyWrites (CryptomatteBuffer_newWrites checkout mallocOk garbage
          (quads.map (fun e => e.channelRef) ++ pairRefs pairs)
          (2 * quads.length + pairs.length)) garbage ∧
        ((CryptomatteBuffer_newWrites checkout mallocOk garbage
          (quads.map (fun e => e.channelRef) ++ pairRefs pairs)
          (2 * quads.length + pairs.length)).map Prod.fst).Nodup ∧
        ∀ a, a ∈ (CryptomatteBuffer_newWrites checkout mallocOk garbage
            (quads.map (fun e => e.channelRef) ++ pairRefs pairs)
            (2 * quads.length + pairs.length)).map Prod.fst ↔
          ∃ x y k c, x < W ∧ y < H ∧ k < 2 * quads.length + pairs.length ∧ c < 2 ∧
            a = slotOffset W (2 * quads.length + pairs.length) x y k c := by
  obtain ⟨layer, quads, pairs, h1, h2, h3, _, _⟩ := LoadLevels_total layer0 channels
  have hq : ∀ e ∈ quads, e ∈ channels ∧ eligible e 4 = true := fun e he =>
    ⟨(quadRun_mem layer channels quads 0 h2 e he).1,
      (quadRun_mem layer channels quads 0 h2 e he).2.1⟩
  have hpe : ∀ e ∈ pairEntries pairs, e ∈ channels ∧ eligible e 1 = true := fun e he =>
    ⟨(pairRun_mem layer channels pairs _ h3 e he).1,
      (pairRun_mem layer channels pairs _ h3 e he).2.1⟩
  have hp : ∀ p ∈ pairs, (p.1 ∈ channels ∧ eligible p.1 1 = true) ∧
      (p.2 ∈ channels ∧ eligible p.2 1 = true) := by
    intro p hp
    constructor
    · apply hpe
      unfold pairEntries
      rw [List.mem_flatMap]
      exact ⟨p, hp, by simp⟩
    · apply hpe
      unfold pairEntries
      rw [List.mem_flatMap]
      exact ⟨p, hp, by simp⟩
  refine ⟨layer, quads, pairs, h1, h2, h3,
    fun e he => (eligible_spec e 4 (hq e he).2).2,
    fun p hpm => ⟨(eligible_spec _ 1 (hp p hpm).1.2).2, (eligible_spec _ 1 (hp p hpm).2.2).2⟩,
    ?_⟩
  obtain ⟨st, g1, g2, g3, g4⟩ := buildQuads_spec checkout mallocOk
    (2 * quads.length + pairs.length) W H (hmalloc _) pairs
    (by
      intro p hpm
      obtain ⟨⟨m1, e1⟩, ⟨m2, e2⟩⟩ := hp p hpm
      obtain ⟨c1, k1, k2, k3, k4⟩ := hhost p.1 m1 (eligible_spec _ 1 e1).1
      obtain ⟨c2, j1, _⟩ := hhost p.2 m2 (eligible_spec _ 1 e2).1
      refine ⟨⟨c1, k1, ?_, k3, k4⟩, c2, j1⟩
      rw [k2, (eligible_spec _ 1 e1).2]
      decide)
    quads
    { allocated := false, buf := garbage, width := 0, height := 0, levelNum := 0 }
    (fun h => by cases h) (by simp)
    (by
      intro e he
      obtain ⟨m1, e1⟩ := hq e he
      obtain ⟨c1, k1, k2, k3, k4⟩ := hhost e m1 (eligible_spec _ 4 e1).1
      exact ⟨c1, k1, by rw [k2, (eligible_spec _ 4 e1).2], k3, k4⟩)
  simp only [Nat.zero_add] at g2 g4
  refine ⟨st, g1, g2, ?_, g3, ?_⟩
  · exact buildChannels_writes checkout mallocOk _ _ _ (le_refl _) _ st g1
  · intro a
    rw [CryptomatteBuffer_newWrites, g4]
    unfold levelSlots
    constructor
    · rintro ⟨x, y, k, c, hx, hy, _, hk, hc, rfl⟩
      exact ⟨x, y, k, c, hx, hy, hk, hc, rfl⟩
    · rintro ⟨x, y, k, c, hx, hy, hk, hc, rfl⟩
      exact ⟨x, y, k, c, hx, hy, Nat.zero_le _, hk, hc, rfl⟩

/-- Witness of C32: the host of `mixedChannels` with the chunks of
`checkoutQuadAndPairs`, 2 x 2 pixels, and the layer name `crypto`; the
discovery finds the 4-component channel and then the pair, three levels with
the references 0, 1, 2. -/
theorem LoadLevels_invariant_witness :
    (∀ e ∈ mixedChannels, e.found = true →
      ∃ chunk, checkoutQuadAndPairs e.channelRef = some chunk ∧
        chunk.dimensionL = e.channelDesc.dimension ∧ chunk.widthL = 2 ∧ chunk.heightL = 2) ∧
    LoadLevels "crypto".toList mixedChannels = some ("crypto".toList, 3, [0, 1, 2]) ∧
    ∃ (layer : List Char) (quads : List ChannelEntry)
        (pairs : List (ChannelEntry × ChannelEntry)),
      LoadLevels "crypto".toList mixedChannels =
        some (layer, 2 * quads.length + pairs.length,
          quads.map (fun e => e.channelRef) ++ pairRefs pairs) ∧
      ∃ st, CryptomatteBuffer_new checkoutQuadAndPairs (fun _ => true) (fun _ => 0)
          (quads.map (fun e => e.channelRef) ++ pairRefs pairs)
          (2 * quads.length + pairs.length) = Except.ok st ∧
        st.levelNum = 2 * quads.length + pairs.length :=
  have hhost : ∀ e ∈ mixedChannels, e.found = true →
      ∃ chunk, checkoutQuadAndPairs e.channelRef = some chunk ∧
        chunk.dimensionL = e.channelDesc.dimension ∧ chunk.widthL = 2 ∧ chunk.heightL = 2 := by
    intro e he _
    simp only [mixedChannels, List.mem_cons, List.mem_singleton, List.mem_nil_iff,
      or_false] at he
    rcases he with rfl | rfl | rfl
    · exact ⟨_, rfl, rfl, rfl, rfl⟩
    · exact ⟨_, rfl, rfl, rfl, rfl⟩
    · exact ⟨_, rfl, rfl, rfl, rfl⟩
  ⟨hhost, by decide,
    (LoadLevels_invariant "crypto".toList mixedChannels checkoutQuadAndPairs (fun _ => true) (fun _ => 0)
      2 2 hhost (fun _ => rfl)).imp fun _ h => h.imp fun _ h => h.imp fun _ h =>
        ⟨h.1, h.2.2.2.2.2.imp fun _ g => ⟨g.1, g.2.1⟩⟩⟩

end Cryptomatte
